import Mathlib

/-!
Verification of the core of `eth-trie.rs` (an Ethereum-style Modified Merkle
Patricia Trie) against its natural-language specification.

The trie algorithms are translated from `src/trie.rs`.  The repository's
`nibbles.rs`, `node.rs`, `db.rs` and `errors.rs` are not part of the given
sources, so those small leaf components are modelled from the specification
(sections 3, 4.1, 4.2, 6.1 and 7), which describes them operation by
operation; every such definition carries a doc comment saying so.

Conventions of the embedding:
* Bytes are `Nat`s (meaningful inputs are `< 256`); byte strings are `List Nat`.
* The Keccak-256 primitive is an external collaborator of the crate, so the
  functions that hash take it as an explicit parameter `kec`; a concrete
  injective stand-in `specKec` (32 "bytes" of output) is provided for
  evaluation.
* Rust functions that take `&mut self` thread an explicit `EthTrie` state.
  `Node` values in the source share subtrees through `Arc<RwLock<...>>`;
  the embedding uses plain values, and `deleteAt` — the one walker that
  performs interior writes before a later step can still fail — returns the
  partially rewritten node together with the error, which is exactly what the
  shared graph observationally becomes in the source.
* The walkers can hydrate nodes from the store, and a corrupted store can make
  them diverge (a stored node may decode to another hash reference); each
  recursive function therefore takes a fuel parameter and returns `none` when
  the fuel runs out, `some` for every behaviour the source actually has.
-/

namespace EthTrieM

/-- Byte strings. -/
abbrev Bytes := List Nat

/-- A nibble path: the in-memory `hex_data` of `Nibbles`, a sequence of 4-bit
values with a trailing logical 16 ("terminator") on leaf paths.
Modelled from the spec: `nibbles.rs` is not among the given sources; spec
sections 3 and 4.1 define the representation and each operation. -/
abbrev Nibs := List Nat

namespace Nibs

/-- Modelled from the spec: `from_raw(bytes, is_leaf)` expands keys byte-wise
to 2 nibbles per byte, appending the terminator 16 when `is_leaf`. -/
def fromRaw (b : Bytes) (isLeaf : Bool) : Nibs :=
  b.flatMap (fun x => [x / 16, x % 16]) ++ (if isLeaf then [16] else [])

/-- Modelled from the spec: `from_hex(nibbles)` wraps a raw nibble sequence. -/
def fromHex (l : List Nat) : Nibs := l

/-- Modelled from the spec: `at(i)` indexes a nibble (the source panics out of
range; the default 0 here is only reachable on inputs where the source has no
behaviour to model). -/
def nth (n : Nibs) (i : Nat) : Nat := n.getD i 0

/-- Modelled from the spec: `is_leaf()` — the path carries the terminator. -/
def isLeaf (n : Nibs) : Bool := n.getLast? = some 16

/-- Modelled from the spec: `offset(k)` drops the first `k` nibbles. -/
def offset (n : Nibs) (k : Nat) : Nibs := n.drop k

/-- Modelled from the spec: `slice(a, b)` is the half-open sub-path. -/
def slice (n : Nibs) (a b : Nat) : Nibs := (n.take b).drop a

/-- Modelled from the spec: `common_prefix(other)` is the length of the shared
leading run of nibbles of the two paths. -/
def commonPre : Nibs → Nibs → Nat
  | a :: as, b :: bs => if a = b then commonPre as bs + 1 else 0
  | _, _ => 0

/-- Modelled from the spec: `join(other)` concatenates, preserving the
second path's leaf flag (the first operand never carries a terminator at a
join site). -/
def join (n m : Nibs) : Nibs := n ++ m

/-- Modelled from the spec (§6.3): the compact (hex-prefix) encoding.  The
first nibble of the output is `2*is_leaf + odd_len`; with odd length the first
path nibble shares the first byte. -/
def encodeCompact (n : Nibs) : Bytes :=
  let core : List Nat := if isLeaf n then n.dropLast else n
  let isL : Nat := if isLeaf n then 1 else 0
  let rec pack : List Nat → Bytes
    | a :: b :: rest => (a * 16 + b) :: pack rest
    | [a] => [a * 16]
    | [] => []
  if core.length % 2 = 1 then
    ((2 * isL + 1) * 16 + core.headD 0) :: pack (core.tail)
  else
    ((2 * isL) * 16) :: pack core

/-- Modelled from the spec (§6.3): decoding of the compact encoding back into
a nibble path (terminator re-attached when the leaf flag bit is set). -/
def fromCompact (b : Bytes) : Nibs :=
  match b with
  | [] => []
  | f :: rest =>
    let flag := f / 16
    let body := rest.flatMap (fun x => [x / 16, x % 16])
    let core := if flag % 2 = 1 then (f % 16) :: body else body
    if 2 ≤ flag then core ++ [16] else core

end Nibs

/-- The error type of the crate.
Modelled from the spec: `errors.rs` is not among the given sources; spec §7
lists the variants and their payloads. -/
inductive TrieError where
  | db (msg : Bytes)
  | decoder
  | invalidData
  | invalidStateRoot
  | invalidProof
  | missingTrieNode (nodeHash : Bytes) (traversed : Option Nibs)
      (rootHash : Option Bytes) (errKey : Option Bytes)
deriving DecidableEq, Repr

mutual

/-- The node model (`node.rs` is not among the given sources).
Modelled from the spec: §3 "Node shapes" and §4.2 — Empty, Leaf(key, value),
Branch(16 children, optional value), Extension(prefix, child), Hash(h).
The source wraps branch/extension bodies in `Arc<RwLock<...>>` (visible in
`trie.rs` itself); the embedding uses plain values and threads rewrites
explicitly. -/
inductive Node where
  | empty
  | leaf (key : Nibs) (value : Bytes)
  | branch (children : NodeList) (value : Option Bytes)
  | ext (pre : Nibs) (child : Node)
  | hash (h : Bytes)
deriving DecidableEq, Repr

/-- The 16-slot children array of a Branch (spec §4.2). -/
inductive NodeList where
  | nil
  | cons (hd : Node) (tl : NodeList)
deriving DecidableEq, Repr

end

namespace NodeList

def length : NodeList → Nat
  | .nil => 0
  | .cons _ tl => length tl + 1

/-- Indexing into the children array; out-of-range yields Empty (the source
indexes a fixed 16-slot array, always in range for valid nibbles). -/
def get : NodeList → Nat → Node
  | .nil, _ => .empty
  | .cons hd _, 0 => hd
  | .cons _ tl, i + 1 => get tl i

/-- `BranchNode::insert(nibble, node)`: assign slot `i`.
Modelled from the spec §4.2. -/
def set : NodeList → Nat → Node → NodeList
  | .nil, _, _ => .nil
  | .cons _ tl, 0, x => .cons x tl
  | .cons hd tl, i + 1, x => .cons hd (set tl i x)

def toList : NodeList → List Node
  | .nil => []
  | .cons hd tl => hd :: toList tl

def ofList : List Node → NodeList
  | [] => .nil
  | hd :: tl => .cons hd (ofList tl)

end NodeList

/-- `empty_children()`: sixteen Empty slots.  Modelled from the spec §4.2. -/
def emptyChildren : NodeList :=
  NodeList.ofList (List.replicate 16 Node.empty)

/-- `BranchNode::insert(nibble, node)` on a branch body `(children, value)`.
Modelled from the spec: §4.2 gives the children assignment and the spec's
terminator discipline (§3: "The branch value-slot corresponds to nibble 16")
gives the 16 case — at the terminator the inserted node is a leaf whose value
fills the branch's value slot (the source panics when it is not a leaf; that
corner has no behaviour and is only reachable from malformed extensions). -/
def branchInsert (ch : NodeList) (v : Option Bytes) (i : Nat) (n : Node) :
    NodeList × Option Bytes :=
  if i = 16 then
    match n with
    | .leaf _ lv => (ch, some lv)
    | _ => (ch, v)
  else (ch.set i n, v)

/-- Smart constructor `Node::from_leaf`. -/
def Node.fromLeaf (k : Nibs) (v : Bytes) : Node := .leaf k v

/-- Smart constructor `Node::from_extension`. -/
def Node.fromExt (p : Nibs) (c : Node) : Node := .ext p c

/-- Smart constructor `Node::from_branch`. -/
def Node.fromBranch (ch : NodeList) (v : Option Bytes) : Node := .branch ch v

/-- Smart constructor `Node::from_hash`. -/
def Node.fromHash (h : Bytes) : Node := .hash h

/-- The byte-addressed store.
Modelled from the spec: `db.rs` (`MemoryDB`) is not among the given sources;
§6.1 gives the contract (`get / insert / remove / insert_batch /
remove_batch`, a plain key-value map that never fails and tolerates removal
of absent keys).  An association list with shadowing inserts realizes it. -/
abbrev Db := List (Bytes × Bytes)

namespace Db

def get (d : Db) (k : Bytes) : Option Bytes :=
  (d.find? (fun p => p.1 = k)).map Prod.snd

def insert (d : Db) (k : Bytes) (v : Bytes) : Db := (k, v) :: d

def remove (d : Db) (k : Bytes) : Db := d.filter (fun p => ¬ p.1 = k)

def insertBatch (d : Db) (kvs : List (Bytes × Bytes)) : Db :=
  kvs.foldl (fun acc p => insert acc p.1 p.2) d

def removeBatch (d : Db) (ks : List Bytes) : Db :=
  ks.foldl (fun acc k => remove acc k) d

end Db

/-! ## RLP primitives

The crate delegates primitive RLP to `alloy_rlp` (`Header`, `Encodable` for
byte slices, `EMPTY_STRING_CODE`); these are external collaborators modelled
here by their documented wire behaviour, which `decode_node` / `encode_raw`
in `trie.rs` rely on. -/

/-- Little-endian base-256 digits (auxiliary, fuelled by the number itself). -/
def leBytesAux : Nat → Nat → List Nat
  | 0, _ => []
  | _ + 1, 0 => []
  | f + 1, n => n % 256 :: leBytesAux f (n / 256)

/-- Minimal big-endian byte representation of a positive number. -/
def beBytes (n : Nat) : List Nat := (leBytesAux n n).reverse

/-- Number of bytes in the minimal big-endian representation. -/
def beLen (n : Nat) : Nat := (leBytesAux n n).length

/-- Big-endian value of a byte string. -/
def beVal (l : List Nat) : Nat := l.foldl (fun acc d => acc * 256 + d) 0

/-- Canonical RLP header bytes for a payload of length `len`
(`alloy_rlp::Header::encode`). -/
def headerEncode (isList : Bool) (len : Nat) : Bytes :=
  let base : Nat := if isList then 0xc0 else 0x80
  if len < 56 then [base + len] else (base + 55 + beLen len) :: beBytes len

/-- RLP encoding of a byte string (`alloy_rlp` `Encodable` for `&[u8]`):
a lone byte below 0x80 stands for itself, otherwise a header is prepended. -/
def rlpStr (s : Bytes) : Bytes :=
  if s.length = 1 ∧ s.headD 0 < 128 then s else headerEncode false s.length ++ s

/-- RLP list wrapper: header for the concatenated payload, then the payload. -/
def rlpListWrap (payload : Bytes) : Bytes :=
  headerEncode true payload.length ++ payload

/-- `alloy_rlp::Header::decode`: returns (is-list, payload length, buffer
positioned at the payload).  A lone byte below 0x80 is its own payload and is
not consumed.  Canonicality and input-length checks mirror alloy. -/
def headerDecode : Bytes → Except TrieError (Bool × Nat × Bytes)
  | [] => .error .decoder
  | x :: rest =>
    if x < 0x80 then .ok (false, 1, x :: rest)
    else if x < 0xb8 then
      if x - 0x80 = 1 ∧ rest.headD 0 < 0x80 then .error .decoder
      else if rest.length < x - 0x80 then .error .decoder
      else .ok (false, x - 0x80, rest)
    else if x < 0xc0 then
      if rest.length < x - 0xb7 then .error .decoder
      else if (rest.take (x - 0xb7)).headD 0 = 0 then .error .decoder
      else if beVal (rest.take (x - 0xb7)) < 56 then .error .decoder
      else if (rest.drop (x - 0xb7)).length < beVal (rest.take (x - 0xb7)) then
        .error .decoder
      else .ok (false, beVal (rest.take (x - 0xb7)), rest.drop (x - 0xb7))
    else if x < 0xf8 then
      if rest.length < x - 0xc0 then .error .decoder
      else .ok (true, x - 0xc0, rest)
    else
      if rest.length < x - 0xf7 then .error .decoder
      else if (rest.take (x - 0xf7)).headD 0 = 0 then .error .decoder
      else if beVal (rest.take (x - 0xf7)) < 56 then .error .decoder
      else if (rest.drop (x - 0xf7)).length < beVal (rest.take (x - 0xf7)) then
        .error .decoder
      else .ok (true, beVal (rest.take (x - 0xf7)), rest.drop (x - 0xf7))

/-- `length_of_length` from `trie.rs`: how many bytes the header of a payload
of the given length occupies, under the assumption — made by `decode_node` —
that a payload of length 1 is an inlined single byte with no header. -/
def lengthOfLength (payloadLength : Nat) : Nat :=
  if payloadLength = 1 then 0
  else if payloadLength < 56 then 1
  else 1 + beLen payloadLength

/-- The item-splitting loop of `decode_node`: cut the list payload into RLP
items, re-encoding each item's header (canonically) unless the item is a
lone byte up to 127.  Fuelled by the payload length (each step consumes at
least one byte). -/
def splitItems : Nat → Bytes → Option (Except TrieError (List Bytes))
  | 0, _ => none
  | f + 1, payload =>
    match payload with
    | [] => some (.ok [])
    | x :: rest0 =>
      match headerDecode (x :: rest0) with
      | .error e => some (.error e)
      | .ok (isList, plen, rest) =>
        match splitItems f (rest.drop plen) with
        | none => none
        | some (.error e) => some (.error e)
        | some (.ok items) =>
          some (.ok (((if (rest.take plen).length = 1 ∧ (rest.take plen).headD 0 ≤ 127
            then [] else headerEncode isList plen) ++ rest.take plen) :: items))

mutual

/-- `decode_node` from `trie.rs`.  `none` means the fuel ran out (reachable
only on stores the source would loop or panic on) or the source panics
(`B256::from_slice` on a payload that is not exactly 32 bytes). -/
def decodeNode : Nat → Bytes → Option (Except TrieError Node)
  | 0, _ => none
  | f + 1, data =>
    match headerDecode data with
    | .error e => some (.error e)
    | .ok (isList, plen, rest) =>
      if isList then
        match splitItems (plen + 1) (rest.take plen) with
        | none => none
        | some (.error e) => some (.error e)
        | some (.ok items) =>
          if items.length = 17 then
            match decodeChildren f (items.take 16) with
            | none => none
            | some (.error e) => some (.error e)
            | some (.ok nodes) =>
              match headerDecode (items.getD 16 []) with
              | .error e => some (.error e)
              | .ok (_, vlen, _) =>
                some (.ok (Node.fromBranch nodes
                  (if (items.getD 16 []).drop (lengthOfLength vlen) = [] then none
                   else some ((items.getD 16 []).drop (lengthOfLength vlen)))))
          else if items.length = 2 then
            match headerDecode (items.getD 0 []) with
            | .error e => some (.error e)
            | .ok (_, klen, _) =>
              if (Nibs.fromCompact ((items.getD 0 []).drop (lengthOfLength klen))).isLeaf then
                match headerDecode (items.getD 1 []) with
                | .error e => some (.error e)
                | .ok (_, vlen, _) =>
                  some (.ok (Node.fromLeaf
                    (Nibs.fromCompact ((items.getD 0 []).drop (lengthOfLength klen)))
                    ((items.getD 1 []).drop (lengthOfLength vlen))))
              else
                match decodeNode f (items.getD 1 []) with
                | none => none
                | some (.error e) => some (.error e)
                | some (.ok n) =>
                  some (.ok (Node.fromExt
                    (Nibs.fromCompact ((items.getD 0 []).drop (lengthOfLength klen))) n))
          else some (.error .invalidData)
      else
        if plen = 32 then
          if rest.length = 32 then some (.ok (Node.fromHash rest)) else none
        else if plen = 0 then some (.ok .empty)
        else some (.error .invalidData)

/-- Decoding of the 16 child items of a branch (the `for i in 0..16` loop). -/
def decodeChildren : Nat → List Bytes → Option (Except TrieError NodeList)
  | 0, _ => none
  | f + 1, items =>
    match items with
    | [] => some (.ok .nil)
    | it :: rest =>
      match decodeNode f it with
      | none => none
      | some (.error e) => some (.error e)
      | some (.ok n) =>
        match decodeChildren f rest with
        | none => none
        | some (.error e) => some (.error e)
        | some (.ok ns) => some (.ok (.cons n ns))

end

/-! ## The trie state and its walkers (`trie.rs`) -/

/-- The Keccak-256 primitive is an external collaborator (spec §1); trie
operations that hash take it as a parameter of this type. -/
abbrev Kec := Bytes → Bytes

/-- The `EthTrie` struct: root node, root hash, shared store, the pending
write cache and the passing and gen key sets. -/
structure EthTrie where
  root : Node
  rootHash : Bytes
  db : Db
  cache : Db
  passingKeys : List Bytes
  genKeys : List Bytes
deriving DecidableEq, Repr

/-- `HashMap::insert`: replace any previous binding of the key. -/
def mapInsert (d : Db) (k v : Bytes) : Db :=
  (k, v) :: d.filter (fun p => ¬ p.1 = k)

/-- `HashSet::insert` on the passing and gen key sets. -/
def keyInsert (s : List Bytes) (k : Bytes) : List Bytes :=
  if k ∈ s then s else k :: s

/-- The result of `write_node`: a hash reference or an inline encoding. -/
inductive EncodedNode where
  | hashE (h : Bytes)
  | inline (d : Bytes)
deriving DecidableEq, Repr

/-- `EthTrie::new(db)`: empty root; the root hash is `KECCAK_NULL_RLP`,
i.e. the hash of the RLP empty string. -/
def newTrie (kec : Kec) (db : Db) : EthTrie :=
  { root := .empty, rootHash := kec [0x80], db := db,
    cache := [], passingKeys := [], genKeys := [] }

/-- `recover_from_db`: fetch by hash and decode.  The in-memory store never
fails, so the `TrieError::DB` arm of the source is not reachable here. -/
def recoverFromDb (t : EthTrie) (key : Bytes) : Option (Except TrieError (Option Node)) :=
  match Db.get t.db key with
  | none => some (.ok none)
  | some value =>
    match decodeNode (2 * value.length + 2) value with
    | none => none
    | some (.error e) => some (.error e)
    | some (.ok n) => some (.ok (some n))

/-- `EthTrie::from(db, root)`: requires the root node to be present. -/
def fromDb (db : Db) (root : Bytes) : Option (Except TrieError EthTrie) :=
  match Db.get db root with
  | none => some (.error .invalidStateRoot)
  | some data =>
    match decodeNode (2 * data.length + 2) data with
    | none => none
    | some (.error e) => some (.error e)
    | some (.ok n) =>
      some (.ok { root := n, rootHash := root, db := db,
                  cache := [], passingKeys := [], genKeys := [] })

/-- `get_at`: the read-only walk.  The source takes `&self`; the state is
threaded through to make the frame property (claim C9) a statement rather
than a typing convention. -/
def getAt : Nat → EthTrie → Node → Nibs → Nat →
    Option (EthTrie × Except TrieError (Option Bytes))
  | 0, _, _, _, _ => none
  | f + 1, t, n, path, i =>
    let part := path.offset i
    match n with
    | .empty => some (t, .ok none)
    | .leaf k v => some (t, .ok (if k = part then some v else none))
    | .branch ch v =>
      if part = [] ∨ part.nth 0 = 16 then some (t, .ok v)
      else getAt f t (ch.get (part.nth 0)) path (i + 1)
    | .ext pre sub =>
      let matchLen := part.commonPre pre
      if matchLen = pre.length then getAt f t sub path (i + matchLen)
      else some (t, .ok none)
    | .hash h =>
      match recoverFromDb t h with
      | none => none
      | some (.error e) => some (t, .error e)
      | some (.ok none) =>
        some (t, .error (.missingTrieNode h (some (path.slice 0 i))
          (some t.rootHash) none))
      | some (.ok (some node)) => getAt f t node path i

/-- `insert_at`.  On success the rewritten node is returned; on an error the
source only bubbles it up (no interior write happens on the error path, every
interior write follows a successful recursive call), so the node slot of the
result is absent. -/
def insertAt : Nat → EthTrie → Node → Nibs → Nat → Bytes →
    Option (EthTrie × Except TrieError Node)
  | 0, _, _, _, _, _ => none
  | f + 1, t, n, path, i, value =>
    let part := path.offset i
    match n with
    | .empty => some (t, .ok (Node.fromLeaf part value))
    | .leaf lk lv =>
      let matchIndex := part.commonPre lk
      if matchIndex = lk.length then some (t, .ok (Node.fromLeaf lk value))
      else
        let b1 := branchInsert emptyChildren none (lk.nth matchIndex)
          (Node.fromLeaf (lk.offset (matchIndex + 1)) lv)
        let b2 := branchInsert b1.1 b1.2 (part.nth matchIndex)
          (Node.fromLeaf (part.offset (matchIndex + 1)) value)
        if matchIndex = 0 then some (t, .ok (.branch b2.1 b2.2))
        else some (t, .ok (Node.fromExt (part.slice 0 matchIndex) (.branch b2.1 b2.2)))
    | .branch ch v =>
      if part.nth 0 = 16 then some (t, .ok (.branch ch (some value)))
      else
        match insertAt f t (ch.get (part.nth 0)) path (i + 1) value with
        | none => none
        | some (t1, .error e) => some (t1, .error e)
        | some (t1, .ok newChild) =>
          some (t1, .ok (.branch (ch.set (part.nth 0) newChild) v))
    | .ext pre sub =>
      let matchIndex := part.commonPre pre
      if matchIndex = 0 then
        insertAt f t
          (.branch
            (branchInsert emptyChildren none (pre.nth 0)
              (if pre.length = 1 then sub else Node.fromExt (pre.offset 1) sub)).1
            (branchInsert emptyChildren none (pre.nth 0)
              (if pre.length = 1 then sub else Node.fromExt (pre.offset 1) sub)).2)
          path i value
      else if matchIndex = pre.length then
        match insertAt f t sub path (i + matchIndex) value with
        | none => none
        | some (t1, .error e) => some (t1, .error e)
        | some (t1, .ok newNode) => some (t1, .ok (Node.fromExt pre newNode))
      else
        match insertAt f t (Node.fromExt (pre.offset matchIndex) sub) path
            (i + matchIndex) value with
        | none => none
        | some (t1, .error e) => some (t1, .error e)
        | some (t1, .ok newNode) =>
          some (t1, .ok (.ext (pre.slice 0 matchIndex) newNode))
    | .hash h =>
      let t1 := { t with passingKeys := keyInsert t.passingKeys h }
      match recoverFromDb t1 h with
      | none => none
      | some (.error e) => some (t1, .error e)
      | some (.ok none) =>
        some (t1, .error (.missingTrieNode h (some (path.slice 0 i))
          (some t1.rootHash) none))
      | some (.ok (some node)) => insertAt f t1 node path i value

/-- Indices of the non-Empty children (the `used_indexs` loop of
`degenerate`), counting from `i`. -/
def usedIdx : NodeList → Nat → List Nat
  | .nil, _ => []
  | .cons hd tl, i =>
    (match hd with | .empty => [] | _ => [i]) ++ usedIdx tl (i + 1)

/-- `degenerate`: the structural rewrite after deletion.  It performs no
interior writes; its only state effect is recording hydrated hashes into
passing-keys. -/
def degenerate : Nat → EthTrie → Node → Option (EthTrie × Except TrieError Node)
  | 0, _, _ => none
  | f + 1, t, n =>
    match n with
    | .branch ch v =>
      if usedIdx ch 0 = [] ∧ v.isSome then
        some (t, .ok (Node.fromLeaf (Nibs.fromRaw [] true) (v.getD [])))
      else if (usedIdx ch 0).length = 1 ∧ v = none then
        degenerate f t (Node.fromExt (Nibs.fromHex [(usedIdx ch 0).headD 0])
          (ch.get ((usedIdx ch 0).headD 0)))
      else some (t, .ok (.branch ch v))
    | .ext pre sub =>
      match sub with
      | .ext spre ssub => some (t, .ok (Node.fromExt (pre.join spre) ssub))
      | .leaf lk lv => some (t, .ok (Node.fromLeaf (pre.join lk) lv))
      | .hash h =>
        match recoverFromDb { t with passingKeys := keyInsert t.passingKeys h } h with
        | none => none
        | some (.error e) =>
          some ({ t with passingKeys := keyInsert t.passingKeys h }, .error e)
        | some (.ok none) =>
          some ({ t with passingKeys := keyInsert t.passingKeys h },
            .error (.missingTrieNode h none (some t.rootHash) none))
        | some (.ok (some newNode)) =>
          degenerate f { t with passingKeys := keyInsert t.passingKeys h }
            (Node.fromExt pre newNode)
      | .empty => some (t, .ok (.ext pre sub))
      | .branch bch bv => some (t, .ok (.ext pre (.branch bch bv)))
    | .empty => some (t, .ok n)
    | .leaf lk lv => some (t, .ok n)
    | .hash h => some (t, .ok n)

/-- The `if deleted { degenerate... }` tail of `delete_at`.  When
`degenerate` fails, the interior writes that produced `n` have already
happened through the shared `Arc<RwLock<..>>` graph, so the partially
rewritten `n` is returned alongside the error. -/
def afterDelete (f : Nat) (t : EthTrie) (n : Node) (deleted : Bool) :
    Option (EthTrie × Node × Bool × Option TrieError) :=
  if deleted then
    match degenerate f t n with
    | none => none
    | some (t1, .ok n1) => some (t1, n1, true, none)
    | some (t1, .error e) => some (t1, n, true, some e)
  else some (t, n, false, none)

/-- `delete_at`.  The result is (state, node-after, deleted, error?): the
node-after component reflects the interior writes the source performs on the
shared graph even when a later step of the same call fails; when the error
slot is filled the caller only propagates the error, and the shared graph is
observationally the node-after. -/
def deleteAt : Nat → EthTrie → Node → Nibs → Nat →
    Option (EthTrie × Node × Bool × Option TrieError)
  | 0, _, _, _, _ => none
  | f + 1, t, n, path, i =>
    let part := path.offset i
    match n with
    | .empty => some (t, .empty, false, none)
    | .leaf lk lv =>
      if lk = part then some (t, .empty, true, none)
      else some (t, .leaf lk lv, false, none)
    | .branch ch v =>
      if part.nth 0 = 16 then
        afterDelete f t (.branch ch none) true
      else
        match deleteAt f t (ch.get (part.nth 0)) path (i + 1) with
        | none => none
        | some (t1, child1, _, some e) =>
          some (t1, .branch (ch.set (part.nth 0) child1) v, false, some e)
        | some (t1, child1, deleted, none) =>
          afterDelete f t1
            (if deleted then Node.branch (ch.set (part.nth 0) child1) v
             else .branch ch v)
            deleted
    | .ext pre sub =>
      let matchLen := part.commonPre pre
      if matchLen = pre.length then
        match deleteAt f t sub path (i + matchLen) with
        | none => none
        | some (t1, sub1, _, some e) => some (t1, .ext pre sub1, false, some e)
        | some (t1, sub1, deleted, none) =>
          afterDelete f t1 (if deleted then Node.ext pre sub1 else .ext pre sub) deleted
      else some (t, .ext pre sub, false, none)
    | .hash h =>
      let t1 := { t with passingKeys := keyInsert t.passingKeys h }
      match recoverFromDb t1 h with
      | none => none
      | some (.error e) => some (t1, .hash h, false, some e)
      | some (.ok none) =>
        some (t1, .hash h, false, some (.missingTrieNode h (some (path.slice 0 i))
          (some t1.rootHash) none))
      | some (.ok (some node)) => deleteAt f t1 node path i

/-- `get_path_at`: collects the nodes hydrated from the store along the key
path (child first; the caller reverses). -/
def getPathAt : Nat → EthTrie → Node → Nibs → Nat →
    Option (EthTrie × Except TrieError (List Node))
  | 0, _, _, _, _ => none
  | f + 1, t, n, path, i =>
    let part := path.offset i
    match n with
    | .empty => some (t, .ok [])
    | .leaf _ _ => some (t, .ok [])
    | .branch ch _ =>
      if part = [] ∨ part.nth 0 = 16 then some (t, .ok [])
      else getPathAt f t (ch.get (part.nth 0)) path (i + 1)
    | .ext pre sub =>
      let matchLen := part.commonPre pre
      if matchLen = pre.length then getPathAt f t sub path (i + matchLen)
      else some (t, .ok [])
    | .hash h =>
      match recoverFromDb t h with
      | none => none
      | some (.error e) => some (t, .error e)
      | some (.ok none) =>
        some (t, .error (.missingTrieNode h none (some t.rootHash) none))
      | some (.ok (some node)) =>
        match getPathAt f t node path i with
        | none => none
        | some (t1, .error e) => some (t1, .error e)
        | some (t1, .ok rest) => some (t1, .ok (rest ++ [node]))

/-! ## Encoding, write-through and commit -/

/-- State effect of `write_node` when a node's encoding reaches 32 bytes:
pending cache entry plus gen-key record. -/
def cachePut (kec : Kec) (t : EthTrie) (data : Bytes) : EthTrie × Bytes :=
  let h := kec data
  ({ t with cache := mapInsert t.cache h data, genKeys := keyInsert t.genKeys h }, h)

mutual

/-- `encode_raw`: canonical node serialization.  At each child position the
source calls `write_node` (mutually recursive with `encode_raw`); that call
is inlined here: a Hash child is emitted verbatim, any other child is
encoded, inlined when shorter than 32 bytes and otherwise cached, gen-keyed
and referenced by hash.  `encode_raw` of a Hash node is `unreachable!()` in
the source — modelled as `none`. -/
def encodeRaw (kec : Kec) (t : EthTrie) : Node → Option (EthTrie × Bytes)
  | .empty => some (t, [0x80])
  | .leaf k v => some (t, rlpListWrap (rlpStr (Nibs.encodeCompact k) ++ rlpStr v))
  | .branch ch v =>
    match encodeChildren kec t ch with
    | none => none
    | some (t1, listPart) =>
      let withValue := listPart ++ (match v with | some vv => rlpStr vv | none => [0x80])
      some (t1, rlpListWrap withValue)
  | .ext pre sub =>
    match sub with
    | .hash h =>
      some (t, rlpListWrap (rlpStr (Nibs.encodeCompact pre) ++ rlpStr h))
    | _ =>
      match encodeRaw kec t sub with
      | none => none
      | some (t1, d) =>
        if d.length < 32 then
          some (t1, rlpListWrap (rlpStr (Nibs.encodeCompact pre) ++ d))
        else
          let (t2, h) := cachePut kec t1 d
          some (t2, rlpListWrap (rlpStr (Nibs.encodeCompact pre) ++ rlpStr h))
  | .hash _ => none

/-- The 16-fold `write_node`-and-append loop of `encode_raw` on a Branch. -/
def encodeChildren (kec : Kec) (t : EthTrie) : NodeList → Option (EthTrie × Bytes)
  | .nil => some (t, [])
  | .cons hd tl =>
    match hd with
    | .hash h =>
      match encodeChildren kec t tl with
      | none => none
      | some (t1, rest) => some (t1, rlpStr h ++ rest)
    | _ =>
      match encodeRaw kec t hd with
      | none => none
      | some (t1, d) =>
        if d.length < 32 then
          match encodeChildren kec t1 tl with
          | none => none
          | some (t2, rest) => some (t2, d ++ rest)
        else
          let (t2, h) := cachePut kec t1 d
          match encodeChildren kec t2 tl with
          | none => none
          | some (t3, rest) => some (t3, rlpStr h ++ rest)

end

/-- `write_node`: hash-or-inline entry point (a Hash node is returned
verbatim; otherwise encode, and hash + cache + gen-key when ≥ 32 bytes). -/
def writeNode (kec : Kec) (t : EthTrie) (n : Node) : Option (EthTrie × EncodedNode) :=
  match n with
  | .hash h => some (t, .hashE h)
  | _ =>
    match encodeRaw kec t n with
    | none => none
    | some (t1, data) =>
      if data.length < 32 then some (t1, .inline data)
      else
        let (t2, h) := cachePut kec t1 data
        some (t2, .hashE h)

/-- `commit`: flush the cache to the store, evict passing-keys not
regenerated, clear the bookkeeping, and rehydrate the root.  Returns
(state, new root hash, diff).  `none` covers the source's panics (the
`expect` on rehydration) and fuel exhaustion inside decoding. -/
def commit (kec : Kec) (t : EthTrie) (returnChangedNodes : Bool) :
    Option (Except TrieError (EthTrie × Bytes × Db)) :=
  match writeNode kec t t.root with
  | none => none
  | some (t1, enc) =>
    let rootPair : EthTrie × Bytes :=
      match enc with
      | .hashE h => (t1, h)
      | .inline data => (({ t1 with cache := mapInsert t1.cache (kec data) data }), kec data)
    let t2 := rootPair.1
    let newRootHash := rootPair.2
    let changedNodes := if returnChangedNodes then t2.cache else []
    let db1 := Db.insertBatch t2.db t2.cache
    let removedKeys := t2.passingKeys.filter (fun h => ¬ h ∈ t2.genKeys)
    let db2 := Db.removeBatch db1 removedKeys
    let t3 := { t2 with db := db2, cache := [], genKeys := [], passingKeys := [],
                        rootHash := newRootHash }
    match recoverFromDb t3 newRootHash with
    | none => none
    | some (.error e) => some (.error e)
    | some (.ok none) => none
    | some (.ok (some rootNode)) =>
      some (.ok ({ t3 with root := rootNode }, newRootHash, changedNodes))

/-- `root_hash()`: commit without the diff. -/
def rootHashOp (kec : Kec) (t : EthTrie) : Option (Except TrieError (EthTrie × Bytes)) :=
  match commit kec t false with
  | none => none
  | some (.error e) => some (.error e)
  | some (.ok (t1, h, _)) => some (.ok (t1, h))

/-! ## Public API wrappers -/

/-- The `err_key` enrichment every entry point except `contains` performs on
a `MissingTrieNode`. -/
def enrichErrKey (e : TrieError) (key : Bytes) : TrieError :=
  match e with
  | .missingTrieNode nh tr rh _ => .missingTrieNode nh tr rh (some key)
  | e => e

/-- `get(key)`. -/
def getOp (t : EthTrie) (key : Bytes) (fuel : Nat) :
    Option (EthTrie × Except TrieError (Option Bytes)) :=
  match getAt fuel t t.root (Nibs.fromRaw key true) 0 with
  | none => none
  | some (t1, .error e) => some (t1, .error (enrichErrKey e key))
  | some (t1, .ok r) => some (t1, .ok r)

/-- `contains(key)`: note the source does NOT enrich `err_key` here. -/
def containsOp (t : EthTrie) (key : Bytes) (fuel : Nat) :
    Option (EthTrie × Except TrieError Bool) :=
  match getAt fuel t t.root (Nibs.fromRaw key true) 0 with
  | none => none
  | some (t1, .error e) => some (t1, .error e)
  | some (t1, .ok r) => some (t1, .ok r.isSome)

/-- `remove(key)`.  On an error the source does not assign `self.root`, but
the walk's interior writes happened on the graph `self.root` shares, so the
observational root is the node-after returned by `delete_at`. -/
def removeOp (t : EthTrie) (key : Bytes) (fuel : Nat) :
    Option (EthTrie × Except TrieError Bool) :=
  match deleteAt fuel t t.root (Nibs.fromRaw key true) 0 with
  | none => none
  | some (t1, n, removed, none) => some ({ t1 with root := n }, .ok removed)
  | some (t1, n, _, some e) => some ({ t1 with root := n }, .error (enrichErrKey e key))

/-- `insert(key, value)`: an empty value delegates to `remove`; on success
the root is replaced; a `MissingTrieNode` is enriched with the key. -/
def insertOp (t : EthTrie) (key value : Bytes) (fuel : Nat) :
    Option (EthTrie × Except TrieError Unit) :=
  if value = [] then
    match removeOp t key fuel with
    | none => none
    | some (t1, .ok _) => some (t1, .ok ())
    | some (t1, .error e) => some (t1, .error e)
  else
    match insertAt fuel t t.root (Nibs.fromRaw key true) 0 value with
    | none => none
    | some (t1, .error e) => some (t1, .error (enrichErrKey e key))
    | some (t1, .ok n) => some ({ t1 with root := n }, .ok ())

/-- The `map(|n| self.encode_raw(&n))` fold of `get_proof` (state threads
through because `encode_raw` fills the cache and gen keys). -/
def encodeNodes (kec : Kec) (t : EthTrie) : List Node → Option (EthTrie × List Bytes)
  | [] => some (t, [])
  | n :: rest =>
    match encodeRaw kec t n with
    | none => none
    | some (t1, d) =>
      match encodeNodes kec t1 rest with
      | none => none
      | some (t2, ds) => some (t2, d :: ds)

/-- `get_proof(key)`: path nodes hydrated from the store, root appended when
not Empty, reversed to root-first, each re-encoded. -/
def getProofOp (kec : Kec) (t : EthTrie) (key : Bytes) (fuel : Nat) :
    Option (EthTrie × Except TrieError (List Bytes)) :=
  match getPathAt fuel t t.root (Nibs.fromRaw key true) 0 with
  | none => none
  | some (t1, .error e) => some (t1, .error (enrichErrKey e key))
  | some (t1, .ok path0) =>
    match encodeNodes kec t1
      (match t1.root with | .empty => path0 | _ => path0 ++ [t1.root]).reverse with
    | none => none
    | some (t2, proofs) => some (t2, .ok proofs)

/-- `verify_proof(root_hash, key, proof)`: scratch store filled by the
hash-or-length guard, a trie instantiated at the root over it, then `get`;
every failure of those two steps becomes `InvalidProof`. -/
def verifyProofOp (kec : Kec) (rootH : Bytes) (key : Bytes) (proof : List Bytes)
    (fuel : Nat) : Option (Except TrieError (Option Bytes)) :=
  match fromDb
    (proof.foldl
      (fun d nodeEncoded =>
        if rootH = kec nodeEncoded ∨ 32 ≤ nodeEncoded.length then
          Db.insert d (kec nodeEncoded) nodeEncoded
        else d)
      ([] : Db)) rootH with
  | none => none
  | some (.error _) => some (.error .invalidProof)
  | some (.ok trie) =>
    match getOp trie key fuel with
    | none => none
    | some (_, .error _) => some (.error .invalidProof)
    | some (_, .ok r) => some (.ok r)

/-- The claim's wording of `verify_proof`, written independently of the
source: insert a proof element into the scratch store exactly when its hash
equals the root hash or its length is at least 32; build a trie at the root
hash over that store; return that trie's `get`, with every error of the
construction or of the `get` mapped to `InvalidProof`. -/
def verifyProofClaim (kec : Kec) (rootH : Bytes) (key : Bytes) (proof : List Bytes)
    (fuel : Nat) : Option (Except TrieError (Option Bytes)) :=
  match fromDb
    (proof.foldl
      (fun d el =>
        if kec el = rootH ∨ 32 ≤ el.length then Db.insert d (kec el) el else d)
      ([] : Db)) rootH with
  | none => none
  | some (.error _) => some (.error .invalidProof)
  | some (.ok trie) =>
    match getOp trie key fuel with
    | none => none
    | some (_, .error _) => some (.error .invalidProof)
    | some (_, .ok r) => some (.ok r)

/-- C7: `verify_proof(root_hash, key, proof)` inserts a proof element into
the scratch store exactly when its Keccak hash equals `root_hash` or the
element is at least 32 bytes long, then builds a trie at `root_hash` over
that store and returns that trie's `get(key)`, mapping every error from the
construction or the get to `InvalidProof` — the source operation coincides
with this reading verbatim. -/
theorem claim_C7_verify_proof_refines (kec : Kec) (rootH key : Bytes)
    (proof : List Bytes) (fuel : Nat) :
    verifyProofOp kec rootH key proof fuel =
      verifyProofClaim kec rootH key proof fuel := by
  rw [verifyProofOp, verifyProofClaim]
  have hfold :
      (proof.foldl
        (fun d nodeEncoded =>
          if rootH = kec nodeEncoded ∨ 32 ≤ nodeEncoded.length then
            Db.insert d (kec nodeEncoded) nodeEncoded
          else d) ([] : Db)) =
      (proof.foldl
        (fun d el =>
          if kec el = rootH ∨ 32 ≤ el.length then Db.insert d (kec el) el else d)
        ([] : Db)) := by
    congr 1
    funext d el
    exact if_congr (or_congr eq_comm Iff.rfl) rfl rfl
  rw [hfold]

/-! ## A concrete injective stand-in for the Keccak-256 collaborator

The algorithms only use the hash as an opaque 32-byte content address, and
chain correctness arguments idealize it as injective.  `specKec` packs the
whole input, bit-stuffed in base 3, into the first of 32 output cells; it is
injective outright and cheap enough for the kernel to evaluate. -/

/-- Little-endian binary digits, fuelled. -/
def bitsAux : Nat → Nat → List Nat
  | 0, _ => []
  | f + 1, n => if n = 0 then [] else n % 2 :: bitsAux f (n / 2)

/-- Little-endian binary digits of a number. -/
def bits (n : Nat) : List Nat := bitsAux n n

/-- Bit-stuffing: each element's bits followed by a separator digit 2. -/
def stuffed (l : List Nat) : List Nat := l.flatMap (fun a => bits a ++ [2])

/-- The whole byte string packed into one number, base 3. -/
def lcode (l : List Nat) : Nat := Nat.ofDigits 3 (stuffed l)

/-- The stand-in hash: 32 cells, the first carrying the packed input. -/
def specKec : Kec := fun l => lcode l :: List.replicate 31 0

theorem specKec_length (l : Bytes) : (specKec l).length = 32 := by
  simp [specKec]

/-! ## Scenario-building helpers (proof-side test harness) -/

/-- Insert a list of pairs in order, failing if any insert fails. -/
def insertList : EthTrie → List (Bytes × Bytes) → Nat → Option EthTrie
  | t, [], _ => some t
  | t, (k, v) :: rest, fuel =>
    match insertOp t k v fuel with
    | some (t1, .ok _) => insertList t1 rest fuel
    | _ => none

/-- Commit and keep only the success case. -/
def commitOk (kec : Kec) (t : EthTrie) : Option (EthTrie × Bytes) :=
  match commit kec t false with
  | some (.ok (t1, h, _)) => some (t1, h)
  | _ => none

/-! ## Frame property of the read-only walk -/

theorem getAt_state (fuel : Nat) :
    ∀ t n path i t1 r, getAt fuel t n path i = some (t1, r) → t1 = t := by
  induction fuel with
  | zero => intro t n path i t1 r h; simp [getAt] at h
  | succ f ih =>
    intro t n path i t1 r h
    match n with
    | .empty => cases h; rfl
    | .leaf k v => cases h; rfl
    | .branch ch v =>
      rw [getAt] at h
      split at h
      · cases h; rfl
      · exact ih t _ path (i + 1) t1 r h
    | .ext pre sub =>
      rw [getAt] at h
      split at h
      · exact ih t _ path _ t1 r h
      · cases h; rfl
    | .hash hh =>
      rw [getAt] at h
      split at h
      · exact absurd h (by simp)
      · cases h; rfl
      · cases h; rfl
      · exact ih t _ path i t1 r h

/-- C3: for every trie state, key and fuel, `insert(k, empty_value)` leaves
the trie in exactly the state `remove(k)` produces (the zero-length-value
insert is a remove); the resulting `EthTrie` states are equal in every
component, on the success and on the error path alike. -/
theorem claim_C3_insert_empty_is_remove (t : EthTrie) (key : Bytes) (fuel : Nat) :
    (insertOp t key [] fuel).map Prod.fst = (removeOp t key fuel).map Prod.fst := by
  rw [insertOp]
  rw [if_pos rfl]
  cases hrem : removeOp t key fuel with
  | none => rfl
  | some p =>
    obtain ⟨t1, r⟩ := p
    cases r <;> rfl

/-- C9: the read-only walk of `get` (`get_at`) leaves the whole trie state —
in particular the pending-write cache, the passing-keys set and the gen-keys
set — unchanged, even when it hydrates Hash nodes from the store. -/
theorem claim_C9_get_walk_frame :
    (∀ fuel t n path i t1 r, getAt fuel t n path i = some (t1, r) → t1 = t) ∧
    (∀ (t : EthTrie) (key : Bytes) (fuel : Nat) t1 r,
      getOp t key fuel = some (t1, r) →
        t1.cache = t.cache ∧ t1.passingKeys = t.passingKeys ∧
        t1.genKeys = t.genKeys) := by
  refine ⟨fun fuel => getAt_state fuel, ?_⟩
  intro t key fuel t1 r h
  rw [getOp] at h
  split at h
  · exact absurd h (by simp)
  · cases h
    obtain rfl := getAt_state _ _ _ _ _ _ _ (by assumption)
    exact ⟨rfl, rfl, rfl⟩
  · cases h
    obtain rfl := getAt_state _ _ _ _ _ _ _ (by assumption)
    exact ⟨rfl, rfl, rfl⟩

/-! ## Which errors the decoder can produce -/

set_option maxRecDepth 4000 in
/-- `Header::decode` only fails with a decoder error. -/
theorem headerDecode_error : ∀ {b : Bytes} {e : TrieError},
    headerDecode b = .error e → e = .decoder := by
  intro b e h
  match b with
  | [] => cases h; rfl
  | x :: rest =>
    rw [headerDecode] at h
    repeat'
      first
      | split at h
      | (cases h <;> rfl)

/-- The item splitter only fails with decoder errors. -/
theorem splitItems_error (fuel : Nat) :
    ∀ payload e, splitItems fuel payload = some (.error e) → e = .decoder := by
  induction fuel with
  | zero => intro payload e h; simp [splitItems] at h
  | succ f ih =>
    intro payload e h
    match payload with
    | [] => simp [splitItems] at h
    | x :: rest0 =>
      rw [splitItems] at h
      repeat'
        first
        | split at h
        | (cases h <;>
            first
            | exact headerDecode_error (by assumption)
            | exact ih _ _ (by assumption))

/-- `decode_node` never produces a `MissingTrieNode`: its errors are decoder
errors or `InvalidData`. -/
theorem decodeNode_no_missing : ∀ fuel : Nat,
    (∀ d e, decodeNode fuel d = some (.error e) →
      e = .decoder ∨ e = .invalidData) ∧
    (∀ items e, decodeChildren fuel items = some (.error e) →
      e = .decoder ∨ e = .invalidData) := by
  intro fuel
  induction fuel using Nat.strong_induction_on with
  | _ fuel ih =>
    cases fuel with
    | zero =>
      constructor
      · intro d e h; simp [decodeNode] at h
      · intro items e h; simp [decodeChildren] at h
    | succ f =>
      constructor
      · intro d e h
        rw [decodeNode] at h
        repeat'
          first
          | split at h
          | (cases h <;>
              first
              | exact Or.inl (headerDecode_error (by assumption))
              | exact Or.inl (splitItems_error _ _ _ (by assumption))
              | exact (ih f (by omega)).1 _ _ (by assumption)
              | exact (ih f (by omega)).2 _ _ (by assumption)
              | exact Or.inr rfl)
      · intro items e h
        match items with
        | [] => simp [decodeChildren] at h
        | it :: rest =>
          rw [decodeChildren] at h
          repeat'
            first
            | split at h
            | (cases h <;>
                first
                | exact (ih f (by omega)).1 _ _ (by assumption)
                | exact (ih f (by omega)).2 _ _ (by assumption))

/-- `recover_from_db` surfaces no `MissingTrieNode` itself (absence is
reported as `ok none`, and only the caller turns it into the error). -/
theorem recoverFromDb_no_missing {t : EthTrie} {h : Bytes} {e : TrieError}
    (hr : recoverFromDb t h = some (.error e)) :
    e = .decoder ∨ e = .invalidData := by
  rw [recoverFromDb] at hr
  split at hr
  · exact absurd hr (by simp)
  · split at hr
    · exact absurd hr (by simp)
    · cases hr; exact (decodeNode_no_missing _).1 _ _ (by assumption)
    · exact absurd hr (by simp)

/-- Any `MissingTrieNode` that `degenerate` produces carries
`traversed = none` (and no key annotation of its own). -/
theorem degenerate_missing_fields : ∀ fuel t n t1 nh tr rh ek,
    degenerate fuel t n = some (t1, .error (.missingTrieNode nh tr rh ek)) →
    tr = none ∧ ek = none := by
  intro fuel
  induction fuel with
  | zero => intro t n t1 nh tr rh ek h; simp [degenerate] at h
  | succ f ih =>
    intro t n t1 nh tr rh ek h
    cases n with
    | empty => cases h
    | leaf k v => cases h
    | hash hh => cases h
    | branch ch v =>
      rw [degenerate] at h
      split at h
      · cases h
      · split at h
        · exact ih _ _ _ _ _ _ _ h
        · cases h
    | ext pre sub =>
      cases sub with
      | ext spre ssub => cases h
      | leaf lk lv => cases h
      | empty => cases h
      | branch bch bv => cases h
      | hash hh =>
        rw [degenerate] at h
        split at h
        · cases h
        · cases h
          rcases recoverFromDb_no_missing (by assumption) with h2 | h2 <;> cases h2
        · cases h; exact ⟨rfl, rfl⟩
        · exact ih _ _ _ _ _ _ _ h

/-- C6: a hash-hydration failure inside the post-deletion `degenerate`
rewrite reports `traversed = None` — the nibble-path cursor is lost there —
while a hydration failure during the insert, delete and get walks reports
`traversed = Some(path walked so far)` (`path[..i]`). -/
theorem claim_C6_degenerate_traversed_none :
    (∀ fuel t n t1 nh tr rh ek,
      degenerate fuel t n = some (t1, .error (.missingTrieNode nh tr rh ek)) →
        tr = none ∧ ek = none) ∧
    (∀ (fuel : Nat) (t : EthTrie) (h : Bytes) (path : Nibs) (i : Nat),
      Db.get t.db h = none →
        getAt (fuel + 1) t (.hash h) path i =
          some (t, .error (.missingTrieNode h (some (path.slice 0 i))
            (some t.rootHash) none))) ∧
    (∀ (fuel : Nat) (t : EthTrie) (h : Bytes) (path : Nibs) (i : Nat) (v : Bytes),
      Db.get t.db h = none →
        insertAt (fuel + 1) t (.hash h) path i v =
          some ({ t with passingKeys := keyInsert t.passingKeys h },
            .error (.missingTrieNode h (some (path.slice 0 i))
              (some t.rootHash) none))) ∧
    (∀ (fuel : Nat) (t : EthTrie) (h : Bytes) (path : Nibs) (i : Nat),
      Db.get t.db h = none →
        deleteAt (fuel + 1) t (.hash h) path i =
          some ({ t with passingKeys := keyInsert t.passingKeys h }, .hash h, false,
            some (.missingTrieNode h (some (path.slice 0 i))
              (some t.rootHash) none))) := by
  refine ⟨degenerate_missing_fields, ?_, ?_, ?_⟩
  · intro fuel t h path i hdb
    rw [getAt]
    simp only [recoverFromDb, hdb]
  · intro fuel t h path i v hdb
    rw [insertAt]
    simp only [recoverFromDb, hdb]
  · intro fuel t h path i hdb
    rw [deleteAt]
    simp only [recoverFromDb, hdb]

/-- Witness for C6 at concrete inputs: a one-entry trie over an empty store;
the degenerate rewrite and the three walkers each fail on the dangling
hash `[7]`. -/
theorem claim_C6_degenerate_traversed_none_witness :
    ((none : Option Nibs) = none ∧ (none : Option Bytes) = none) ∧
    getAt 3 (newTrie specKec []) (.hash [7]) [1, 16] 1 =
      some (newTrie specKec [],
        .error (.missingTrieNode [7] (some [1]) (some (specKec [0x80])) none)) :=
  ⟨claim_C6_degenerate_traversed_none.1 2 (newTrie specKec [])
      (.ext [3] (.hash [7]))
      { newTrie specKec [] with passingKeys := [[7]] }
      [7] none (some (specKec [0x80])) none (by rfl),
    claim_C6_degenerate_traversed_none.2.1 2 (newTrie specKec []) [7] [1, 16] 1
      (by rfl)⟩

/-! ## Field preservation of the mutating walkers

`insert_at`, `delete_at` and `degenerate` touch the trie state only through
the passing-keys set; root, root hash, store, cache and gen keys pass
through unchanged (the root field itself is only assigned by the public
wrappers). -/

theorem insertAt_fields (fuel : Nat) :
    ∀ t n path i v t1 r, insertAt fuel t n path i v = some (t1, r) →
      t1.root = t.root ∧ t1.rootHash = t.rootHash ∧ t1.db = t.db ∧
        t1.cache = t.cache ∧ t1.genKeys = t.genKeys := by
  induction fuel with
  | zero => intro t n path i v t1 r h; simp [insertAt] at h
  | succ f ih =>
    intro t n path i v t1 r h
    cases n with
    | empty => cases h; exact ⟨rfl, rfl, rfl, rfl, rfl⟩
    | leaf lk lv =>
      rw [insertAt] at h
      split at h
      · cases h; exact ⟨rfl, rfl, rfl, rfl, rfl⟩
      · split at h <;> (cases h; exact ⟨rfl, rfl, rfl, rfl, rfl⟩)
    | branch ch v0 =>
      rw [insertAt] at h
      split at h
      · cases h; exact ⟨rfl, rfl, rfl, rfl, rfl⟩
      · split at h
        · exact absurd h (by simp)
        · cases h; exact ih _ _ _ _ _ _ _ (by assumption)
        · cases h; exact ih _ _ _ _ _ _ _ (by assumption)
    | ext pre sub =>
      rw [insertAt] at h
      split at h
      · exact ih _ _ _ _ _ _ _ h
      · split at h
        · split at h
          · exact absurd h (by simp)
          · cases h; exact ih _ _ _ _ _ _ _ (by assumption)
          · cases h; exact ih _ _ _ _ _ _ _ (by assumption)
        · split at h
          · exact absurd h (by simp)
          · cases h; exact ih _ _ _ _ _ _ _ (by assumption)
          · cases h; exact ih _ _ _ _ _ _ _ (by assumption)
    | hash hh =>
      rw [insertAt] at h
      split at h
      · exact absurd h (by simp)
      · cases h; exact ⟨rfl, rfl, rfl, rfl, rfl⟩
      · cases h; exact ⟨rfl, rfl, rfl, rfl, rfl⟩
      · have h5 := ih _ _ _ _ _ _ _ h; exact h5

theorem degenerate_fields (fuel : Nat) :
    ∀ t n t1 r, degenerate fuel t n = some (t1, r) →
      t1.root = t.root ∧ t1.rootHash = t.rootHash ∧ t1.db = t.db ∧
        t1.cache = t.cache ∧ t1.genKeys = t.genKeys := by
  induction fuel with
  | zero => intro t n t1 r h; simp [degenerate] at h
  | succ f ih =>
    intro t n t1 r h
    cases n with
    | empty => cases h; exact ⟨rfl, rfl, rfl, rfl, rfl⟩
    | leaf lk lv => cases h; exact ⟨rfl, rfl, rfl, rfl, rfl⟩
    | hash hh => cases h; exact ⟨rfl, rfl, rfl, rfl, rfl⟩
    | branch ch v =>
      rw [degenerate] at h
      split at h
      · cases h; exact ⟨rfl, rfl, rfl, rfl, rfl⟩
      · split at h
        · exact ih _ _ _ _ h
        · cases h; exact ⟨rfl, rfl, rfl, rfl, rfl⟩
    | ext pre sub =>
      cases sub with
      | ext spre ssub => cases h; exact ⟨rfl, rfl, rfl, rfl, rfl⟩
      | leaf lk lv => cases h; exact ⟨rfl, rfl, rfl, rfl, rfl⟩
      | empty => cases h; exact ⟨rfl, rfl, rfl, rfl, rfl⟩
      | branch bch bv => cases h; exact ⟨rfl, rfl, rfl, rfl, rfl⟩
      | hash hh =>
        rw [degenerate] at h
        split at h
        · exact absurd h (by simp)
        · cases h; exact ⟨rfl, rfl, rfl, rfl, rfl⟩
        · cases h; exact ⟨rfl, rfl, rfl, rfl, rfl⟩
        · have h5 := ih _ _ _ _ h; exact h5

theorem deleteAt_fields (fuel : Nat) :
    ∀ t n path i t1 n1 b e, deleteAt fuel t n path i = some (t1, n1, b, e) →
      t1.root = t.root ∧ t1.rootHash = t.rootHash ∧ t1.db = t.db ∧
        t1.cache = t.cache ∧ t1.genKeys = t.genKeys := by
  induction fuel with
  | zero => intro t n path i t1 n1 b e h; simp [deleteAt] at h
  | succ f ih =>
    have hafter : ∀ t n b t1 n1 b1 e1, afterDelete f t n b = some (t1, n1, b1, e1) →
        t1.root = t.root ∧ t1.rootHash = t.rootHash ∧ t1.db = t.db ∧
          t1.cache = t.cache ∧ t1.genKeys = t.genKeys := by
      intro t n b t1 n1 b1 e1 h
      rw [afterDelete] at h
      split at h
      · split at h
        · exact absurd h (by simp)
        · cases h; exact degenerate_fields f _ _ _ _ (by assumption)
        · cases h; exact degenerate_fields f _ _ _ _ (by assumption)
      · cases h; exact ⟨rfl, rfl, rfl, rfl, rfl⟩
    intro t n path i t1 n1 b e h
    cases n with
    | empty => cases h; exact ⟨rfl, rfl, rfl, rfl, rfl⟩
    | leaf lk lv =>
      rw [deleteAt] at h
      split at h <;> (cases h; exact ⟨rfl, rfl, rfl, rfl, rfl⟩)
    | branch ch v =>
      rw [deleteAt] at h
      split at h
      · exact hafter _ _ _ _ _ _ _ h
      · split at h
        · exact absurd h (by simp)
        · cases h
          exact ih _ _ _ _ _ _ _ _ (by assumption)
        · have h1 := ih _ _ _ _ _ _ _ _ (by assumption)
          have h2 := hafter _ _ _ _ _ _ _ h
          exact ⟨h2.1.trans h1.1, h2.2.1.trans h1.2.1, h2.2.2.1.trans h1.2.2.1,
            h2.2.2.2.1.trans h1.2.2.2.1, h2.2.2.2.2.trans h1.2.2.2.2⟩
    | ext pre sub =>
      rw [deleteAt] at h
      split at h
      · split at h
        · exact absurd h (by simp)
        · cases h
          exact ih _ _ _ _ _ _ _ _ (by assumption)
        · have h1 := ih _ _ _ _ _ _ _ _ (by assumption)
          have h2 := hafter _ _ _ _ _ _ _ h
          exact ⟨h2.1.trans h1.1, h2.2.1.trans h1.2.1, h2.2.2.1.trans h1.2.2.1,
            h2.2.2.2.1.trans h1.2.2.2.1, h2.2.2.2.2.trans h1.2.2.2.2⟩
      · cases h; exact ⟨rfl, rfl, rfl, rfl, rfl⟩
    | hash hh =>
      rw [deleteAt] at h
      split at h
      · exact absurd h (by simp)
      · cases h; exact ⟨rfl, rfl, rfl, rfl, rfl⟩
      · cases h; exact ⟨rfl, rfl, rfl, rfl, rfl⟩
      · have h5 := ih _ _ _ _ _ _ _ _ h; exact h5

/-! ## Well-formedness of paths, nodes and stores

User keys expand to nibble paths that end in the terminator 16 and carry
plain nibbles before it; extension prefixes are nonempty terminator-free
nibble runs (spec §3, "Terminator discipline").  These predicates restrict
theorems to the states the algorithms are specified on. -/

/-- A path suffix as seen mid-walk: ends in the terminator 16 (hence is
nonempty), plain nibbles before it. -/
def termSfx (p : Nibs) : Bool :=
  (p.getLast? == some 16) && p.dropLast.all (fun x => x < 16)

mutual

/-- Structural well-formedness: leaf keys are terminator paths, extension
prefixes are nonempty terminator-free nibble runs. -/
def wfN : Node → Bool
  | .empty => true
  | .hash _ => true
  | .leaf k _ => termSfx k
  | .branch ch _ => wfL ch
  | .ext pre c => !pre.isEmpty && pre.all (fun x => x < 16) && wfN c

/-- Well-formedness of a children array. -/
def wfL : NodeList → Bool
  | .nil => true
  | .cons hd tl => wfN hd && wfL tl

end

/-- A store is well formed when every stored node decodes well formed. -/
def wfDb (t : EthTrie) : Prop :=
  ∀ h v, Db.get t.db h = some v →
    ∀ f n, decodeNode f v = some (.ok n) → wfN n = true

theorem wfDb_congr {t t' : EthTrie} (hdb : t.db = t'.db) (h : wfDb t) : wfDb t' :=
  fun hh v hv => h hh v (hdb ▸ hv)

theorem wfDb_empty {t : EthTrie} (h : t.db = []) : wfDb t := by
  intro hh v hv
  rw [h] at hv
  simp [Db.get] at hv

theorem termSfx_iff {p : Nibs} : termSfx p = true ↔
    p.getLast? = some 16 ∧ ∀ x ∈ p.dropLast, x < 16 := by
  simp [termSfx]

theorem termSfx_ne_nil {p : Nibs} (h : termSfx p = true) : p ≠ [] := by
  intro hp
  rw [hp] at h
  simp [termSfx] at h

/-- `from_raw` of in-range bytes yields a terminator path. -/
theorem fromRaw_termSfx {k : Bytes} (hk : ∀ b ∈ k, b < 256) :
    termSfx (Nibs.fromRaw k true) = true := by
  have hr : Nibs.fromRaw k true = (k.flatMap fun x => [x / 16, x % 16]) ++ [16] := by
    simp [Nibs.fromRaw]
  rw [hr, termSfx_iff]
  constructor
  · rw [List.getLast?_concat]
  · rw [List.dropLast_concat]
    simp only [List.mem_flatMap]
    rintro x ⟨b, hb, hx⟩
    have := hk b hb
    simp at hx
    rcases hx with rfl | rfl <;> omega

/-- `common_prefix p q = |q|` means `q` is a prefix of `p`. -/
theorem commonPre_full : ∀ (p q : Nibs), Nibs.commonPre p q = q.length →
    p.take q.length = q := by
  intro p q
  induction q generalizing p with
  | nil => intro _; simp
  | cons b bs ih =>
    intro h
    match p with
    | [] => simp [Nibs.commonPre] at h
    | a :: as =>
      rw [Nibs.commonPre] at h
      split at h
      · simp only [List.length_cons, Nat.add_right_cancel_iff] at h
        simp only [List.length_cons, List.take_succ_cons, List.cons.injEq]
        exact ⟨by omega, ih as h⟩
      · simp at h

theorem termSfx_drop_one {p : Nibs} (h : termSfx p = true)
    (hh : Nibs.nth p 0 ≠ 16) : termSfx (p.drop 1) = true := by
  rw [termSfx_iff] at h ⊢
  obtain ⟨hlast, hdrop⟩ := h
  match p with
  | [] => simp at hlast
  | [a] =>
    exfalso
    simp only [List.getLast?_singleton, Option.some.injEq] at hlast
    exact hh (by simp [Nibs.nth, hlast])
  | a :: b :: rest =>
    constructor
    · simpa using hlast
    · intro x hx
      apply hdrop
      simp only [List.dropLast_cons_of_ne_nil (List.cons_ne_nil b rest)]
      exact List.mem_cons_of_mem a hx

theorem termSfx_drop_pre {p pre : Nibs} (h : termSfx p = true)
    (hpre : pre.all (fun x => x < 16) = true)
    (hmatch : Nibs.commonPre p pre = pre.length) :
    termSfx (p.drop pre.length) = true := by
  have hp := commonPre_full p pre hmatch
  rw [termSfx_iff] at h ⊢
  obtain ⟨hlast, hdrop⟩ := h
  have hsplit : p = pre ++ p.drop pre.length := by
    conv_lhs => rw [← List.take_append_drop pre.length p, hp]
  have hrest : p.drop pre.length ≠ [] := by
    intro hr
    rw [hr, List.append_nil] at hsplit
    rw [hsplit] at hlast
    have h16 : (16 : Nat) ∈ pre := by
      rcases List.getLast?_eq_some_iff.mp hlast with ⟨ys, hys⟩
      rw [hys]
      simp
    simp only [List.all_eq_true, decide_eq_true_eq] at hpre
    have := hpre 16 h16
    omega
  constructor
  · rw [hsplit, List.getLast?_append_of_ne_nil _ hrest] at hlast
    exact hlast
  · intro x hx
    apply hdrop
    rw [hsplit, List.dropLast_append_of_ne_nil _ hrest]
    exact List.mem_append_right pre hx

/-! ## get depends only on root, store and root hash -/

theorem recoverFromDb_congr {t t' : EthTrie} (hdb : t.db = t'.db) (h : Bytes) :
    recoverFromDb t h = recoverFromDb t' h := by
  rw [recoverFromDb, recoverFromDb, hdb]

theorem getAt_result_congr (fuel : Nat) :
    ∀ (t t' : EthTrie) n path i, t.db = t'.db → t.rootHash = t'.rootHash →
      (getAt fuel t n path i).map (fun p => p.2) =
        (getAt fuel t' n path i).map (fun p => p.2) := by
  induction fuel with
  | zero => intro t t' n path i hdb hrh; simp [getAt]
  | succ f ih =>
    intro t t' n path i hdb hrh
    cases n with
    | empty => simp [getAt]
    | leaf k v => simp [getAt]
    | branch ch v =>
      by_cases hc : path.offset i = [] ∨ (path.offset i).nth 0 = 16
      · simp [getAt, if_pos hc]
      · simp only [getAt, if_neg hc]
        exact ih _ _ _ _ _ hdb hrh
    | ext pre sub =>
      by_cases hc : (path.offset i).commonPre pre = pre.length
      · simp only [getAt, if_pos hc]
        exact ih _ _ _ _ _ hdb hrh
      · simp [getAt, if_neg hc]
    | hash hh =>
      have hrec : recoverFromDb t hh = recoverFromDb t' hh :=
        recoverFromDb_congr hdb hh
      rw [getAt, getAt, hrec]
      cases hr : recoverFromDb t' hh with
      | none => rfl
      | some r =>
        cases r with
        | error e => rfl
        | ok o =>
          cases o with
          | none => simp [hrh]
          | some node => exact ih _ _ _ _ _ hdb hrh

theorem getOp_result_congr {t t' : EthTrie} (hroot : t.root = t'.root)
    (hdb : t.db = t'.db) (hrh : t.rootHash = t'.rootHash) (k : Bytes) (f : Nat) :
    (getOp t k f).map (fun p => p.2) = (getOp t' k f).map (fun p => p.2) := by
  rw [getOp, getOp, hroot]
  have hcg := getAt_result_congr f t t' t'.root (Nibs.fromRaw k true) 0 hdb hrh
  cases h1 : getAt f t t'.root (Nibs.fromRaw k true) 0 with
  | none =>
    cases h2 : getAt f t' t'.root (Nibs.fromRaw k true) 0 with
    | none => rfl
    | some q => rw [h1, h2] at hcg; simp at hcg
  | some p =>
    cases h2 : getAt f t' t'.root (Nibs.fromRaw k true) 0 with
    | none => rw [h1, h2] at hcg; simp at hcg
    | some q =>
      obtain ⟨t1, r1⟩ := p
      obtain ⟨t2, r2⟩ := q
      rw [h1, h2] at hcg
      simp at hcg
      rw [hcg]
      cases r2 <;> rfl

/-! ## C4: the deleted flag versus key presence -/

theorem wfL_get : ∀ {ch : NodeList}, wfL ch = true → ∀ i, wfN (ch.get i) = true
  | .nil, _, i => by cases i <;> rfl
  | .cons hd tl, h, 0 => by
    rw [wfL, Bool.and_eq_true] at h
    exact h.1
  | .cons hd tl, h, i + 1 => by
    rw [wfL, Bool.and_eq_true] at h
    exact wfL_get h.2 i

theorem recover_ok_some {t : EthTrie} {h : Bytes} {n : Node}
    (hr : recoverFromDb t h = some (.ok (some n))) :
    ∃ v, Db.get t.db h = some v ∧ decodeNode (2 * v.length + 2) v = some (.ok n) := by
  rw [recoverFromDb] at hr
  split at hr
  · exact absurd hr (by simp)
  · split at hr
    · exact absurd hr (by simp)
    · exact absurd hr (by simp)
    · cases hr
      exact ⟨_, by assumption, by assumption⟩

theorem deleteAt_hit_get (fuel : Nat) :
    ∀ t n path i t1 n1 b,
      wfN n = true → wfDb t → termSfx (path.drop i) = true →
      deleteAt fuel t n path i = some (t1, n1, b, none) →
      ∃ r, getAt fuel t n path i = some (t, .ok r) ∧ (b = false → r = none) := by
  induction fuel with
  | zero => intro t n path i t1 n1 b _ _ _ h; simp [deleteAt] at h
  | succ f ih =>
    intro t n path i t1 n1 b hwf hdb hts h
    cases n with
    | empty =>
      cases h
      exact ⟨none, by rw [getAt], fun _ => rfl⟩
    | leaf lk lv =>
      rw [deleteAt] at h
      split at h
      case isTrue heq =>
        cases h
        exact ⟨some lv, by rw [getAt]; rw [if_pos heq], by simp⟩
      case isFalse heq =>
        cases h
        exact ⟨none, by rw [getAt]; rw [if_neg heq], fun _ => rfl⟩
    | branch ch v =>
      rw [deleteAt] at h
      split at h
      case isTrue h16 =>
        refine ⟨v, by rw [getAt, if_pos (Or.inr h16)], ?_⟩
        intro hb
        exfalso
        rw [afterDelete] at h
        rw [if_pos rfl] at h
        split at h
        · exact absurd h (by simp)
        · cases h; simp at hb
        · cases h
      case isFalse h16 =>
        split at h
        · exact absurd h (by simp)
        · cases h
        · rename_i t2 child1 deleted hrec
          have hcwf : wfN (ch.get (Nibs.nth (path.offset i) 0)) = true :=
            wfL_get hwf _
          have hts1 : termSfx (path.drop (i + 1)) = true := by
            rw [← List.drop_drop]
            exact termSfx_drop_one hts h16
          -- align both states: deleteAt on t, afterDelete on t2
          rw [afterDelete] at h
          have hmain := ih t _ path (i + 1) _ _ _ hcwf hdb hts1 hrec
          obtain ⟨r, hget, himp⟩ := hmain
          refine ⟨r, ?_, ?_⟩
          · rw [getAt, if_neg ?_]
            · exact hget
            · rintro (hnil | hsix)
              · exact termSfx_ne_nil hts hnil
              · exact h16 hsix
          · intro hb
            apply himp
            -- when the outer flag is false the recursion's flag is false
            split at h
            · split at h
              · exact absurd h (by simp)
              · cases h; simp at hb
              · cases h
            · rename_i hdel
              simpa using hdel
    | ext pre sub =>
      rw [deleteAt] at h
      rw [wfN, Bool.and_eq_true, Bool.and_eq_true] at hwf
      obtain ⟨⟨hpne, hplain⟩, hsub⟩ := hwf
      split at h
      case isTrue hml =>
        split at h
        · exact absurd h (by simp)
        · cases h
        · rename_i t2 sub1 deleted hrec
          have hts1 : termSfx (path.drop (i + (path.offset i).commonPre pre)) = true := by
            rw [← List.drop_drop, hml]
            exact termSfx_drop_pre hts hplain hml
          rw [afterDelete] at h
          have hmain := ih t _ path _ _ _ _ hsub hdb hts1 hrec
          obtain ⟨r, hget, himp⟩ := hmain
          refine ⟨r, ?_, ?_⟩
          · rw [getAt, if_pos hml]
            exact hget
          · intro hb
            apply himp
            split at h
            · split at h
              · exact absurd h (by simp)
              · cases h; simp at hb
              · cases h
            · rename_i hdel
              simpa using hdel
      case isFalse hml =>
        cases h
        exact ⟨none, by rw [getAt]; rw [if_neg hml], fun _ => rfl⟩
    | hash hh =>
      rw [deleteAt] at h
      split at h
      · exact absurd h (by simp)
      · cases h
      · cases h
      · rename_i node heq
        have hdb' : t.db =
            ({ t with passingKeys := keyInsert t.passingKeys hh } : EthTrie).db := rfl
        have hrecT : recoverFromDb t hh = some (.ok (some node)) :=
          (recoverFromDb_congr hdb' hh).trans heq
        obtain ⟨v, hv, hdec⟩ := recover_ok_some hrecT
        have hnwf : wfN node = true := hdb hh v hv _ node hdec
        have hmain := ih { t with passingKeys := keyInsert t.passingKeys hh }
          node path i _ _ _ hnwf (wfDb_congr hdb' hdb) hts h
        obtain ⟨r, hget, himp⟩ := hmain
        have hcg := getAt_result_congr f
          { t with passingKeys := keyInsert t.passingKeys hh } t node path i rfl rfl
        rw [hget] at hcg
        refine ⟨r, ?_, himp⟩
        have hfinal : getAt f t node path i = some (t, Except.ok r) := by
          cases hg : getAt f t node path i with
          | none => rw [hg] at hcg; simp at hcg
          | some q =>
            obtain ⟨s2, rr⟩ := q
            rw [hg] at hcg
            have hs2 := getAt_state f _ _ _ _ _ _ hg
            have hrr : rr = .ok r := by simpa using hcg.symm
            rw [hrr, hs2]
        rw [getAt, hrecT]
        exact hfinal

/-- A three-key trie built by inserts, after one successful `remove [97]`:
the branch at the end of key `[97]` keeps two children, so its cleared value
slot survives, and a second remove of the same absent key hits it again. -/
def c4Trie : Option EthTrie :=
  (insertList (newTrie specKec []) [([97], [5]), ([97, 33], [6]), ([97, 65], [7])]
    20).bind (fun t => (removeOp t [97] 20).map Prod.fst)

/-- C4 is false as stated: on the trie above (key `[97]` already removed, so
`get` returns `None`), `remove [97]` returns `Ok(true)` — `delete_at` sets a
Branch's value slot to `None` and reports `deleted = true` without checking
that a value was present. -/
theorem claim_C4_counterexample :
    (c4Trie.map (fun t => (getOp t [97] 20).map (fun p => p.2))) =
      some (some (.ok none)) ∧
    (c4Trie.map (fun t => (removeOp t [97] 20).map (fun p => p.2))) =
      some (some (.ok true)) :=
  ⟨rfl, rfl⟩

/-- C4 amended: on well-formed states, when `remove(k)` succeeds, `get(k)`
also succeeds; if the key was present the result is `Ok(true)`, and
`Ok(false)` implies the key was absent.  (`Ok(true)` does NOT imply
presence: a walk that ends at a surviving branch's terminator slot reports
`true` even when that slot was already empty, as the counterexample
shows.) -/
theorem claim_C4_remove_flag (t : EthTrie) (k : Bytes) (fuel : Nat)
    (t1 : EthTrie) (b : Bool)
    (hwf : wfN t.root = true) (hdb : wfDb t) (hk : ∀ x ∈ k, x < 256)
    (h : removeOp t k fuel = some (t1, .ok b)) :
    ∃ r, getOp t k fuel = some (t, .ok r) ∧
      (r.isSome = true → b = true) ∧ (b = false → r = none) := by
  rw [removeOp] at h
  split at h
  · exact absurd h (by simp)
  · cases h
    rename_i hdel
    have hts : termSfx ((Nibs.fromRaw k true).drop 0) = true := by
      rw [List.drop_zero]
      exact fromRaw_termSfx hk
    obtain ⟨r, hget, himp⟩ := deleteAt_hit_get fuel t t.root _ 0 _ _ _ hwf hdb hts hdel
    refine ⟨r, ?_, ?_, himp⟩
    · rw [getOp, hget]
    · intro hs
      cases hb : b with
      | true => rfl
      | false => rw [himp hb] at hs; simp at hs
  · cases h

/-- A one-leaf trie for the C4 witness. -/
def c4W : EthTrie :=
  { root := .leaf [6, 1, 16] [5], rootHash := [0], db := [],
    cache := [], passingKeys := [], genKeys := [] }

/-- Witness for the amended C4: removing the only key of a leaf trie. -/
theorem claim_C4_remove_flag_witness :
    ∃ r, getOp c4W [97] 3 = some (c4W, .ok r) ∧
      (r.isSome = true → true = true) ∧ (true = false → r = none) :=
  claim_C4_remove_flag c4W [97] 3 { c4W with root := .empty } true
    (by rfl) (wfDb_empty rfl) (by decide) (by rfl)

/-! ## C5: out-of-band deletion of a stored node

`corruptDb t h` deletes the store entry at `h` behind the trie's back.  The
lemmas below couple a successful walk on the intact store with the same walk
on the corrupted store: either the walk never needs `h` and produces the
same answer, or it fails with a `MissingTrieNode` carrying exactly `h`. -/

/-- Out-of-band deletion of one store entry. -/
def corruptDb (t : EthTrie) (h : Bytes) : EthTrie :=
  { t with db := Db.remove t.db h }

theorem dbGet_remove (d : Db) (k x : Bytes) :
    Db.get (Db.remove d k) x = if x = k then none else Db.get d x := by
  induction d with
  | nil => simp [Db.get, Db.remove]
  | cons p rest ih =>
    obtain ⟨pk, pv⟩ := p
    by_cases hpk : pk = k <;> by_cases hxp : pk = x <;>
      simp_all [Db.get, Db.remove, List.filter_cons, List.find?_cons]

theorem recoverFromDb_corrupt_ne {t : EthTrie} {hh h' : Bytes} (hne : h' ≠ hh) :
    recoverFromDb (corruptDb t hh) h' = recoverFromDb t h' := by
  rw [recoverFromDb, recoverFromDb]
  simp only [corruptDb]
  rw [dbGet_remove, if_neg hne]

theorem recoverFromDb_corrupt_self (t : EthTrie) (hh : Bytes) :
    recoverFromDb (corruptDb t hh) hh = some (.ok none) := by
  rw [recoverFromDb]
  simp only [corruptDb]
  rw [dbGet_remove, if_pos rfl]

theorem getAt_corrupt (fuel : Nat) :
    ∀ t (hh : Bytes) n path i t1 r,
      getAt fuel t n path i = some (t1, .ok r) →
      getAt fuel (corruptDb t hh) n path i = some (corruptDb t hh, .ok r) ∨
      ∃ tr, getAt fuel (corruptDb t hh) n path i =
        some (corruptDb t hh, .error (.missingTrieNode hh tr (some t.rootHash) none)) := by
  induction fuel with
  | zero => intro t hh n path i t1 r h; simp [getAt] at h
  | succ f ih =>
    intro t hh n path i t1 r h
    cases n with
    | empty => cases h; exact Or.inl rfl
    | leaf k v => cases h; exact Or.inl rfl
    | branch ch v =>
      rw [getAt] at h
      rw [getAt]
      split at h
      · cases h; rw [if_pos (by assumption)]; exact Or.inl rfl
      · rw [if_neg (by assumption)]
        exact ih t hh _ path (i + 1) t1 r h
    | ext pre sub =>
      rw [getAt] at h
      rw [getAt]
      split at h
      · rw [if_pos (by assumption)]
        exact ih t hh _ path _ t1 r h
      · cases h; rw [if_neg (by assumption)]; exact Or.inl rfl
    | hash h' =>
      by_cases hne : h' = hh
      · subst hne
        right
        refine ⟨some (path.slice 0 i), ?_⟩
        rw [getAt, recoverFromDb_corrupt_self]
        rfl
      · rw [getAt] at h
        rw [getAt, recoverFromDb_corrupt_ne hne]
        split at h
        · exact absurd h (by simp)
        · cases h
        · cases h
        · exact ih t hh _ path i t1 r h

theorem recover_pass_corrupt_ne {t : EthTrie} {hh h' : Bytes} (X : List Bytes)
    (hne : h' ≠ hh) :
    recoverFromDb { corruptDb t hh with passingKeys := X } h' =
      recoverFromDb { t with passingKeys := X } h' :=
  (@recoverFromDb_congr _ (corruptDb { t with passingKeys := X } hh) rfl h').trans
    (recoverFromDb_corrupt_ne hne)

theorem recover_pass_corrupt_self (t : EthTrie) (hh : Bytes) (X : List Bytes) :
    recoverFromDb { corruptDb t hh with passingKeys := X } hh = some (.ok none) :=
  (@recoverFromDb_congr _ (corruptDb { t with passingKeys := X } hh) rfl hh).trans
    (recoverFromDb_corrupt_self { t with passingKeys := X } hh)

theorem insertAt_corrupt (fuel : Nat) :
    ∀ t (hh : Bytes) n path i v t1 nn,
      insertAt fuel t n path i v = some (t1, .ok nn) →
      insertAt fuel (corruptDb t hh) n path i v = some (corruptDb t1 hh, .ok nn) ∨
      ∃ t2 tr, insertAt fuel (corruptDb t hh) n path i v =
        some (t2, .error (.missingTrieNode hh tr (some t.rootHash) none)) := by
  induction fuel with
  | zero => intro t hh n path i v t1 nn h; simp [insertAt] at h
  | succ f ih =>
    intro t hh n path i v t1 nn h
    cases n with
    | empty => cases h; exact Or.inl rfl
    | leaf lk lv =>
      rw [insertAt] at h
      rw [insertAt]
      split at h
      · cases h; rw [if_pos (by assumption)]; exact Or.inl rfl
      · rw [if_neg (by assumption)]
        split at h
        · cases h; rw [if_pos (by assumption)]; exact Or.inl rfl
        · cases h; rw [if_neg (by assumption)]; exact Or.inl rfl
    | branch ch v0 =>
      rw [insertAt] at h
      rw [insertAt]
      split at h
      · cases h; rw [if_pos (by assumption)]; exact Or.inl rfl
      · rw [if_neg (by assumption)]
        split at h
        · exact absurd h (by simp)
        · cases h
        · cases h
          rcases ih t hh _ path (i + 1) v _ _ (by assumption) with hL | ⟨t2, tr, hR⟩
          · rw [hL]; exact Or.inl rfl
          · rw [hR]; exact Or.inr ⟨t2, tr, rfl⟩
    | ext pre sub =>
      rw [insertAt] at h
      rw [insertAt]
      split at h
      · rw [if_pos (by assumption)]
        exact ih t hh _ path i v t1 nn h
      · rw [if_neg (by assumption)]
        split at h
        · rw [if_pos (by assumption)]
          split at h
          · exact absurd h (by simp)
          · cases h
          · cases h
            rcases ih t hh _ path _ v _ _ (by assumption) with hL | ⟨t2, tr, hR⟩
            · rw [hL]; exact Or.inl rfl
            · rw [hR]; exact Or.inr ⟨t2, tr, rfl⟩
        · rw [if_neg (by assumption)]
          split at h
          · exact absurd h (by simp)
          · cases h
          · cases h
            rcases ih t hh _ path _ v _ _ (by assumption) with hL | ⟨t2, tr, hR⟩
            · rw [hL]; exact Or.inl rfl
            · rw [hR]; exact Or.inr ⟨t2, tr, rfl⟩
    | hash h' =>
      by_cases hne : h' = hh
      · subst hne
        right
        refine ⟨{ corruptDb t h' with
            passingKeys := keyInsert (corruptDb t h').passingKeys h' },
          some (path.slice 0 i), ?_⟩
        rw [insertAt]
        rw [recover_pass_corrupt_self t h' (keyInsert (corruptDb t h').passingKeys h')]
        rfl
      · rw [insertAt] at h
        rw [insertAt]
        rw [recover_pass_corrupt_ne (keyInsert (corruptDb t hh).passingKeys h') hne]
        split at h
        · exact absurd h (by simp)
        · cases h
        · cases h
        · rename_i node heq
          have heq2 : recoverFromDb
              { t with passingKeys := keyInsert (corruptDb t hh).passingKeys h' } h' =
              some (.ok (some node)) := heq
          rw [heq2]
          have h5 := ih { t with passingKeys := keyInsert t.passingKeys h' } hh
            node path i v t1 nn h
          rcases h5 with h5 | ⟨t2, tr, h5⟩
          · left
            exact h5
          · right
            exact ⟨t2, tr, h5⟩

theorem degenerate_corrupt (fuel : Nat) :
    ∀ t (hh : Bytes) n t1 n1,
      degenerate fuel t n = some (t1, .ok n1) →
      degenerate fuel (corruptDb t hh) n = some (corruptDb t1 hh, .ok n1) ∨
      ∃ t2 tr, degenerate fuel (corruptDb t hh) n =
        some (t2, .error (.missingTrieNode hh tr (some t.rootHash) none)) := by
  induction fuel with
  | zero => intro t hh n t1 n1 h; simp [degenerate] at h
  | succ f ih =>
    intro t hh n t1 n1 h
    cases n with
    | empty => cases h; exact Or.inl rfl
    | leaf lk lv => cases h; exact Or.inl rfl
    | hash h' => cases h; exact Or.inl rfl
    | branch ch v =>
      rw [degenerate] at h
      rw [degenerate]
      split at h
      · cases h; rw [if_pos (by assumption)]; exact Or.inl rfl
      · rename_i h1
        split at h
        · rw [if_neg h1, if_pos (by assumption)]
          exact ih t hh _ t1 n1 h
        · cases h; rw [if_neg h1, if_neg (by assumption)]; exact Or.inl rfl
    | ext pre sub =>
      cases sub with
      | ext spre ssub => cases h; exact Or.inl rfl
      | leaf lk lv => cases h; exact Or.inl rfl
      | empty => cases h; exact Or.inl rfl
      | branch bch bv => cases h; exact Or.inl rfl
      | hash h' =>
        rw [degenerate] at h
        rw [degenerate]
        by_cases hne : h' = hh
        · subst hne
          right
          refine ⟨{ corruptDb t h' with
              passingKeys := keyInsert (corruptDb t h').passingKeys h' }, none, ?_⟩
          rw [recover_pass_corrupt_self t h' (keyInsert (corruptDb t h').passingKeys h')]
          rfl
        · rw [recover_pass_corrupt_ne (keyInsert (corruptDb t hh).passingKeys h') hne]
          split at h
          · exact absurd h (by simp)
          · cases h
          · cases h
          · rename_i node heq
            have heq2 : recoverFromDb
                { t with passingKeys := keyInsert (corruptDb t hh).passingKeys h' } h' =
                some (.ok (some node)) := heq
            rw [heq2]
            have h5 := ih { t with passingKeys := keyInsert t.passingKeys h' } hh
              (Node.fromExt pre node) t1 n1 h
            rcases h5 with h5 | ⟨t2, tr, h5⟩
            · left
              exact h5
            · right
              exact ⟨t2, tr, h5⟩

theorem afterDelete_corrupt (f : Nat) (t : EthTrie) (hh : Bytes) (n : Node)
    (d : Bool) (t1 : EthTrie) (n1 : Node) (d1 : Bool)
    (h : afterDelete f t n d = some (t1, n1, d1, none)) :
    afterDelete f (corruptDb t hh) n d = some (corruptDb t1 hh, n1, d1, none) ∨
    ∃ t2 n2 d2 tr, afterDelete f (corruptDb t hh) n d =
      some (t2, n2, d2, some (.missingTrieNode hh tr (some t.rootHash) none)) := by
  cases d with
  | false =>
    rw [afterDelete] at h
    rw [if_neg (by simp)] at h
    cases h
    rw [afterDelete, if_neg (by simp)]
    exact Or.inl rfl
  | true =>
    rw [afterDelete] at h
    rw [if_pos rfl] at h
    rw [afterDelete, if_pos rfl]
    split at h
    · exact absurd h (by simp)
    · rename_i t' n' heq
      cases h
      rcases degenerate_corrupt f t hh n t1 n1 heq with h5 | ⟨t2, tr, h5⟩
      · left
        rw [h5]
      · right
        refine ⟨t2, n, true, tr, ?_⟩
        rw [h5]
    · cases h

theorem deleteAt_corrupt (fuel : Nat) :
    ∀ t (hh : Bytes) n path i t1 n1 d1,
      deleteAt fuel t n path i = some (t1, n1, d1, none) →
      deleteAt fuel (corruptDb t hh) n path i = some (corruptDb t1 hh, n1, d1, none) ∨
      ∃ t2 n2 d2 tr, deleteAt fuel (corruptDb t hh) n path i =
        some (t2, n2, d2, some (.missingTrieNode hh tr (some t.rootHash) none)) := by
  induction fuel with
  | zero => intro t hh n path i t1 n1 d1 h; simp [deleteAt] at h
  | succ f ih =>
    intro t hh n path i t1 n1 d1 h
    cases n with
    | empty => cases h; exact Or.inl rfl
    | leaf lk lv =>
      rw [deleteAt] at h
      rw [deleteAt]
      split at h
      · cases h; rw [if_pos (by assumption)]; exact Or.inl rfl
      · cases h; rw [if_neg (by assumption)]; exact Or.inl rfl
    | branch ch v =>
      rw [deleteAt] at h
      rw [deleteAt]
      split at h
      · rw [if_pos (by assumption)]
        exact afterDelete_corrupt f t hh _ _ t1 n1 d1 h
      · rw [if_neg (by assumption)]
        split at h
        · exact absurd h (by simp)
        · cases h
        · rename_i t' child1 deleted heq
          have hflds := deleteAt_fields f t _ path (i + 1) t' child1 deleted none heq
          rcases ih t hh _ path (i + 1) t' child1 deleted heq with h5 | ⟨t2, n2, d2, tr, h5⟩
          · rw [h5]
            rcases afterDelete_corrupt f t' hh _ deleted t1 n1 d1 h with
              h6 | ⟨t2, n2, d2, tr, h6⟩
            · left
              exact h6
            · right
              refine ⟨t2, n2, d2, tr, ?_⟩
              rw [hflds.2.1] at h6
              exact h6
          · rw [h5]
            right
            exact ⟨t2, .branch (ch.set ((path.offset i).nth 0) n2) v, false, tr, rfl⟩
    | ext pre sub =>
      rw [deleteAt] at h
      rw [deleteAt]
      split at h
      · rw [if_pos (by assumption)]
        split at h
        · exact absurd h (by simp)
        · cases h
        · rename_i t' sub1 deleted heq
          have hflds := deleteAt_fields f t _ path _ t' sub1 deleted none heq
          rcases ih t hh _ path _ t' sub1 deleted heq with h5 | ⟨t2, n2, d2, tr, h5⟩
          · rw [h5]
            rcases afterDelete_corrupt f t' hh _ deleted t1 n1 d1 h with
              h6 | ⟨t2, n2, d2, tr, h6⟩
            · left
              exact h6
            · right
              refine ⟨t2, n2, d2, tr, ?_⟩
              rw [hflds.2.1] at h6
              exact h6
          · rw [h5]
            right
            exact ⟨t2, .ext pre n2, false, tr, rfl⟩
      · cases h; rw [if_neg (by assumption)]; exact Or.inl rfl
    | hash h' =>
      by_cases hne : h' = hh
      · subst hne
        right
        refine ⟨{ corruptDb t h' with
            passingKeys := keyInsert (corruptDb t h').passingKeys h' },
          .hash h', false, some (path.slice 0 i), ?_⟩
        rw [deleteAt]
        rw [recover_pass_corrupt_self t h' (keyInsert (corruptDb t h').passingKeys h')]
        rfl
      · rw [deleteAt] at h
        rw [deleteAt]
        rw [recover_pass_corrupt_ne (keyInsert (corruptDb t hh).passingKeys h') hne]
        split at h
        · exact absurd h (by simp)
        · cases h
        · cases h
        · rename_i node heq
          have heq2 : recoverFromDb
              { t with passingKeys := keyInsert (corruptDb t hh).passingKeys h' } h' =
              some (.ok (some node)) := heq
          rw [heq2]
          have h5 := ih { t with passingKeys := keyInsert t.passingKeys h' } hh
            node path i t1 n1 d1 h
          rcases h5 with h5 | ⟨t2, n2, d2, tr, h5⟩
          · left
            exact h5
          · right
            exact ⟨t2, n2, d2, tr, h5⟩

theorem getPathAt_corrupt (fuel : Nat) :
    ∀ t (hh : Bytes) n path i t1 r,
      getPathAt fuel t n path i = some (t1, .ok r) →
      getPathAt fuel (corruptDb t hh) n path i = some (corruptDb t1 hh, .ok r) ∨
      ∃ t2 tr, getPathAt fuel (corruptDb t hh) n path i =
        some (t2, .error (.missingTrieNode hh tr (some t.rootHash) none)) := by
  induction fuel with
  | zero => intro t hh n path i t1 r h; simp [getPathAt] at h
  | succ f ih =>
    intro t hh n path i t1 r h
    cases n with
    | empty => cases h; exact Or.inl rfl
    | leaf lk lv => cases h; exact Or.inl rfl
    | branch ch v =>
      rw [getPathAt] at h
      rw [getPathAt]
      split at h
      · cases h; rw [if_pos (by assumption)]; exact Or.inl rfl
      · rw [if_neg (by assumption)]
        exact ih t hh _ path (i + 1) t1 r h
    | ext pre sub =>
      rw [getPathAt] at h
      rw [getPathAt]
      split at h
      · rw [if_pos (by assumption)]
        exact ih t hh _ path _ t1 r h
      · cases h; rw [if_neg (by assumption)]; exact Or.inl rfl
    | hash h' =>
      by_cases hne : h' = hh
      · subst hne
        right
        refine ⟨corruptDb t h', none, ?_⟩
        rw [getPathAt, recoverFromDb_corrupt_self]
        rfl
      · rw [getPathAt] at h
        rw [getPathAt, recoverFromDb_corrupt_ne hne]
        split at h
        · exact absurd h (by simp)
        · cases h
        · cases h
        · rename_i node heq
          split at h
          · exact absurd h (by simp)
          · cases h
          · rename_i t' rest heq2
            rcases ih t hh node path i t' rest heq2 with h5 | ⟨t2, tr, h5⟩
            · rw [h5]
              cases h
              exact Or.inl rfl
            · rw [h5]
              right
              exact ⟨t2, tr, rfl⟩

/-! ## C10: failed mutations

A failed `insert` leaves the observable trie untouched.  A failed `remove`
keeps the root-hash field and the store, but the interior writes performed
before the failing `degenerate` step persist in the shared node graph, so
the key-to-value mapping can change — the claim as stated is refuted by
`c10Trie` below. -/

/-- A committed-shape trie: a branch root holding an inline leaf for key
`[97]` and a hash child whose store entry is gone (deleted out-of-band). -/
def c10Trie : EthTrie :=
  { root := .branch ((emptyChildren.set 6 (.leaf [1, 16] [5])).set 3 (.hash [9])) none,
    rootHash := [0], db := [], cache := [], passingKeys := [], genKeys := [] }

/-- The state `remove [97]` leaves behind: the leaf child was already
cleared in place when the degenerate rewrite failed on the dangling hash. -/
def c10Damaged : EthTrie :=
  { root := .branch ((emptyChildren.set 6 .empty).set 3 (.hash [9])) none,
    rootHash := [0], db := [], cache := [], passingKeys := [[9]], genKeys := [] }

/-- C10 is false as stated: on `c10Trie`, `get [97]` returns `Some [5]`;
`remove [97]` fails with a `MissingTrieNode` (raised while `degenerate`
hydrates the dangling hash child, after the leaf was already deleted from
the shared branch body), and afterwards `get [97]` returns `None`: the
mapping changed although the operation returned an error. -/
theorem claim_C10_counterexample :
    (getOp c10Trie [97] 5).map (fun p => p.2) = some (.ok (some [5])) ∧
    removeOp c10Trie [97] 5 =
      some (c10Damaged, .error (.missingTrieNode [9] none (some [0]) (some [97]))) ∧
    (getOp c10Damaged [97] 5).map (fun p => p.2) = some (.ok none) :=
  ⟨rfl, rfl, rfl⟩

/-- C10 amended: when `insert(k, v)` (with the non-delegating, nonempty `v`)
returns an error, the root node, root hash and store are unchanged and every
subsequent `get` returns what it returned before; when `remove(k)` returns
an error, the root-hash field, store, cache and gen-keys are unchanged (the
in-memory mapping, however, may differ, as the counterexample shows). -/
theorem claim_C10_failed_mutation_state :
    (∀ (t : EthTrie) (k v : Bytes) (fuel : Nat) t1 e, v ≠ [] →
      insertOp t k v fuel = some (t1, .error e) →
        t1.root = t.root ∧ t1.rootHash = t.rootHash ∧ t1.db = t.db ∧
        ∀ (k2 : Bytes) (f2 : Nat),
          (getOp t1 k2 f2).map (fun p => p.2) =
            (getOp t k2 f2).map (fun p => p.2)) ∧
    (∀ (t : EthTrie) (k : Bytes) (fuel : Nat) t1 e,
      removeOp t k fuel = some (t1, .error e) →
        t1.rootHash = t.rootHash ∧ t1.db = t.db ∧ t1.cache = t.cache ∧
          t1.genKeys = t.genKeys) := by
  constructor
  · intro t k v fuel t1 e hv h
    rw [insertOp, if_neg hv] at h
    split at h
    · exact absurd h (by simp)
    · cases h
      have hf := insertAt_fields fuel _ _ _ _ _ _ _ (by assumption)
      exact ⟨hf.1, hf.2.1, hf.2.2.1, fun k2 f2 =>
        getOp_result_congr hf.1 hf.2.2.1 hf.2.1 k2 f2⟩
    · exact absurd h (by simp)
  · intro t k fuel t1 e h
    rw [removeOp] at h
    split at h
    · exact absurd h (by simp)
    · exact absurd h (by simp)
    · cases h
      have hf := deleteAt_fields fuel _ _ _ _ _ _ _ _ (by assumption)
      exact ⟨hf.2.1, hf.2.2.1, hf.2.2.2.1, hf.2.2.2.2⟩

/-- Witness for the amended C10 at a concrete input: an insert walking into
a dangling root hash fails and observably changes nothing. -/
theorem claim_C10_failed_mutation_state_witness :
    ({ c10Trie with passingKeys := [[9]], root := Node.hash [9] } :
        EthTrie).root = ({ c10Trie with root := Node.hash [9] } : EthTrie).root ∧
    ({ c10Trie with passingKeys := [[9]], root := Node.hash [9] } :
        EthTrie).rootHash = ({ c10Trie with root := Node.hash [9] } : EthTrie).rootHash ∧
    ({ c10Trie with passingKeys := [[9]], root := Node.hash [9] } :
        EthTrie).db = ({ c10Trie with root := Node.hash [9] } : EthTrie).db ∧
    ∀ (k2 : Bytes) (f2 : Nat),
      (getOp ({ c10Trie with passingKeys := [[9]], root := Node.hash [9] } : EthTrie)
          k2 f2).map (fun p => p.2) =
        (getOp ({ c10Trie with root := Node.hash [9] } : EthTrie) k2 f2).map
          (fun p => p.2) :=
  claim_C10_failed_mutation_state.1
    ({ c10Trie with root := Node.hash [9] } : EthTrie) [97] [5] 3 _
    (.missingTrieNode [9] (some []) (some [0]) (some [97]))
    (by simp) (by rfl)

/-- Witness for C9 at a concrete input: a `get` on a singleton trie. -/
theorem claim_C9_get_walk_frame_witness :
    (newTrie specKec []).cache = (newTrie specKec []).cache ∧
    (newTrie specKec []).passingKeys = (newTrie specKec []).passingKeys ∧
    (newTrie specKec []).genKeys = (newTrie specKec []).genKeys :=
  claim_C9_get_walk_frame.2 (newTrie specKec []) [1] 5 (newTrie specKec [])
    (.ok none) (by rfl)

/-- `cachePut` only touches the cache and the gen keys, so it commutes with
an out-of-band store deletion. -/
theorem cachePut_corrupt (kec : Kec) (t1 : EthTrie) (hh : Bytes) (d : Bytes) :
    cachePut kec (corruptDb t1 hh) d =
      (corruptDb (cachePut kec t1 d).1 hh, (cachePut kec t1 d).2) := rfl

mutual

/-- `encode_raw` never reads or writes the backing store: deleting a store
entry out-of-band commutes with it. -/
theorem encodeRaw_corrupt (kec : Kec) (t : EthTrie) (hh : Bytes) (n : Node) :
    encodeRaw kec (corruptDb t hh) n =
      (encodeRaw kec t n).map (fun p => (corruptDb p.1 hh, p.2)) := by
  cases n with
  | empty => rfl
  | leaf k v => rfl
  | hash h => rfl
  | branch ch v =>
    have hstep : ∀ s, encodeRaw kec s (.branch ch v) =
        match encodeChildren kec s ch with
        | none => none
        | some (t1, L) =>
          some (t1, rlpListWrap (L ++
            (match v with | some vv => rlpStr vv | none => [0x80]))) := fun s => rfl
    rw [hstep, hstep, encodeChildren_corrupt kec t hh ch]
    cases hx : encodeChildren kec t ch with
    | none => rfl
    | some p =>
      obtain ⟨t1, L⟩ := p
      rfl
  | ext pre sub =>
    cases sub with
    | hash h => rfl
    | empty =>
      have hstep : ∀ s, encodeRaw kec s (.ext pre (.empty : Node)) =
          match encodeRaw kec s (.empty : Node) with
          | none => none
          | some (t1, d) =>
            if d.length < 32 then
              some (t1, rlpListWrap (rlpStr (Nibs.encodeCompact pre) ++ d))
            else
              some ((cachePut kec t1 d).1,
                rlpListWrap (rlpStr (Nibs.encodeCompact pre) ++
                  rlpStr (cachePut kec t1 d).2)) := fun s => rfl
      rw [hstep, hstep, encodeRaw_corrupt kec t hh (.empty : Node)]
      cases hx : encodeRaw kec t (.empty : Node) with
      | none => rfl
      | some p =>
        obtain ⟨t1, d⟩ := p
        by_cases hl : d.length < 32
        · simp only [Option.map, if_pos hl]
          all_goals rfl
        · simp only [Option.map, if_neg hl]
          all_goals rfl
    | leaf lk lv =>
      have hstep : ∀ s, encodeRaw kec s (.ext pre (Node.leaf lk lv)) =
          match encodeRaw kec s (Node.leaf lk lv) with
          | none => none
          | some (t1, d) =>
            if d.length < 32 then
              some (t1, rlpListWrap (rlpStr (Nibs.encodeCompact pre) ++ d))
            else
              some ((cachePut kec t1 d).1,
                rlpListWrap (rlpStr (Nibs.encodeCompact pre) ++
                  rlpStr (cachePut kec t1 d).2)) := fun s => rfl
      rw [hstep, hstep, encodeRaw_corrupt kec t hh (Node.leaf lk lv)]
      cases hx : encodeRaw kec t (Node.leaf lk lv) with
      | none => rfl
      | some p =>
        obtain ⟨t1, d⟩ := p
        by_cases hl : d.length < 32
        · simp only [Option.map, if_pos hl]
          all_goals rfl
        · simp only [Option.map, if_neg hl]
          all_goals rfl
    | branch bch bv =>
      have hstep : ∀ s, encodeRaw kec s (.ext pre (Node.branch bch bv)) =
          match encodeRaw kec s (Node.branch bch bv) with
          | none => none
          | some (t1, d) =>
            if d.length < 32 then
              some (t1, rlpListWrap (rlpStr (Nibs.encodeCompact pre) ++ d))
            else
              some ((cachePut kec t1 d).1,
                rlpListWrap (rlpStr (Nibs.encodeCompact pre) ++
                  rlpStr (cachePut kec t1 d).2)) := fun s => rfl
      rw [hstep, hstep, encodeRaw_corrupt kec t hh (Node.branch bch bv)]
      cases hx : encodeRaw kec t (Node.branch bch bv) with
      | none => rfl
      | some p =>
        obtain ⟨t1, d⟩ := p
        by_cases hl : d.length < 32
        · simp only [Option.map, if_pos hl]
          all_goals rfl
        · simp only [Option.map, if_neg hl]
          all_goals rfl
    | ext spre ssub =>
      have hstep : ∀ s, encodeRaw kec s (.ext pre (Node.ext spre ssub)) =
          match encodeRaw kec s (Node.ext spre ssub) with
          | none => none
          | some (t1, d) =>
            if d.length < 32 then
              some (t1, rlpListWrap (rlpStr (Nibs.encodeCompact pre) ++ d))
            else
              some ((cachePut kec t1 d).1,
                rlpListWrap (rlpStr (Nibs.encodeCompact pre) ++
                  rlpStr (cachePut kec t1 d).2)) := fun s => rfl
      rw [hstep, hstep, encodeRaw_corrupt kec t hh (Node.ext spre ssub)]
      cases hx : encodeRaw kec t (Node.ext spre ssub) with
      | none => rfl
      | some p =>
        obtain ⟨t1, d⟩ := p
        by_cases hl : d.length < 32
        · simp only [Option.map, if_pos hl]
          all_goals rfl
        · simp only [Option.map, if_neg hl]
          all_goals rfl

/-- The children loop of `encode_raw` never touches the backing store. -/
theorem encodeChildren_corrupt (kec : Kec) (t : EthTrie) (hh : Bytes) (l : NodeList) :
    encodeChildren kec (corruptDb t hh) l =
      (encodeChildren kec t l).map (fun p => (corruptDb p.1 hh, p.2)) := by
  cases l with
  | nil => rfl
  | cons hd tl =>
    cases hd with
    | hash h =>
      have hstep : ∀ s, encodeChildren kec s (.cons (.hash h) tl) =
          match encodeChildren kec s tl with
          | none => none
          | some (t1, rest) => some (t1, rlpStr h ++ rest) := fun s => rfl
      rw [hstep, hstep, encodeChildren_corrupt kec t hh tl]
      cases hx : encodeChildren kec t tl with
      | none => rfl
      | some p =>
        obtain ⟨t1, rest⟩ := p
        rfl
    | empty =>
      have hstep : ∀ s, encodeChildren kec s (.cons (.empty : Node) tl) =
          match encodeRaw kec s (.empty : Node) with
          | none => none
          | some (t1, d) =>
            if d.length < 32 then
              match encodeChildren kec t1 tl with
              | none => none
              | some (t2, rest) => some (t2, d ++ rest)
            else
              match encodeChildren kec (cachePut kec t1 d).1 tl with
              | none => none
              | some (t3, rest) =>
                some (t3, rlpStr (cachePut kec t1 d).2 ++ rest) := fun s => rfl
      rw [hstep, hstep, encodeRaw_corrupt kec t hh (.empty : Node)]
      cases hx : encodeRaw kec t (.empty : Node) with
      | none => rfl
      | some p =>
        obtain ⟨t1, d⟩ := p
        by_cases hl : d.length < 32
        · simp only [Option.map, if_pos hl]
          rw [encodeChildren_corrupt kec t1 hh tl]
          cases hy : encodeChildren kec t1 tl with
          | none => rfl
          | some q =>
            obtain ⟨t2, rest⟩ := q
            rfl
        · simp only [Option.map, if_neg hl]
          rw [cachePut_corrupt kec t1 hh d,
            encodeChildren_corrupt kec (cachePut kec t1 d).1 hh tl]
          cases hy : encodeChildren kec (cachePut kec t1 d).1 tl with
          | none => rfl
          | some q =>
            obtain ⟨t2, rest⟩ := q
            rfl
    | leaf lk lv =>
      have hstep : ∀ s, encodeChildren kec s (.cons (Node.leaf lk lv) tl) =
          match encodeRaw kec s (Node.leaf lk lv) with
          | none => none
          | some (t1, d) =>
            if d.length < 32 then
              match encodeChildren kec t1 tl with
              | none => none
              | some (t2, rest) => some (t2, d ++ rest)
            else
              match encodeChildren kec (cachePut kec t1 d).1 tl with
              | none => none
              | some (t3, rest) =>
                some (t3, rlpStr (cachePut kec t1 d).2 ++ rest) := fun s => rfl
      rw [hstep, hstep, encodeRaw_corrupt kec t hh (Node.leaf lk lv)]
      cases hx : encodeRaw kec t (Node.leaf lk lv) with
      | none => rfl
      | some p =>
        obtain ⟨t1, d⟩ := p
        by_cases hl : d.length < 32
        · simp only [Option.map, if_pos hl]
          rw [encodeChildren_corrupt kec t1 hh tl]
          cases hy : encodeChildren kec t1 tl with
          | none => rfl
          | some q =>
            obtain ⟨t2, rest⟩ := q
            rfl
        · simp only [Option.map, if_neg hl]
          rw [cachePut_corrupt kec t1 hh d,
            encodeChildren_corrupt kec (cachePut kec t1 d).1 hh tl]
          cases hy : encodeChildren kec (cachePut kec t1 d).1 tl with
          | none => rfl
          | some q =>
            obtain ⟨t2, rest⟩ := q
            rfl
    | branch bch bv =>
      have hstep : ∀ s, encodeChildren kec s (.cons (Node.branch bch bv) tl) =
          match encodeRaw kec s (Node.branch bch bv) with
          | none => none
          | some (t1, d) =>
            if d.length < 32 then
              match encodeChildren kec t1 tl with
              | none => none
              | some (t2, rest) => some (t2, d ++ rest)
            else
              match encodeChildren kec (cachePut kec t1 d).1 tl with
              | none => none
              | some (t3, rest) =>
                some (t3, rlpStr (cachePut kec t1 d).2 ++ rest) := fun s => rfl
      rw [hstep, hstep, encodeRaw_corrupt kec t hh (Node.branch bch bv)]
      cases hx : encodeRaw kec t (Node.branch bch bv) with
      | none => rfl
      | some p =>
        obtain ⟨t1, d⟩ := p
        by_cases hl : d.length < 32
        · simp only [Option.map, if_pos hl]
          rw [encodeChildren_corrupt kec t1 hh tl]
          cases hy : encodeChildren kec t1 tl with
          | none => rfl
          | some q =>
            obtain ⟨t2, rest⟩ := q
            rfl
        · simp only [Option.map, if_neg hl]
          rw [cachePut_corrupt kec t1 hh d,
            encodeChildren_corrupt kec (cachePut kec t1 d).1 hh tl]
          cases hy : encodeChildren kec (cachePut kec t1 d).1 tl with
          | none => rfl
          | some q =>
            obtain ⟨t2, rest⟩ := q
            rfl
    | ext spre ssub =>
      have hstep : ∀ s, encodeChildren kec s (.cons (Node.ext spre ssub) tl) =
          match encodeRaw kec s (Node.ext spre ssub) with
          | none => none
          | some (t1, d) =>
            if d.length < 32 then
              match encodeChildren kec t1 tl with
              | none => none
              | some (t2, rest) => some (t2, d ++ rest)
            else
              match encodeChildren kec (cachePut kec t1 d).1 tl with
              | none => none
              | some (t3, rest) =>
                some (t3, rlpStr (cachePut kec t1 d).2 ++ rest) := fun s => rfl
      rw [hstep, hstep, encodeRaw_corrupt kec t hh (Node.ext spre ssub)]
      cases hx : encodeRaw kec t (Node.ext spre ssub) with
      | none => rfl
      | some p =>
        obtain ⟨t1, d⟩ := p
        by_cases hl : d.length < 32
        · simp only [Option.map, if_pos hl]
          rw [encodeChildren_corrupt kec t1 hh tl]
          cases hy : encodeChildren kec t1 tl with
          | none => rfl
          | some q =>
            obtain ⟨t2, rest⟩ := q
            rfl
        · simp only [Option.map, if_neg hl]
          rw [cachePut_corrupt kec t1 hh d,
            encodeChildren_corrupt kec (cachePut kec t1 d).1 hh tl]
          cases hy : encodeChildren kec (cachePut kec t1 d).1 tl with
          | none => rfl
          | some q =>
            obtain ⟨t2, rest⟩ := q
            rfl

end

/-- The `get_proof` re-encoding fold never touches the backing store. -/
theorem encodeNodes_corrupt (kec : Kec) (hh : Bytes) : ∀ (l : List Node) (t : EthTrie),
    encodeNodes kec (corruptDb t hh) l =
      (encodeNodes kec t l).map (fun p => (corruptDb p.1 hh, p.2)) := by
  intro l
  induction l with
  | nil => intro t; rfl
  | cons n rest ih =>
    intro t
    rw [encodeNodes, encodeNodes, encodeRaw_corrupt kec t hh n]
    cases hx : encodeRaw kec t n with
    | none => rfl
    | some p =>
      obtain ⟨t1, d⟩ := p
      simp only [Option.map]
      rw [ih t1]
      cases hy : encodeNodes kec t1 rest with
      | none => rfl
      | some q =>
        obtain ⟨t2, ds⟩ := q
        rfl

/-- C5, amended.  Deleting a stored node out-of-band makes every public
operation that needed it fail with `MissingTrieNode` carrying exactly the
deleted hash; `get`, `insert`, `remove` and `get_proof` enrich `err_key`
with the user-supplied key, but `contains` does not (its error keeps
`err_key = None`), refuting the claim's uniform err_key statement. -/
theorem claim_C5_missing_node_surfacing (kec : Kec) (fuel : Nat) (t : EthTrie)
    (hh key : Bytes) :
    (∀ t1 r, getOp t key fuel = some (t1, .ok r) →
      getOp (corruptDb t hh) key fuel = some (corruptDb t hh, .ok r) ∨
      ∃ tr, getOp (corruptDb t hh) key fuel =
        some (corruptDb t hh, .error (.missingTrieNode hh tr (some t.rootHash) (some key)))) ∧
    (∀ t1 r, containsOp t key fuel = some (t1, .ok r) →
      containsOp (corruptDb t hh) key fuel = some (corruptDb t hh, .ok r) ∨
      ∃ tr, containsOp (corruptDb t hh) key fuel =
        some (corruptDb t hh, .error (.missingTrieNode hh tr (some t.rootHash) none))) ∧
    (∀ v t1, v ≠ [] → insertOp t key v fuel = some (t1, .ok ()) →
      insertOp (corruptDb t hh) key v fuel = some (corruptDb t1 hh, .ok ()) ∨
      ∃ t2 tr, insertOp (corruptDb t hh) key v fuel =
        some (t2, .error (.missingTrieNode hh tr (some t.rootHash) (some key)))) ∧
    (∀ t1 b, removeOp t key fuel = some (t1, .ok b) →
      removeOp (corruptDb t hh) key fuel = some (corruptDb t1 hh, .ok b) ∨
      ∃ t2 tr, removeOp (corruptDb t hh) key fuel =
        some (t2, .error (.missingTrieNode hh tr (some t.rootHash) (some key)))) ∧
    (∀ t1 pr, getProofOp kec t key fuel = some (t1, .ok pr) →
      getProofOp kec (corruptDb t hh) key fuel = some (corruptDb t1 hh, .ok pr) ∨
      ∃ t2 tr, getProofOp kec (corruptDb t hh) key fuel =
        some (t2, .error (.missingTrieNode hh tr (some t.rootHash) (some key)))) := by
  have hroot : (corruptDb t hh).root = t.root := rfl
  refine ⟨?_, ?_, ?_, ?_, ?_⟩
  · intro t1 r h
    rw [getOp] at h
    rw [getOp, hroot]
    split at h
    · exact absurd h (by simp)
    · cases h
    · rename_i t1x rx heq
      cases h
      rcases getAt_corrupt fuel t hh t.root (Nibs.fromRaw key true) 0 _ _ heq with
        h5 | ⟨tr, h5⟩
      · rw [h5]
        exact Or.inl rfl
      · rw [h5]
        right
        exact ⟨tr, rfl⟩
  · intro t1 r h
    rw [containsOp] at h
    rw [containsOp, hroot]
    split at h
    · exact absurd h (by simp)
    · cases h
    · rename_i t1x rx heq
      cases h
      rcases getAt_corrupt fuel t hh t.root (Nibs.fromRaw key true) 0 _ _ heq with
        h5 | ⟨tr, h5⟩
      · rw [h5]
        exact Or.inl rfl
      · rw [h5]
        right
        exact ⟨tr, rfl⟩
  · intro v t1 hv h
    rw [insertOp, if_neg hv] at h
    rw [insertOp, if_neg hv, hroot]
    split at h
    · exact absurd h (by simp)
    · cases h
    · rename_i t1x nx heq
      cases h
      rcases insertAt_corrupt fuel t hh t.root (Nibs.fromRaw key true) 0 v _ _ heq with
        h5 | ⟨t2, tr, h5⟩
      · rw [h5]
        exact Or.inl rfl
      · rw [h5]
        right
        exact ⟨t2, tr, rfl⟩
  · intro t1 b h
    rw [removeOp] at h
    rw [removeOp, hroot]
    split at h
    · exact absurd h (by simp)
    · rename_i t1x nx bx heq
      cases h
      rcases deleteAt_corrupt fuel t hh t.root (Nibs.fromRaw key true) 0 _ _ _ heq with
        h5 | ⟨t2, n2, d2, tr, h5⟩
      · rw [h5]
        exact Or.inl rfl
      · rw [h5]
        right
        exact ⟨{ t2 with root := n2 }, tr, rfl⟩
    · cases h
  · intro t1 pr h
    rw [getProofOp] at h
    split at h
    · exact absurd h (by simp)
    · cases h
    · rename_i t1x path0 heq
      rcases getPathAt_corrupt fuel t hh t.root (Nibs.fromRaw key true) 0 t1x path0 heq with
        h5 | ⟨t2, tr, h5⟩
      · have hstep : getProofOp kec (corruptDb t hh) key fuel =
            match encodeNodes kec (corruptDb t1x hh)
              (match t1x.root with
               | Node.empty => path0
               | _ => path0 ++ [t1x.root]).reverse with
            | none => none
            | some (t2, proofs) => some (t2, .ok proofs) := by
          rw [getProofOp, hroot, h5]
          rfl
        rw [hstep]
        rw [encodeNodes_corrupt kec hh]
        split at h
        · exact absurd h (by simp)
        · rename_i t2x proofs heq2
          cases h
          rw [heq2]
          exact Or.inl rfl
      · have hstep : getProofOp kec (corruptDb t hh) key fuel =
            some (t2, .error (enrichErrKey
              (.missingTrieNode hh tr (some t.rootHash) none) key)) := by
          rw [getProofOp, hroot, h5]
          all_goals rfl
        rw [hstep]
        right
        exact ⟨t2, tr, rfl⟩


/-- A one-entry committed trie: the root is the hash `[9]`, backed by a store
entry holding the encoding of the leaf for key `[97]` with value `[5]`. -/
def c5T : EthTrie :=
  { root := .hash [9], rootHash := [0], db := [([9], [196, 130, 32, 97, 5])],
    cache := [], passingKeys := [], genKeys := [] }

/-- C5 is false as stated for `contains`: on `c5T` the walk reaches the
stored node `[9]` (contains returns true); after deleting that entry
out-of-band, `contains` fails with a `MissingTrieNode` whose `err_key` is
`None`, not the user-supplied key — only `get` (and the other entry points)
enrich it. -/
theorem claim_C5_counterexample :
    (containsOp c5T [97] 5).map (fun p => p.2) = some (.ok true) ∧
    containsOp (corruptDb c5T [9]) [97] 5 =
      some (corruptDb c5T [9], .error (.missingTrieNode [9] (some []) (some [0]) none)) ∧
    getOp (corruptDb c5T [9]) [97] 5 =
      some (corruptDb c5T [9], .error (.missingTrieNode [9] (some []) (some [0]) (some [97]))) :=
  ⟨rfl, rfl, rfl⟩

theorem claim_C5_missing_node_surfacing_witness :
    getOp (corruptDb c5T [9]) [97] 5 = some (corruptDb c5T [9], .ok (some [5])) ∨
    ∃ tr, getOp (corruptDb c5T [9]) [97] 5 =
      some (corruptDb c5T [9],
        .error (.missingTrieNode [9] tr (some c5T.rootHash) (some [97]))) :=
  (claim_C5_missing_node_surfacing specKec 5 c5T [9] [97]).1 c5T (some [5]) rfl

/-! ## C8, C2, C1: counterexamples -/

set_option maxRecDepth 4000

/-- A leaf whose encoding exceeds 31 bytes: its parent cannot inline it. -/
def c8Leaf : Node := .leaf [1, 16] (List.replicate 40 7)

/-- An extension over the oversized leaf, as the trie algorithms build
in memory before a commit. -/
def c8N : Node := .ext [3] c8Leaf

/-- The canonical encoding of `c8Leaf` (43 bytes). -/
def c8LeafEnc : Bytes := [234, 49, 168] ++ List.replicate 40 7

/-- C8 is false as stated: `encode_raw` hash-references any child whose
encoding reaches 32 bytes, so decoding the canonical encoding of
`c8N = Ext([3], c8Leaf)` yields `Ext([3], Hash(kec(enc(c8Leaf))))`,
not `c8N` itself. -/
theorem claim_C8_counterexample :
    (encodeRaw specKec (newTrie specKec []) c8N).map Prod.snd =
      some ([226, 19, 160] ++ specKec c8LeafEnc) ∧
    (encodeRaw specKec (newTrie specKec []) c8N).bind (fun p => decodeNode 9 p.2) =
      some (.ok (.ext [3] (.hash (specKec c8LeafEnc)))) ∧
    Node.ext [3] (.hash (specKec c8LeafEnc)) ≠ c8N :=
  ⟨rfl, rfl, by decide⟩

/-- C1 is false as stated: a finite set of key-value PAIRS may bind one key
twice; inserting exactly those pairs in two orders leaves the value of the
last write, and the committed root hashes differ. -/
theorem claim_C1_counterexample :
    List.Perm [([97], [1]), ([97], [2])] [([97], [2]), ([97], [1])] ∧
    ((insertList (newTrie specKec []) [([97], [1]), ([97], [2])] 5).bind
      (fun t => (commitOk specKec t).map Prod.snd)) ≠
    ((insertList (newTrie specKec []) [([97], [2]), ([97], [1])] 5).bind
      (fun t => (commitOk specKec t).map Prod.snd)) :=
  ⟨List.Perm.swap _ _ _, by decide⟩

/-! ## RLP roundtrip: base-256 length bytes -/

theorem leBytesAux_digits : ∀ f n, n ≤ f → leBytesAux f n = Nat.digits 256 n := by
  intro f
  induction f with
  | zero =>
    intro n h
    cases Nat.le_zero.mp h
    simp [leBytesAux]
  | succ f ih =>
    intro n h
    cases n with
    | zero => simp [leBytesAux]
    | succ m =>
      rw [leBytesAux, Nat.digits_def' (by norm_num : 1 < 256) (Nat.succ_pos m)]
      rw [ih]
      have h2 : (m + 1) / 256 < m + 1 := Nat.div_lt_self (Nat.succ_pos m) (by norm_num)
      omega
      simp

theorem beVal_foldl (l : List Nat) : ∀ acc,
    l.foldl (fun a d => a * 256 + d) acc =
      acc * 256 ^ l.length + Nat.ofDigits 256 l.reverse := by
  induction l with
  | nil => intro acc; simp [Nat.ofDigits]
  | cons d l ih =>
    intro acc
    rw [List.foldl_cons, ih, List.reverse_cons, Nat.ofDigits_append]
    simp [Nat.ofDigits]
    ring

theorem beVal_beBytes (n : Nat) : beVal (beBytes n) = n := by
  rw [beVal, beBytes, leBytesAux_digits n n le_rfl, beVal_foldl]
  simp [Nat.ofDigits_digits]

theorem beBytes_length (n : Nat) : (beBytes n).length = beLen n := by
  rw [beBytes, beLen, List.length_reverse]

theorem beLen_digits (n : Nat) : beLen n = (Nat.digits 256 n).length := by
  rw [beLen, leBytesAux_digits n n le_rfl]

theorem beLen_pos {n : Nat} (h : n ≠ 0) : 0 < beLen n := by
  rw [beLen_digits]
  exact List.length_pos.mpr (Nat.digits_ne_nil_iff_ne_zero.mpr h)

theorem beLen_le_8 {n : Nat} (h : n < 2 ^ 64) : beLen n ≤ 8 := by
  rw [beLen_digits]
  rcases Nat.eq_zero_or_pos n with h0 | h0
  · subst h0; simp
  · rw [Nat.digits_len 256 n (by norm_num) (by omega)]
    have hlog : Nat.log 256 n < 8 := by
      refine (Nat.lt_pow_iff_log_lt (by norm_num) (by omega)).mp ?_
      calc n < 2 ^ 64 := h
        _ = 256 ^ 8 := by norm_num
    omega

theorem beBytes_headD_ne_zero {n : Nat} (h : n ≠ 0) : (beBytes n).headD 0 ≠ 0 := by
  rw [beBytes, leBytesAux_digits n n le_rfl]
  have hne : Nat.digits 256 n ≠ [] := Nat.digits_ne_nil_iff_ne_zero.mpr h
  have hlast := Nat.getLast_digit_ne_zero 256 h
  rw [List.headD_eq_head?, List.head?_reverse]
  rw [List.getLast?_eq_getLast _ hne]
  simpa using hlast

theorem headerDecode_encode (isList : Bool) (payload r : Bytes)
    (hsz : payload.length < 2 ^ 64)
    (hcanon : isList = false → payload.length = 1 → 128 ≤ payload.headD 0) :
    headerDecode (headerEncode isList payload.length ++ (payload ++ r)) =
      .ok (isList, payload.length, payload ++ r) := by
  have hble : beLen payload.length ≤ 8 := beLen_le_8 hsz
  by_cases hlt : payload.length < 56
  · cases isList with
    | false =>
      rw [headerEncode]
      simp only [Bool.false_eq_true, if_false, if_pos hlt, List.singleton_append]
      rw [headerDecode]
      rw [if_neg (by omega), if_pos (by omega)]
      rw [if_neg ?hc]
      case hc =>
        rintro ⟨h1, h2⟩
        have hl1 : payload.length = 1 := by omega
        obtain ⟨b, hb⟩ := List.length_eq_one.mp hl1
        subst hb
        simp at h2
        have := hcanon rfl rfl
        simp at this
        omega
      rw [if_neg (by simp only [List.length_append]; omega)]
      have h128 : 128 + payload.length - 128 = payload.length := by omega
      rw [h128]
    | true =>
      rw [headerEncode]
      simp only [if_true, if_pos hlt, List.singleton_append]
      rw [headerDecode]
      rw [if_neg (by omega), if_neg (by omega), if_neg (by omega), if_pos (by omega)]
      rw [if_neg (by simp only [List.length_append]; omega)]
      have h192 : 192 + payload.length - 192 = payload.length := by omega
      rw [h192]
  · have hne : payload.length ≠ 0 := by omega
    have hbpos : 0 < beLen payload.length := beLen_pos hne
    cases isList with
    | false =>
      rw [headerEncode]
      simp only [Bool.false_eq_true, if_false, if_neg hlt, List.cons_append]
      rw [headerDecode]
      rw [if_neg (by omega), if_neg (by omega), if_pos (by omega)]
      have hk : 128 + 55 + beLen payload.length - 183 = beLen payload.length := by omega
      rw [hk]
      have htake : (beBytes payload.length ++ (payload ++ r)).take (beLen payload.length) =
          beBytes payload.length := by
        rw [← beBytes_length, List.take_left]
      have hdrop : (beBytes payload.length ++ (payload ++ r)).drop (beLen payload.length) =
          payload ++ r := by
        rw [← beBytes_length, List.drop_left]
      rw [htake, hdrop, beVal_beBytes]
      rw [if_neg (by simp only [List.length_append, beBytes_length]; omega)]
      rw [if_neg (by simpa using beBytes_headD_ne_zero hne)]
      rw [if_neg (by omega), if_neg (by simp only [List.length_append]; omega)]
    | true =>
      rw [headerEncode]
      simp only [if_true, if_neg hlt, List.cons_append]
      rw [headerDecode]
      rw [if_neg (by omega), if_neg (by omega), if_neg (by omega), if_neg (by omega)]
      have hk : 192 + 55 + beLen payload.length - 247 = beLen payload.length := by omega
      rw [hk]
      have htake : (beBytes payload.length ++ (payload ++ r)).take (beLen payload.length) =
          beBytes payload.length := by
        rw [← beBytes_length, List.take_left]
      have hdrop : (beBytes payload.length ++ (payload ++ r)).drop (beLen payload.length) =
          payload ++ r := by
        rw [← beBytes_length, List.drop_left]
      rw [htake, hdrop, beVal_beBytes]
      rw [if_neg (by simp only [List.length_append, beBytes_length]; omega)]
      rw [if_neg (by simpa using beBytes_headD_ne_zero hne)]
      rw [if_neg (by omega), if_neg (by simp only [List.length_append]; omega)]

/-- An RLP item as `decode_node`'s splitting loop reproduces it: the header
decodes canonically for any continuation, and the loop's re-encoding of
header plus payload gives back exactly the item. -/
def canonItem (i : Bytes) : Prop :=
  i ≠ [] ∧ ∃ isList body,
    ((if body.length = 1 ∧ body.headD 0 ≤ 127 then [] else
        headerEncode isList body.length) ++ body) = i ∧
    ∀ r, headerDecode (i ++ r) = .ok (isList, body.length, body ++ r)

theorem headerEncode_ne_nil (b : Bool) (l : Nat) : headerEncode b l ≠ [] := by
  rw [headerEncode]
  split <;> simp

theorem canonItem_rlpStr (s : Bytes) (hsz : s.length < 2 ^ 64) :
    canonItem (rlpStr s) := by
  by_cases h1 : s.length = 1 ∧ s.headD 0 < 128
  · obtain ⟨b, hb⟩ := List.length_eq_one.mp h1.1
    have hb127 : b < 128 := by
      have := h1.2
      rw [hb] at this
      simpa using this
    rw [rlpStr, if_pos h1, hb]
    refine ⟨by simp, false, [b], ?_, ?_⟩
    · simp
      omega
    · intro r
      rw [List.cons_append, headerDecode, if_pos (by simpa using hb127)]
      rfl
  · rw [rlpStr, if_neg h1]
    refine ⟨fun h => headerEncode_ne_nil false s.length (List.append_eq_nil.mp h).1,
      false, s, ?_, ?_⟩
    · rw [if_neg ?hc]
      case hc =>
        rintro ⟨hl, hh⟩
        exact h1 ⟨hl, by omega⟩
    · intro r
      rw [List.append_assoc]
      exact headerDecode_encode false s r hsz (fun _ hl => by
        by_contra hlt
        exact h1 ⟨hl, by omega⟩)

theorem canonItem_rlpList (p : Bytes) (hsz : p.length < 2 ^ 64)
    (h2 : p.length ≠ 1) : canonItem (rlpListWrap p) := by
  rw [rlpListWrap]
  refine ⟨fun h => headerEncode_ne_nil true p.length (List.append_eq_nil.mp h).1,
    true, p, ?_, ?_⟩
  · rw [if_neg (by rintro ⟨hl, _⟩; exact h2 hl)]
  · intro r
    rw [List.append_assoc]
    exact headerDecode_encode true p r hsz (by simp)

theorem splitItems_concat : ∀ (L : List Bytes) (f : Nat),
    (∀ i ∈ L, canonItem i) → (L.foldr (· ++ ·) []).length < f →
    splitItems f (L.foldr (· ++ ·) []) = some (.ok L) := by
  intro L
  induction L with
  | nil =>
    intro f _ hf
    match f, hf with
    | f + 1, _ => rfl
  | cons i L ih =>
    intro f hcanon hf
    obtain ⟨hne, isList, body, hre, hdec⟩ := hcanon i (by simp)
    match f, hf with
    | f + 1, hf =>
      have hcons : (i :: L).foldr (· ++ ·) [] = i ++ L.foldr (· ++ ·) [] := rfl
      obtain ⟨a, i', hi⟩ : ∃ a i', i = a :: i' := by
        cases i with
        | nil => exact absurd rfl hne
        | cons a i' => exact ⟨a, i', rfl⟩
      have hsi : splitItems (f + 1) (a :: (i' ++ L.foldr (· ++ ·) [])) =
          match headerDecode (a :: (i' ++ L.foldr (· ++ ·) [])) with
          | Except.error e => some (Except.error e)
          | Except.ok (isL, plen, rest) =>
            match splitItems f (rest.drop plen) with
            | none => none
            | some (Except.error e) => some (Except.error e)
            | some (Except.ok items) =>
              some (Except.ok
                (((if (rest.take plen).length = 1 ∧ (rest.take plen).headD 0 ≤ 127
                then [] else headerEncode isL plen) ++ rest.take plen) :: items)) := rfl
      rw [hcons, hi, List.cons_append, hsi, ← List.cons_append, ← hi,
        hdec (L.foldr (· ++ ·) [])]
      have htake : (body ++ L.foldr (· ++ ·) []).take body.length = body := List.take_left _ _
      have hdrop : (body ++ L.foldr (· ++ ·) []).drop body.length = L.foldr (· ++ ·) [] :=
        List.drop_left _ _
      show (match splitItems f ((body ++ L.foldr (· ++ ·) []).drop body.length) with
        | none => none
        | some (Except.error e) => some (Except.error e)
        | some (Except.ok items) =>
          some (Except.ok
            ((((if ((body ++ L.foldr (· ++ ·) []).take body.length).length = 1 ∧
              ((body ++ L.foldr (· ++ ·) []).take body.length).headD 0 ≤ 127
            then [] else headerEncode isList body.length)) ++
            (body ++ L.foldr (· ++ ·) []).take body.length) :: items))) =
          some (Except.ok (i :: L))
      rw [hdrop, ih f (fun j hj => hcanon j (by simp [hj])) ?flen]
      case flen =>
        have hilen : 0 < i.length := List.length_pos.mpr hne
        have hlen : (i ++ L.foldr (· ++ ·) []).length =
            i.length + (L.foldr (· ++ ·) []).length := List.length_append _ _
        rw [hcons] at hf
        rw [hlen] at hf
        omega
      rw [htake, hre]

/-! ## Compact (hex-prefix) roundtrip -/

theorem pack_unpack : ∀ (l : List Nat), (∀ x ∈ l, x < 16) → l.length % 2 = 0 →
    (Nibs.encodeCompact.pack l).flatMap (fun x => [x / 16, x % 16]) = l
  | [], _, _ => by rfl
  | [a], _, hp => by simp at hp
  | a :: b :: rest, h, hp => by
    have ha : a < 16 := h a (by simp)
    have hb : b < 16 := h b (by simp)
    rw [Nibs.encodeCompact.pack, List.flatMap_cons]
    rw [pack_unpack rest (fun x hx => h x (by simp [hx]))
      (by simp only [List.length_cons] at hp; omega)]
    have h1 : (a * 16 + b) / 16 = a := by omega
    have h2 : (a * 16 + b) % 16 = b := by omega
    rw [h1, h2]
    rfl

theorem termSfx_parts {k : Nibs} (h : termSfx k = true) :
    k.dropLast ++ [16] = k ∧ ∀ x ∈ k.dropLast, x < 16 := by
  rw [termSfx, Bool.and_eq_true] at h
  obtain ⟨h1, h2⟩ := h
  have hlast : k.getLast? = some 16 := by simpa using h1
  have hne : k ≠ [] := by
    intro hk
    rw [hk] at hlast
    simp at hlast
  constructor
  · have := List.dropLast_append_getLast hne
    rw [List.getLast?_eq_getLast k hne] at hlast
    simp at hlast
    rw [hlast] at this
    exact this
  · intro x hx
    have := List.all_eq_true.mp h2 x hx
    simpa using this

theorem fromCompact_encodeCompact_leaf (k : Nibs) (h : termSfx k = true) :
    Nibs.fromCompact (Nibs.encodeCompact k) = k := by
  obtain ⟨hk, hall⟩ := termSfx_parts h
  have hleaf : Nibs.isLeaf k = true := by
    rw [Nibs.isLeaf, ← hk]
    simp
  rw [Nibs.encodeCompact, hleaf]
  simp only [if_true]
  by_cases hpar : k.dropLast.length % 2 = 1
  · rw [if_pos hpar]
    obtain ⟨a, c, hc⟩ : ∃ a c, k.dropLast = a :: c := by
      cases hd : k.dropLast with
      | nil => rw [hd] at hpar; simp at hpar
      | cons a c => exact ⟨a, c, rfl⟩
    have ha : a < 16 := hall a (by rw [hc]; simp)
    rw [hc]
    rw [Nibs.fromCompact]
    have hf1 : ((2 * 1 + 1) * 16 + (a :: c).headD 0) / 16 = 3 := by simp; omega
    have hf2 : ((2 * 1 + 1) * 16 + (a :: c).headD 0) % 16 = a := by simp; omega
    rw [hf1, hf2]
    rw [show (a :: c).tail = c from rfl]
    rw [pack_unpack c (fun x hx => hall x (by rw [hc]; simp [hx])) ?cpar]
    case cpar =>
      rw [hc] at hpar
      simp only [List.length_cons] at hpar
      omega
    rw [if_pos (show (2 : Nat) ≤ 3 by norm_num),
      if_pos (show (3 : Nat) % 2 = 1 by norm_num), ← hc, hk]
  · rw [if_neg hpar]
    rw [Nibs.fromCompact]
    have hf1 : (2 * 1 * 16 : Nat) / 16 = 2 := by norm_num
    rw [hf1]
    rw [pack_unpack k.dropLast hall (by omega)]
    rw [if_pos (show (2 : Nat) ≤ 2 by norm_num),
      if_neg (show ¬(2 : Nat) % 2 = 1 by norm_num), hk]

theorem fromCompact_encodeCompact_ext (p : Nibs) (hne : p ≠ [])
    (hall : ∀ x ∈ p, x < 16) :
    Nibs.fromCompact (Nibs.encodeCompact p) = p := by
  have hleaf : Nibs.isLeaf p = false := by
    rw [Nibs.isLeaf]
    have : p.getLast? ≠ some 16 := by
      rw [List.getLast?_eq_getLast p hne]
      intro hcon
      simp at hcon
      have := hall _ (List.getLast_mem hne)
      omega
    simpa using this
  rw [Nibs.encodeCompact, hleaf]
  simp only [Bool.false_eq_true, if_false]
  by_cases hpar : p.length % 2 = 1
  · rw [if_pos hpar]
    obtain ⟨a, c, hc⟩ : ∃ a c, p = a :: c := by
      cases p with
      | nil => exact absurd rfl hne
      | cons a c => exact ⟨a, c, rfl⟩
    have ha : a < 16 := hall a (by rw [hc]; simp)
    rw [hc]
    rw [Nibs.fromCompact]
    have hf1 : ((2 * 0 + 1) * 16 + (a :: c).headD 0) / 16 = 1 := by simp; omega
    have hf2 : ((2 * 0 + 1) * 16 + (a :: c).headD 0) % 16 = a := by simp; omega
    rw [hf1, hf2]
    rw [show (a :: c).tail = c from rfl]
    rw [pack_unpack c (fun x hx => hall x (by rw [hc]; simp [hx])) ?cpar]
    case cpar =>
      rw [hc] at hpar
      simp only [List.length_cons] at hpar
      omega
    rw [if_neg (show ¬(2 : Nat) ≤ 1 by norm_num),
      if_pos (show (1 : Nat) % 2 = 1 by norm_num)]
  · rw [if_neg hpar]
    rw [Nibs.fromCompact]
    have hf1 : (2 * 0 * 16 : Nat) / 16 = 0 := by norm_num
    rw [hf1]
    rw [pack_unpack p hall (by omega)]
    rw [if_neg (show ¬(2 : Nat) ≤ 0 by norm_num),
      if_neg (show ¬(0 : Nat) % 2 = 1 by norm_num)]

/-! ## Ghost encoder, store view and well-formedness -/

/-- A value whose RLP string roundtrips through `decode_node`'s extraction:
nonempty, and a lone byte must be below 0x80 (`length_of_length(1) = 0`). -/
def goodVal (v : Bytes) : Bool :=
  !v.isEmpty && (v.length != 1 || v.headD 0 < 128)

mutual

/-- Ghost (state-free) mirror of `encode_raw`: the bytes it produces. -/
def pureEnc (kec : Kec) : Node → Bytes
  | .empty => [0x80]
  | .hash _ => []
  | .leaf k v => rlpListWrap (rlpStr (Nibs.encodeCompact k) ++ rlpStr v)
  | .branch ch v =>
    rlpListWrap ((pureItems kec ch).foldr (· ++ ·) [] ++ v.elim [0x80] rlpStr)
  | .ext pre sub =>
    match sub with
    | .hash h => rlpListWrap (rlpStr (Nibs.encodeCompact pre) ++ rlpStr h)
    | _ =>
      if (pureEnc kec sub).length < 32 then
        rlpListWrap (rlpStr (Nibs.encodeCompact pre) ++ pureEnc kec sub)
      else rlpListWrap (rlpStr (Nibs.encodeCompact pre) ++ rlpStr (kec (pureEnc kec sub)))

/-- The 16 child items of a branch as `encode_raw` writes them. -/
def pureItems (kec : Kec) : NodeList → List Bytes
  | .nil => []
  | .cons hd tl =>
    (match hd with
     | .hash h => rlpStr h
     | _ => if (pureEnc kec hd).length < 32 then pureEnc kec hd
            else rlpStr (kec (pureEnc kec hd))) :: pureItems kec tl

end

mutual

/-- The node `decode_node` recovers from `pureEnc`: children whose encodings
reach 32 bytes appear as hash references. -/
def storeView (kec : Kec) : Node → Node
  | .empty => .empty
  | .hash h => .hash h
  | .leaf k v => .leaf k v
  | .branch ch v => .branch (storeViewL kec ch) v
  | .ext pre sub =>
    match sub with
    | .hash h => .ext pre (.hash h)
    | _ => if (pureEnc kec sub).length < 32 then .ext pre (storeView kec sub)
           else .ext pre (.hash (kec (pureEnc kec sub)))

def storeViewL (kec : Kec) : NodeList → NodeList
  | .nil => .nil
  | .cons hd tl =>
    .cons
      (match hd with
       | .hash h => .hash h
       | _ => if (pureEnc kec hd).length < 32 then storeView kec hd
              else .hash (kec (pureEnc kec hd)))
      (storeViewL kec tl)

end

mutual

/-- Storage-normal nodes: terminator-disciplined leaf keys, roundtrippable
values, 16-slot branches, nonempty plain extension prefixes, 32-byte hashes,
and every encoding below the 2^64 length bound of `alloy_rlp`'s `usize`
headers. -/
def goodN (kec : Kec) : Node → Bool
  | .empty => true
  | .hash h => h.length == 32
  | .leaf k v => termSfx k && goodVal v &&
      decide ((pureEnc kec (.leaf k v)).length < 2 ^ 64)
  | .branch ch v =>
      goodL kec ch && (NodeList.length ch == 16) && v.elim true goodVal &&
      decide ((pureEnc kec (.branch ch v)).length < 2 ^ 64)
  | .ext pre sub =>
      !pre.isEmpty && pre.all (fun x => x < 16) && goodN kec sub &&
      decide ((pureEnc kec (.ext pre sub)).length < 2 ^ 64)

def goodL (kec : Kec) : NodeList → Bool
  | .nil => true
  | .cons hd tl => goodN kec hd && goodL kec tl

end

mutual

/-- Fuel sufficient for `decode_node` on `pureEnc`. -/
def needFuel (kec : Kec) : Node → Nat
  | .empty => 1
  | .hash _ => 1
  | .leaf _ _ => 1
  | .branch ch _ => needFuelL kec ch + 1
  | .ext _ sub =>
    (match sub with
     | .hash _ => 1
     | _ => if (pureEnc kec sub).length < 32 then needFuel kec sub else 1) + 1

def needFuelL (kec : Kec) : NodeList → Nat
  | .nil => 1
  | .cons hd tl =>
    max (match hd with
         | .hash _ => 1
         | _ => if (pureEnc kec hd).length < 32 then needFuel kec hd else 1)
      (needFuelL kec tl) + 1

end

theorem rlpStr_extract (s : Bytes) (hsz : s.length < 2 ^ 64)
    (hgood : ¬(s.length = 1 ∧ 128 ≤ s.headD 0)) :
    ∃ b rest, headerDecode (rlpStr s) = .ok (b, s.length, rest) ∧
      (rlpStr s).drop (lengthOfLength s.length) = s := by
  by_cases h1 : s.length = 1 ∧ s.headD 0 < 128
  · obtain ⟨b, hb⟩ := List.length_eq_one.mp h1.1
    have hb127 : b < 128 := by
      have := h1.2
      rw [hb] at this
      simpa using this
    rw [rlpStr, if_pos h1, hb]
    refine ⟨false, [b], ?_, ?_⟩
    · rw [headerDecode, if_pos (by simpa using hb127)]
      simp
    · rw [lengthOfLength, if_pos (by simp)]
      simp
  · have hne1 : s.length ≠ 1 := by
      intro hl
      rcases Nat.lt_or_ge (s.headD 0) 128 with hlt | hge
      · exact h1 ⟨hl, hlt⟩
      · exact hgood ⟨hl, hge⟩
    rw [rlpStr, if_neg h1]
    have hdec := headerDecode_encode false s [] hsz (fun _ hl => absurd hl hne1)
    rw [List.append_nil] at hdec
    refine ⟨false, s, hdec, ?_⟩
    have hhl : (headerEncode false s.length).length = lengthOfLength s.length := by
      rw [headerEncode, lengthOfLength]
      by_cases h56 : s.length < 56
      · rw [if_pos h56, if_neg hne1, if_pos h56]
        simp
      · rw [if_neg h56, if_neg hne1, if_neg h56]
        simp [beBytes_length]
        omega
    rw [← hhl, List.drop_left]

theorem headerEncode_length_pos (b : Bool) (l : Nat) :
    0 < (headerEncode b l).length := by
  rw [headerEncode]
  split <;> simp

theorem encodeCompact_ne_nil (k : Nibs) : Nibs.encodeCompact k ≠ [] := by
  rw [Nibs.encodeCompact]
  split <;> split <;> simp

theorem encodeCompact_headD_lt (k : Nibs)
    (hcore : ∀ x ∈ (if Nibs.isLeaf k then k.dropLast else k), x < 16) :
    (Nibs.encodeCompact k).headD 0 < 128 := by
  have hhd : ∀ (l : List Nat), (∀ x ∈ l, x < 16) → l.headD 0 < 16 := by
    intro l hl
    cases l with
    | nil => simp
    | cons a c => simpa using hl a (by simp)
  rw [Nibs.encodeCompact]
  by_cases hleaf : Nibs.isLeaf k
  · rw [if_pos hleaf] at hcore
    simp only [hleaf, if_true]
    split
    · have := hhd _ hcore
      simp only [List.headD_cons]
      omega
    · simp only [List.headD_cons]
      omega
  · rw [if_neg hleaf] at hcore
    simp only [Bool.not_eq_true] at hleaf
    simp only [hleaf, Bool.false_eq_true, if_false]
    split
    · have := hhd _ hcore
      simp only [List.headD_cons]
      omega
    · simp only [List.headD_cons]
      omega

theorem pureItems_length (kec : Kec) : ∀ ch : NodeList,
    (pureItems kec ch).length = NodeList.length ch
  | .nil => rfl
  | .cons hd tl => by
    cases hd <;>
      simp only [pureItems, NodeList.length, List.length_cons, pureItems_length kec tl]

theorem rlpStr_length_ge (s : Bytes) : s.length ≤ (rlpStr s).length := by
  rw [rlpStr]
  split
  · exact le_rfl
  · simp

theorem needFuel_pos (kec : Kec) : ∀ n, 0 < needFuel kec n := by
  intro n
  cases n <;> simp [needFuel]

theorem needFuelL_pos (kec : Kec) : ∀ ch, 0 < needFuelL kec ch := by
  intro ch
  cases ch <;> simp [needFuelL]

theorem rlpStr_length_pos (s : Bytes) : 1 ≤ (rlpStr s).length := by
  rw [rlpStr]
  split
  · rename_i h
    omega
  · have := headerEncode_length_pos false s.length
    simp
    omega

theorem rlpListWrap_length_pos (p : Bytes) : 1 ≤ (rlpListWrap p).length := by
  rw [rlpListWrap]
  have := headerEncode_length_pos true p.length
  simp
  omega

theorem pureEnc_length_pos (kec : Kec) (n : Node) (hn : ∀ h, n ≠ Node.hash h) :
    1 ≤ (pureEnc kec n).length := by
  cases n with
  | hash h => exact absurd rfl (hn h)
  | empty => simp [pureEnc]
  | leaf k v => exact rlpListWrap_length_pos _
  | branch ch v => exact rlpListWrap_length_pos _
  | ext pre sub =>
    cases sub with
    | hash h => exact rlpListWrap_length_pos _
    | empty =>
      rw [pureEnc]
      split <;> exact rlpListWrap_length_pos _
      simp
    | leaf lk lv =>
      rw [pureEnc]
      split <;> exact rlpListWrap_length_pos _
      simp
    | branch bch bv =>
      rw [pureEnc]
      split <;> exact rlpListWrap_length_pos _
      simp
    | ext spre ssub =>
      rw [pureEnc]
      split <;> exact rlpListWrap_length_pos _
      simp

/-- A 32-byte hash reference decodes to a Hash node. -/
theorem decode_hash_item (f : Nat) (h : Bytes) (h32 : h.length = 32) (hf : 1 ≤ f) :
    decodeNode f (rlpStr h) = some (.ok (.hash h)) := by
  match f, hf with
  | f + 1, _ =>
    have hgood : ¬(h.length = 1 ∧ h.headD 0 < 128) := by
      rintro ⟨h1, _⟩
      omega
    rw [rlpStr, if_neg hgood]
    have hdec := headerDecode_encode false h [] (by omega) (fun _ h1 => by omega)
    rw [List.append_nil] at hdec
    rw [decodeNode, hdec]
    dsimp only
    rw [if_neg (by simp), if_pos (by omega), if_pos h32]
    rfl

theorem rlpListWrap_length_decomp (p : Bytes) :
    (rlpListWrap p).length = (headerEncode true p.length).length + p.length := by
  rw [rlpListWrap, List.length_append]

theorem foldr_append_concat (L : List Bytes) (x : Bytes) :
    (L ++ [x]).foldr (· ++ ·) [] = L.foldr (· ++ ·) [] ++ x := by
  induction L with
  | nil => simp
  | cons a l ih => simp [ih, List.append_assoc]

/-- The byte string `encode_raw` writes for one branch child. -/
def pureItem (kec : Kec) (hd : Node) : Bytes :=
  match hd with
  | .hash h => rlpStr h
  | _ => if (pureEnc kec hd).length < 32 then pureEnc kec hd
         else rlpStr (kec (pureEnc kec hd))

theorem pureItems_eq (kec : Kec) (hd : Node) (tl : NodeList) :
    pureItems kec (.cons hd tl) = pureItem kec hd :: pureItems kec tl := by
  cases hd <;> rfl

theorem pureItem_pos (kec : Kec) (hd : Node) : 1 ≤ (pureItem kec hd).length := by
  cases hd with
  | hash h => exact rlpStr_length_pos h
  | empty =>
    rw [pureItem]
    split
    · exact pureEnc_length_pos kec .empty (by intro h hc; cases hc)
    · exact rlpStr_length_pos _
    simp
  | leaf k v =>
    rw [pureItem]
    split
    · exact pureEnc_length_pos kec _ (by intro h hc; cases hc)
    · exact rlpStr_length_pos _
    simp
  | branch ch v =>
    rw [pureItem]
    split
    · exact pureEnc_length_pos kec _ (by intro h hc; cases hc)
    · exact rlpStr_length_pos _
    simp
  | ext pre sub =>
    rw [pureItem]
    split
    · exact pureEnc_length_pos kec _ (by intro h hc; cases hc)
    · exact rlpStr_length_pos _
    simp

theorem canonItem_pureEnc (kec : Kec) (n : Node) (hg : goodN kec n = true)
    (hn : ∀ h, n ≠ Node.hash h) : canonItem (pureEnc kec n) := by
  cases n with
  | hash h => exact absurd rfl (hn h)
  | empty => exact (canonItem_rlpStr [] (by simp) : canonItem (rlpStr []))
  | leaf k v =>
    rw [goodN, Bool.and_eq_true, Bool.and_eq_true] at hg
    have hsz : (pureEnc kec (.leaf k v)).length < 2 ^ 64 := by simpa using hg.2
    rw [pureEnc] at hsz ⊢
    rw [rlpListWrap_length_decomp] at hsz
    refine canonItem_rlpList _ (by omega) ?_
    have h1 := rlpStr_length_pos (Nibs.encodeCompact k)
    have h2 := rlpStr_length_pos v
    rw [List.length_append]
    omega
  | branch ch v =>
    rw [goodN, Bool.and_eq_true, Bool.and_eq_true, Bool.and_eq_true] at hg
    have hsz : (pureEnc kec (.branch ch v)).length < 2 ^ 64 := by simpa using hg.2
    have hlen : NodeList.length ch = 16 := by simpa using hg.1.1.2
    rw [pureEnc] at hsz ⊢
    rw [rlpListWrap_length_decomp] at hsz
    refine canonItem_rlpList _ (by omega) ?_
    obtain ⟨hd, tl, hch⟩ : ∃ hd tl, ch = NodeList.cons hd tl := by
      cases ch with
      | nil => rw [NodeList.length] at hlen; omega
      | cons hd tl => exact ⟨hd, tl, rfl⟩
    have hv1 : 1 ≤ (v.elim [0x80] rlpStr : Bytes).length := by
      cases v with
      | none => simp [Option.elim]
      | some vv => exact rlpStr_length_pos vv
    have hi1 := pureItem_pos kec hd
    rw [hch, pureItems_eq]
    simp only [List.foldr_cons, List.length_append]
    omega
  | ext pre sub =>
    rw [goodN, Bool.and_eq_true, Bool.and_eq_true, Bool.and_eq_true] at hg
    have hsz : (pureEnc kec (.ext pre sub)).length < 2 ^ 64 := by simpa using hg.2
    have hcp := rlpStr_length_pos (Nibs.encodeCompact pre)
    cases sub with
    | hash h =>
      rw [pureEnc] at hsz ⊢
      rw [rlpListWrap_length_decomp] at hsz
      refine canonItem_rlpList _ (by omega) ?_
      have h2 := rlpStr_length_pos h
      rw [List.length_append]
      omega
    | empty =>
      rw [pureEnc] at hsz ⊢
      · split at hsz <;> split <;>
          first
          | (rw [rlpListWrap_length_decomp] at hsz
             refine canonItem_rlpList _ (by omega) ?_
             rw [List.length_append]
             have h2 := pureEnc_length_pos kec Node.empty (by intro h hc; cases hc)
             have h3 := rlpStr_length_pos (kec (pureEnc kec Node.empty))
             omega)
      · simp
      · simp
    | leaf lk lv =>
      rw [pureEnc] at hsz ⊢
      · split at hsz <;> split <;>
          first
          | (rw [rlpListWrap_length_decomp] at hsz
             refine canonItem_rlpList _ (by omega) ?_
             rw [List.length_append]
             have h2 := pureEnc_length_pos kec (Node.leaf lk lv) (by intro h hc; cases hc)
             have h3 := rlpStr_length_pos (kec (pureEnc kec (Node.leaf lk lv)))
             omega)
      · simp
      · simp
    | branch bch bv =>
      rw [pureEnc] at hsz ⊢
      · split at hsz <;> split <;>
          first
          | (rw [rlpListWrap_length_decomp] at hsz
             refine canonItem_rlpList _ (by omega) ?_
             rw [List.length_append]
             have h2 := pureEnc_length_pos kec (Node.branch bch bv) (by intro h hc; cases hc)
             have h3 := rlpStr_length_pos (kec (pureEnc kec (Node.branch bch bv)))
             omega)
      · simp
      · simp
    | ext spre ssub =>
      rw [pureEnc] at hsz ⊢
      · split at hsz <;> split <;>
          first
          | (rw [rlpListWrap_length_decomp] at hsz
             refine canonItem_rlpList _ (by omega) ?_
             rw [List.length_append]
             have h2 := pureEnc_length_pos kec (Node.ext spre ssub) (by intro h hc; cases hc)
             have h3 := rlpStr_length_pos (kec (pureEnc kec (Node.ext spre ssub)))
             omega)
      · simp
      · simp

theorem isLeaf_false_of_plain (p : Nibs) (hne : p ≠ []) (hall : ∀ x ∈ p, x < 16) :
    Nibs.isLeaf p = false := by
  rw [Nibs.isLeaf]
  have h16 : p.getLast? ≠ some 16 := by
    rw [List.getLast?_eq_getLast p hne]
    intro hcon
    simp at hcon
    have := hall _ (List.getLast_mem hne)
    omega
  simpa using h16

/-- Decoding a two-item list whose first item is a plain compact prefix and
whose second item decodes to `res` yields the extension node. -/
theorem decode_ext_item (f : Nat) (pre : Nibs) (item2 : Bytes) (res : Node)
    (hne : pre ≠ []) (hall : ∀ x ∈ pre, x < 16)
    (hcanon2 : canonItem item2)
    (hplen : (rlpStr (Nibs.encodeCompact pre) ++ item2).length < 2 ^ 64)
    (hdec2 : decodeNode f item2 = some (.ok res)) :
    decodeNode (f + 1) (rlpListWrap (rlpStr (Nibs.encodeCompact pre) ++ item2)) =
      some (.ok (.ext pre res)) := by
  have happ : (rlpStr (Nibs.encodeCompact pre) ++ item2).length =
      (rlpStr (Nibs.encodeCompact pre)).length + item2.length := List.length_append _ _
  have hcksz : (Nibs.encodeCompact pre).length < 2 ^ 64 := by
    have h1 := rlpStr_length_ge (Nibs.encodeCompact pre)
    omega
  have h2sz : item2.length < 2 ^ 64 := by omega
  have hpleaf : Nibs.isLeaf pre = false := isLeaf_false_of_plain pre hne hall
  have hckgood : ¬((Nibs.encodeCompact pre).length = 1 ∧
      128 ≤ (Nibs.encodeCompact pre).headD 0) := by
    rintro ⟨h1, h2⟩
    have := encodeCompact_headD_lt pre (by rw [if_neg (by rw [hpleaf]; simp)]; exact hall)
    omega
  obtain ⟨bk, restk, hckdec, hckdrop⟩ :=
    rlpStr_extract (Nibs.encodeCompact pre) hcksz hckgood
  have hdec := headerDecode_encode true (rlpStr (Nibs.encodeCompact pre) ++ item2) []
    hplen (by simp)
  rw [List.append_nil] at hdec
  have hfold : ([rlpStr (Nibs.encodeCompact pre), item2].foldr (· ++ ·) []) =
      rlpStr (Nibs.encodeCompact pre) ++ item2 := by simp
  have hcanon : ∀ i ∈ [rlpStr (Nibs.encodeCompact pre), item2], canonItem i := by
    intro i hi
    simp only [List.mem_cons, List.not_mem_nil, or_false] at hi
    rcases hi with rfl | rfl
    · exact canonItem_rlpStr _ hcksz
    · exact hcanon2
  have hsplit := splitItems_concat [rlpStr (Nibs.encodeCompact pre), item2]
    ((rlpStr (Nibs.encodeCompact pre) ++ item2).length + 1) hcanon (by rw [hfold]; omega)
  rw [hfold] at hsplit
  rw [rlpListWrap, decodeNode, hdec]
  dsimp only
  rw [if_pos rfl, List.take_length, hsplit]
  dsimp only
  rw [if_neg (by simp), if_pos (by simp)]
  simp only [List.getD_cons_zero, List.getD_cons_succ]
  rw [hckdec]
  dsimp only
  rw [hckdrop, fromCompact_encodeCompact_ext pre hne hall]
  rw [if_neg (by rw [hpleaf]; simp)]
  rw [hdec2]
  rfl

/-- Fuel needed for one branch child item. -/
def needItem (kec : Kec) (hd : Node) : Nat :=
  match hd with
  | .hash _ => 1
  | _ => if (pureEnc kec hd).length < 32 then needFuel kec hd else 1

theorem needFuelL_eq (kec : Kec) (hd : Node) (tl : NodeList) :
    needFuelL kec (.cons hd tl) = max (needItem kec hd) (needFuelL kec tl) + 1 := by
  cases hd <;> rfl

theorem needItem_pos (kec : Kec) (hd : Node) : 1 ≤ needItem kec hd := by
  cases hd with
  | hash h => exact le_rfl
  | empty =>
    rw [needItem]
    split
    · exact needFuel_pos kec _
    · exact le_rfl
    simp
  | leaf k v =>
    rw [needItem]
    split
    · exact needFuel_pos kec _
    · exact le_rfl
    simp
  | branch ch v =>
    rw [needItem]
    split
    · exact needFuel_pos kec _
    · exact le_rfl
    simp
  | ext p c =>
    rw [needItem]
    split
    · exact needFuel_pos kec _
    · exact le_rfl
    simp

/-- What one branch child item decodes to. -/
def viewItem (kec : Kec) (hd : Node) : Node :=
  match hd with
  | .hash h => .hash h
  | _ => if (pureEnc kec hd).length < 32 then storeView kec hd
         else .hash (kec (pureEnc kec hd))

theorem storeViewL_eq (kec : Kec) (hd : Node) (tl : NodeList) :
    storeViewL kec (.cons hd tl) = .cons (viewItem kec hd) (storeViewL kec tl) := by
  cases hd <;> rfl

theorem canonItem_pureItems (kec : Kec) (hk32 : ∀ x, (kec x).length = 32) :
    ∀ ch, goodL kec ch = true → ∀ i ∈ pureItems kec ch, canonItem i
  | .nil => by
    intro _ i hi
    rw [pureItems] at hi
    cases hi
  | .cons hd tl => by
    intro hg i hi
    rw [goodL, Bool.and_eq_true] at hg
    obtain ⟨hghd, hgtl⟩ := hg
    rw [pureItems_eq] at hi
    rcases List.mem_cons.mp hi with rfl | hi
    · cases hd with
      | hash h =>
        have h32 : h.length = 32 := by simp [goodN] at hghd; exact hghd
        exact canonItem_rlpStr h (by omega)
      | empty =>
        rw [pureItem]
        split
        · exact canonItem_pureEnc kec _ hghd (by intro h hc; cases hc)
        · exact canonItem_rlpStr _ (by rw [hk32]; omega)
        simp
      | leaf lk lv =>
        rw [pureItem]
        split
        · exact canonItem_pureEnc kec _ hghd (by intro h hc; cases hc)
        · exact canonItem_rlpStr _ (by rw [hk32]; omega)
        simp
      | branch bch bv =>
        rw [pureItem]
        split
        · exact canonItem_pureEnc kec _ hghd (by intro h hc; cases hc)
        · exact canonItem_rlpStr _ (by rw [hk32]; omega)
        simp
      | ext sp ss =>
        rw [pureItem]
        split
        · exact canonItem_pureEnc kec _ hghd (by intro h hc; cases hc)
        · exact canonItem_rlpStr _ (by rw [hk32]; omega)
        simp
    · exact canonItem_pureItems kec hk32 tl hgtl i hi

theorem getD_append_length (L : List Bytes) (x : Bytes) :
    (L ++ [x]).getD L.length [] = x := by
  rw [List.getD_eq_getElem?_getD, List.getElem?_append_right (le_refl _)]
  simp

/-- The 17th item of a branch payload decodes back to the branch value. -/
theorem branch_value_decode (v : Option Bytes)
    (hgv : v.elim true goodVal = true)
    (hsz : (v.elim [0x80] rlpStr : Bytes).length < 2 ^ 64) :
    ∃ b vlen rest,
      headerDecode (v.elim [0x80] rlpStr) = .ok (b, vlen, rest) ∧
      ((if (v.elim [0x80] rlpStr : Bytes).drop (lengthOfLength vlen) = [] then none
        else some ((v.elim [0x80] rlpStr : Bytes).drop (lengthOfLength vlen))) = v) := by
  cases v with
  | none => exact ⟨false, 0, [], rfl, rfl⟩
  | some vv =>
    simp only [Option.elim] at hgv hsz ⊢
    have hvsz : vv.length < 2 ^ 64 := by
      have := rlpStr_length_ge vv
      omega
    have hvgood : ¬(vv.length = 1 ∧ 128 ≤ vv.headD 0) := by
      rintro ⟨h1, h2⟩
      rw [goodVal, Bool.and_eq_true] at hgv
      obtain ⟨hv1, hv2⟩ := hgv
      rw [Bool.or_eq_true] at hv2
      rcases hv2 with hv2 | hv2
      · simp at hv2
        exact hv2 h1
      · simp at hv2
        rw [List.headD_eq_head?] at h2
        omega
    obtain ⟨bv, restv, hvdec, hvdrop⟩ := rlpStr_extract vv hvsz hvgood
    refine ⟨bv, vv.length, restv, hvdec, ?_⟩
    rw [hvdrop]
    rw [if_neg ?hne]
    case hne =>
      rw [goodVal, Bool.and_eq_true] at hgv
      simpa using hgv.1

theorem decode_pureEnc_main (kec : Kec) (hk32 : ∀ x, (kec x).length = 32) :
    ∀ f, (∀ n, goodN kec n = true → (∀ h, n ≠ Node.hash h) → needFuel kec n ≤ f →
        decodeNode f (pureEnc kec n) = some (.ok (storeView kec n))) ∧
      (∀ ch, goodL kec ch = true → needFuelL kec ch ≤ f →
        decodeChildren f (pureItems kec ch) = some (.ok (storeViewL kec ch))) := by
  intro f
  induction f with
  | zero =>
    constructor
    · intro n _ _ hf
      have := needFuel_pos kec n
      omega
    · intro ch _ hf
      have := needFuelL_pos kec ch
      omega
  | succ f ih =>
    constructor
    · intro n hg hn hf
      cases n with
      | hash h => exact absurd rfl (hn h)
      | empty => rfl
      | leaf k v =>
        rw [goodN, Bool.and_eq_true, Bool.and_eq_true] at hg
        obtain ⟨⟨hterm, hval⟩, hsz⟩ := hg
        have hszN : (pureEnc kec (.leaf k v)).length < 2 ^ 64 := by simpa using hsz
        have hencl : (pureEnc kec (.leaf k v)).length =
            (headerEncode true (rlpStr (Nibs.encodeCompact k) ++ rlpStr v).length).length +
            (rlpStr (Nibs.encodeCompact k) ++ rlpStr v).length := by
          rw [pureEnc, rlpListWrap, List.length_append]
        have happ : (rlpStr (Nibs.encodeCompact k) ++ rlpStr v).length =
            (rlpStr (Nibs.encodeCompact k)).length + (rlpStr v).length :=
          List.length_append _ _
        have hplen : (rlpStr (Nibs.encodeCompact k) ++ rlpStr v).length < 2 ^ 64 := by omega
        have hcksz : (Nibs.encodeCompact k).length < 2 ^ 64 := by
          have := rlpStr_length_ge (Nibs.encodeCompact k)
          omega
        have hvsz : v.length < 2 ^ 64 := by
          have := rlpStr_length_ge v
          omega
        have hdec := headerDecode_encode true
          (rlpStr (Nibs.encodeCompact k) ++ rlpStr v) [] hplen (by simp)
        rw [List.append_nil] at hdec
        obtain ⟨hkdrop, hkall⟩ := termSfx_parts hterm
        have hleafk : Nibs.isLeaf k = true := by
          rw [Nibs.isLeaf, ← hkdrop]
          simp
        have hckgood : ¬((Nibs.encodeCompact k).length = 1 ∧
            128 ≤ (Nibs.encodeCompact k).headD 0) := by
          rintro ⟨h1, h2⟩
          have := encodeCompact_headD_lt k (by rw [if_pos hleafk]; exact hkall)
          omega
        obtain ⟨bk, restk, hckdec, hckdrop⟩ :=
          rlpStr_extract (Nibs.encodeCompact k) hcksz hckgood
        have hvgood : ¬(v.length = 1 ∧ 128 ≤ v.headD 0) := by
          rintro ⟨h1, h2⟩
          rw [goodVal, Bool.and_eq_true] at hval
          obtain ⟨hv1, hv2⟩ := hval
          rw [Bool.or_eq_true] at hv2
          rcases hv2 with hv2 | hv2
          · simp at hv2
            exact hv2 h1
          · simp at hv2
            rw [List.headD_eq_head?] at h2
            omega
        obtain ⟨bv, restv, hvdec, hvdrop⟩ := rlpStr_extract v hvsz hvgood
        have hvne : v ≠ [] := by
          rw [goodVal, Bool.and_eq_true] at hval
          simpa using hval.1
        have hfold : ([rlpStr (Nibs.encodeCompact k), rlpStr v].foldr (· ++ ·) []) =
            rlpStr (Nibs.encodeCompact k) ++ rlpStr v := by simp
        have hcanon : ∀ i ∈ [rlpStr (Nibs.encodeCompact k), rlpStr v], canonItem i := by
          intro i hi
          simp only [List.mem_cons, List.not_mem_nil, or_false] at hi
          rcases hi with rfl | rfl
          · exact canonItem_rlpStr _ hcksz
          · exact canonItem_rlpStr _ hvsz
        have hsplit := splitItems_concat [rlpStr (Nibs.encodeCompact k), rlpStr v]
          ((rlpStr (Nibs.encodeCompact k) ++ rlpStr v).length + 1) hcanon
          (by rw [hfold]; omega)
        rw [hfold] at hsplit
        rw [pureEnc, storeView, rlpListWrap, decodeNode, hdec]
        dsimp only
        rw [if_pos rfl, List.take_length, hsplit]
        dsimp only
        rw [if_neg (by simp), if_pos (by simp)]
        simp only [List.getD_cons_zero, List.getD_cons_succ]
        rw [hckdec]
        dsimp only
        rw [hckdrop, fromCompact_encodeCompact_leaf k hterm, if_pos hleafk, hvdec]
        dsimp only
        rw [hvdrop]
        rfl
      | branch ch v =>
        rw [goodN, Bool.and_eq_true, Bool.and_eq_true, Bool.and_eq_true] at hg
        obtain ⟨⟨⟨hgl, hlen16⟩, hgv⟩, hsz⟩ := hg
        have hlen : NodeList.length ch = 16 := by simpa using hlen16
        have hszN : (pureEnc kec (.branch ch v)).length < 2 ^ 64 := by simpa using hsz
        have hneed : needFuel kec (.branch ch v) = needFuelL kec ch + 1 := rfl
        rw [hneed] at hf
        have henc : pureEnc kec (.branch ch v) =
            rlpListWrap ((pureItems kec ch).foldr (· ++ ·) [] ++ v.elim [0x80] rlpStr) := rfl
        have hview : storeView kec (.branch ch v) = .branch (storeViewL kec ch) v := rfl
        rw [henc, rlpListWrap_length_decomp, List.length_append] at hszN
        have hvsz : (v.elim [0x80] rlpStr : Bytes).length < 2 ^ 64 := by omega
        obtain ⟨bv, vlen, restv, hval1, hval2⟩ :=
          branch_value_decode v (by simpa using hgv) hvsz
        have hdecW := headerDecode_encode true
          ((pureItems kec ch).foldr (· ++ ·) [] ++ v.elim [0x80] rlpStr) []
          (by rw [List.length_append]; omega) (by simp)
        rw [List.append_nil] at hdecW
        have hfold := foldr_append_concat (pureItems kec ch) (v.elim [0x80] rlpStr)
        have hcanon : ∀ i ∈ pureItems kec ch ++ [(v.elim [0x80] rlpStr : Bytes)],
            canonItem i := by
          intro i hi
          rcases List.mem_append.mp hi with hi | hi
          · exact canonItem_pureItems kec hk32 ch hgl i hi
          · simp only [List.mem_singleton] at hi
            subst hi
            cases v with
            | none => exact (canonItem_rlpStr [] (by simp) : canonItem (rlpStr []))
            | some vv =>
              simp only [Option.elim] at hvsz ⊢
              exact canonItem_rlpStr vv (by have := rlpStr_length_ge vv; omega)
        have hsplit := splitItems_concat (pureItems kec ch ++ [v.elim [0x80] rlpStr])
          (((pureItems kec ch).foldr (· ++ ·) [] ++ v.elim [0x80] rlpStr).length + 1)
          hcanon (by rw [hfold]; omega)
        rw [hfold] at hsplit
        have h16 : (16 : Nat) = (pureItems kec ch).length := by
          rw [pureItems_length kec ch, hlen]
        have hlit : (pureItems kec ch ++ [(v.elim [0x80] rlpStr : Bytes)]).length = 17 := by
          rw [List.length_append, pureItems_length kec ch, hlen]
          rfl
        have htake : (pureItems kec ch ++ [(v.elim [0x80] rlpStr : Bytes)]).take 16 =
            pureItems kec ch := by
          rw [h16]
          exact List.take_left _ _
        have hgetD : (pureItems kec ch ++ [(v.elim [0x80] rlpStr : Bytes)]).getD 16 [] =
            v.elim [0x80] rlpStr := by
          rw [h16]
          exact getD_append_length _ _
        have hch := ih.2 ch hgl (by omega)
        rw [henc, hview, rlpListWrap, decodeNode, hdecW]
        dsimp only
        rw [if_pos rfl, List.take_length, hsplit]
        dsimp only
        rw [if_pos hlit, htake, hch]
        dsimp only
        rw [hgetD, hval1]
        dsimp only
        rw [hval2]
        rfl
      | ext pre sub =>
        rw [goodN, Bool.and_eq_true, Bool.and_eq_true, Bool.and_eq_true] at hg
        obtain ⟨⟨⟨hne0, hall0⟩, hgsub⟩, hsz⟩ := hg
        have hne : pre ≠ [] := by simpa using hne0
        have hall : ∀ x ∈ pre, x < 16 := by
          intro x hx
          have := List.all_eq_true.mp hall0 x hx
          simpa using this
        have hszN : (pureEnc kec (.ext pre sub)).length < 2 ^ 64 := by simpa using hsz
        cases sub with
        | hash h =>
          have h32 : h.length = 32 := by
            simp [goodN] at hgsub
            exact hgsub
          have henc : pureEnc kec (.ext pre (.hash h)) =
              rlpListWrap (rlpStr (Nibs.encodeCompact pre) ++ rlpStr h) := rfl
          have hview : storeView kec (.ext pre (.hash h)) = .ext pre (.hash h) := rfl
          have hneed : needFuel kec (.ext pre (.hash h)) = 2 := rfl
          rw [hneed] at hf
          rw [henc, rlpListWrap_length_decomp, List.length_append] at hszN
          rw [henc, hview]
          exact decode_ext_item f pre (rlpStr h) (.hash h) hne hall
            (canonItem_rlpStr h (by omega)) (by rw [List.length_append]; omega)
            (decode_hash_item f h h32 (by omega))
        | empty =>
          have hnh : ∀ h, (Node.empty) ≠ Node.hash h := by
            intro h hc
            cases hc
          have henc : pureEnc kec (.ext pre (Node.empty)) =
              (if (pureEnc kec (Node.empty)).length < 32 then
                rlpListWrap (rlpStr (Nibs.encodeCompact pre) ++ pureEnc kec (Node.empty))
              else rlpListWrap (rlpStr (Nibs.encodeCompact pre) ++
                rlpStr (kec (pureEnc kec (Node.empty))))) := rfl
          have hview : storeView kec (.ext pre (Node.empty)) =
              (if (pureEnc kec (Node.empty)).length < 32 then .ext pre (storeView kec (Node.empty))
               else .ext pre (.hash (kec (pureEnc kec (Node.empty))))) := rfl
          have hneed : needFuel kec (.ext pre (Node.empty)) =
              (if (pureEnc kec (Node.empty)).length < 32 then needFuel kec (Node.empty) else 1) + 1 := rfl
          rw [hneed] at hf
          rw [henc, hview]
          by_cases hInl : (pureEnc kec (Node.empty)).length < 32
          · rw [if_pos hInl] at hf
            rw [if_pos hInl, if_pos hInl]
            rw [henc, if_pos hInl, rlpListWrap_length_decomp, List.length_append] at hszN
            exact decode_ext_item f pre (pureEnc kec (Node.empty)) (storeView kec (Node.empty))
              hne hall (canonItem_pureEnc kec (Node.empty) hgsub hnh) (by rw [List.length_append]; omega)
              (ih.1 (Node.empty) hgsub hnh (by omega))
          · rw [if_neg hInl] at hf
            rw [if_neg hInl, if_neg hInl]
            rw [henc, if_neg hInl, rlpListWrap_length_decomp, List.length_append] at hszN
            exact decode_ext_item f pre (rlpStr (kec (pureEnc kec (Node.empty))))
              (.hash (kec (pureEnc kec (Node.empty)))) hne hall
              (canonItem_rlpStr _ (by rw [hk32]; omega)) (by rw [List.length_append]; omega)
              (decode_hash_item f _ (hk32 _) (by omega))
        | leaf lk lv =>
          have hnh : ∀ h, (Node.leaf lk lv) ≠ Node.hash h := by
            intro h hc
            cases hc
          have henc : pureEnc kec (.ext pre (Node.leaf lk lv)) =
              (if (pureEnc kec (Node.leaf lk lv)).length < 32 then
                rlpListWrap (rlpStr (Nibs.encodeCompact pre) ++ pureEnc kec (Node.leaf lk lv))
              else rlpListWrap (rlpStr (Nibs.encodeCompact pre) ++
                rlpStr (kec (pureEnc kec (Node.leaf lk lv))))) := rfl
          have hview : storeView kec (.ext pre (Node.leaf lk lv)) =
              (if (pureEnc kec (Node.leaf lk lv)).length < 32 then .ext pre (storeView kec (Node.leaf lk lv))
               else .ext pre (.hash (kec (pureEnc kec (Node.leaf lk lv))))) := rfl
          have hneed : needFuel kec (.ext pre (Node.leaf lk lv)) =
              (if (pureEnc kec (Node.leaf lk lv)).length < 32 then needFuel kec (Node.leaf lk lv) else 1) + 1 := rfl
          rw [hneed] at hf
          rw [henc, hview]
          by_cases hInl : (pureEnc kec (Node.leaf lk lv)).length < 32
          · rw [if_pos hInl] at hf
            rw [if_pos hInl, if_pos hInl]
            rw [henc, if_pos hInl, rlpListWrap_length_decomp, List.length_append] at hszN
            exact decode_ext_item f pre (pureEnc kec (Node.leaf lk lv)) (storeView kec (Node.leaf lk lv))
              hne hall (canonItem_pureEnc kec (Node.leaf lk lv) hgsub hnh) (by rw [List.length_append]; omega)
              (ih.1 (Node.leaf lk lv) hgsub hnh (by omega))
          · rw [if_neg hInl] at hf
            rw [if_neg hInl, if_neg hInl]
            rw [henc, if_neg hInl, rlpListWrap_length_decomp, List.length_append] at hszN
            exact decode_ext_item f pre (rlpStr (kec (pureEnc kec (Node.leaf lk lv))))
              (.hash (kec (pureEnc kec (Node.leaf lk lv)))) hne hall
              (canonItem_rlpStr _ (by rw [hk32]; omega)) (by rw [List.length_append]; omega)
              (decode_hash_item f _ (hk32 _) (by omega))
        | branch bch bv =>
          have hnh : ∀ h, (Node.branch bch bv) ≠ Node.hash h := by
            intro h hc
            cases hc
          have henc : pureEnc kec (.ext pre (Node.branch bch bv)) =
              (if (pureEnc kec (Node.branch bch bv)).length < 32 then
                rlpListWrap (rlpStr (Nibs.encodeCompact pre) ++ pureEnc kec (Node.branch bch bv))
              else rlpListWrap (rlpStr (Nibs.encodeCompact pre) ++
                rlpStr (kec (pureEnc kec (Node.branch bch bv))))) := rfl
          have hview : storeView kec (.ext pre (Node.branch bch bv)) =
              (if (pureEnc kec (Node.branch bch bv)).length < 32 then .ext pre (storeView kec (Node.branch bch bv))
               else .ext pre (.hash (kec (pureEnc kec (Node.branch bch bv))))) := rfl
          have hneed : needFuel kec (.ext pre (Node.branch bch bv)) =
              (if (pureEnc kec (Node.branch bch bv)).length < 32 then needFuel kec (Node.branch bch bv) else 1) + 1 := rfl
          rw [hneed] at hf
          rw [henc, hview]
          by_cases hInl : (pureEnc kec (Node.branch bch bv)).length < 32
          · rw [if_pos hInl] at hf
            rw [if_pos hInl, if_pos hInl]
            rw [henc, if_pos hInl, rlpListWrap_length_decomp, List.length_append] at hszN
            exact decode_ext_item f pre (pureEnc kec (Node.branch bch bv)) (storeView kec (Node.branch bch bv))
              hne hall (canonItem_pureEnc kec (Node.branch bch bv) hgsub hnh) (by rw [List.length_append]; omega)
              (ih.1 (Node.branch bch bv) hgsub hnh (by omega))
          · rw [if_neg hInl] at hf
            rw [if_neg hInl, if_neg hInl]
            rw [henc, if_neg hInl, rlpListWrap_length_decomp, List.length_append] at hszN
            exact decode_ext_item f pre (rlpStr (kec (pureEnc kec (Node.branch bch bv))))
              (.hash (kec (pureEnc kec (Node.branch bch bv)))) hne hall
              (canonItem_rlpStr _ (by rw [hk32]; omega)) (by rw [List.length_append]; omega)
              (decode_hash_item f _ (hk32 _) (by omega))
        | ext spre ssub =>
          have hnh : ∀ h, (Node.ext spre ssub) ≠ Node.hash h := by
            intro h hc
            cases hc
          have henc : pureEnc kec (.ext pre (Node.ext spre ssub)) =
              (if (pureEnc kec (Node.ext spre ssub)).length < 32 then
                rlpListWrap (rlpStr (Nibs.encodeCompact pre) ++ pureEnc kec (Node.ext spre ssub))
              else rlpListWrap (rlpStr (Nibs.encodeCompact pre) ++
                rlpStr (kec (pureEnc kec (Node.ext spre ssub))))) := rfl
          have hview : storeView kec (.ext pre (Node.ext spre ssub)) =
              (if (pureEnc kec (Node.ext spre ssub)).length < 32 then .ext pre (storeView kec (Node.ext spre ssub))
               else .ext pre (.hash (kec (pureEnc kec (Node.ext spre ssub))))) := rfl
          have hneed : needFuel kec (.ext pre (Node.ext spre ssub)) =
              (if (pureEnc kec (Node.ext spre ssub)).length < 32 then needFuel kec (Node.ext spre ssub) else 1) + 1 := rfl
          rw [hneed] at hf
          rw [henc, hview]
          by_cases hInl : (pureEnc kec (Node.ext spre ssub)).length < 32
          · rw [if_pos hInl] at hf
            rw [if_pos hInl, if_pos hInl]
            rw [henc, if_pos hInl, rlpListWrap_length_decomp, List.length_append] at hszN
            exact decode_ext_item f pre (pureEnc kec (Node.ext spre ssub)) (storeView kec (Node.ext spre ssub))
              hne hall (canonItem_pureEnc kec (Node.ext spre ssub) hgsub hnh) (by rw [List.length_append]; omega)
              (ih.1 (Node.ext spre ssub) hgsub hnh (by omega))
          · rw [if_neg hInl] at hf
            rw [if_neg hInl, if_neg hInl]
            rw [henc, if_neg hInl, rlpListWrap_length_decomp, List.length_append] at hszN
            exact decode_ext_item f pre (rlpStr (kec (pureEnc kec (Node.ext spre ssub))))
              (.hash (kec (pureEnc kec (Node.ext spre ssub)))) hne hall
              (canonItem_rlpStr _ (by rw [hk32]; omega)) (by rw [List.length_append]; omega)
              (decode_hash_item f _ (hk32 _) (by omega))
    · intro ch hg hf
      cases ch with
      | nil => rfl
      | cons hd tl =>
        rw [goodL, Bool.and_eq_true] at hg
        obtain ⟨hghd, hgtl⟩ := hg
        rw [needFuelL_eq] at hf
        obtain ⟨hfhd, hftl⟩ := Nat.max_le.mp
          (show max (needItem kec hd) (needFuelL kec tl) ≤ f by omega)
        have hdecItem : decodeNode f (pureItem kec hd) = some (.ok (viewItem kec hd)) := by
          cases hd with
          | hash h =>
            have h32 : h.length = 32 := by
              simp [goodN] at hghd
              exact hghd
            exact decode_hash_item f h h32 hfhd
          | empty =>
            have hni : needItem kec (Node.empty) =
                (if (pureEnc kec (Node.empty)).length < 32 then needFuel kec (Node.empty) else 1) := rfl
            have hpi : pureItem kec (Node.empty) =
                (if (pureEnc kec (Node.empty)).length < 32 then pureEnc kec (Node.empty)
                 else rlpStr (kec (pureEnc kec (Node.empty)))) := rfl
            have hvi : viewItem kec (Node.empty) =
                (if (pureEnc kec (Node.empty)).length < 32 then storeView kec (Node.empty)
                 else .hash (kec (pureEnc kec (Node.empty)))) := rfl
            rw [hni] at hfhd
            rw [hpi, hvi]
            by_cases hInl : (pureEnc kec (Node.empty)).length < 32
            · rw [if_pos hInl] at hfhd
              rw [if_pos hInl, if_pos hInl]
              exact ih.1 (Node.empty) hghd (by intro h hc; cases hc) hfhd
            · rw [if_neg hInl] at hfhd
              rw [if_neg hInl, if_neg hInl]
              exact decode_hash_item f _ (hk32 _) hfhd
          | leaf lk lv =>
            have hni : needItem kec (Node.leaf lk lv) =
                (if (pureEnc kec (Node.leaf lk lv)).length < 32 then needFuel kec (Node.leaf lk lv) else 1) := rfl
            have hpi : pureItem kec (Node.leaf lk lv) =
                (if (pureEnc kec (Node.leaf lk lv)).length < 32 then pureEnc kec (Node.leaf lk lv)
                 else rlpStr (kec (pureEnc kec (Node.leaf lk lv)))) := rfl
            have hvi : viewItem kec (Node.leaf lk lv) =
                (if (pureEnc kec (Node.leaf lk lv)).length < 32 then storeView kec (Node.leaf lk lv)
                 else .hash (kec (pureEnc kec (Node.leaf lk lv)))) := rfl
            rw [hni] at hfhd
            rw [hpi, hvi]
            by_cases hInl : (pureEnc kec (Node.leaf lk lv)).length < 32
            · rw [if_pos hInl] at hfhd
              rw [if_pos hInl, if_pos hInl]
              exact ih.1 (Node.leaf lk lv) hghd (by intro h hc; cases hc) hfhd
            · rw [if_neg hInl] at hfhd
              rw [if_neg hInl, if_neg hInl]
              exact decode_hash_item f _ (hk32 _) hfhd
          | branch bch bv =>
            have hni : needItem kec (Node.branch bch bv) =
                (if (pureEnc kec (Node.branch bch bv)).length < 32 then needFuel kec (Node.branch bch bv) else 1) := rfl
            have hpi : pureItem kec (Node.branch bch bv) =
                (if (pureEnc kec (Node.branch bch bv)).length < 32 then pureEnc kec (Node.branch bch bv)
                 else rlpStr (kec (pureEnc kec (Node.branch bch bv)))) := rfl
            have hvi : viewItem kec (Node.branch bch bv) =
                (if (pureEnc kec (Node.branch bch bv)).length < 32 then storeView kec (Node.branch bch bv)
                 else .hash (kec (pureEnc kec (Node.branch bch bv)))) := rfl
            rw [hni] at hfhd
            rw [hpi, hvi]
            by_cases hInl : (pureEnc kec (Node.branch bch bv)).length < 32
            · rw [if_pos hInl] at hfhd
              rw [if_pos hInl, if_pos hInl]
              exact ih.1 (Node.branch bch bv) hghd (by intro h hc; cases hc) hfhd
            · rw [if_neg hInl] at hfhd
              rw [if_neg hInl, if_neg hInl]
              exact decode_hash_item f _ (hk32 _) hfhd
          | ext sp ss =>
            have hni : needItem kec (Node.ext sp ss) =
                (if (pureEnc kec (Node.ext sp ss)).length < 32 then needFuel kec (Node.ext sp ss) else 1) := rfl
            have hpi : pureItem kec (Node.ext sp ss) =
                (if (pureEnc kec (Node.ext sp ss)).length < 32 then pureEnc kec (Node.ext sp ss)
                 else rlpStr (kec (pureEnc kec (Node.ext sp ss)))) := rfl
            have hvi : viewItem kec (Node.ext sp ss) =
                (if (pureEnc kec (Node.ext sp ss)).length < 32 then storeView kec (Node.ext sp ss)
                 else .hash (kec (pureEnc kec (Node.ext sp ss)))) := rfl
            rw [hni] at hfhd
            rw [hpi, hvi]
            by_cases hInl : (pureEnc kec (Node.ext sp ss)).length < 32
            · rw [if_pos hInl] at hfhd
              rw [if_pos hInl, if_pos hInl]
              exact ih.1 (Node.ext sp ss) hghd (by intro h hc; cases hc) hfhd
            · rw [if_neg hInl] at hfhd
              rw [if_neg hInl, if_neg hInl]
              exact decode_hash_item f _ (hk32 _) hfhd
        rw [pureItems_eq, storeViewL_eq, decodeChildren, hdecItem]
        dsimp only
        rw [ih.2 tl hgtl hftl]

mutual

/-- The bytes `encode_raw` emits are exactly the ghost encoding. -/
theorem encodeRaw_pure (kec : Kec) : ∀ (t : EthTrie) (n : Node) (t1 : EthTrie) (e : Bytes),
    encodeRaw kec t n = some (t1, e) → e = pureEnc kec n := by
  intro t n t1 e h
  cases n with
  | empty => cases h; rfl
  | leaf k v => cases h; rfl
  | hash hh => cases h
  | branch ch v =>
    cases v with
    | none =>
      have hstep : encodeRaw kec t (.branch ch none) =
          (match encodeChildren kec t ch with
           | none => none
           | some (t2, listPart) => some (t2, rlpListWrap (listPart ++ [0x80]))) := rfl
      rw [hstep] at h
      split at h
      · exact absurd h (by simp)
      · rename_i t2 L heq
        cases h
        have hL := encodeChildren_pure kec t ch _ _ heq
        subst hL
        rfl
    | some vv =>
      have hstep : encodeRaw kec t (.branch ch (some vv)) =
          (match encodeChildren kec t ch with
           | none => none
           | some (t2, listPart) => some (t2, rlpListWrap (listPart ++ rlpStr vv))) := rfl
      rw [hstep] at h
      split at h
      · exact absurd h (by simp)
      · rename_i t2 L heq
        cases h
        have hL := encodeChildren_pure kec t ch _ _ heq
        subst hL
        rfl
  | ext pre sub =>
    cases sub with
    | hash hh => cases h; rfl
      | empty =>
        have hstep : encodeRaw kec t (.ext pre (Node.empty)) =
            (match encodeRaw kec t (Node.empty) with
             | none => none
             | some (t2, d) =>
               if d.length < 32 then
                 some (t2, rlpListWrap (rlpStr (Nibs.encodeCompact pre) ++ d))
               else
                 some ((cachePut kec t2 d).1,
                   rlpListWrap (rlpStr (Nibs.encodeCompact pre) ++
                     rlpStr (cachePut kec t2 d).2))) := rfl
        have hpe : pureEnc kec (.ext pre (Node.empty)) =
            (if (pureEnc kec (Node.empty)).length < 32 then
              rlpListWrap (rlpStr (Nibs.encodeCompact pre) ++ pureEnc kec (Node.empty))
            else rlpListWrap (rlpStr (Nibs.encodeCompact pre) ++
              rlpStr (kec (pureEnc kec (Node.empty))))) := rfl
        rw [hstep] at h
        split at h
        · exact absurd h (by simp)
        · rename_i t2 d heq
          have hd := encodeRaw_pure kec t (Node.empty) _ _ heq
          subst hd
          split at h
          · cases h
            rw [hpe, if_pos (by assumption)]
          · cases h
            rw [hpe, if_neg (by assumption)]
            rfl
      | leaf lk lv =>
        have hstep : encodeRaw kec t (.ext pre (Node.leaf lk lv)) =
            (match encodeRaw kec t (Node.leaf lk lv) with
             | none => none
             | some (t2, d) =>
               if d.length < 32 then
                 some (t2, rlpListWrap (rlpStr (Nibs.encodeCompact pre) ++ d))
               else
                 some ((cachePut kec t2 d).1,
                   rlpListWrap (rlpStr (Nibs.encodeCompact pre) ++
                     rlpStr (cachePut kec t2 d).2))) := rfl
        have hpe : pureEnc kec (.ext pre (Node.leaf lk lv)) =
            (if (pureEnc kec (Node.leaf lk lv)).length < 32 then
              rlpListWrap (rlpStr (Nibs.encodeCompact pre) ++ pureEnc kec (Node.leaf lk lv))
            else rlpListWrap (rlpStr (Nibs.encodeCompact pre) ++
              rlpStr (kec (pureEnc kec (Node.leaf lk lv))))) := rfl
        rw [hstep] at h
        split at h
        · exact absurd h (by simp)
        · rename_i t2 d heq
          have hd := encodeRaw_pure kec t (Node.leaf lk lv) _ _ heq
          subst hd
          split at h
          · cases h
            rw [hpe, if_pos (by assumption)]
          · cases h
            rw [hpe, if_neg (by assumption)]
            rfl
      | branch bch bv =>
        have hstep : encodeRaw kec t (.ext pre (Node.branch bch bv)) =
            (match encodeRaw kec t (Node.branch bch bv) with
             | none => none
             | some (t2, d) =>
               if d.length < 32 then
                 some (t2, rlpListWrap (rlpStr (Nibs.encodeCompact pre) ++ d))
               else
                 some ((cachePut kec t2 d).1,
                   rlpListWrap (rlpStr (Nibs.encodeCompact pre) ++
                     rlpStr (cachePut kec t2 d).2))) := rfl
        have hpe : pureEnc kec (.ext pre (Node.branch bch bv)) =
            (if (pureEnc kec (Node.branch bch bv)).length < 32 then
              rlpListWrap (rlpStr (Nibs.encodeCompact pre) ++ pureEnc kec (Node.branch bch bv))
            else rlpListWrap (rlpStr (Nibs.encodeCompact pre) ++
              rlpStr (kec (pureEnc kec (Node.branch bch bv))))) := rfl
        rw [hstep] at h
        split at h
        · exact absurd h (by simp)
        · rename_i t2 d heq
          have hd := encodeRaw_pure kec t (Node.branch bch bv) _ _ heq
          subst hd
          split at h
          · cases h
            rw [hpe, if_pos (by assumption)]
          · cases h
            rw [hpe, if_neg (by assumption)]
            rfl
      | ext spre ssub =>
        have hstep : encodeRaw kec t (.ext pre (Node.ext spre ssub)) =
            (match encodeRaw kec t (Node.ext spre ssub) with
             | none => none
             | some (t2, d) =>
               if d.length < 32 then
                 some (t2, rlpListWrap (rlpStr (Nibs.encodeCompact pre) ++ d))
               else
                 some ((cachePut kec t2 d).1,
                   rlpListWrap (rlpStr (Nibs.encodeCompact pre) ++
                     rlpStr (cachePut kec t2 d).2))) := rfl
        have hpe : pureEnc kec (.ext pre (Node.ext spre ssub)) =
            (if (pureEnc kec (Node.ext spre ssub)).length < 32 then
              rlpListWrap (rlpStr (Nibs.encodeCompact pre) ++ pureEnc kec (Node.ext spre ssub))
            else rlpListWrap (rlpStr (Nibs.encodeCompact pre) ++
              rlpStr (kec (pureEnc kec (Node.ext spre ssub))))) := rfl
        rw [hstep] at h
        split at h
        · exact absurd h (by simp)
        · rename_i t2 d heq
          have hd := encodeRaw_pure kec t (Node.ext spre ssub) _ _ heq
          subst hd
          split at h
          · cases h
            rw [hpe, if_pos (by assumption)]
          · cases h
            rw [hpe, if_neg (by assumption)]
            rfl

/-- The bytes the children loop emits are the concatenated ghost items. -/
theorem encodeChildren_pure (kec : Kec) :
    ∀ (t : EthTrie) (ch : NodeList) (t1 : EthTrie) (L : Bytes),
    encodeChildren kec t ch = some (t1, L) →
    L = (pureItems kec ch).foldr (· ++ ·) [] := by
  intro t ch t1 L h
  cases ch with
  | nil => cases h; rfl
  | cons hd tl =>
    cases hd with
    | hash hh =>
      have hstep : encodeChildren kec t (.cons (.hash hh) tl) =
          (match encodeChildren kec t tl with
           | none => none
           | some (t2, rest) => some (t2, rlpStr hh ++ rest)) := rfl
      rw [hstep] at h
      split at h
      · exact absurd h (by simp)
      · rename_i t2 rest heq
        cases h
        have hr := encodeChildren_pure kec t tl _ _ heq
        subst hr
        rfl
    | empty =>
      have hstep : encodeChildren kec t (.cons (Node.empty) tl) =
          (match encodeRaw kec t (Node.empty) with
           | none => none
           | some (t1, d) =>
             if d.length < 32 then
               match encodeChildren kec t1 tl with
               | none => none
               | some (t2, rest) => some (t2, d ++ rest)
             else
               match encodeChildren kec (cachePut kec t1 d).1 tl with
               | none => none
               | some (t3, rest) =>
                 some (t3, rlpStr (cachePut kec t1 d).2 ++ rest)) := rfl
      have hpi : pureItem kec (Node.empty) =
          (if (pureEnc kec (Node.empty)).length < 32 then pureEnc kec (Node.empty)
           else rlpStr (kec (pureEnc kec (Node.empty)))) := rfl
      rw [hstep] at h
      split at h
      · exact absurd h (by simp)
      · rename_i t2 d heq
        have hd := encodeRaw_pure kec t (Node.empty) _ _ heq
        subst hd
        split at h
        · split at h
          · exact absurd h (by simp)
          · rename_i t3 rest heq2
            cases h
            have hr := encodeChildren_pure kec _ tl _ _ heq2
            subst hr
            rw [pureItems_eq, List.foldr_cons, hpi, if_pos (by assumption)]
        · split at h
          · exact absurd h (by simp)
          · rename_i t3 rest heq2
            cases h
            have hr := encodeChildren_pure kec _ tl _ _ heq2
            subst hr
            rw [pureItems_eq, List.foldr_cons, hpi, if_neg (by assumption)]
            rfl
    | leaf lk lv =>
      have hstep : encodeChildren kec t (.cons (Node.leaf lk lv) tl) =
          (match encodeRaw kec t (Node.leaf lk lv) with
           | none => none
           | some (t1, d) =>
             if d.length < 32 then
               match encodeChildren kec t1 tl with
               | none => none
               | some (t2, rest) => some (t2, d ++ rest)
             else
               match encodeChildren kec (cachePut kec t1 d).1 tl with
               | none => none
               | some (t3, rest) =>
                 some (t3, rlpStr (cachePut kec t1 d).2 ++ rest)) := rfl
      have hpi : pureItem kec (Node.leaf lk lv) =
          (if (pureEnc kec (Node.leaf lk lv)).length < 32 then pureEnc kec (Node.leaf lk lv)
           else rlpStr (kec (pureEnc kec (Node.leaf lk lv)))) := rfl
      rw [hstep] at h
      split at h
      · exact absurd h (by simp)
      · rename_i t2 d heq
        have hd := encodeRaw_pure kec t (Node.leaf lk lv) _ _ heq
        subst hd
        split at h
        · split at h
          · exact absurd h (by simp)
          · rename_i t3 rest heq2
            cases h
            have hr := encodeChildren_pure kec _ tl _ _ heq2
            subst hr
            rw [pureItems_eq, List.foldr_cons, hpi, if_pos (by assumption)]
        · split at h
          · exact absurd h (by simp)
          · rename_i t3 rest heq2
            cases h
            have hr := encodeChildren_pure kec _ tl _ _ heq2
            subst hr
            rw [pureItems_eq, List.foldr_cons, hpi, if_neg (by assumption)]
            rfl
    | branch bch bv =>
      have hstep : encodeChildren kec t (.cons (Node.branch bch bv) tl) =
          (match encodeRaw kec t (Node.branch bch bv) with
           | none => none
           | some (t1, d) =>
             if d.length < 32 then
               match encodeChildren kec t1 tl with
               | none => none
               | some (t2, rest) => some (t2, d ++ rest)
             else
               match encodeChildren kec (cachePut kec t1 d).1 tl with
               | none => none
               | some (t3, rest) =>
                 some (t3, rlpStr (cachePut kec t1 d).2 ++ rest)) := rfl
      have hpi : pureItem kec (Node.branch bch bv) =
          (if (pureEnc kec (Node.branch bch bv)).length < 32 then pureEnc kec (Node.branch bch bv)
           else rlpStr (kec (pureEnc kec (Node.branch bch bv)))) := rfl
      rw [hstep] at h
      split at h
      · exact absurd h (by simp)
      · rename_i t2 d heq
        have hd := encodeRaw_pure kec t (Node.branch bch bv) _ _ heq
        subst hd
        split at h
        · split at h
          · exact absurd h (by simp)
          · rename_i t3 rest heq2
            cases h
            have hr := encodeChildren_pure kec _ tl _ _ heq2
            subst hr
            rw [pureItems_eq, List.foldr_cons, hpi, if_pos (by assumption)]
        · split at h
          · exact absurd h (by simp)
          · rename_i t3 rest heq2
            cases h
            have hr := encodeChildren_pure kec _ tl _ _ heq2
            subst hr
            rw [pureItems_eq, List.foldr_cons, hpi, if_neg (by assumption)]
            rfl
    | ext sp ss =>
      have hstep : encodeChildren kec t (.cons (Node.ext sp ss) tl) =
          (match encodeRaw kec t (Node.ext sp ss) with
           | none => none
           | some (t1, d) =>
             if d.length < 32 then
               match encodeChildren kec t1 tl with
               | none => none
               | some (t2, rest) => some (t2, d ++ rest)
             else
               match encodeChildren kec (cachePut kec t1 d).1 tl with
               | none => none
               | some (t3, rest) =>
                 some (t3, rlpStr (cachePut kec t1 d).2 ++ rest)) := rfl
      have hpi : pureItem kec (Node.ext sp ss) =
          (if (pureEnc kec (Node.ext sp ss)).length < 32 then pureEnc kec (Node.ext sp ss)
           else rlpStr (kec (pureEnc kec (Node.ext sp ss)))) := rfl
      rw [hstep] at h
      split at h
      · exact absurd h (by simp)
      · rename_i t2 d heq
        have hd := encodeRaw_pure kec t (Node.ext sp ss) _ _ heq
        subst hd
        split at h
        · split at h
          · exact absurd h (by simp)
          · rename_i t3 rest heq2
            cases h
            have hr := encodeChildren_pure kec _ tl _ _ heq2
            subst hr
            rw [pureItems_eq, List.foldr_cons, hpi, if_pos (by assumption)]
        · split at h
          · exact absurd h (by simp)
          · rename_i t3 rest heq2
            cases h
            have hr := encodeChildren_pure kec _ tl _ _ heq2
            subst hr
            rw [pureItems_eq, List.foldr_cons, hpi, if_neg (by assumption)]
            rfl

end

/-- C8, amended.  Decoding the canonical encoding of a storage-normal node
yields the node with every oversized child abstracted to its hash reference:
`decode_node(encode_raw(n)) = storeView(n)`; on nodes whose children all
inline (encodings under 32 bytes) `storeView` is the identity and the claim's
equality holds; the counterexample shows it fails otherwise. -/
theorem claim_C8_decode_encode_raw (kec : Kec) (hk32 : ∀ x, (kec x).length = 32)
    (t t1 : EthTrie) (n : Node) (e : Bytes) (f : Nat)
    (hg : goodN kec n = true) (hf : needFuel kec n ≤ f)
    (henc : encodeRaw kec t n = some (t1, e)) :
    decodeNode f e = some (.ok (storeView kec n)) := by
  have hn : ∀ h, n ≠ Node.hash h := by
    intro h hc
    subst hc
    cases henc
  have he := encodeRaw_pure kec t n t1 e henc
  subst he
  exact (decode_pureEnc_main kec hk32 f).1 n hg hn hf

theorem claim_C8_decode_encode_raw_witness :
    decodeNode 5 [196, 130, 32, 97, 5] =
      some (.ok (storeView specKec (.leaf (Nibs.fromRaw [97] true) [5]))) :=
  claim_C8_decode_encode_raw specKec specKec_length (newTrie specKec [])
    (newTrie specKec []) (.leaf (Nibs.fromRaw [97] true) [5])
    [196, 130, 32, 97, 5] 5 (by decide) (by decide) (by rfl)

/-! ## Store-view walk machinery -/

theorem needFuel_ext_aux (kec : Kec) (pre : Nibs) (sub : Node)
    (hnh : ∀ h, sub ≠ Node.hash h)
    (hsub : needFuel kec sub ≤ (pureEnc kec sub).length) :
    needFuel kec (.ext pre sub) ≤ (pureEnc kec (.ext pre sub)).length := by
  have hcp := rlpStr_length_pos (Nibs.encodeCompact pre)
  have hneed : needFuel kec (.ext pre sub) =
      (if (pureEnc kec sub).length < 32 then needFuel kec sub else 1) + 1 := by
    cases sub with
    | hash h => exact absurd rfl (hnh h)
    | empty => rfl
    | leaf lk lv => rfl
    | branch bch bv => rfl
    | ext sp ss => rfl
  have henc : pureEnc kec (.ext pre sub) =
      (if (pureEnc kec sub).length < 32 then
        rlpListWrap (rlpStr (Nibs.encodeCompact pre) ++ pureEnc kec sub)
      else rlpListWrap (rlpStr (Nibs.encodeCompact pre) ++
        rlpStr (kec (pureEnc kec sub)))) := by
    cases sub with
    | hash h => exact absurd rfl (hnh h)
    | empty => rfl
    | leaf lk lv => rfl
    | branch bch bv => rfl
    | ext sp ss => rfl
  rw [hneed, henc]
  by_cases hInl : (pureEnc kec sub).length < 32
  · rw [if_pos hInl, if_pos hInl, rlpListWrap_length_decomp, List.length_append]
    have h5 := headerEncode_length_pos true
      (rlpStr (Nibs.encodeCompact pre) ++ pureEnc kec sub).length
    omega
  · rw [if_neg hInl, if_neg hInl, rlpListWrap_length_decomp, List.length_append]
    have h4 := rlpStr_length_pos (kec (pureEnc kec sub))
    have h5 := headerEncode_length_pos true
      (rlpStr (Nibs.encodeCompact pre) ++ rlpStr (kec (pureEnc kec sub))).length
    omega

theorem needItem_aux (kec : Kec) (hd : Node)
    (hsub : (∀ h, hd ≠ Node.hash h) → needFuel kec hd ≤ (pureEnc kec hd).length) :
    needItem kec hd ≤ (pureItem kec hd).length := by
  cases hd with
  | hash h => exact pureItem_pos kec (.hash h)
  | empty =>
    have hni : needItem kec Node.empty =
        (if (pureEnc kec Node.empty).length < 32 then needFuel kec Node.empty else 1) := rfl
    have hpi : pureItem kec Node.empty =
        (if (pureEnc kec Node.empty).length < 32 then pureEnc kec Node.empty
         else rlpStr (kec (pureEnc kec Node.empty))) := rfl
    rw [hni, hpi]
    by_cases hInl : (pureEnc kec Node.empty).length < 32
    · rw [if_pos hInl, if_pos hInl]
      exact hsub (by intro h hc; cases hc)
    · rw [if_neg hInl, if_neg hInl]
      exact rlpStr_length_pos _
  | leaf lk lv =>
    have hni : needItem kec (Node.leaf lk lv) =
        (if (pureEnc kec (Node.leaf lk lv)).length < 32 then
          needFuel kec (Node.leaf lk lv) else 1) := rfl
    have hpi : pureItem kec (Node.leaf lk lv) =
        (if (pureEnc kec (Node.leaf lk lv)).length < 32 then pureEnc kec (Node.leaf lk lv)
         else rlpStr (kec (pureEnc kec (Node.leaf lk lv)))) := rfl
    rw [hni, hpi]
    by_cases hInl : (pureEnc kec (Node.leaf lk lv)).length < 32
    · rw [if_pos hInl, if_pos hInl]
      exact hsub (by intro h hc; cases hc)
    · rw [if_neg hInl, if_neg hInl]
      exact rlpStr_length_pos _
  | branch bch bv =>
    have hni : needItem kec (Node.branch bch bv) =
        (if (pureEnc kec (Node.branch bch bv)).length < 32 then
          needFuel kec (Node.branch bch bv) else 1) := rfl
    have hpi : pureItem kec (Node.branch bch bv) =
        (if (pureEnc kec (Node.branch bch bv)).length < 32 then
          pureEnc kec (Node.branch bch bv)
         else rlpStr (kec (pureEnc kec (Node.branch bch bv)))) := rfl
    rw [hni, hpi]
    by_cases hInl : (pureEnc kec (Node.branch bch bv)).length < 32
    · rw [if_pos hInl, if_pos hInl]
      exact hsub (by intro h hc; cases hc)
    · rw [if_neg hInl, if_neg hInl]
      exact rlpStr_length_pos _
  | ext sp ss =>
    have hni : needItem kec (Node.ext sp ss) =
        (if (pureEnc kec (Node.ext sp ss)).length < 32 then
          needFuel kec (Node.ext sp ss) else 1) := rfl
    have hpi : pureItem kec (Node.ext sp ss) =
        (if (pureEnc kec (Node.ext sp ss)).length < 32 then pureEnc kec (Node.ext sp ss)
         else rlpStr (kec (pureEnc kec (Node.ext sp ss)))) := rfl
    rw [hni, hpi]
    by_cases hInl : (pureEnc kec (Node.ext sp ss)).length < 32
    · rw [if_pos hInl, if_pos hInl]
      exact hsub (by intro h hc; cases hc)
    · rw [if_neg hInl, if_neg hInl]
      exact rlpStr_length_pos _

mutual

theorem needFuel_le_pureEnc (kec : Kec) :
    ∀ n, (∀ h, n ≠ Node.hash h) → needFuel kec n ≤ (pureEnc kec n).length
  | .hash h => fun hn => absurd rfl (hn h)
  | .empty => fun _ => le_rfl
  | .leaf k v => fun _ => rlpListWrap_length_pos _
  | .branch ch v => fun _ => by
    have h1 := needFuelL_le_items kec ch
    have h2 : (pureEnc kec (.branch ch v)).length =
        (headerEncode true ((pureItems kec ch).foldr (· ++ ·) [] ++
          v.elim [0x80] rlpStr).length).length +
        ((pureItems kec ch).foldr (· ++ ·) [] ++ v.elim [0x80] rlpStr).length := by
      rw [show pureEnc kec (.branch ch v) = rlpListWrap ((pureItems kec ch).foldr (· ++ ·) []
        ++ v.elim [0x80] rlpStr) from rfl, rlpListWrap_length_decomp]
    have h3 : ((pureItems kec ch).foldr (· ++ ·) [] ++ v.elim [0x80] rlpStr).length =
        ((pureItems kec ch).foldr (· ++ ·) []).length +
        (v.elim [0x80] rlpStr : Bytes).length := List.length_append _ _
    have h4 : 1 ≤ (v.elim [0x80] rlpStr : Bytes).length := by
      cases v with
      | none => simp [Option.elim]
      | some vv => exact rlpStr_length_pos vv
    have h5 : 1 ≤ (headerEncode true ((pureItems kec ch).foldr (· ++ ·) [] ++
        v.elim [0x80] rlpStr).length).length := headerEncode_length_pos _ _
    have h6 : needFuel kec (.branch ch v) = needFuelL kec ch + 1 := rfl
    omega
  | .ext pre sub => fun _ => by
    cases sub with
    | hash h =>
      have hcp := rlpStr_length_pos (Nibs.encodeCompact pre)
      have h6 : needFuel kec (.ext pre (.hash h)) = 2 := rfl
      have h2 : (pureEnc kec (.ext pre (.hash h))).length =
          (headerEncode true (rlpStr (Nibs.encodeCompact pre) ++ rlpStr h).length).length +
          (rlpStr (Nibs.encodeCompact pre) ++ rlpStr h).length := by
        rw [show pureEnc kec (.ext pre (.hash h)) =
          rlpListWrap (rlpStr (Nibs.encodeCompact pre) ++ rlpStr h) from rfl,
          rlpListWrap_length_decomp]
      have h3 := List.length_append (rlpStr (Nibs.encodeCompact pre)) (rlpStr h)
      have h4 := rlpStr_length_pos h
      have h5 := headerEncode_length_pos true
        (rlpStr (Nibs.encodeCompact pre) ++ rlpStr h).length
      omega
    | empty =>
      exact needFuel_ext_aux kec pre Node.empty (by intro h hc; cases hc)
        (needFuel_le_pureEnc kec Node.empty (by intro h hc; cases hc))
    | leaf lk lv =>
      exact needFuel_ext_aux kec pre (Node.leaf lk lv) (by intro h hc; cases hc)
        (needFuel_le_pureEnc kec (Node.leaf lk lv) (by intro h hc; cases hc))
    | branch bch bv =>
      exact needFuel_ext_aux kec pre (Node.branch bch bv) (by intro h hc; cases hc)
        (needFuel_le_pureEnc kec (Node.branch bch bv) (by intro h hc; cases hc))
    | ext sp ss =>
      exact needFuel_ext_aux kec pre (Node.ext sp ss) (by intro h hc; cases hc)
        (needFuel_le_pureEnc kec (Node.ext sp ss) (by intro h hc; cases hc))

theorem needFuelL_le_items (kec : Kec) :
    ∀ ch, needFuelL kec ch ≤ ((pureItems kec ch).foldr (· ++ ·) []).length + 1
  | .nil => le_rfl
  | .cons hd tl => by
    rw [needFuelL_eq, pureItems_eq, List.foldr_cons, List.length_append]
    have htl := needFuelL_le_items kec tl
    have hhd := needItem_aux kec hd (needFuel_le_pureEnc kec hd)
    have hp := pureItem_pos kec hd
    have hmax : max (needItem kec hd) (needFuelL kec tl) ≤
        (pureItem kec hd).length + ((pureItems kec tl).foldr (· ++ ·) []).length :=
      Nat.max_le.mpr ⟨by omega, by omega⟩
    omega

end

theorem pureItem_nonhash (kec : Kec) (n : Node) (hnh : ∀ h, n ≠ Node.hash h) :
    pureItem kec n = (if (pureEnc kec n).length < 32 then pureEnc kec n
      else rlpStr (kec (pureEnc kec n))) := by
  cases n with
  | hash h => exact absurd rfl (hnh h)
  | empty => rfl
  | leaf k v => rfl
  | branch ch v => rfl
  | ext p c => rfl

theorem viewItem_nonhash (kec : Kec) (n : Node) (hnh : ∀ h, n ≠ Node.hash h) :
    viewItem kec n = (if (pureEnc kec n).length < 32 then storeView kec n
      else .hash (kec (pureEnc kec n))) := by
  cases n with
  | hash h => exact absurd rfl (hnh h)
  | empty => rfl
  | leaf k v => rfl
  | branch ch v => rfl
  | ext p c => rfl

theorem storeView_ext (kec : Kec) (pre : Nibs) (sub : Node) :
    storeView kec (.ext pre sub) = .ext pre (viewItem kec sub) := by
  cases sub with
  | hash h => rfl
  | empty =>
    rw [show storeView kec (.ext pre Node.empty) =
      (if (pureEnc kec Node.empty).length < 32 then
        Node.ext pre (storeView kec Node.empty)
       else Node.ext pre (.hash (kec (pureEnc kec Node.empty)))) from rfl,
      viewItem_nonhash kec _ (by intro h hc; cases hc)]
    by_cases h32 : (pureEnc kec Node.empty).length < 32
    · rw [if_pos h32, if_pos h32]
    · rw [if_neg h32, if_neg h32]
  | leaf lk lv =>
    rw [show storeView kec (.ext pre (Node.leaf lk lv)) =
      (if (pureEnc kec (Node.leaf lk lv)).length < 32 then
        Node.ext pre (storeView kec (Node.leaf lk lv))
       else Node.ext pre (.hash (kec (pureEnc kec (Node.leaf lk lv))))) from rfl,
      viewItem_nonhash kec _ (by intro h hc; cases hc)]
    by_cases h32 : (pureEnc kec (Node.leaf lk lv)).length < 32
    · rw [if_pos h32, if_pos h32]
    · rw [if_neg h32, if_neg h32]
  | branch bch bv =>
    rw [show storeView kec (.ext pre (Node.branch bch bv)) =
      (if (pureEnc kec (Node.branch bch bv)).length < 32 then
        Node.ext pre (storeView kec (Node.branch bch bv))
       else Node.ext pre (.hash (kec (pureEnc kec (Node.branch bch bv))))) from rfl,
      viewItem_nonhash kec _ (by intro h hc; cases hc)]
    by_cases h32 : (pureEnc kec (Node.branch bch bv)).length < 32
    · rw [if_pos h32, if_pos h32]
    · rw [if_neg h32, if_neg h32]
  | ext sp ss =>
    rw [show storeView kec (.ext pre (Node.ext sp ss)) =
      (if (pureEnc kec (Node.ext sp ss)).length < 32 then
        Node.ext pre (storeView kec (Node.ext sp ss))
       else Node.ext pre (.hash (kec (pureEnc kec (Node.ext sp ss))))) from rfl,
      viewItem_nonhash kec _ (by intro h hc; cases hc)]
    by_cases h32 : (pureEnc kec (Node.ext sp ss)).length < 32
    · rw [if_pos h32, if_pos h32]
    · rw [if_neg h32, if_neg h32]

theorem pureEnc_ext (kec : Kec) (pre : Nibs) (sub : Node) :
    pureEnc kec (.ext pre sub) =
      rlpListWrap (rlpStr (Nibs.encodeCompact pre) ++ pureItem kec sub) := by
  cases sub with
  | hash h => rfl
  | empty =>
    by_cases h32 : (pureEnc kec Node.empty).length < 32
    · rw [pureItem_nonhash kec _ (by intro h hc; cases hc), if_pos h32,
        show pureEnc kec (.ext pre Node.empty) =
          (if (pureEnc kec Node.empty).length < 32 then
            rlpListWrap (rlpStr (Nibs.encodeCompact pre) ++ pureEnc kec Node.empty)
           else rlpListWrap (rlpStr (Nibs.encodeCompact pre) ++
             rlpStr (kec (pureEnc kec Node.empty)))) from rfl, if_pos h32]
    · rw [pureItem_nonhash kec _ (by intro h hc; cases hc), if_neg h32,
        show pureEnc kec (.ext pre Node.empty) =
          (if (pureEnc kec Node.empty).length < 32 then
            rlpListWrap (rlpStr (Nibs.encodeCompact pre) ++ pureEnc kec Node.empty)
           else rlpListWrap (rlpStr (Nibs.encodeCompact pre) ++
             rlpStr (kec (pureEnc kec Node.empty)))) from rfl, if_neg h32]
  | leaf lk lv =>
    by_cases h32 : (pureEnc kec (Node.leaf lk lv)).length < 32
    · rw [pureItem_nonhash kec _ (by intro h hc; cases hc), if_pos h32,
        show pureEnc kec (.ext pre (Node.leaf lk lv)) =
          (if (pureEnc kec (Node.leaf lk lv)).length < 32 then
            rlpListWrap (rlpStr (Nibs.encodeCompact pre) ++ pureEnc kec (Node.leaf lk lv))
           else rlpListWrap (rlpStr (Nibs.encodeCompact pre) ++
             rlpStr (kec (pureEnc kec (Node.leaf lk lv))))) from rfl, if_pos h32]
    · rw [pureItem_nonhash kec _ (by intro h hc; cases hc), if_neg h32,
        show pureEnc kec (.ext pre (Node.leaf lk lv)) =
          (if (pureEnc kec (Node.leaf lk lv)).length < 32 then
            rlpListWrap (rlpStr (Nibs.encodeCompact pre) ++ pureEnc kec (Node.leaf lk lv))
           else rlpListWrap (rlpStr (Nibs.encodeCompact pre) ++
             rlpStr (kec (pureEnc kec (Node.leaf lk lv))))) from rfl, if_neg h32]
  | branch bch bv =>
    by_cases h32 : (pureEnc kec (Node.branch bch bv)).length < 32
    · rw [pureItem_nonhash kec _ (by intro h hc; cases hc), if_pos h32,
        show pureEnc kec (.ext pre (Node.branch bch bv)) =
          (if (pureEnc kec (Node.branch bch bv)).length < 32 then
            rlpListWrap (rlpStr (Nibs.encodeCompact pre) ++ pureEnc kec (Node.branch bch bv))
           else rlpListWrap (rlpStr (Nibs.encodeCompact pre) ++
             rlpStr (kec (pureEnc kec (Node.branch bch bv))))) from rfl, if_pos h32]
    · rw [pureItem_nonhash kec _ (by intro h hc; cases hc), if_neg h32,
        show pureEnc kec (.ext pre (Node.branch bch bv)) =
          (if (pureEnc kec (Node.branch bch bv)).length < 32 then
            rlpListWrap (rlpStr (Nibs.encodeCompact pre) ++ pureEnc kec (Node.branch bch bv))
           else rlpListWrap (rlpStr (Nibs.encodeCompact pre) ++
             rlpStr (kec (pureEnc kec (Node.branch bch bv))))) from rfl, if_neg h32]
  | ext sp ss =>
    by_cases h32 : (pureEnc kec (Node.ext sp ss)).length < 32
    · rw [pureItem_nonhash kec _ (by intro h hc; cases hc), if_pos h32,
        show pureEnc kec (.ext pre (Node.ext sp ss)) =
          (if (pureEnc kec (Node.ext sp ss)).length < 32 then
            rlpListWrap (rlpStr (Nibs.encodeCompact pre) ++ pureEnc kec (Node.ext sp ss))
           else rlpListWrap (rlpStr (Nibs.encodeCompact pre) ++
             rlpStr (kec (pureEnc kec (Node.ext sp ss))))) from rfl, if_pos h32]
    · rw [pureItem_nonhash kec _ (by intro h hc; cases hc), if_neg h32,
        show pureEnc kec (.ext pre (Node.ext sp ss)) =
          (if (pureEnc kec (Node.ext sp ss)).length < 32 then
            rlpListWrap (rlpStr (Nibs.encodeCompact pre) ++ pureEnc kec (Node.ext sp ss))
           else rlpListWrap (rlpStr (Nibs.encodeCompact pre) ++
             rlpStr (kec (pureEnc kec (Node.ext sp ss))))) from rfl, if_neg h32]

theorem storeView_nonhash (kec : Kec) (n : Node) (hnh : ∀ h, n ≠ Node.hash h) :
    ∀ h2, storeView kec n ≠ Node.hash h2 := by
  intro h2 hc
  cases n with
  | hash h => exact hnh h rfl
  | empty => exact Node.noConfusion hc
  | leaf k v => exact Node.noConfusion hc
  | branch ch v => exact Node.noConfusion hc
  | ext pre sub =>
    rw [storeView_ext] at hc
    exact Node.noConfusion hc

theorem pureItem_viewItem (kec : Kec) (n : Node)
    (hsub : pureEnc kec (storeView kec n) = pureEnc kec n) :
    pureItem kec (viewItem kec n) = pureItem kec n := by
  cases n with
  | hash h => rfl
  | empty =>
    have h1 : ∀ h, Node.empty ≠ Node.hash h := by intro h hc; cases hc
    rw [viewItem_nonhash kec Node.empty h1, pureItem_nonhash kec Node.empty h1]
    by_cases h32 : (pureEnc kec Node.empty).length < 32
    · rw [if_pos h32, if_pos h32,
        pureItem_nonhash kec (storeView kec Node.empty) (storeView_nonhash kec Node.empty h1),
        hsub, if_pos h32]
    · rw [if_neg h32, if_neg h32]
      rfl
  | leaf lk lv =>
    have h1 : ∀ h, Node.leaf lk lv ≠ Node.hash h := by intro h hc; cases hc
    rw [viewItem_nonhash kec (Node.leaf lk lv) h1, pureItem_nonhash kec (Node.leaf lk lv) h1]
    by_cases h32 : (pureEnc kec (Node.leaf lk lv)).length < 32
    · rw [if_pos h32, if_pos h32,
        pureItem_nonhash kec (storeView kec (Node.leaf lk lv))
          (storeView_nonhash kec (Node.leaf lk lv) h1),
        hsub, if_pos h32]
    · rw [if_neg h32, if_neg h32]
      rfl
  | branch bch bv =>
    have h1 : ∀ h, Node.branch bch bv ≠ Node.hash h := by intro h hc; cases hc
    rw [viewItem_nonhash kec (Node.branch bch bv) h1,
      pureItem_nonhash kec (Node.branch bch bv) h1]
    by_cases h32 : (pureEnc kec (Node.branch bch bv)).length < 32
    · rw [if_pos h32, if_pos h32,
        pureItem_nonhash kec (storeView kec (Node.branch bch bv))
          (storeView_nonhash kec (Node.branch bch bv) h1),
        hsub, if_pos h32]
    · rw [if_neg h32, if_neg h32]
      rfl
  | ext sp ss =>
    have h1 : ∀ h, Node.ext sp ss ≠ Node.hash h := by intro h hc; cases hc
    rw [viewItem_nonhash kec (Node.ext sp ss) h1, pureItem_nonhash kec (Node.ext sp ss) h1]
    by_cases h32 : (pureEnc kec (Node.ext sp ss)).length < 32
    · rw [if_pos h32, if_pos h32,
        pureItem_nonhash kec (storeView kec (Node.ext sp ss))
          (storeView_nonhash kec (Node.ext sp ss) h1),
        hsub, if_pos h32]
    · rw [if_neg h32, if_neg h32]
      rfl

mutual

theorem pureEnc_storeView (kec : Kec) :
    ∀ n, pureEnc kec (storeView kec n) = pureEnc kec n
  | .empty => rfl
  | .hash h => rfl
  | .leaf k v => rfl
  | .branch ch v => by
    rw [show storeView kec (.branch ch v) = .branch (storeViewL kec ch) v from rfl,
      show pureEnc kec (.branch (storeViewL kec ch) v) =
        rlpListWrap ((pureItems kec (storeViewL kec ch)).foldr (· ++ ·) [] ++
          v.elim [0x80] rlpStr) from rfl,
      pureItems_storeViewL kec ch]
    rfl
  | .ext pre sub => by
    rw [storeView_ext, pureEnc_ext, pureEnc_ext,
      pureItem_viewItem kec sub (pureEnc_storeView kec sub)]

theorem pureItems_storeViewL (kec : Kec) :
    ∀ ch, pureItems kec (storeViewL kec ch) = pureItems kec ch
  | .nil => rfl
  | .cons hd tl => by
    rw [storeViewL_eq, pureItems_eq, pureItems_eq, pureItems_storeViewL kec tl,
      pureItem_viewItem kec hd (pureEnc_storeView kec hd)]

end

theorem storeViewL_length (kec : Kec) :
    ∀ ch, NodeList.length (storeViewL kec ch) = NodeList.length ch
  | .nil => rfl
  | .cons hd tl => by
    rw [storeViewL_eq, NodeList.length, NodeList.length, storeViewL_length kec tl]

theorem goodN_viewItem_aux (kec : Kec) (hk32 : ∀ x, (kec x).length = 32) (n : Node)
    (hg : goodN kec n = true) (hsv : goodN kec (storeView kec n) = true) :
    goodN kec (viewItem kec n) = true := by
  cases n with
  | hash h => exact hg
  | empty =>
    rw [viewItem_nonhash kec _ (by intro h hc; cases hc)]
    by_cases h32 : (pureEnc kec Node.empty).length < 32
    · rw [if_pos h32]; exact hsv
    · rw [if_neg h32]
      show ((kec (pureEnc kec Node.empty)).length == 32) = true
      rw [hk32]
      rfl
  | leaf lk lv =>
    rw [viewItem_nonhash kec _ (by intro h hc; cases hc)]
    by_cases h32 : (pureEnc kec (Node.leaf lk lv)).length < 32
    · rw [if_pos h32]; exact hsv
    · rw [if_neg h32]
      show ((kec (pureEnc kec (Node.leaf lk lv))).length == 32) = true
      rw [hk32]
      rfl
  | branch bch bv =>
    rw [viewItem_nonhash kec _ (by intro h hc; cases hc)]
    by_cases h32 : (pureEnc kec (Node.branch bch bv)).length < 32
    · rw [if_pos h32]; exact hsv
    · rw [if_neg h32]
      show ((kec (pureEnc kec (Node.branch bch bv))).length == 32) = true
      rw [hk32]
      rfl
  | ext sp ss =>
    rw [viewItem_nonhash kec _ (by intro h hc; cases hc)]
    by_cases h32 : (pureEnc kec (Node.ext sp ss)).length < 32
    · rw [if_pos h32]; exact hsv
    · rw [if_neg h32]
      show ((kec (pureEnc kec (Node.ext sp ss))).length == 32) = true
      rw [hk32]
      rfl

mutual

theorem goodN_storeView (kec : Kec) (hk32 : ∀ x, (kec x).length = 32) :
    ∀ n, goodN kec n = true → goodN kec (storeView kec n) = true
  | .empty => fun hg => hg
  | .hash h => fun hg => hg
  | .leaf k v => fun hg => hg
  | .branch ch v => fun hg => by
    rw [show goodN kec (.branch ch v) = (goodL kec ch && (NodeList.length ch == 16) &&
      v.elim true goodVal &&
      decide ((pureEnc kec (.branch ch v)).length < 2 ^ 64)) from rfl,
      Bool.and_eq_true, Bool.and_eq_true, Bool.and_eq_true] at hg
    obtain ⟨⟨⟨hgl, hlen⟩, hval⟩, hsz⟩ := hg
    rw [show storeView kec (.branch ch v) = .branch (storeViewL kec ch) v from rfl,
      show goodN kec (.branch (storeViewL kec ch) v) =
        (goodL kec (storeViewL kec ch) && (NodeList.length (storeViewL kec ch) == 16) &&
         v.elim true goodVal &&
         decide ((pureEnc kec (.branch (storeViewL kec ch) v)).length < 2 ^ 64)) from rfl,
      Bool.and_eq_true, Bool.and_eq_true, Bool.and_eq_true]
    refine ⟨⟨⟨goodL_storeViewL kec hk32 ch hgl, ?_⟩, hval⟩, ?_⟩
    · rw [storeViewL_length kec ch]
      exact hlen
    · rw [show pureEnc kec (.branch (storeViewL kec ch) v) =
        pureEnc kec (storeView kec (.branch ch v)) from rfl,
        pureEnc_storeView kec (.branch ch v)]
      exact hsz
  | .ext pre sub => fun hg => by
    rw [show goodN kec (.ext pre sub) = (!pre.isEmpty && pre.all (fun x => x < 16) &&
      goodN kec sub && decide ((pureEnc kec (.ext pre sub)).length < 2 ^ 64)) from rfl,
      Bool.and_eq_true, Bool.and_eq_true] at hg
    obtain ⟨⟨hpre, hgsub⟩, hsz⟩ := hg
    rw [storeView_ext,
      show goodN kec (.ext pre (viewItem kec sub)) = (!pre.isEmpty &&
        pre.all (fun x => x < 16) && goodN kec (viewItem kec sub) &&
        decide ((pureEnc kec (.ext pre (viewItem kec sub))).length < 2 ^ 64)) from rfl,
      Bool.and_eq_true, Bool.and_eq_true]
    refine ⟨⟨hpre,
      goodN_viewItem_aux kec hk32 sub hgsub (goodN_storeView kec hk32 sub hgsub)⟩, ?_⟩
    rw [show pureEnc kec (.ext pre (viewItem kec sub)) =
      pureEnc kec (.ext pre sub) from by
        rw [pureEnc_ext, pureEnc_ext, pureItem_viewItem kec sub (pureEnc_storeView kec sub)]]
    exact hsz

theorem goodL_storeViewL (kec : Kec) (hk32 : ∀ x, (kec x).length = 32) :
    ∀ ch, goodL kec ch = true → goodL kec (storeViewL kec ch) = true
  | .nil => fun hg => hg
  | .cons hd tl => fun hg => by
    rw [goodL, Bool.and_eq_true] at hg
    obtain ⟨hghd, hgtl⟩ := hg
    rw [storeViewL_eq, goodL, Bool.and_eq_true]
    exact ⟨goodN_viewItem_aux kec hk32 hd hghd (goodN_storeView kec hk32 hd hghd),
      goodL_storeViewL kec hk32 tl hgtl⟩

end

/-! ## The get walk as a predicate over a fixed store -/

/-- A successful `get_at` walk reaching value `v`, phrased against the store
alone: hash hops name the store entry, its hash-consistency and its decoding.
Mirrors the success path of `get_at`. -/
def walkOk (kec : Kec) (db : Db) : Nat → Node → Nibs → Nat → Bytes → Prop
  | 0, _, _, _, _ => False
  | f + 1, n, path, i, v =>
    match n with
    | .empty => False
    | .leaf k v' => k = path.offset i ∧ v' = v
    | .branch ch vv =>
      if path.offset i = [] ∨ (path.offset i).nth 0 = 16 then vv = some v
      else walkOk kec db f (ch.get ((path.offset i).nth 0)) path (i + 1) v
    | .ext pre sub =>
      (path.offset i).commonPre pre = pre.length ∧
        walkOk kec db f sub path (i + (path.offset i).commonPre pre) v
    | .hash h =>
      ∃ e n', Db.get db h = some e ∧ kec e = h ∧
        decodeNode (2 * e.length + 2) e = some (.ok n') ∧ walkOk kec db f n' path i v

theorem walkOk_branch (kec : Kec) (db : Db) (f : Nat) (ch : NodeList)
    (vv : Option Bytes) (path : Nibs) (i : Nat) (v : Bytes) :
    walkOk kec db (f + 1) (.branch ch vv) path i v =
      (if path.offset i = [] ∨ (path.offset i).nth 0 = 16 then vv = some v
       else walkOk kec db f (ch.get ((path.offset i).nth 0)) path (i + 1) v) := rfl

theorem walkOk_ext (kec : Kec) (db : Db) (f : Nat) (pre : Nibs) (sub : Node)
    (path : Nibs) (i : Nat) (v : Bytes) :
    walkOk kec db (f + 1) (.ext pre sub) path i v =
      ((path.offset i).commonPre pre = pre.length ∧
        walkOk kec db f sub path (i + (path.offset i).commonPre pre) v) := rfl

theorem walkOk_hash (kec : Kec) (db : Db) (f : Nat) (h : Bytes)
    (path : Nibs) (i : Nat) (v : Bytes) :
    walkOk kec db (f + 1) (.hash h) path i v =
      (∃ e n', Db.get db h = some e ∧ kec e = h ∧
        decodeNode (2 * e.length + 2) e = some (.ok n') ∧
        walkOk kec db f n' path i v) := rfl

theorem walkOk_mono (kec : Kec) (db : Db) :
    ∀ f g, f ≤ g → ∀ n path i v,
      walkOk kec db f n path i v → walkOk kec db g n path i v
  | 0, _, _ => fun _ _ _ _ h => (h : False).elim
  | f + 1, 0, hle => by omega
  | f + 1, g + 1, hle => fun n path i v h => by
    have hle' : f ≤ g := Nat.succ_le_succ_iff.mp hle
    cases n with
    | empty => exact (h : False).elim
    | leaf k v' => exact h
    | branch ch vv =>
      rw [walkOk_branch] at h ⊢
      split at h
      · rw [if_pos (by assumption)]
        exact h
      · rw [if_neg (by assumption)]
        exact walkOk_mono kec db f g hle' _ path (i + 1) v h
    | ext pre sub =>
      rw [walkOk_ext] at h ⊢
      exact ⟨h.1, walkOk_mono kec db f g hle' sub path _ v h.2⟩
    | hash hh =>
      rw [walkOk_hash] at h ⊢
      obtain ⟨e, n', h1, h2, h3, h4⟩ := h
      exact ⟨e, n', h1, h2, h3, walkOk_mono kec db f g hle' n' path i v h4⟩

theorem insertBatch_eq (kvs : List (Bytes × Bytes)) :
    ∀ d : Db, Db.insertBatch d kvs = kvs.reverse ++ d := by
  induction kvs with
  | nil => intro d; rfl
  | cons p tl ih =>
    intro d
    show Db.insertBatch (Db.insert d p.1 p.2) tl = _
    rw [ih, Db.insert, List.reverse_cons, List.append_assoc]
    rfl

theorem dbGet_append (a b : Db) (k : Bytes) :
    Db.get (a ++ b) k = ((Db.get a k).orElse (fun _ => Db.get b k)) := by
  rw [Db.get, Db.get, Db.get, List.find?_append]
  cases a.find? (fun p => decide (p.1 = k)) with
  | none => rfl
  | some q => rfl

theorem dbGet_isSome_of_mem {d : Db} {k e : Bytes} (h : (k, e) ∈ d) :
    ∃ e', Db.get d k = some e' ∧ (k, e') ∈ d := by
  have hs : (d.find? (fun p => decide (p.1 = k))).isSome := by
    rw [List.find?_isSome]
    exact ⟨(k, e), h, by simp⟩
  obtain ⟨q, hq⟩ := Option.isSome_iff_exists.mp hs
  have hk := List.find?_some hq
  have hm := List.mem_of_find?_eq_some hq
  simp only [decide_eq_true_eq] at hk
  refine ⟨q.2, ?_, ?_⟩
  · rw [Db.get, hq]
    rfl
  · rw [show (k, q.2) = q from by cases q; simp only at hk; rw [hk]]
    exact hm

/-- A cache member is found by lookup after the batch insert (hash
consistency plus injectivity pin the value down). -/
theorem dbGet_insertBatch_cache (kec : Kec) (hinj : Function.Injective kec)
    (db c : Db) (hcc : ∀ p ∈ c, p.1 = kec p.2) (e : Bytes)
    (hm : (kec e, e) ∈ c) :
    Db.get (Db.insertBatch db c) (kec e) = some e := by
  rw [insertBatch_eq, dbGet_append]
  obtain ⟨e', hget, hm'⟩ := dbGet_isSome_of_mem (List.mem_reverse.mpr hm)
  rw [hget]
  rw [List.mem_reverse] at hm'
  have h1 := hcc (kec e, e') hm'
  simp only at h1
  have he : e' = e := hinj h1.symm
  rw [he]
  rfl

theorem removeBatch_nil (d : Db) : Db.removeBatch d [] = d := rfl

/-! ## Nibble-path facts for the insert walk -/

theorem commonPre_le_left : ∀ p q : Nibs, Nibs.commonPre p q ≤ p.length
  | [], _ => by rw [show Nibs.commonPre [] _ = 0 from rfl]; exact Nat.zero_le _
  | _ :: _, [] => by rw [show Nibs.commonPre (_ :: _) [] = 0 from rfl]; exact Nat.zero_le _
  | a :: as, b :: bs => by
    rw [Nibs.commonPre]
    split
    · simpa using commonPre_le_left as bs
    · exact Nat.zero_le _

theorem commonPre_le_right : ∀ p q : Nibs, Nibs.commonPre p q ≤ q.length
  | [], _ => by rw [show Nibs.commonPre [] _ = 0 from rfl]; exact Nat.zero_le _
  | _ :: _, [] => by rw [show Nibs.commonPre (_ :: _) [] = 0 from rfl]; exact Nat.zero_le _
  | a :: as, b :: bs => by
    rw [Nibs.commonPre]
    split
    · simpa using commonPre_le_right as bs
    · exact Nat.zero_le _

theorem commonPre_take : ∀ p q : Nibs,
    p.take (Nibs.commonPre p q) = q.take (Nibs.commonPre p q)
  | [], q => by rw [show Nibs.commonPre [] q = 0 from rfl]; simp
  | a :: as, [] => by rw [show Nibs.commonPre (a :: as) [] = 0 from rfl]; simp
  | a :: as, b :: bs => by
    rw [Nibs.commonPre]
    split
    · rename_i hab
      rw [List.take_succ_cons, List.take_succ_cons, hab, commonPre_take as bs]
    · rfl

theorem commonPre_stop : ∀ p q : Nibs, Nibs.commonPre p q < p.length →
    Nibs.commonPre p q < q.length →
    Nibs.nth p (Nibs.commonPre p q) ≠ Nibs.nth q (Nibs.commonPre p q)
  | [], _ => by intro h _; simp at h
  | _ :: _, [] => by intro _ h; simp at h
  | a :: as, b :: bs => by
    intro hp hq
    rw [Nibs.commonPre] at hp hq ⊢
    split at hp
    · rename_i hab
      rw [if_pos hab] at hq ⊢
      have := commonPre_stop as bs (by simpa using hp) (by simpa using hq)
      simpa [Nibs.nth] using this
    · rename_i hab
      rw [if_neg hab]
      simpa [Nibs.nth] using hab

theorem commonPre_take_self : ∀ (p : Nibs) (m : Nat), m ≤ p.length →
    Nibs.commonPre p (p.take m) = m
  | p, 0 => by
    intro _
    rw [List.take_zero]
    cases p <;> rfl
  | [], m + 1 => by intro h; simp at h
  | a :: as, m + 1 => by
    intro h
    rw [List.take_succ_cons, Nibs.commonPre, if_pos rfl,
      commonPre_take_self as m (by simpa using h)]

theorem mem_take_of_le {p : Nibs} {x : Nat} {m m' : Nat} (hx : x ∈ p.take m)
    (hle : m ≤ m') : x ∈ p.take m' := by
  have : p.take m = (p.take m').take m := by
    rw [List.take_take, Nat.min_eq_left hle]
  rw [this] at hx
  exact List.mem_of_mem_take hx

theorem termSfx_mem_16 {p : Nibs} (h : termSfx p = true) : 16 ∈ p := by
  obtain ⟨hsplit, _⟩ := termSfx_parts h
  rw [← hsplit]
  simp

/-- With a terminator path, a prefix run of plain nibbles stops short of the
whole path. -/
theorem termSfx_take_lt_len {p : Nibs} {m : Nat} (h : termSfx p = true)
    (hlt : ∀ x ∈ p.take m, x < 16) : m < p.length := by
  by_contra hge
  push_neg at hge
  have : p.take m = p := List.take_of_length_le hge
  have := hlt 16 (by rw [this]; exact termSfx_mem_16 h)
  omega

theorem termSfx_drop_all {p : Nibs} {m : Nat} (h : termSfx p = true)
    (hm : m < p.length) : termSfx (p.drop m) = true := by
  obtain ⟨hsplit, hcore⟩ := termSfx_parts h
  have hlen : p.length = p.dropLast.length + 1 := by
    conv_lhs => rw [← hsplit]
    simp
  have hmle : m ≤ p.dropLast.length := by omega
  have hdrop : p.drop m = p.dropLast.drop m ++ [16] := by
    conv_lhs => rw [← hsplit]
    rw [List.drop_append_of_le_length hmle]
  rw [hdrop, termSfx_iff]
  constructor
  · rw [List.getLast?_concat]
  · rw [List.dropLast_concat]
    intro x hx
    exact hcore x (List.mem_of_mem_drop hx)

theorem termSfx_first_lt {p : Nibs} {m : Nat} (h : termSfx p = true)
    (hm : m < p.length) : ∀ x ∈ p.take m, x < 16 := by
  obtain ⟨hsplit, hcore⟩ := termSfx_parts h
  have hlen : p.length = p.dropLast.length + 1 := by
    conv_lhs => rw [← hsplit]
    simp
  intro x hx
  exact hcore x (by
    rw [List.dropLast_eq_take]
    exact mem_take_of_le hx (by omega))

theorem termSfx_prefix_eq {p q : Nibs} (hp : termSfx p = true)
    (hq : termSfx q = true) (hpre : p.take q.length = q) : p = q := by
  by_cases hle : p.length ≤ q.length
  · rw [List.take_of_length_le hle] at hpre
    exact hpre
  · exfalso
    push_neg at hle
    obtain ⟨hsplit, hcore⟩ := termSfx_parts hp
    have h16 : (16 : Nat) ∈ q := termSfx_mem_16 hq
    rw [← hpre] at h16
    have hlen : p.length = p.dropLast.length + 1 := by
      conv_lhs => rw [← hsplit]
      simp
    have : (16 : Nat) ∈ p.dropLast := by
      rw [List.dropLast_eq_take]
      exact mem_take_of_le h16 (by omega)
    have := hcore 16 this
    omega

theorem nth_drop (p : Nibs) (m k : Nat) :
    Nibs.nth (p.drop m) k = Nibs.nth p (m + k) := by
  rw [Nibs.nth, Nibs.nth, List.getD_eq_getElem?_getD, List.getD_eq_getElem?_getD,
    List.getElem?_drop]

theorem nth_take {p : Nibs} {m j : Nat} (hj : j < m) :
    Nibs.nth (p.take m) j = Nibs.nth p j := by
  rw [Nibs.nth, Nibs.nth, List.getD_eq_getElem?_getD, List.getD_eq_getElem?_getD,
    List.getElem?_take]
  rw [if_pos hj]

theorem termSfx_last {p : Nibs} (h : termSfx p = true) :
    Nibs.nth p (p.length - 1) = 16 := by
  obtain ⟨hsplit, _⟩ := termSfx_parts h
  have hlen : p.length = p.dropLast.length + 1 := by
    conv_lhs => rw [← hsplit]
    simp
  have hidx : Nibs.nth p (p.length - 1) =
      Nibs.nth (p.dropLast ++ [16]) p.dropLast.length := by
    rw [hsplit]
    congr 1
    omega
  rw [hidx, Nibs.nth, List.getD_eq_getElem?_getD,
    List.getElem?_append_right (le_refl _)]
  simp

theorem termSfx_nth_lt {p : Nibs} {i : Nat} (h : termSfx p = true)
    (hi : i < p.length) (hne : Nibs.nth p i ≠ 16) : Nibs.nth p i < 16 := by
  obtain ⟨hsplit, hcore⟩ := termSfx_parts h
  have hlen : p.length = p.dropLast.length + 1 := by
    conv_lhs => rw [← hsplit]
    simp
  by_cases hfront : i < p.dropLast.length
  · have : Nibs.nth p i = Nibs.nth p.dropLast i := by
      conv_lhs => rw [← hsplit]
      rw [Nibs.nth, Nibs.nth, List.getD_eq_getElem?_getD, List.getD_eq_getElem?_getD,
        List.getElem?_append_left hfront]
    rw [this]
    refine hcore _ ?_
    rw [Nibs.nth, List.getD_eq_getElem?_getD, List.getElem?_eq_getElem hfront]
    exact List.getElem_mem hfront
  · exfalso
    have : i = p.length - 1 := by omega
    rw [this, termSfx_last h] at hne
    exact hne rfl

theorem termSfx_len2 {p : Nibs} (h : termSfx p = true)
    (hne : Nibs.nth p 0 ≠ 16) : 2 ≤ p.length := by
  obtain ⟨hsplit, _⟩ := termSfx_parts h
  have hlen : p.length = p.dropLast.length + 1 := by
    conv_lhs => rw [← hsplit]
    simp
  rcases Nat.eq_or_lt_of_le (Nat.succ_le_of_lt (by omega : 0 < p.length)) with h1 | h1
  · exfalso
    have : Nibs.nth p 0 = 16 := by
      have := termSfx_last h
      rw [← h1] at this
      simpa using this
    exact hne this
  · omega

/-! ## Children-array facts and hash-free well-formedness -/

theorem get_set_self : ∀ (ch : NodeList) (i : Nat) (x : Node),
    i < NodeList.length ch → (ch.set i x).get i = x
  | .nil, i, x => by intro h; rw [NodeList.length] at h; omega
  | .cons hd tl, 0, x => by intro _; rfl
  | .cons hd tl, i + 1, x => by
    intro h
    rw [NodeList.length] at h
    show (tl.set i x).get i = x
    exact get_set_self tl i x (by omega)

theorem get_set_ne : ∀ (ch : NodeList) (i j : Nat) (x : Node), i ≠ j →
    (ch.set i x).get j = ch.get j
  | .nil, _, _, _ => by intro _; rfl
  | .cons hd tl, 0, 0, x => by intro h; exact absurd rfl h
  | .cons hd tl, 0, j + 1, x => by intro _; rfl
  | .cons hd tl, i + 1, 0, x => by intro _; rfl
  | .cons hd tl, i + 1, j + 1, x => by
    intro h
    show (tl.set i x).get j = tl.get j
    exact get_set_ne tl i j x (by omega)

theorem set_length : ∀ (ch : NodeList) (i : Nat) (x : Node),
    NodeList.length (ch.set i x) = NodeList.length ch
  | .nil, _, _ => rfl
  | .cons hd tl, 0, x => rfl
  | .cons hd tl, i + 1, x => by
    show NodeList.length (.cons hd (tl.set i x)) = _
    rw [NodeList.length, NodeList.length, set_length tl i x]

mutual

/-- The shape invariant the in-memory insert walk maintains: terminator leaf
keys, plain nonempty extension prefixes, full 16-slot branches, and no Hash
references anywhere (a freshly built subtree is fully materialized). -/
def okN : Node → Bool
  | .empty => true
  | .hash _ => false
  | .leaf k _ => termSfx k
  | .branch ch _ => okL ch && (NodeList.length ch == 16)
  | .ext pre c => !pre.isEmpty && pre.all (fun x => x < 16) && okN c

def okL : NodeList → Bool
  | .nil => true
  | .cons hd tl => okN hd && okL tl

end

theorem okL_get : ∀ {ch : NodeList}, okL ch = true → ∀ i, okN (ch.get i) = true
  | .nil => by intro _ i; cases i <;> rfl
  | .cons hd tl => by
    intro h i
    rw [show okL (.cons hd tl) = (okN hd && okL tl) from rfl, Bool.and_eq_true] at h
    cases i with
    | zero => exact h.1
    | succ j => exact okL_get h.2 j

theorem okL_set : ∀ (ch : NodeList) (i : Nat) (x : Node), okL ch = true →
    okN x = true → okL (ch.set i x) = true
  | .nil, _, _ => fun h _ => h
  | .cons hd tl, 0, x => fun h hx => by
    rw [show okL (.cons hd tl) = (okN hd && okL tl) from rfl, Bool.and_eq_true] at h
    show okL (.cons x tl) = true
    rw [show okL (.cons x tl) = (okN x && okL tl) from rfl, Bool.and_eq_true]
    exact ⟨hx, h.2⟩
  | .cons hd tl, i + 1, x => fun h hx => by
    rw [show okL (.cons hd tl) = (okN hd && okL tl) from rfl, Bool.and_eq_true] at h
    show okL (.cons hd (tl.set i x)) = true
    rw [show okL (.cons hd (tl.set i x)) = (okN hd && okL (tl.set i x)) from rfl,
      Bool.and_eq_true]
    exact ⟨h.1, okL_set tl i x h.2 hx⟩

theorem emptyChildren_okL : okL emptyChildren = true := by decide

theorem emptyChildren_length : NodeList.length emptyChildren = 16 := by decide

/-- The first stage of the leaf-split of `insert_at`: the displaced leaf is
slotted into a fresh branch. -/
def splitB1 (lk : Nibs) (lv : Bytes) (part : Nibs) : NodeList × Option Bytes :=
  branchInsert emptyChildren none (Nibs.nth lk (Nibs.commonPre part lk))
    (Node.fromLeaf (Nibs.offset lk (Nibs.commonPre part lk + 1)) lv)

/-- The two-leaf branch built by the leaf-split arm of `insert_at`. -/
def leafSplitB (lk : Nibs) (lv : Bytes) (part : Nibs) (value : Bytes) :
    NodeList × Option Bytes :=
  branchInsert (splitB1 lk lv part).1 (splitB1 lk lv part).2
    (Nibs.nth part (Nibs.commonPre part lk))
    (Node.fromLeaf (Nibs.offset part (Nibs.commonPre part lk + 1)) value)

/-- The branch built when an extension is split at offset zero. -/
def extPushB (pre : Nibs) (sub : Node) : NodeList × Option Bytes :=
  branchInsert emptyChildren none (Nibs.nth pre 0)
    (if pre.length = 1 then sub else Node.fromExt (Nibs.offset pre 1) sub)

theorem insertAt_step_empty (f : Nat) (t : EthTrie) (path : Nibs) (i : Nat)
    (value : Bytes) :
    insertAt (f + 1) t .empty path i value =
      some (t, Except.ok (Node.fromLeaf (Nibs.offset path i) value)) := rfl

theorem insertAt_step_leaf (f : Nat) (t : EthTrie) (lk : Nibs) (lv : Bytes)
    (path : Nibs) (i : Nat) (value : Bytes) :
    insertAt (f + 1) t (.leaf lk lv) path i value =
      (if Nibs.commonPre (Nibs.offset path i) lk = lk.length then
        some (t, Except.ok (Node.fromLeaf lk value))
      else if Nibs.commonPre (Nibs.offset path i) lk = 0 then
        some (t, Except.ok (Node.branch
          (leafSplitB lk lv (Nibs.offset path i) value).1
          (leafSplitB lk lv (Nibs.offset path i) value).2))
      else
        some (t, Except.ok (Node.fromExt
          (Nibs.slice (Nibs.offset path i) 0
            (Nibs.commonPre (Nibs.offset path i) lk))
          (Node.branch (leafSplitB lk lv (Nibs.offset path i) value).1
            (leafSplitB lk lv (Nibs.offset path i) value).2)))) := rfl

theorem insertAt_step_branch (f : Nat) (t : EthTrie) (ch : NodeList)
    (v : Option Bytes) (path : Nibs) (i : Nat) (value : Bytes) :
    insertAt (f + 1) t (.branch ch v) path i value =
      (if Nibs.nth (Nibs.offset path i) 0 = 16 then
        some (t, Except.ok (Node.branch ch (some value)))
      else
        match insertAt f t (ch.get (Nibs.nth (Nibs.offset path i) 0)) path
            (i + 1) value with
        | none => none
        | some (t1, .error e) => some (t1, .error e)
        | some (t1, .ok newChild) =>
          some (t1, Except.ok
            (Node.branch (ch.set (Nibs.nth (Nibs.offset path i) 0) newChild) v))) := rfl

theorem insertAt_step_ext (f : Nat) (t : EthTrie) (pre : Nibs) (sub : Node)
    (path : Nibs) (i : Nat) (value : Bytes) :
    insertAt (f + 1) t (.ext pre sub) path i value =
      (if Nibs.commonPre (Nibs.offset path i) pre = 0 then
        insertAt f t (.branch (extPushB pre sub).1 (extPushB pre sub).2) path i value
      else if Nibs.commonPre (Nibs.offset path i) pre = pre.length then
        match insertAt f t sub path
            (i + Nibs.commonPre (Nibs.offset path i) pre) value with
        | none => none
        | some (t1, .error e) => some (t1, .error e)
        | some (t1, .ok newNode) => some (t1, Except.ok (Node.fromExt pre newNode))
      else
        match insertAt f t
            (Node.fromExt (Nibs.offset pre (Nibs.commonPre (Nibs.offset path i) pre))
              sub) path (i + Nibs.commonPre (Nibs.offset path i) pre) value with
        | none => none
        | some (t1, .error e) => some (t1, .error e)
        | some (t1, .ok newNode) =>
          some (t1, Except.ok (Node.ext
            (Nibs.slice pre 0 (Nibs.commonPre (Nibs.offset path i) pre)) newNode))) := rfl

theorem branchInsert_fst (ch : NodeList) (v : Option Bytes) (j : Nat) (X : Node) :
    (branchInsert ch v j X).1 = if j = 16 then ch else ch.set j X := by
  have hsel : ∀ y : NodeList × Option Bytes,
      (if j = 16 then y else (ch.set j X, v)).1 = if j = 16 then y.1 else ch.set j X := by
    intro y
    by_cases hj : j = 16
    · rw [if_pos hj, if_pos hj]
    · rw [if_neg hj, if_neg hj]
  cases X with
  | empty =>
    rw [show branchInsert ch v j Node.empty =
      (if j = 16 then (ch, v) else (ch.set j Node.empty, v)) from rfl, hsel]
  | leaf lk lv =>
    rw [show branchInsert ch v j (Node.leaf lk lv) =
      (if j = 16 then (ch, some lv) else (ch.set j (Node.leaf lk lv), v)) from rfl, hsel]
  | branch bch bv =>
    rw [show branchInsert ch v j (Node.branch bch bv) =
      (if j = 16 then (ch, v) else (ch.set j (Node.branch bch bv), v)) from rfl, hsel]
  | ext sp ss =>
    rw [show branchInsert ch v j (Node.ext sp ss) =
      (if j = 16 then (ch, v) else (ch.set j (Node.ext sp ss), v)) from rfl, hsel]
  | hash hh =>
    rw [show branchInsert ch v j (Node.hash hh) =
      (if j = 16 then (ch, v) else (ch.set j (Node.hash hh), v)) from rfl, hsel]

theorem branchInsert_fst_okL (ch : NodeList) (v : Option Bytes) (j : Nat) (X : Node)
    (hch : okL ch = true) (hX : okN X = true) :
    okL (branchInsert ch v j X).1 = true := by
  rw [branchInsert_fst]
  by_cases hj : j = 16
  · rw [if_pos hj]
    exact hch
  · rw [if_neg hj]
    exact okL_set ch j X hch hX

theorem branchInsert_fst_length (ch : NodeList) (v : Option Bytes) (j : Nat)
    (X : Node) :
    NodeList.length (branchInsert ch v j X).1 = NodeList.length ch := by
  rw [branchInsert_fst]
  by_cases hj : j = 16
  · rw [if_pos hj]
  · rw [if_neg hj]
    exact set_length ch j X

theorem offset_add (path : Nibs) (i k : Nat) :
    Nibs.offset path (i + k) = (Nibs.offset path i).drop k := by
  rw [Nibs.offset, Nibs.offset, List.drop_drop, Nat.add_comm]

theorem branchInsert_ne16 (ch : NodeList) (v : Option Bytes) (j : Nat) (X : Node)
    (hj : j ≠ 16) : branchInsert ch v j X = (ch.set j X, v) := by
  cases X with
  | empty =>
    rw [show branchInsert ch v j Node.empty =
      (if j = 16 then (ch, v) else (ch.set j Node.empty, v)) from rfl, if_neg hj]
  | leaf lk lv =>
    rw [show branchInsert ch v j (Node.leaf lk lv) =
      (if j = 16 then (ch, some lv) else (ch.set j (Node.leaf lk lv), v)) from rfl,
      if_neg hj]
  | branch bch bv =>
    rw [show branchInsert ch v j (Node.branch bch bv) =
      (if j = 16 then (ch, v) else (ch.set j (Node.branch bch bv), v)) from rfl,
      if_neg hj]
  | ext sp ss =>
    rw [show branchInsert ch v j (Node.ext sp ss) =
      (if j = 16 then (ch, v) else (ch.set j (Node.ext sp ss), v)) from rfl, if_neg hj]
  | hash hh =>
    rw [show branchInsert ch v j (Node.hash hh) =
      (if j = 16 then (ch, v) else (ch.set j (Node.hash hh), v)) from rfl, if_neg hj]

theorem splitB1_ok (lk : Nibs) (lv : Bytes) (part : Nibs)
    (hlk : termSfx lk = true) (hml : Nibs.commonPre part lk < lk.length) :
    okL (splitB1 lk lv part).1 = true ∧
      NodeList.length (splitB1 lk lv part).1 = 16 := by
  by_cases hsl : Nibs.nth lk (Nibs.commonPre part lk) = 16
  · rw [splitB1, branchInsert_fst, if_pos hsl]
    exact ⟨emptyChildren_okL, emptyChildren_length⟩
  · have hm1 : Nibs.commonPre part lk + 1 < lk.length := by
      rcases Nat.lt_or_ge (Nibs.commonPre part lk + 1) lk.length with h | h
      · exact h
      · exfalso
        have : Nibs.commonPre part lk = lk.length - 1 := by omega
        rw [this, termSfx_last hlk] at hsl
        exact hsl rfl
    have hX : okN (Node.fromLeaf (Nibs.offset lk (Nibs.commonPre part lk + 1)) lv)
        = true := termSfx_drop_all hlk hm1
    rw [splitB1, branchInsert_fst, if_neg hsl]
    constructor
    · exact okL_set _ _ _ emptyChildren_okL hX
    · rw [set_length, emptyChildren_length]

/-- The split branch of `insert_at`'s leaf arm is well formed and serves the
inserted key. -/
theorem leafSplitB_props (lk : Nibs) (lv : Bytes) (part : Nibs) (value : Bytes)
    (hlk : termSfx lk = true) (hts : termSfx part = true)
    (hm : Nibs.commonPre part lk ≠ lk.length) :
    okN (Node.branch (leafSplitB lk lv part value).1
      (leafSplitB lk lv part value).2) = true ∧
    Nibs.commonPre part lk < part.length ∧
    ∀ (kec : Kec) (db : Db) (path : Nibs) (i : Nat), Nibs.offset path i = part →
      walkOk kec db 2 (Node.branch (leafSplitB lk lv part value).1
        (leafSplitB lk lv part value).2) path (i + Nibs.commonPre part lk) value := by
  have hml : Nibs.commonPre part lk < lk.length :=
    Nat.lt_of_le_of_ne (commonPre_le_right part lk) hm
  have hfl : ∀ x ∈ part.take (Nibs.commonPre part lk), x < 16 := by
    rw [commonPre_take part lk]
    exact termSfx_first_lt hlk hml
  have hmp : Nibs.commonPre part lk < part.length := termSfx_take_lt_len hts hfl
  obtain ⟨hokB1, hlenB1⟩ := splitB1_ok lk lv part hlk hml
  by_cases hsp : Nibs.nth part (Nibs.commonPre part lk) = 16
  · have hB2 : leafSplitB lk lv part value = ((splitB1 lk lv part).1, some value) := by
      rw [leafSplitB, hsp]
      rfl
    refine ⟨?_, hmp, ?_⟩
    · rw [hB2,
        show okN (Node.branch (splitB1 lk lv part).1 (some value)) =
          (okL (splitB1 lk lv part).1 &&
            (NodeList.length (splitB1 lk lv part).1 == 16)) from rfl,
        Bool.and_eq_true, hlenB1]
      exact ⟨hokB1, rfl⟩
    · intro kec db path i hoff
      have hoffm : Nibs.offset path (i + Nibs.commonPre part lk) =
          part.drop (Nibs.commonPre part lk) := by
        rw [offset_add path i (Nibs.commonPre part lk), hoff]
      have hcond : Nibs.offset path (i + Nibs.commonPre part lk) = [] ∨
          Nibs.nth (Nibs.offset path (i + Nibs.commonPre part lk)) 0 = 16 := by
        right
        rw [hoffm, nth_drop, Nat.add_zero]
        exact hsp
      rw [show (2 : Nat) = 1 + 1 from rfl, walkOk_branch, if_pos hcond, hB2]
  · have hsplt : Nibs.nth part (Nibs.commonPre part lk) < 16 :=
      termSfx_nth_lt hts hmp hsp
    have hm1 : Nibs.commonPre part lk + 1 < part.length := by
      rcases Nat.lt_or_ge (Nibs.commonPre part lk + 1) part.length with h | h
      · exact h
      · exfalso
        have : Nibs.commonPre part lk = part.length - 1 := by omega
        rw [this, termSfx_last hts] at hsp
        exact hsp rfl
    have hokLP : okN (Node.fromLeaf (Nibs.offset part (Nibs.commonPre part lk + 1))
        value) = true := termSfx_drop_all hts hm1
    have hB2 : leafSplitB lk lv part value =
        ((splitB1 lk lv part).1.set (Nibs.nth part (Nibs.commonPre part lk))
          (Node.fromLeaf (Nibs.offset part (Nibs.commonPre part lk + 1)) value),
         (splitB1 lk lv part).2) := by
      rw [leafSplitB]
      exact branchInsert_ne16 _ _ _ _ hsp
    refine ⟨?_, hmp, ?_⟩
    · rw [hB2,
        show okN (Node.branch ((splitB1 lk lv part).1.set
            (Nibs.nth part (Nibs.commonPre part lk))
            (Node.fromLeaf (Nibs.offset part (Nibs.commonPre part lk + 1)) value))
            (splitB1 lk lv part).2) =
          (okL ((splitB1 lk lv part).1.set (Nibs.nth part (Nibs.commonPre part lk))
            (Node.fromLeaf (Nibs.offset part (Nibs.commonPre part lk + 1)) value)) &&
           (NodeList.length ((splitB1 lk lv part).1.set
             (Nibs.nth part (Nibs.commonPre part lk))
             (Node.fromLeaf (Nibs.offset part
               (Nibs.commonPre part lk + 1)) value)) == 16)) from rfl,
        Bool.and_eq_true, set_length, hlenB1]
      exact ⟨okL_set _ _ _ hokB1 hokLP, rfl⟩
    · intro kec db path i hoff
      have hoffm : Nibs.offset path (i + Nibs.commonPre part lk) =
          part.drop (Nibs.commonPre part lk) := by
        rw [offset_add path i (Nibs.commonPre part lk), hoff]
      have hnth0 : Nibs.nth (Nibs.offset path (i + Nibs.commonPre part lk)) 0 =
          Nibs.nth part (Nibs.commonPre part lk) := by
        rw [hoffm, nth_drop, Nat.add_zero]
      have hcond : ¬(Nibs.offset path (i + Nibs.commonPre part lk) = [] ∨
          Nibs.nth (Nibs.offset path (i + Nibs.commonPre part lk)) 0 = 16) := by
        push_neg
        constructor
        · rw [hoffm]
          intro hdropnil
          have := List.drop_eq_nil_iff.mp hdropnil
          omega
        · rw [hnth0]
          exact hsp
      rw [show (2 : Nat) = 1 + 1 from rfl, walkOk_branch, if_neg hcond, hB2, hnth0,
        get_set_self _ _ _ (by rw [hlenB1]; exact hsplt)]
      show Nibs.offset part (Nibs.commonPre part lk + 1) =
          Nibs.offset path (i + Nibs.commonPre part lk + 1) ∧ value = value
      refine ⟨?_, rfl⟩
      rw [show i + Nibs.commonPre part lk + 1 = i + (Nibs.commonPre part lk + 1)
        from by omega, offset_add path i (Nibs.commonPre part lk + 1), hoff]
      rfl

/-- The branch that replaces an extension split at offset zero is well
formed. -/
theorem extPushB_ok (pre : Nibs) (sub : Node) (hne : ¬pre.isEmpty = true)
    (hall : pre.all (fun x => x < 16) = true) (hsub : okN sub = true) :
    okN (Node.branch (extPushB pre sub).1 (extPushB pre sub).2) = true := by
  have hnn : pre ≠ [] := by
    intro hc
    rw [hc] at hne
    exact hne rfl
  have h0 : Nibs.nth pre 0 < 16 := by
    match pre, hnn with
    | a :: as, _ =>
      have : a ∈ a :: as := List.mem_cons_self a as
      have := List.all_eq_true.mp hall a this
      simpa using this
  have h016 : Nibs.nth pre 0 ≠ 16 := by omega
  have hX : okN (if pre.length = 1 then sub
      else Node.fromExt (Nibs.offset pre 1) sub) = true := by
    by_cases hp1 : pre.length = 1
    · rw [if_pos hp1]
      exact hsub
    · rw [if_neg hp1]
      have hlen2 : 2 ≤ pre.length := by
        have : 0 < pre.length := List.length_pos.mpr hnn
        omega
      rw [show okN (Node.fromExt (Nibs.offset pre 1) sub) =
        (!(Nibs.offset pre 1).isEmpty && (Nibs.offset pre 1).all (fun x => x < 16) &&
          okN sub) from rfl, Bool.and_eq_true, Bool.and_eq_true]
      refine ⟨⟨?_, ?_⟩, hsub⟩
      · rw [Bool.not_eq_true']
        rw [show (Nibs.offset pre 1).isEmpty = (pre.drop 1).isEmpty from rfl]
        cases hdrop : (pre.drop 1).isEmpty
        · rfl
        · exfalso
          have := List.isEmpty_iff.mp hdrop
          have := List.drop_eq_nil_iff.mp this
          omega
      · rw [List.all_eq_true]
        intro x hx
        exact List.all_eq_true.mp hall x (List.mem_of_mem_drop hx)
  rw [extPushB, branchInsert_ne16 _ _ _ _ h016,
    show okN (Node.branch (emptyChildren.set (Nibs.nth pre 0)
        (if pre.length = 1 then sub else Node.fromExt (Nibs.offset pre 1) sub)) none) =
      (okL (emptyChildren.set (Nibs.nth pre 0)
        (if pre.length = 1 then sub else Node.fromExt (Nibs.offset pre 1) sub)) &&
       (NodeList.length (emptyChildren.set (Nibs.nth pre 0)
        (if pre.length = 1 then sub
         else Node.fromExt (Nibs.offset pre 1) sub)) == 16)) from rfl,
    Bool.and_eq_true, set_length, emptyChildren_length]
  exact ⟨okL_set _ _ _ emptyChildren_okL hX, rfl⟩

theorem take_not_isEmpty {l : List Nat} {m : Nat} (hm : m ≠ 0) (hl : l ≠ []) :
    (!(l.take m).isEmpty) = true := by
  rw [Bool.not_eq_true']
  cases he : (l.take m).isEmpty
  · rfl
  · exfalso
    rcases List.take_eq_nil_iff.mp (List.isEmpty_iff.mp he) with h | h
    · exact hm h
    · exact hl h

theorem drop_not_isEmpty {l : List Nat} {m : Nat} (hm : m < l.length) :
    (!(l.drop m).isEmpty) = true := by
  rw [Bool.not_eq_true']
  cases he : (l.drop m).isEmpty
  · rfl
  · exfalso
    have := List.drop_eq_nil_iff.mp (List.isEmpty_iff.mp he)
    omega

/-- A successful `insert_at` on a hash-free well-formed subtree leaves the
state untouched and returns a hash-free well-formed subtree on which the get
walk finds the inserted value, against any store. -/
theorem insertAt_walk (kec : Kec) (db : Db) :
    ∀ f t n path i value t' n', okN n = true →
      termSfx (Nibs.offset path i) = true →
      insertAt f t n path i value = some (t', .ok n') →
      t' = t ∧ okN n' = true ∧ walkOk kec db (3 * f) n' path i value
  | 0, t, n, path, i, value, t', n' => by
    intro _ _ hins
    exact Option.noConfusion hins
  | f + 1, t, n, path, i, value, t', n' => by
    intro hok hts hins
    cases n with
    | hash hh => exact Bool.noConfusion hok
    | empty =>
      rw [insertAt_step_empty] at hins
      simp only [Option.some.injEq, Prod.mk.injEq, Except.ok.injEq] at hins
      obtain ⟨htq, hnq⟩ := hins
      subst htq hnq
      refine ⟨rfl, hts, ?_⟩
      exact walkOk_mono kec db 1 (3 * (f + 1)) (by omega) _ path i value ⟨rfl, rfl⟩
    | leaf lk lv =>
      have hlk : termSfx lk = true := hok
      rw [insertAt_step_leaf] at hins
      by_cases hm : Nibs.commonPre (Nibs.offset path i) lk = lk.length
      · rw [if_pos hm] at hins
        simp only [Option.some.injEq, Prod.mk.injEq, Except.ok.injEq] at hins
        obtain ⟨htq, hnq⟩ := hins
        subst htq hnq
        have heq : Nibs.offset path i = lk :=
          termSfx_prefix_eq hts hlk (commonPre_full (Nibs.offset path i) lk hm)
        refine ⟨rfl, hlk, ?_⟩
        exact walkOk_mono kec db 1 (3 * (f + 1)) (by omega) _ path i value
          ⟨heq.symm, rfl⟩
      · rw [if_neg hm] at hins
        obtain ⟨hokB, hmp, hwalkB⟩ :=
          leafSplitB_props lk lv (Nibs.offset path i) value hlk hts hm
        have hwB := hwalkB kec db path i rfl
        have hml : Nibs.commonPre (Nibs.offset path i) lk < lk.length :=
          Nat.lt_of_le_of_ne (commonPre_le_right _ _) hm
        have hfl : ∀ x ∈ (Nibs.offset path i).take
            (Nibs.commonPre (Nibs.offset path i) lk), x < 16 := by
          rw [commonPre_take (Nibs.offset path i) lk]
          exact termSfx_first_lt hlk hml
        by_cases hm0 : Nibs.commonPre (Nibs.offset path i) lk = 0
        · rw [if_pos hm0] at hins
          simp only [Option.some.injEq, Prod.mk.injEq, Except.ok.injEq] at hins
          obtain ⟨htq, hnq⟩ := hins
          subst htq hnq
          refine ⟨rfl, hokB, ?_⟩
          rw [hm0, Nat.add_zero] at hwB
          exact walkOk_mono kec db 2 (3 * (f + 1)) (by omega) _ path i value hwB
        · rw [if_neg hm0] at hins
          simp only [Option.some.injEq, Prod.mk.injEq, Except.ok.injEq] at hins
          obtain ⟨htq, hnq⟩ := hins
          subst htq hnq
          refine ⟨rfl, ?_, ?_⟩
          · simp only [Node.fromExt]
            rw [show okN (Node.ext
                (Nibs.slice (Nibs.offset path i) 0
                  (Nibs.commonPre (Nibs.offset path i) lk))
                (Node.branch (leafSplitB lk lv (Nibs.offset path i) value).1
                  (leafSplitB lk lv (Nibs.offset path i) value).2)) =
              (!(Nibs.slice (Nibs.offset path i) 0
                  (Nibs.commonPre (Nibs.offset path i) lk)).isEmpty &&
                (Nibs.slice (Nibs.offset path i) 0
                  (Nibs.commonPre (Nibs.offset path i) lk)).all (fun x => x < 16) &&
                okN (Node.branch (leafSplitB lk lv (Nibs.offset path i) value).1
                  (leafSplitB lk lv (Nibs.offset path i) value).2)) from rfl,
              Bool.and_eq_true, Bool.and_eq_true]
            refine ⟨⟨?_, ?_⟩, hokB⟩
            · exact take_not_isEmpty hm0 (termSfx_ne_nil hts)
            · rw [List.all_eq_true]
              intro x hx
              have := hfl x hx
              simpa using this
          · simp only [Node.fromExt]
            have hcp : Nibs.commonPre (Nibs.offset path i)
                (Nibs.slice (Nibs.offset path i) 0
                  (Nibs.commonPre (Nibs.offset path i) lk)) =
                Nibs.commonPre (Nibs.offset path i) lk := by
              rw [show Nibs.slice (Nibs.offset path i) 0
                  (Nibs.commonPre (Nibs.offset path i) lk) =
                (Nibs.offset path i).take (Nibs.commonPre (Nibs.offset path i) lk)
                from rfl]
              exact commonPre_take_self _ _ (le_of_lt hmp)
            have hlenm : (Nibs.slice (Nibs.offset path i) 0
                (Nibs.commonPre (Nibs.offset path i) lk)).length =
                Nibs.commonPre (Nibs.offset path i) lk := by
              rw [show Nibs.slice (Nibs.offset path i) 0
                  (Nibs.commonPre (Nibs.offset path i) lk) =
                (Nibs.offset path i).take (Nibs.commonPre (Nibs.offset path i) lk)
                from rfl, List.length_take]
              exact Nat.min_eq_left (le_of_lt hmp)
            have hw : walkOk kec db (2 + 1) (Node.ext
                (Nibs.slice (Nibs.offset path i) 0
                  (Nibs.commonPre (Nibs.offset path i) lk))
                (Node.branch (leafSplitB lk lv (Nibs.offset path i) value).1
                  (leafSplitB lk lv (Nibs.offset path i) value).2)) path i value := by
              rw [walkOk_ext]
              refine ⟨by rw [hcp, hlenm], ?_⟩
              rw [hcp]
              exact hwB
            exact walkOk_mono kec db (2 + 1) (3 * (f + 1)) (by omega) _ path i value hw
    | branch ch v =>
      rw [show okN (.branch ch v) = (okL ch && (NodeList.length ch == 16)) from rfl,
        Bool.and_eq_true] at hok
      obtain ⟨hch, hlen⟩ := hok
      have hlen16 : NodeList.length ch = 16 := by simpa using hlen
      rw [insertAt_step_branch] at hins
      by_cases hc : Nibs.nth (Nibs.offset path i) 0 = 16
      · rw [if_pos hc] at hins
        simp only [Option.some.injEq, Prod.mk.injEq, Except.ok.injEq] at hins
        obtain ⟨htq, hnq⟩ := hins
        subst htq hnq
        refine ⟨rfl, ?_, ?_⟩
        · rw [show okN (Node.branch ch (some value)) =
            (okL ch && (NodeList.length ch == 16)) from rfl, Bool.and_eq_true]
          exact ⟨hch, hlen⟩
        · have hw : walkOk kec db (0 + 1) (Node.branch ch (some value)) path i value := by
            rw [walkOk_branch, if_pos (Or.inr hc)]
          exact walkOk_mono kec db (0 + 1) (3 * (f + 1)) (by omega) _ path i value hw
      · rw [if_neg hc] at hins
        have hpos : 0 < (Nibs.offset path i).length :=
          List.length_pos.mpr (termSfx_ne_nil hts)
        have hs16 : Nibs.nth (Nibs.offset path i) 0 < 16 := termSfx_nth_lt hts hpos hc
        have hlen2 : 2 ≤ (Nibs.offset path i).length := termSfx_len2 hts hc
        have htsc : termSfx (Nibs.offset path (i + 1)) = true := by
          rw [offset_add path i 1]
          exact termSfx_drop_all hts (by omega)
        rcases hrec : insertAt f t (ch.get (Nibs.nth (Nibs.offset path i) 0)) path
            (i + 1) value with _ | ⟨t1, e | nc⟩
        · rw [hrec] at hins
          exact Option.noConfusion hins
        · rw [hrec] at hins
          simp at hins
        · rw [hrec] at hins
          simp only [Option.some.injEq, Prod.mk.injEq, Except.ok.injEq] at hins
          obtain ⟨htq, hnq⟩ := hins
          subst htq hnq
          obtain ⟨ht1, hoknc, hwalk⟩ := insertAt_walk kec db f t
            (ch.get (Nibs.nth (Nibs.offset path i) 0)) path (i + 1) value t1 nc
            (okL_get hch _) htsc hrec
          refine ⟨ht1, ?_, ?_⟩
          · rw [show okN (Node.branch (ch.set (Nibs.nth (Nibs.offset path i) 0) nc) v) =
              (okL (ch.set (Nibs.nth (Nibs.offset path i) 0) nc) &&
                (NodeList.length (ch.set (Nibs.nth (Nibs.offset path i) 0) nc) == 16))
              from rfl, Bool.and_eq_true, set_length, hlen16]
            exact ⟨okL_set ch _ nc hch hoknc, rfl⟩
          · have hcond : ¬(Nibs.offset path i = [] ∨
                Nibs.nth (Nibs.offset path i) 0 = 16) := by
              push_neg
              exact ⟨termSfx_ne_nil hts, hc⟩
            have hw : walkOk kec db (3 * f + 1 + 1)
                (Node.branch (ch.set (Nibs.nth (Nibs.offset path i) 0) nc) v)
                path i value := by
              rw [walkOk_branch, if_neg hcond,
                get_set_self ch (Nibs.nth (Nibs.offset path i) 0) nc
                  (by rw [hlen16]; exact hs16)]
              exact walkOk_mono kec db (3 * f) (3 * f + 1) (by omega) nc path (i + 1)
                value hwalk
            exact walkOk_mono kec db (3 * f + 1 + 1) (3 * (f + 1)) (by omega) _ path
              i value hw
    | ext pre sub =>
      rw [show okN (.ext pre sub) =
        (!pre.isEmpty && pre.all (fun x => x < 16) && okN sub) from rfl,
        Bool.and_eq_true, Bool.and_eq_true] at hok
      obtain ⟨⟨hpne, hall⟩, hsub⟩ := hok
      have hprenil : pre ≠ [] := by
        intro hc
        rw [hc] at hpne
        exact absurd hpne (by decide)
      rw [insertAt_step_ext] at hins
      by_cases hm0 : Nibs.commonPre (Nibs.offset path i) pre = 0
      · rw [if_pos hm0] at hins
        have hokB := extPushB_ok pre sub
          (by intro hcc; rw [hcc] at hpne; exact absurd hpne (by decide)) hall hsub
        obtain ⟨htq, hoknq, hwq⟩ := insertAt_walk kec db f t
          (.branch (extPushB pre sub).1 (extPushB pre sub).2) path i value t' n'
          hokB hts hins
        exact ⟨htq, hoknq,
          walkOk_mono kec db (3 * f) (3 * (f + 1)) (by omega) _ path i value hwq⟩
      · rw [if_neg hm0] at hins
        have hallmem : ∀ x ∈ (Nibs.offset path i).take
            (Nibs.commonPre (Nibs.offset path i) pre), x < 16 := by
          intro x hx
          rw [commonPre_take (Nibs.offset path i) pre] at hx
          have := List.all_eq_true.mp hall x (List.mem_of_mem_take hx)
          simpa using this
        have hmp : Nibs.commonPre (Nibs.offset path i) pre <
            (Nibs.offset path i).length := termSfx_take_lt_len hts hallmem
        have htsc : termSfx (Nibs.offset path
            (i + Nibs.commonPre (Nibs.offset path i) pre)) = true := by
          rw [offset_add path i (Nibs.commonPre (Nibs.offset path i) pre)]
          exact termSfx_drop_all hts hmp
        by_cases hmf : Nibs.commonPre (Nibs.offset path i) pre = pre.length
        · rw [if_pos hmf] at hins
          rcases hrec : insertAt f t sub path
              (i + Nibs.commonPre (Nibs.offset path i) pre) value with _ | ⟨t1, e | nn⟩
          · rw [hrec] at hins
            exact Option.noConfusion hins
          · rw [hrec] at hins
            simp at hins
          · rw [hrec] at hins
            simp only [Option.some.injEq, Prod.mk.injEq, Except.ok.injEq] at hins
            obtain ⟨htq, hnq⟩ := hins
            subst htq hnq
            obtain ⟨ht1, hoknn, hwalk⟩ := insertAt_walk kec db f t sub path
              (i + Nibs.commonPre (Nibs.offset path i) pre) value t1 nn hsub htsc hrec
            refine ⟨ht1, ?_, ?_⟩
            · simp only [Node.fromExt]
              rw [show okN (Node.ext pre nn) =
                (!pre.isEmpty && pre.all (fun x => x < 16) && okN nn) from rfl,
                Bool.and_eq_true, Bool.and_eq_true]
              exact ⟨⟨hpne, hall⟩, hoknn⟩
            · simp only [Node.fromExt]
              have hw : walkOk kec db (3 * f + 1) (Node.ext pre nn) path i value := by
                rw [walkOk_ext]
                exact ⟨hmf, hwalk⟩
              exact walkOk_mono kec db (3 * f + 1) (3 * (f + 1)) (by omega) _ path
                i value hw
        · rw [if_neg hmf] at hins
          have hmlt : Nibs.commonPre (Nibs.offset path i) pre < pre.length :=
            Nat.lt_of_le_of_ne (commonPre_le_right _ _) hmf
          have hokrec : okN (Node.fromExt
              (Nibs.offset pre (Nibs.commonPre (Nibs.offset path i) pre)) sub)
              = true := by
            simp only [Node.fromExt]
            rw [show okN (Node.ext
                (Nibs.offset pre (Nibs.commonPre (Nibs.offset path i) pre)) sub) =
              (!(Nibs.offset pre (Nibs.commonPre (Nibs.offset path i) pre)).isEmpty &&
                (Nibs.offset pre (Nibs.commonPre (Nibs.offset path i) pre)).all
                  (fun x => x < 16) && okN sub) from rfl,
              Bool.and_eq_true, Bool.and_eq_true]
            refine ⟨⟨?_, ?_⟩, hsub⟩
            · exact drop_not_isEmpty hmlt
            · rw [List.all_eq_true]
              intro x hx
              exact List.all_eq_true.mp hall x (List.mem_of_mem_drop hx)
          rcases hrec : insertAt f t (Node.fromExt
              (Nibs.offset pre (Nibs.commonPre (Nibs.offset path i) pre)) sub) path
              (i + Nibs.commonPre (Nibs.offset path i) pre) value with _ | ⟨t1, e | nn⟩
          · rw [hrec] at hins
            exact Option.noConfusion hins
          · rw [hrec] at hins
            simp at hins
          · rw [hrec] at hins
            simp only [Option.some.injEq, Prod.mk.injEq, Except.ok.injEq] at hins
            obtain ⟨htq, hnq⟩ := hins
            subst htq hnq
            obtain ⟨ht1, hoknn, hwalk⟩ := insertAt_walk kec db f t
              (Node.fromExt (Nibs.offset pre
                (Nibs.commonPre (Nibs.offset path i) pre)) sub) path
              (i + Nibs.commonPre (Nibs.offset path i) pre) value t1 nn hokrec htsc hrec
            refine ⟨ht1, ?_, ?_⟩
            · rw [show okN (Node.ext
                  (Nibs.slice pre 0 (Nibs.commonPre (Nibs.offset path i) pre)) nn) =
                (!(Nibs.slice pre 0 (Nibs.commonPre (Nibs.offset path i) pre)).isEmpty
                  && (Nibs.slice pre 0
                    (Nibs.commonPre (Nibs.offset path i) pre)).all (fun x => x < 16)
                  && okN nn) from rfl,
                Bool.and_eq_true, Bool.and_eq_true]
              refine ⟨⟨?_, ?_⟩, hoknn⟩
              · exact take_not_isEmpty hm0 hprenil
              · rw [List.all_eq_true]
                intro x hx
                exact List.all_eq_true.mp hall x (List.mem_of_mem_take hx)
            · have hcp : Nibs.commonPre (Nibs.offset path i)
                  (Nibs.slice pre 0 (Nibs.commonPre (Nibs.offset path i) pre)) =
                  Nibs.commonPre (Nibs.offset path i) pre := by
                rw [show Nibs.slice pre 0 (Nibs.commonPre (Nibs.offset path i) pre) =
                  pre.take (Nibs.commonPre (Nibs.offset path i) pre) from rfl,
                  ← commonPre_take (Nibs.offset path i) pre]
                exact commonPre_take_self _ _ (le_of_lt hmp)
              have hlenm : (Nibs.slice pre 0
                  (Nibs.commonPre (Nibs.offset path i) pre)).length =
                  Nibs.commonPre (Nibs.offset path i) pre := by
                rw [show Nibs.slice pre 0 (Nibs.commonPre (Nibs.offset path i) pre) =
                  pre.take (Nibs.commonPre (Nibs.offset path i) pre) from rfl,
                  List.length_take]
                exact Nat.min_eq_left (le_of_lt hmlt)
              have hw : walkOk kec db (3 * f + 1) (Node.ext
                  (Nibs.slice pre 0 (Nibs.commonPre (Nibs.offset path i) pre)) nn)
                  path i value := by
                rw [walkOk_ext]
                refine ⟨by rw [hcp, hlenm], ?_⟩
                rw [hcp]
                exact hwalk
              exact walkOk_mono kec db (3 * f + 1) (3 * (f + 1)) (by omega) _ path
                i value hw

/-! ## Hash-referenced descendants and the walk through the store view -/

mutual

/-- The materialized descendants that `encode_raw` hash-references (and
caches): every non-Hash node in child position, recursively, whose encoding
reaches 32 bytes — together with the descendants of inline children. -/
def bigSubs (kec : Kec) : Node → List Node
  | .empty => []
  | .hash _ => []
  | .leaf _ _ => []
  | .branch ch _ => bigSubsL kec ch
  | .ext _ sub =>
    match sub with
    | .hash _ => []
    | _ => bigSubs kec sub ++ (if (pureEnc kec sub).length < 32 then [] else [sub])

def bigSubsL (kec : Kec) : NodeList → List Node
  | .nil => []
  | .cons hd tl =>
    (match hd with
     | .hash _ => []
     | _ => bigSubs kec hd ++
        (if (pureEnc kec hd).length < 32 then [] else [hd])) ++ bigSubsL kec tl

end

/-- The contribution of one child position. -/
def bigItem (kec : Kec) (hd : Node) : List Node :=
  match hd with
  | .hash _ => []
  | _ => bigSubs kec hd ++ (if (pureEnc kec hd).length < 32 then [] else [hd])

theorem bigSubsL_eq (kec : Kec) (hd : Node) (tl : NodeList) :
    bigSubsL kec (.cons hd tl) = bigItem kec hd ++ bigSubsL kec tl := by
  cases hd <;> rfl

theorem bigSubs_ext (kec : Kec) (pre : Nibs) (sub : Node) :
    bigSubs kec (.ext pre sub) = bigItem kec sub := by
  cases sub <;> rfl

theorem bigSubs_branch (kec : Kec) (ch : NodeList) (vv : Option Bytes) :
    bigSubs kec (.branch ch vv) = bigSubsL kec ch := rfl

theorem mapInsert_mem_preserve (kec : Kec) (hinj : Function.Injective kec)
    (c : Db) (d : Bytes) (hcc : ∀ p ∈ c, p.1 = kec p.2) :
    ∀ p ∈ c, p ∈ mapInsert c (kec d) d := by
  intro p hp
  rw [mapInsert]
  by_cases hk : p.1 = kec d
  · have h1 := hcc p hp
    have h2 : p.2 = d := hinj (by rw [← h1, hk])
    have h3 : p = (kec d, d) := by
      cases p
      simp only at h1 hk h2 ⊢
      rw [hk, h2]
    rw [h3]
    exact List.mem_cons_self _ _
  · refine List.mem_cons_of_mem _ ?_
    rw [List.mem_filter]
    exact ⟨hp, by simpa using hk⟩

theorem mapInsert_consistent (kec : Kec) (c : Db) (d : Bytes)
    (hcc : ∀ p ∈ c, p.1 = kec p.2) :
    ∀ p ∈ mapInsert c (kec d) d, p.1 = kec p.2 := by
  intro p hp
  rw [mapInsert] at hp
  rcases List.mem_cons.mp hp with rfl | hp2
  · rfl
  · exact hcc p (List.mem_filter.mp hp2).1

theorem mapInsert_self_mem (c : Db) (k d : Bytes) : (k, d) ∈ mapInsert c k d := by
  rw [mapInsert]
  exact List.mem_cons_self _ _

/-- The extension arm of `encode_raw` on a materialized child, given the
child-level result. -/
theorem encodeRaw_ext_go (kec : Kec) (hinj : Function.Injective kec) (pre : Nibs)
    (C : Node) (t : EthTrie)
    (hstep : encodeRaw kec t (.ext pre C) =
      (match encodeRaw kec t C with
       | none => none
       | some (t1, d) =>
         if d.length < 32 then
           some (t1, rlpListWrap (rlpStr (Nibs.encodeCompact pre) ++ d))
         else
           match cachePut kec t1 d with
           | (t2, h) =>
             some (t2, rlpListWrap (rlpStr (Nibs.encodeCompact pre) ++ rlpStr h))))
    (hnh : ∀ h, C ≠ Node.hash h)
    (hbigItem : bigItem kec C = bigSubs kec C ++
      (if (pureEnc kec C).length < 32 then [] else [C]))
    (hIH : ∃ t1, encodeRaw kec t C = some (t1, pureEnc kec C) ∧
      t1.db = t.db ∧ t1.passingKeys = t.passingKeys ∧
      (∀ p ∈ t.cache, p ∈ t1.cache) ∧ (∀ p ∈ t1.cache, p.1 = kec p.2) ∧
      (∀ m ∈ bigSubs kec C, (kec (pureEnc kec m), pureEnc kec m) ∈ t1.cache)) :
    ∃ t1, encodeRaw kec t (.ext pre C) = some (t1, pureEnc kec (.ext pre C)) ∧
      t1.db = t.db ∧ t1.passingKeys = t.passingKeys ∧
      (∀ p ∈ t.cache, p ∈ t1.cache) ∧ (∀ p ∈ t1.cache, p.1 = kec p.2) ∧
      (∀ m ∈ bigSubs kec (.ext pre C),
        (kec (pureEnc kec m), pureEnc kec m) ∈ t1.cache) := by
  obtain ⟨t1, heq, hdb, hpass, hmem, hcc1, hbig⟩ := hIH
  by_cases h32 : (pureEnc kec C).length < 32
  · refine ⟨t1, ?_, hdb, hpass, hmem, hcc1, ?_⟩
    · rw [hstep, heq]
      dsimp only
      rw [if_pos h32, pureEnc_ext kec pre C, pureItem_nonhash kec C hnh, if_pos h32]
    · intro m hm
      rw [bigSubs_ext, hbigItem, if_pos h32, List.append_nil] at hm
      exact hbig m hm
  · refine ⟨{ t1 with cache := mapInsert t1.cache (kec (pureEnc kec C)) (pureEnc kec C), genKeys := keyInsert t1.genKeys (kec (pureEnc kec C)) }, ?_, hdb, hpass, ?_, ?_, ?_⟩
    · rw [hstep, heq]
      dsimp only
      rw [if_neg h32,
        show cachePut kec t1 (pureEnc kec C) =
          ({ t1 with cache := mapInsert t1.cache (kec (pureEnc kec C)) (pureEnc kec C), genKeys := keyInsert t1.genKeys (kec (pureEnc kec C)) },
           kec (pureEnc kec C)) from rfl]
      dsimp only
      rw [pureEnc_ext kec pre C, pureItem_nonhash kec C hnh, if_neg h32]
    · intro p hp
      exact mapInsert_mem_preserve kec hinj t1.cache (pureEnc kec C) hcc1 p (hmem p hp)
    · exact mapInsert_consistent kec t1.cache (pureEnc kec C) hcc1
    · intro m hm
      rw [bigSubs_ext, hbigItem, if_neg h32] at hm
      rcases List.mem_append.mp hm with hm1 | hm1
      · exact mapInsert_mem_preserve kec hinj t1.cache (pureEnc kec C) hcc1 _
          (hbig m hm1)
      · rw [List.mem_singleton.mp hm1]
        exact mapInsert_self_mem _ _ _

/-- The child-position arm of the branch loop of `encode_raw`, given the
child- and tail-level results. -/
theorem encodeChildren_cons_go (kec : Kec) (hinj : Function.Injective kec)
    (C : Node) (tl : NodeList) (t : EthTrie)
    (hstep : encodeChildren kec t (.cons C tl) =
      (match encodeRaw kec t C with
       | none => none
       | some (t1, d) =>
         if d.length < 32 then
           match encodeChildren kec t1 tl with
           | none => none
           | some (t2, rest) => some (t2, d ++ rest)
         else
           match cachePut kec t1 d with
           | (t2, h) =>
             match encodeChildren kec t2 tl with
             | none => none
             | some (t3, rest) => some (t3, rlpStr h ++ rest)))
    (hnh : ∀ h, C ≠ Node.hash h)
    (hbigItem : bigItem kec C = bigSubs kec C ++
      (if (pureEnc kec C).length < 32 then [] else [C]))
    (hIHhd : ∃ t1, encodeRaw kec t C = some (t1, pureEnc kec C) ∧
      t1.db = t.db ∧ t1.passingKeys = t.passingKeys ∧
      (∀ p ∈ t.cache, p ∈ t1.cache) ∧ (∀ p ∈ t1.cache, p.1 = kec p.2) ∧
      (∀ m ∈ bigSubs kec C, (kec (pureEnc kec m), pureEnc kec m) ∈ t1.cache))
    (hIHtl : ∀ t', (∀ p ∈ t'.cache, p.1 = kec p.2) →
      ∃ t2, encodeChildren kec t' tl =
          some (t2, (pureItems kec tl).foldr (· ++ ·) []) ∧
        t2.db = t'.db ∧ t2.passingKeys = t'.passingKeys ∧
        (∀ p ∈ t'.cache, p ∈ t2.cache) ∧ (∀ p ∈ t2.cache, p.1 = kec p.2) ∧
        (∀ m ∈ bigSubsL kec tl, (kec (pureEnc kec m), pureEnc kec m) ∈ t2.cache)) :
    ∃ t1, encodeChildren kec t (.cons C tl) =
        some (t1, (pureItems kec (.cons C tl)).foldr (· ++ ·) []) ∧
      t1.db = t.db ∧ t1.passingKeys = t.passingKeys ∧
      (∀ p ∈ t.cache, p ∈ t1.cache) ∧ (∀ p ∈ t1.cache, p.1 = kec p.2) ∧
      (∀ m ∈ bigSubsL kec (.cons C tl),
        (kec (pureEnc kec m), pureEnc kec m) ∈ t1.cache) := by
  obtain ⟨t1, heq, hdb, hpass, hmem, hcc1, hbig⟩ := hIHhd
  by_cases h32 : (pureEnc kec C).length < 32
  · obtain ⟨t2, heq2, hdb2, hpass2, hmem2, hcc2, hbig2⟩ := hIHtl t1 hcc1
    refine ⟨t2, ?_, by rw [hdb2, hdb], by rw [hpass2, hpass],
      fun p hp => hmem2 p (hmem p hp), hcc2, ?_⟩
    · rw [hstep, heq]
      dsimp only
      rw [if_pos h32, heq2, pureItems_eq, List.foldr_cons,
        pureItem_nonhash kec C hnh, if_pos h32]
    · intro m hm
      rw [bigSubsL_eq, hbigItem, if_pos h32, List.append_nil] at hm
      rcases List.mem_append.mp hm with hm1 | hm1
      · exact hmem2 _ (hbig m hm1)
      · exact hbig2 m hm1
  · have hccI := mapInsert_consistent kec t1.cache (pureEnc kec C) hcc1
    obtain ⟨t3, heq3, hdb3, hpass3, hmem3, hcc3, hbig3⟩ := hIHtl
      { t1 with cache := mapInsert t1.cache (kec (pureEnc kec C)) (pureEnc kec C), genKeys := keyInsert t1.genKeys (kec (pureEnc kec C)) } hccI
    refine ⟨t3, ?_, by rw [hdb3]; exact hdb, by rw [hpass3]; exact hpass, ?_, hcc3, ?_⟩
    · rw [hstep, heq]
      dsimp only
      rw [if_neg h32,
        show cachePut kec t1 (pureEnc kec C) =
          ({ t1 with cache := mapInsert t1.cache (kec (pureEnc kec C)) (pureEnc kec C), genKeys := keyInsert t1.genKeys (kec (pureEnc kec C)) },
           kec (pureEnc kec C)) from rfl]
      dsimp only
      rw [heq3, pureItems_eq, List.foldr_cons, pureItem_nonhash kec C hnh, if_neg h32]
    · intro p hp
      exact hmem3 p (mapInsert_mem_preserve kec hinj t1.cache (pureEnc kec C) hcc1 p
        (hmem p hp))
    · intro m hm
      rw [bigSubsL_eq, hbigItem, if_neg h32] at hm
      rcases List.mem_append.mp hm with hm1 | hm1
      · rcases List.mem_append.mp hm1 with hm2 | hm2
        · exact hmem3 _ (mapInsert_mem_preserve kec hinj t1.cache (pureEnc kec C) hcc1 _
            (hbig m hm2))
        · rw [List.mem_singleton.mp hm2]
          exact hmem3 _ (mapInsert_self_mem _ _ _)
      · exact hbig3 m hm1

mutual

/-- On storage-normal non-hash nodes `encode_raw` succeeds, emits the ghost
encoding, touches only cache and gen keys, keeps the cache hash-consistent and
caches the encoding of every hash-referenced descendant. -/
theorem encodeRaw_main (kec : Kec) (hinj : Function.Injective kec) :
    ∀ n t, goodN kec n = true → (∀ h, n ≠ Node.hash h) →
      (∀ p ∈ t.cache, p.1 = kec p.2) →
      ∃ t1, encodeRaw kec t n = some (t1, pureEnc kec n) ∧
        t1.db = t.db ∧ t1.passingKeys = t.passingKeys ∧
        (∀ p ∈ t.cache, p ∈ t1.cache) ∧
        (∀ p ∈ t1.cache, p.1 = kec p.2) ∧
        (∀ m ∈ bigSubs kec n, (kec (pureEnc kec m), pureEnc kec m) ∈ t1.cache)
  | .empty => fun t _ _ hcc =>
    ⟨t, rfl, rfl, rfl, fun p hp => hp, hcc,
      fun m hm => absurd hm (by intro hc; cases hc)⟩
  | .leaf k v => fun t _ _ hcc =>
    ⟨t, rfl, rfl, rfl, fun p hp => hp, hcc,
      fun m hm => absurd hm (by intro hc; cases hc)⟩
  | .hash h => fun t _ hnh _ => absurd rfl (hnh h)
  | .branch ch v => fun t hg _ hcc => by
    rw [show goodN kec (.branch ch v) = (goodL kec ch && (NodeList.length ch == 16) &&
      v.elim true goodVal &&
      decide ((pureEnc kec (.branch ch v)).length < 2 ^ 64)) from rfl,
      Bool.and_eq_true, Bool.and_eq_true, Bool.and_eq_true] at hg
    obtain ⟨⟨⟨hgl, _⟩, _⟩, _⟩ := hg
    obtain ⟨t1, heq, hdb, hpass, hmem, hcc1, hbig⟩ :=
      encodeChildren_main kec hinj ch t hgl hcc
    cases v with
    | none =>
      have hstep : encodeRaw kec t (.branch ch none) =
          (match encodeChildren kec t ch with
           | none => none
           | some (t2, listPart) => some (t2, rlpListWrap (listPart ++ [0x80]))) := rfl
      refine ⟨t1, ?_, hdb, hpass, hmem, hcc1, ?_⟩
      · rw [hstep, heq]
        rfl
      · intro m hm
        rw [bigSubs_branch] at hm
        exact hbig m hm
    | some vv =>
      have hstep : encodeRaw kec t (.branch ch (some vv)) =
          (match encodeChildren kec t ch with
           | none => none
           | some (t2, listPart) => some (t2, rlpListWrap (listPart ++ rlpStr vv))) := rfl
      refine ⟨t1, ?_, hdb, hpass, hmem, hcc1, ?_⟩
      · rw [hstep, heq]
        rfl
      · intro m hm
        rw [bigSubs_branch] at hm
        exact hbig m hm
  | .ext pre sub => fun t hg _ hcc => by
    rw [show goodN kec (.ext pre sub) = (!pre.isEmpty && pre.all (fun x => x < 16) &&
      goodN kec sub && decide ((pureEnc kec (.ext pre sub)).length < 2 ^ 64)) from rfl,
      Bool.and_eq_true, Bool.and_eq_true] at hg
    obtain ⟨⟨_, hgsub⟩, _⟩ := hg
    cases sub with
    | hash hh =>
      exact ⟨t, rfl, rfl, rfl, fun p hp => hp, hcc,
        fun m hm => absurd hm (by rw [bigSubs_ext]; intro hc; cases hc)⟩
    | empty =>
      exact encodeRaw_ext_go kec hinj pre Node.empty t rfl
        (by intro h hc; cases hc) rfl
        (encodeRaw_main kec hinj Node.empty t hgsub (by intro h hc; cases hc) hcc)
    | leaf lk lv =>
      exact encodeRaw_ext_go kec hinj pre (Node.leaf lk lv) t rfl
        (by intro h hc; cases hc) rfl
        (encodeRaw_main kec hinj (Node.leaf lk lv) t hgsub
          (by intro h hc; cases hc) hcc)
    | branch bch bv =>
      exact encodeRaw_ext_go kec hinj pre (Node.branch bch bv) t rfl
        (by intro h hc; cases hc) rfl
        (encodeRaw_main kec hinj (Node.branch bch bv) t hgsub
          (by intro h hc; cases hc) hcc)
    | ext sp ss =>
      exact encodeRaw_ext_go kec hinj pre (Node.ext sp ss) t rfl
        (by intro h hc; cases hc) rfl
        (encodeRaw_main kec hinj (Node.ext sp ss) t hgsub
          (by intro h hc; cases hc) hcc)

theorem encodeChildren_main (kec : Kec) (hinj : Function.Injective kec) :
    ∀ ch t, goodL kec ch = true → (∀ p ∈ t.cache, p.1 = kec p.2) →
      ∃ t1, encodeChildren kec t ch =
          some (t1, (pureItems kec ch).foldr (· ++ ·) []) ∧
        t1.db = t.db ∧ t1.passingKeys = t.passingKeys ∧
        (∀ p ∈ t.cache, p ∈ t1.cache) ∧
        (∀ p ∈ t1.cache, p.1 = kec p.2) ∧
        (∀ m ∈ bigSubsL kec ch, (kec (pureEnc kec m), pureEnc kec m) ∈ t1.cache)
  | .nil => fun t _ hcc =>
    ⟨t, rfl, rfl, rfl, fun p hp => hp, hcc,
      fun m hm => absurd hm (by intro hc; cases hc)⟩
  | .cons hd tl => fun t hg hcc => by
    rw [show goodL kec (.cons hd tl) = (goodN kec hd && goodL kec tl) from rfl,
      Bool.and_eq_true] at hg
    obtain ⟨hghd, hgtl⟩ := hg
    cases hd with
    | hash hh =>
      have hstep : encodeChildren kec t (.cons (.hash hh) tl) =
          (match encodeChildren kec t tl with
           | none => none
           | some (t1, rest) => some (t1, rlpStr hh ++ rest)) := rfl
      obtain ⟨t1, heq, hdb, hpass, hmem, hcc1, hbig⟩ :=
        encodeChildren_main kec hinj tl t hgtl hcc
      refine ⟨t1, ?_, hdb, hpass, hmem, hcc1, ?_⟩
      · rw [hstep, heq]
        rfl
      · intro m hm
        rw [bigSubsL_eq] at hm
        rcases List.mem_append.mp hm with hm1 | hm2
        · exact absurd hm1 (by intro hc; cases hc)
        · exact hbig m hm2
    | empty =>
      exact encodeChildren_cons_go kec hinj Node.empty tl t rfl
        (by intro h hc; cases hc) rfl
        (encodeRaw_main kec hinj Node.empty t hghd (by intro h hc; cases hc) hcc)
        (fun t' hcc' => encodeChildren_main kec hinj tl t' hgtl hcc')
    | leaf lk lv =>
      exact encodeChildren_cons_go kec hinj (Node.leaf lk lv) tl t rfl
        (by intro h hc; cases hc) rfl
        (encodeRaw_main kec hinj (Node.leaf lk lv) t hghd (by intro h hc; cases hc) hcc)
        (fun t' hcc' => encodeChildren_main kec hinj tl t' hgtl hcc')
    | branch bch bv =>
      exact encodeChildren_cons_go kec hinj (Node.branch bch bv) tl t rfl
        (by intro h hc; cases hc) rfl
        (encodeRaw_main kec hinj (Node.branch bch bv) t hghd
          (by intro h hc; cases hc) hcc)
        (fun t' hcc' => encodeChildren_main kec hinj tl t' hgtl hcc')
    | ext sp ss =>
      exact encodeChildren_cons_go kec hinj (Node.ext sp ss) tl t rfl
        (by intro h hc; cases hc) rfl
        (encodeRaw_main kec hinj (Node.ext sp ss) t hghd (by intro h hc; cases hc) hcc)
        (fun t' hcc' => encodeChildren_main kec hinj tl t' hgtl hcc')

end

/-! ## Commit preserves the readable-key invariant -/

/-- `write_node` on a non-Hash node: encode, then inline or hash-cache. -/
theorem writeNode_nonhash (kec : Kec) (t : EthTrie) (n : Node)
    (hnh : ∀ h, n ≠ Node.hash h) :
    writeNode kec t n =
      (match encodeRaw kec t n with
       | none => none
       | some (t1, data) =>
         if data.length < 32 then some (t1, .inline data)
         else
           match cachePut kec t1 data with
           | (t2, h) => some (t2, .hashE h)) := by
  cases n with
  | hash h => exact absurd rfl (hnh h)
  | empty => rfl
  | leaf k v => rfl
  | branch ch v => rfl
  | ext p c => rfl

theorem commonPre_comm : ∀ p q : Nibs, Nibs.commonPre p q = Nibs.commonPre q p
  | [], [] => rfl
  | [], _ :: _ => rfl
  | _ :: _, [] => rfl
  | a :: as, b :: bs => by
    rw [Nibs.commonPre, Nibs.commonPre]
    by_cases hab : a = b
    · rw [if_pos hab, if_pos hab.symm, commonPre_comm as bs]
    · rw [if_neg hab, if_neg (fun hc => hab hc.symm)]

theorem commonPre_zero_head : ∀ p q : Nibs, p ≠ [] → q ≠ [] →
    Nibs.commonPre p q = 0 → Nibs.nth p 0 ≠ Nibs.nth q 0
  | [], _, hp => absurd rfl hp
  | _ :: _, [], _ => fun hq => absurd rfl hq
  | a :: as, b :: bs, _ => fun _ hm => by
    rw [Nibs.commonPre] at hm
    split at hm
    · simp at hm
    · rename_i hab
      simpa [Nibs.nth] using hab

theorem head_ne_commonPre_zero : ∀ p q : Nibs,
    Nibs.nth p 0 ≠ Nibs.nth q 0 → Nibs.commonPre p q = 0
  | [], [] => fun h => absurd rfl h
  | [], _ :: _ => fun _ => rfl
  | _ :: _, [] => fun _ => rfl
  | a :: as, b :: bs => fun h => by
    rw [Nibs.commonPre, if_neg (by simpa [Nibs.nth] using h)]

theorem termSfx_singleton_iff {p : Nibs} (h : termSfx p = true) :
    Nibs.nth p 0 = 16 ↔ p = [16] := by
  constructor
  · intro h16
    obtain ⟨hsplit, hcore⟩ := termSfx_parts h
    match p, hsplit with
    | [16], _ => rfl
    | x :: y :: rest, hs =>
      exfalso
      have hx : x < 16 := by
        refine hcore x ?_
        have : (x :: y :: rest).dropLast = x :: (y :: rest).dropLast := by
          rw [List.dropLast_cons_of_ne_nil (List.cons_ne_nil y rest)]
        rw [this]
        exact List.mem_cons_self _ _
      rw [show Nibs.nth (x :: y :: rest) 0 = x from rfl] at h16
      omega
  · intro hp
    rw [hp]
    rfl

theorem cons_head_tail {p : Nibs} (hp : p ≠ []) :
    p = Nibs.nth p 0 :: p.drop 1 := by
  match p, hp with
  | a :: as, _ => rfl

/-- Byte keys below 256 expand to distinct nibble paths. -/
theorem fromRaw_inj : ∀ (k1 k2 : Bytes), (∀ b ∈ k1, b < 256) → (∀ b ∈ k2, b < 256) →
    Nibs.fromRaw k1 true = Nibs.fromRaw k2 true → k1 = k2
  | [], [], _, _ => fun _ => rfl
  | [], b :: bs, _, _ => fun h => by
    rw [Nibs.fromRaw, Nibs.fromRaw] at h
    simp at h
  | a :: as, [], _, _ => fun h => by
    rw [Nibs.fromRaw, Nibs.fromRaw] at h
    simp at h
  | a :: as, b :: bs, h1, h2 => fun h => by
    rw [Nibs.fromRaw, Nibs.fromRaw] at h
    simp only [List.flatMap_cons, List.append_assoc, List.cons_append, List.nil_append,
      List.cons.injEq] at h
    obtain ⟨hdiv, hmod, hrest⟩ := h
    have ha := h1 a (List.mem_cons_self a as)
    have hb := h2 b (List.mem_cons_self b bs)
    have hab : a = b := by omega
    have := fromRaw_inj as bs (fun x hx => h1 x (List.mem_cons_of_mem a hx))
      (fun x hx => h2 x (List.mem_cons_of_mem b hx))
      (by rw [Nibs.fromRaw, Nibs.fromRaw]; exact hrest)
    rw [hab, this]

theorem emptyChildren_get : ∀ s, NodeList.get emptyChildren s = .empty := by
  have haux : ∀ (n : Nat), ∀ s, (NodeList.ofList (List.replicate n .empty)).get s
      = .empty := by
    intro n
    induction n with
    | zero => intro s; cases s <;> rfl
    | succ k ih =>
      intro s
      cases s with
      | zero => rfl
      | succ j => exact ih j
  exact haux 16

/-- The branch built when `insert_at` pushes through an extension with no
common prefix: the extension is rotated into a fresh branch and the remaining
path lands in its own slot (or the value slot at the terminator). -/
def extIns (pre : Nibs) (sub : Node) (part : Nibs) (value : Bytes) : Node :=
  if Nibs.nth part 0 = 16 then .branch (extPushB pre sub).1 (some value)
  else .branch ((extPushB pre sub).1.set (Nibs.nth part 0)
    (Node.fromLeaf (part.drop 1) value)) (extPushB pre sub).2

mutual

/-- The pure rewrite `insert_at` performs on a fully materialized tree (the
state threads through unchanged there), as a structural function. -/
def insP : Node → Nibs → Bytes → Node
  | .empty, part, value => Node.fromLeaf part value
  | .hash _, _, _ => .empty
  | .leaf lk lv, part, value =>
    if Nibs.commonPre part lk = lk.length then Node.fromLeaf lk value
    else if Nibs.commonPre part lk = 0 then
      .branch (leafSplitB lk lv part value).1 (leafSplitB lk lv part value).2
    else
      Node.fromExt (Nibs.slice part 0 (Nibs.commonPre part lk))
        (.branch (leafSplitB lk lv part value).1 (leafSplitB lk lv part value).2)
  | .branch ch v, part, value =>
    if Nibs.nth part 0 = 16 then .branch ch (some value)
    else .branch (insL ch (Nibs.nth part 0) (part.drop 1) value) v
  | .ext pre sub, part, value =>
    if Nibs.commonPre part pre = 0 then
      extIns pre sub part value
    else if Nibs.commonPre part pre = pre.length then
      Node.fromExt pre (insP sub (part.drop pre.length) value)
    else
      .ext (Nibs.slice pre 0 (Nibs.commonPre part pre))
        (extIns (Nibs.offset pre (Nibs.commonPre part pre)) sub
          (part.drop (Nibs.commonPre part pre)) value)

/-- Insertion into one slot of a children array. -/
def insL : NodeList → Nat → Nibs → Bytes → NodeList
  | .nil, _, _, _ => .nil
  | .cons hd tl, 0, part, value => .cons (insP hd part value) tl
  | .cons hd tl, s + 1, part, value => .cons hd (insL tl s part value)

end

theorem insL_set_get : ∀ (ch : NodeList) (s : Nat) (part : Nibs) (value : Bytes),
    insL ch s part value = ch.set s (insP (ch.get s) part value)
  | .nil, _, _, _ => rfl
  | .cons hd tl, 0, part, value => rfl
  | .cons hd tl, s + 1, part, value => by
    show NodeList.cons hd (insL tl s part value) = _
    rw [insL_set_get tl s part value]
    rfl

theorem insP_extPushB (pre : Nibs) (sub : Node) (part : Nibs) (value : Bytes)
    (hpre0 : Nibs.nth pre 0 ≠ 16)
    (hne : Nibs.nth part 0 ≠ Nibs.nth pre 0) :
    insP (.branch (extPushB pre sub).1 (extPushB pre sub).2) part value =
      extIns pre sub part value := by
  have hstep : insP (.branch (extPushB pre sub).1 (extPushB pre sub).2) part value =
      (if Nibs.nth part 0 = 16 then .branch (extPushB pre sub).1 (some value)
       else .branch (insL (extPushB pre sub).1 (Nibs.nth part 0) (part.drop 1) value)
         (extPushB pre sub).2) := rfl
  by_cases h16 : Nibs.nth part 0 = 16
  · rw [hstep, if_pos h16, extIns, if_pos h16]
  · rw [hstep, if_neg h16, extIns, if_neg h16, insL_set_get]
    have hEP : extPushB pre sub = (emptyChildren.set (Nibs.nth pre 0)
        (if pre.length = 1 then sub else Node.fromExt (Nibs.offset pre 1) sub),
        none) := by
      rw [extPushB]
      exact branchInsert_ne16 _ _ _ _ hpre0
    rw [hEP]
    dsimp only
    rw [get_set_ne _ _ _ _ (fun hc => hne (by rw [hc])), emptyChildren_get]
    rfl

/-- A successful `insert_at` on a hash-free well-formed subtree computes the
pure structural insert. -/
theorem insertAt_insP :
    ∀ f t n path i value t' n', okN n = true →
      termSfx (Nibs.offset path i) = true →
      insertAt f t n path i value = some (t', .ok n') →
      n' = insP n (Nibs.offset path i) value
  | 0, t, n, path, i, value, t', n' => by
    intro _ _ hins
    exact Option.noConfusion hins
  | f + 1, t, n, path, i, value, t', n' => by
    intro hok hts hins
    cases n with
    | hash hh => exact Bool.noConfusion hok
    | empty =>
      rw [insertAt_step_empty] at hins
      simp only [Option.some.injEq, Prod.mk.injEq, Except.ok.injEq] at hins
      obtain ⟨htq, hnq⟩ := hins
      subst hnq
      rfl
    | leaf lk lv =>
      rw [insertAt_step_leaf] at hins
      have hinsP : insP (.leaf lk lv) (Nibs.offset path i) value =
          (if Nibs.commonPre (Nibs.offset path i) lk = lk.length then
            Node.fromLeaf lk value
          else if Nibs.commonPre (Nibs.offset path i) lk = 0 then
            .branch (leafSplitB lk lv (Nibs.offset path i) value).1
              (leafSplitB lk lv (Nibs.offset path i) value).2
          else
            Node.fromExt (Nibs.slice (Nibs.offset path i) 0
              (Nibs.commonPre (Nibs.offset path i) lk))
              (.branch (leafSplitB lk lv (Nibs.offset path i) value).1
                (leafSplitB lk lv (Nibs.offset path i) value).2)) := rfl
      by_cases hm : Nibs.commonPre (Nibs.offset path i) lk = lk.length
      · rw [if_pos hm] at hins
        simp only [Option.some.injEq, Prod.mk.injEq, Except.ok.injEq] at hins
        rw [hinsP, if_pos hm]
        exact hins.2.symm
      · rw [if_neg hm] at hins
        by_cases hm0 : Nibs.commonPre (Nibs.offset path i) lk = 0
        · rw [if_pos hm0] at hins
          simp only [Option.some.injEq, Prod.mk.injEq, Except.ok.injEq] at hins
          rw [hinsP, if_neg hm, if_pos hm0]
          exact hins.2.symm
        · rw [if_neg hm0] at hins
          simp only [Option.some.injEq, Prod.mk.injEq, Except.ok.injEq] at hins
          rw [hinsP, if_neg hm, if_neg hm0]
          exact hins.2.symm
    | branch ch v =>
      rw [show okN (.branch ch v) = (okL ch && (NodeList.length ch == 16)) from rfl,
        Bool.and_eq_true] at hok
      obtain ⟨hch, _⟩ := hok
      rw [insertAt_step_branch] at hins
      have hinsP : insP (.branch ch v) (Nibs.offset path i) value =
          (if Nibs.nth (Nibs.offset path i) 0 = 16 then .branch ch (some value)
           else .branch (insL ch (Nibs.nth (Nibs.offset path i) 0)
             ((Nibs.offset path i).drop 1) value) v) := rfl
      by_cases hc : Nibs.nth (Nibs.offset path i) 0 = 16
      · rw [if_pos hc] at hins
        simp only [Option.some.injEq, Prod.mk.injEq, Except.ok.injEq] at hins
        rw [hinsP, if_pos hc]
        exact hins.2.symm
      · rw [if_neg hc] at hins
        have hlen2 : 2 ≤ (Nibs.offset path i).length := termSfx_len2 hts hc
        have htsc : termSfx (Nibs.offset path (i + 1)) = true := by
          rw [offset_add path i 1]
          exact termSfx_drop_all hts (by omega)
        rcases hrec : insertAt f t (ch.get (Nibs.nth (Nibs.offset path i) 0)) path
            (i + 1) value with _ | ⟨t1, e | nc⟩
        · rw [hrec] at hins
          exact Option.noConfusion hins
        · rw [hrec] at hins
          simp at hins
        · rw [hrec] at hins
          simp only [Option.some.injEq, Prod.mk.injEq, Except.ok.injEq] at hins
          obtain ⟨htq, hnq⟩ := hins
          have hnceq := insertAt_insP f t (ch.get (Nibs.nth (Nibs.offset path i) 0))
            path (i + 1) value t1 nc (okL_get hch _) htsc hrec
          rw [offset_add path i 1] at hnceq
          rw [hinsP, if_neg hc, insL_set_get, ← hnceq]
          exact hnq.symm
    | ext pre sub =>
      rw [show okN (.ext pre sub) =
        (!pre.isEmpty && pre.all (fun x => x < 16) && okN sub) from rfl,
        Bool.and_eq_true, Bool.and_eq_true] at hok
      obtain ⟨⟨hpne, hall⟩, hsub⟩ := hok
      have hprenil : pre ≠ [] := by
        intro hc
        rw [hc] at hpne
        exact absurd hpne (by decide)
      have hpre0 : Nibs.nth pre 0 < 16 := by
        match pre, hprenil with
        | a :: as, _ =>
          have := List.all_eq_true.mp hall a (List.mem_cons_self a as)
          simpa using this
      rw [insertAt_step_ext] at hins
      have hinsPe : insP (.ext pre sub) (Nibs.offset path i) value =
          (if Nibs.commonPre (Nibs.offset path i) pre = 0 then
            extIns pre sub (Nibs.offset path i) value
          else if Nibs.commonPre (Nibs.offset path i) pre = pre.length then
            Node.fromExt pre (insP sub ((Nibs.offset path i).drop pre.length) value)
          else
            .ext (Nibs.slice pre 0 (Nibs.commonPre (Nibs.offset path i) pre))
              (extIns (Nibs.offset pre (Nibs.commonPre (Nibs.offset path i) pre)) sub
                ((Nibs.offset path i).drop
                  (Nibs.commonPre (Nibs.offset path i) pre)) value)) := rfl
      by_cases hm0 : Nibs.commonPre (Nibs.offset path i) pre = 0
      · rw [if_pos hm0] at hins
        have hokB := extPushB_ok pre sub
          (by intro hcc; rw [hcc] at hpne; exact absurd hpne (by decide)) hall hsub
        have hrec := insertAt_insP f t
          (.branch (extPushB pre sub).1 (extPushB pre sub).2) path i value t' n'
          hokB hts hins
        rw [hinsPe, if_pos hm0, hrec]
        exact insP_extPushB pre sub (Nibs.offset path i) value (by omega)
          (commonPre_zero_head _ _ (termSfx_ne_nil hts) hprenil hm0)
      · rw [if_neg hm0] at hins
        have hallmem : ∀ x ∈ (Nibs.offset path i).take
            (Nibs.commonPre (Nibs.offset path i) pre), x < 16 := by
          intro x hx
          rw [commonPre_take (Nibs.offset path i) pre] at hx
          have := List.all_eq_true.mp hall x (List.mem_of_mem_take hx)
          simpa using this
        have hmp : Nibs.commonPre (Nibs.offset path i) pre <
            (Nibs.offset path i).length := termSfx_take_lt_len hts hallmem
        have htsc : termSfx (Nibs.offset path
            (i + Nibs.commonPre (Nibs.offset path i) pre)) = true := by
          rw [offset_add path i (Nibs.commonPre (Nibs.offset path i) pre)]
          exact termSfx_drop_all hts hmp
        by_cases hmf : Nibs.commonPre (Nibs.offset path i) pre = pre.length
        · rw [if_pos hmf] at hins
          rcases hrec : insertAt f t sub path
              (i + Nibs.commonPre (Nibs.offset path i) pre) value
              with _ | ⟨t1, e | nn⟩
          · rw [hrec] at hins
            exact Option.noConfusion hins
          · rw [hrec] at hins
            simp at hins
          · rw [hrec] at hins
            simp only [Option.some.injEq, Prod.mk.injEq, Except.ok.injEq] at hins
            obtain ⟨htq, hnq⟩ := hins
            have hnneq := insertAt_insP f t sub path
              (i + Nibs.commonPre (Nibs.offset path i) pre) value t1 nn hsub htsc hrec
            rw [offset_add path i (Nibs.commonPre (Nibs.offset path i) pre), hmf]
              at hnneq
            rw [hinsPe, if_neg hm0, if_pos hmf, ← hnneq]
            exact hnq.symm
        · rw [if_neg hmf] at hins
          have hmlt : Nibs.commonPre (Nibs.offset path i) pre < pre.length :=
            Nat.lt_of_le_of_ne (commonPre_le_right _ _) hmf
          have hokrec : okN (Node.fromExt
              (Nibs.offset pre (Nibs.commonPre (Nibs.offset path i) pre)) sub)
              = true := by
            rw [show okN (Node.fromExt
                (Nibs.offset pre (Nibs.commonPre (Nibs.offset path i) pre)) sub) =
              (!(Nibs.offset pre (Nibs.commonPre (Nibs.offset path i) pre)).isEmpty &&
                (Nibs.offset pre (Nibs.commonPre (Nibs.offset path i) pre)).all
                  (fun x => x < 16) && okN sub) from rfl,
              Bool.and_eq_true, Bool.and_eq_true]
            refine ⟨⟨?_, ?_⟩, hsub⟩
            · exact drop_not_isEmpty hmlt
            · rw [List.all_eq_true]
              intro x hx
              exact List.all_eq_true.mp hall x (List.mem_of_mem_drop hx)
          rcases hrec : insertAt f t (Node.fromExt
              (Nibs.offset pre (Nibs.commonPre (Nibs.offset path i) pre)) sub) path
              (i + Nibs.commonPre (Nibs.offset path i) pre) value
              with _ | ⟨t1, e | nn⟩
          · rw [hrec] at hins
            exact Option.noConfusion hins
          · rw [hrec] at hins
            simp at hins
          · rw [hrec] at hins
            simp only [Option.some.injEq, Prod.mk.injEq, Except.ok.injEq] at hins
            obtain ⟨htq, hnq⟩ := hins
            have hnneq := insertAt_insP f t (Node.fromExt
                (Nibs.offset pre (Nibs.commonPre (Nibs.offset path i) pre)) sub) path
              (i + Nibs.commonPre (Nibs.offset path i) pre) value t1 nn hokrec htsc hrec
            rw [offset_add path i (Nibs.commonPre (Nibs.offset path i) pre)] at hnneq
            have hz : Nibs.commonPre
                ((Nibs.offset path i).drop (Nibs.commonPre (Nibs.offset path i) pre))
                (Nibs.offset pre (Nibs.commonPre (Nibs.offset path i) pre)) = 0 := by
              refine head_ne_commonPre_zero _ _ ?_
              show Nibs.nth
                ((Nibs.offset path i).drop (Nibs.commonPre (Nibs.offset path i) pre)) 0
                ≠ Nibs.nth (pre.drop (Nibs.commonPre (Nibs.offset path i) pre)) 0
              simp only [nth_drop, Nat.add_zero]
              exact commonPre_stop (Nibs.offset path i) pre hmp hmlt
            rw [show insP (Node.fromExt
                (Nibs.offset pre (Nibs.commonPre (Nibs.offset path i) pre)) sub)
                ((Nibs.offset path i).drop (Nibs.commonPre (Nibs.offset path i) pre))
                value =
              (if Nibs.commonPre
                  ((Nibs.offset path i).drop
                    (Nibs.commonPre (Nibs.offset path i) pre))
                  (Nibs.offset pre (Nibs.commonPre (Nibs.offset path i) pre)) = 0 then
                extIns (Nibs.offset pre (Nibs.commonPre (Nibs.offset path i) pre)) sub
                  ((Nibs.offset path i).drop
                    (Nibs.commonPre (Nibs.offset path i) pre)) value
              else if Nibs.commonPre
                  ((Nibs.offset path i).drop
                    (Nibs.commonPre (Nibs.offset path i) pre))
                  (Nibs.offset pre (Nibs.commonPre (Nibs.offset path i) pre)) =
                  (Nibs.offset pre (Nibs.commonPre (Nibs.offset path i) pre)).length
                then
                Node.fromExt (Nibs.offset pre (Nibs.commonPre (Nibs.offset path i) pre))
                  (insP sub (((Nibs.offset path i).drop
                    (Nibs.commonPre (Nibs.offset path i) pre)).drop
                      (Nibs.offset pre
                        (Nibs.commonPre (Nibs.offset path i) pre)).length) value)
              else
                .ext (Nibs.slice
                    (Nibs.offset pre (Nibs.commonPre (Nibs.offset path i) pre)) 0
                    (Nibs.commonPre
                      ((Nibs.offset path i).drop
                        (Nibs.commonPre (Nibs.offset path i) pre))
                      (Nibs.offset pre (Nibs.commonPre (Nibs.offset path i) pre))))
                  (extIns (Nibs.offset
                      (Nibs.offset pre (Nibs.commonPre (Nibs.offset path i) pre))
                      (Nibs.commonPre
                        ((Nibs.offset path i).drop
                          (Nibs.commonPre (Nibs.offset path i) pre))
                        (Nibs.offset pre (Nibs.commonPre (Nibs.offset path i) pre))))
                    sub
                    (((Nibs.offset path i).drop
                      (Nibs.commonPre (Nibs.offset path i) pre)).drop
                      (Nibs.commonPre
                        ((Nibs.offset path i).drop
                          (Nibs.commonPre (Nibs.offset path i) pre))
                        (Nibs.offset pre
                          (Nibs.commonPre (Nibs.offset path i) pre)))) value))
              from rfl, if_pos hz] at hnneq
            rw [hinsPe, if_neg hm0, if_neg hmf, ← hnneq]
            exact hnq.symm

/-! ## The pure lookup -/

mutual

/-- The pure lookup of a fully materialized tree (the success values of the
get walk, without the store). -/
def lookP : Node → Nibs → Option Bytes
  | .empty, _ => none
  | .hash _, _ => none
  | .leaf k v', q => if k = q then some v' else none
  | .branch ch vv, q =>
    if Nibs.nth q 0 = 16 then vv else lookL ch (Nibs.nth q 0) (q.drop 1)
  | .ext pre c, q =>
    if Nibs.commonPre q pre = pre.length then lookP c (q.drop pre.length) else none

/-- Lookup through one slot of a children array. -/
def lookL : NodeList → Nat → Nibs → Option Bytes
  | .nil, _, _ => none
  | .cons hd tl, 0, q => lookP hd q
  | .cons hd tl, s + 1, q => lookL tl s q

end

theorem lookL_get : ∀ (ch : NodeList) (s : Nat) (q : Nibs),
    lookL ch s q = lookP (ch.get s) q
  | .nil, s, q => by cases s <;> rfl
  | .cons hd tl, 0, q => rfl
  | .cons hd tl, s + 1, q => lookL_get tl s q

theorem drop_m_cons {p : Nibs} {m : Nat} (hm : m < p.length) :
    p.drop m = Nibs.nth p m :: p.drop (m + 1) := by
  have hne : p.drop m ≠ [] := by
    intro hc
    have := List.drop_eq_nil_iff.mp hc
    omega
  conv_lhs => rw [cons_head_tail hne]
  rw [nth_drop, Nat.add_zero, List.drop_drop]

/-- Lookup in the two-leaf split branch: exactly the two keys answer. -/
theorem lookP_splitB (lk : Nibs) (lv : Bytes) (part : Nibs) (value : Bytes)
    (hlk : termSfx lk = true) (hts : termSfx part = true)
    (hm : Nibs.commonPre part lk ≠ lk.length) :
    ∀ r, termSfx r →
      lookP (.branch (leafSplitB lk lv part value).1
        (leafSplitB lk lv part value).2) r =
      (if r = part.drop (Nibs.commonPre part lk) then some value
       else if r = lk.drop (Nibs.commonPre part lk) then some lv else none) := by
  intro r htr
  have hml : Nibs.commonPre part lk < lk.length :=
    Nat.lt_of_le_of_ne (commonPre_le_right part lk) hm
  have hfl : ∀ x ∈ part.take (Nibs.commonPre part lk), x < 16 := by
    rw [commonPre_take part lk]
    exact termSfx_first_lt hlk hml
  have hmp : Nibs.commonPre part lk < part.length := termSfx_take_lt_len hts hfl
  have hsne : Nibs.nth part (Nibs.commonPre part lk) ≠
      Nibs.nth lk (Nibs.commonPre part lk) := commonPre_stop part lk hmp hml
  have hpd : part.drop (Nibs.commonPre part lk) =
      Nibs.nth part (Nibs.commonPre part lk) ::
        part.drop (Nibs.commonPre part lk + 1) := drop_m_cons hmp
  have hld : lk.drop (Nibs.commonPre part lk) =
      Nibs.nth lk (Nibs.commonPre part lk) ::
        lk.drop (Nibs.commonPre part lk + 1) := drop_m_cons hml
  have htpd : termSfx (part.drop (Nibs.commonPre part lk)) = true :=
    termSfx_drop_all hts hmp
  have htld : termSfx (lk.drop (Nibs.commonPre part lk)) = true :=
    termSfx_drop_all hlk hml
  by_cases hsp : Nibs.nth part (Nibs.commonPre part lk) = 16
  · -- the inserted key ends here: value slot
    have hs2 : Nibs.nth lk (Nibs.commonPre part lk) ≠ 16 := by
      intro hc
      exact hsne (by rw [hsp, hc])
    have hs2lt : Nibs.nth lk (Nibs.commonPre part lk) < 16 :=
      termSfx_nth_lt hlk hml hs2
    have hpd16 : part.drop (Nibs.commonPre part lk) = [16] := by
      refine (termSfx_singleton_iff htpd).mp ?_
      rw [nth_drop, Nat.add_zero]
      exact hsp
    have hB2 : leafSplitB lk lv part value = ((splitB1 lk lv part).1, some value) := by
      rw [leafSplitB, hsp]
      rfl
    have hB1 : (splitB1 lk lv part).1 = emptyChildren.set
        (Nibs.nth lk (Nibs.commonPre part lk))
        (Node.fromLeaf (Nibs.offset lk (Nibs.commonPre part lk + 1)) lv) := by
      rw [splitB1, branchInsert_fst, if_neg hs2]
    rw [hB2]
    have hstep : lookP (.branch (splitB1 lk lv part).1 (some value)) r =
        (if Nibs.nth r 0 = 16 then some value
         else lookL (splitB1 lk lv part).1 (Nibs.nth r 0) (r.drop 1)) := rfl
    rw [hstep]
    by_cases hr0 : Nibs.nth r 0 = 16
    · rw [if_pos hr0, (termSfx_singleton_iff htr).mp hr0, ← hpd16, if_pos rfl]
    · rw [if_neg hr0, lookL_get, hB1]
      have hrne_pd : r ≠ part.drop (Nibs.commonPre part lk) := by
        rw [hpd16]
        intro hc
        rw [hc] at hr0
        exact hr0 rfl
      rw [if_neg hrne_pd]
      by_cases hr2 : Nibs.nth r 0 = Nibs.nth lk (Nibs.commonPre part lk)
      · rw [hr2, get_set_self _ _ _ (by rw [emptyChildren_length]; exact hs2lt)]
        have hstep2 : lookP (Node.fromLeaf
            (Nibs.offset lk (Nibs.commonPre part lk + 1)) lv) (r.drop 1) =
          (if Nibs.offset lk (Nibs.commonPre part lk + 1) = r.drop 1 then some lv
           else none) := rfl
        rw [hstep2]
        by_cases hreq : r = lk.drop (Nibs.commonPre part lk)
        · rw [if_pos (by rw [hreq, List.drop_drop]; rfl), if_pos hreq]
        · rw [if_neg ?_, if_neg hreq]
          intro hc
          refine hreq ?_
          rw [cons_head_tail (termSfx_ne_nil htr), hr2, hld, ← hc]
          rfl
      · rw [get_set_ne _ _ _ _ (fun hc => hr2 hc.symm), emptyChildren_get]
        rw [show lookP Node.empty (r.drop 1) = none from rfl]
        rw [if_neg ?_]
        intro hc
        rw [hc, hld] at hr2
        exact hr2 rfl
  · -- the inserted key goes to a child slot
    have hs1lt : Nibs.nth part (Nibs.commonPre part lk) < 16 :=
      termSfx_nth_lt hts hmp hsp
    have hB2 : leafSplitB lk lv part value =
        ((splitB1 lk lv part).1.set (Nibs.nth part (Nibs.commonPre part lk))
          (Node.fromLeaf (Nibs.offset part (Nibs.commonPre part lk + 1)) value),
         (splitB1 lk lv part).2) := by
      rw [leafSplitB]
      exact branchInsert_ne16 _ _ _ _ hsp
    rw [hB2]
    by_cases hsl : Nibs.nth lk (Nibs.commonPre part lk) = 16
    · -- the displaced leaf went to the value slot
      have hld16 : lk.drop (Nibs.commonPre part lk) = [16] := by
        refine (termSfx_singleton_iff htld).mp ?_
        rw [nth_drop, Nat.add_zero]
        exact hsl
      have hB1 : splitB1 lk lv part = (emptyChildren, some lv) := by
        rw [splitB1, hsl]
        rfl
      rw [hB1]
      dsimp only
      have hstep : lookP (.branch (emptyChildren.set
          (Nibs.nth part (Nibs.commonPre part lk))
          (Node.fromLeaf (Nibs.offset part (Nibs.commonPre part lk + 1)) value))
          (some lv)) r =
        (if Nibs.nth r 0 = 16 then some lv
         else lookL (emptyChildren.set (Nibs.nth part (Nibs.commonPre part lk))
           (Node.fromLeaf (Nibs.offset part (Nibs.commonPre part lk + 1)) value))
           (Nibs.nth r 0) (r.drop 1)) := rfl
      rw [hstep]
      by_cases hr0 : Nibs.nth r 0 = 16
      · have hr16 : r = [16] := (termSfx_singleton_iff htr).mp hr0
        rw [if_pos hr0, if_neg ?_, if_pos (by rw [hr16, hld16])]
        rw [hr16, hpd]
        intro hc
        simp only [List.cons.injEq] at hc
        exact hsp hc.1.symm
      · rw [if_neg hr0, lookL_get]
        by_cases hr1 : Nibs.nth r 0 = Nibs.nth part (Nibs.commonPre part lk)
        · rw [hr1, get_set_self _ _ _ (by rw [emptyChildren_length]; exact hs1lt)]
          have hstep2 : lookP (Node.fromLeaf
              (Nibs.offset part (Nibs.commonPre part lk + 1)) value) (r.drop 1) =
            (if Nibs.offset part (Nibs.commonPre part lk + 1) = r.drop 1 then
              some value else none) := rfl
          rw [hstep2]
          by_cases hreq : r = part.drop (Nibs.commonPre part lk)
          · rw [if_pos (by rw [hreq, List.drop_drop]; rfl),
              if_pos hreq]
          · rw [if_neg ?_, if_neg hreq,
              if_neg (by rw [hld16]; intro hc; rw [hc] at hr0; exact hr0 rfl)]
            intro hc
            refine hreq ?_
            rw [cons_head_tail (termSfx_ne_nil htr), hr1, hpd, ← hc]
            rfl
        · rw [get_set_ne _ _ _ _ (fun hc => hr1 hc.symm), emptyChildren_get,
            show lookP Node.empty (r.drop 1) = none from rfl,
            if_neg (by intro hc; rw [hc, hpd] at hr1; exact hr1 rfl),
            if_neg (by rw [hld16]; intro hc; rw [hc] at hr0; exact hr0 rfl)]
    · -- two child slots
      have hs2lt : Nibs.nth lk (Nibs.commonPre part lk) < 16 :=
        termSfx_nth_lt hlk hml hsl
      have hB1 : (splitB1 lk lv part).1 = emptyChildren.set
          (Nibs.nth lk (Nibs.commonPre part lk))
          (Node.fromLeaf (Nibs.offset lk (Nibs.commonPre part lk + 1)) lv) := by
        rw [splitB1, branchInsert_fst, if_neg hsl]
      have hB1v : (splitB1 lk lv part).2 = none := by
        rw [splitB1, branchInsert_ne16 _ _ _ _ hsl]
      rw [hB1, hB1v]
      have hstep : lookP (.branch ((emptyChildren.set
          (Nibs.nth lk (Nibs.commonPre part lk))
          (Node.fromLeaf (Nibs.offset lk (Nibs.commonPre part lk + 1)) lv)).set
          (Nibs.nth part (Nibs.commonPre part lk))
          (Node.fromLeaf (Nibs.offset part (Nibs.commonPre part lk + 1)) value))
          none) r =
        (if Nibs.nth r 0 = 16 then none
         else lookL ((emptyChildren.set (Nibs.nth lk (Nibs.commonPre part lk))
           (Node.fromLeaf (Nibs.offset lk (Nibs.commonPre part lk + 1)) lv)).set
           (Nibs.nth part (Nibs.commonPre part lk))
           (Node.fromLeaf (Nibs.offset part (Nibs.commonPre part lk + 1)) value))
           (Nibs.nth r 0) (r.drop 1)) := rfl
      rw [hstep]
      by_cases hr0 : Nibs.nth r 0 = 16
      · rw [if_pos hr0,
          if_neg (by intro hc; rw [hc, hpd] at hr0; exact hsp hr0),
          if_neg (by intro hc; rw [hc, hld] at hr0; exact hsl hr0)]
      · rw [if_neg hr0, lookL_get]
        by_cases hr1 : Nibs.nth r 0 = Nibs.nth part (Nibs.commonPre part lk)
        · rw [hr1, get_set_self _ _ _
            (by rw [set_length, emptyChildren_length]; exact hs1lt)]
          have hstep2 : lookP (Node.fromLeaf
              (Nibs.offset part (Nibs.commonPre part lk + 1)) value) (r.drop 1) =
            (if Nibs.offset part (Nibs.commonPre part lk + 1) = r.drop 1 then
              some value else none) := rfl
          rw [hstep2]
          by_cases hreq : r = part.drop (Nibs.commonPre part lk)
          · rw [if_pos (by rw [hreq, List.drop_drop]; rfl),
              if_pos hreq]
          · rw [if_neg ?_, if_neg hreq, if_neg ?_]
            · intro hc
              rw [hc, hld] at hr1
              exact hsne (hr1.symm)
            · intro hc
              refine hreq ?_
              rw [cons_head_tail (termSfx_ne_nil htr), hr1, hpd, ← hc]
              rfl
        · rw [get_set_ne _ _ _ _ (fun hc => hr1 hc.symm)]
          have hrne_pd : r ≠ part.drop (Nibs.commonPre part lk) := by
            intro hc
            rw [hc, hpd] at hr1
            exact hr1 rfl
          by_cases hr2 : Nibs.nth r 0 = Nibs.nth lk (Nibs.commonPre part lk)
          · rw [hr2, get_set_self _ _ _ (by rw [emptyChildren_length]; exact hs2lt)]
            have hstep2 : lookP (Node.fromLeaf
                (Nibs.offset lk (Nibs.commonPre part lk + 1)) lv) (r.drop 1) =
              (if Nibs.offset lk (Nibs.commonPre part lk + 1) = r.drop 1 then
                some lv else none) := rfl
            rw [hstep2]
            by_cases hreq : r = lk.drop (Nibs.commonPre part lk)
            · rw [if_pos (by rw [hreq, List.drop_drop]; rfl),
                if_neg hrne_pd, if_pos hreq]
            · rw [if_neg ?_, if_neg hrne_pd, if_neg hreq]
              intro hc
              refine hreq ?_
              rw [cons_head_tail (termSfx_ne_nil htr), hr2, hld, ← hc]
              rfl
          · rw [get_set_ne _ _ _ _ (fun hc => hr2 hc.symm), emptyChildren_get,
              show lookP Node.empty (r.drop 1) = none from rfl,
              if_neg hrne_pd,
              if_neg (by intro hc; rw [hc, hld] at hr2; exact hr2 rfl)]

theorem eq_iff_drop_eq {q p : Nibs} {m : Nat} (hq : q.take m = p.take m) :
    q = p ↔ q.drop m = p.drop m := by
  constructor
  · intro h
    rw [h]
  · intro hd
    rw [← List.take_append_drop m q, ← List.take_append_drop m p, hq, hd]

theorem commonPre_decompose : ∀ (m : Nat) (q pre : Nibs), q.take m = pre.take m →
    m ≤ q.length → m ≤ pre.length →
    Nibs.commonPre q pre = m + Nibs.commonPre (q.drop m) (pre.drop m)
  | 0, q, pre => by
    intro _ _ _
    rw [List.drop_zero, List.drop_zero, Nat.zero_add]
  | m + 1, [], pre => by
    intro _ hq _
    simp at hq
  | m + 1, _ :: _, [] => by
    intro _ _ hpre
    simp at hpre
  | m + 1, a :: q', b :: pre' => by
    intro htake hq hpre
    simp only [List.take_succ_cons, List.cons.injEq] at htake
    rw [show Nibs.commonPre (a :: q') (b :: pre') =
      (if a = b then Nibs.commonPre q' pre' + 1 else 0) from rfl, if_pos htake.1,
      List.drop_succ_cons, List.drop_succ_cons,
      commonPre_decompose m q' pre' htake.2 (by simpa using hq) (by simpa using hpre)]
    omega

/-- The slot an extension is rotated into serves the extension's own
lookups, one nibble in. -/
theorem lookP_extSlot (pre : Nibs) (c : Node) (hpne : pre ≠ []) :
    ∀ r', lookP (if pre.length = 1 then c else Node.fromExt (Nibs.offset pre 1) c)
      (r') = lookP (.ext pre c) (Nibs.nth pre 0 :: r') := by
  intro r'
  match pre, hpne with
  | b :: pre', _ =>
    have hcp : Nibs.commonPre (Nibs.nth (b :: pre') 0 :: r') (b :: pre') =
        Nibs.commonPre r' pre' + 1 := by
      rw [show Nibs.nth (b :: pre') 0 = b from rfl,
        show Nibs.commonPre (b :: r') (b :: pre') =
          (if b = b then Nibs.commonPre r' pre' + 1 else 0) from rfl, if_pos rfl]
    have hstepR : lookP (.ext (b :: pre') c) (Nibs.nth (b :: pre') 0 :: r') =
        (if Nibs.commonPre (Nibs.nth (b :: pre') 0 :: r') (b :: pre') =
            (b :: pre').length then
          lookP c ((Nibs.nth (b :: pre') 0 :: r').drop (b :: pre').length)
        else none) := rfl
    rw [hstepR, hcp]
    cases pre' with
    | nil =>
      have h0 : Nibs.commonPre r' ([] : Nibs) = 0 := by cases r' <;> rfl
      rw [h0, if_pos (c := 0 + 1 = List.length [(b : Nat)]) (by simp),
        if_pos (c := List.length [(b : Nat)] = 1) (by simp)]
      rfl
    | cons b2 pre2 =>
      rw [if_neg (by simp)]
      have hstepL : lookP (Node.fromExt (Nibs.offset (b :: b2 :: pre2) 1) c) r' =
          (if Nibs.commonPre r' (b2 :: pre2) = (b2 :: pre2).length then
            lookP c (r'.drop (b2 :: pre2).length)
          else none) := rfl
      rw [hstepL]
      by_cases hfull : Nibs.commonPre r' (b2 :: pre2) = (b2 :: pre2).length
      · rw [if_pos hfull, if_pos (by rw [hfull]; simp)]
        rfl
      · rw [if_neg hfull, if_neg (by
          intro hc
          refine hfull ?_
          simp only [List.length_cons] at hc ⊢
          omega)]

/-- Lookup through the branch an extension is split into at offset zero:
exactly the inserted key is added. -/
theorem lookP_extIns (pre : Nibs) (c : Node) (p : Nibs) (value : Bytes)
    (hpne : pre ≠ []) (hall : pre.all (fun x => x < 16) = true)
    (hm0 : Nibs.commonPre p pre = 0) (htp : termSfx p = true) :
    ∀ r, termSfx r → lookP (extIns pre c p value) r =
      (if r = p then some value else lookP (.ext pre c) r) := by
  intro r htr
  have hpre0 : Nibs.nth pre 0 < 16 := by
    match pre, hpne with
    | a :: as, _ =>
      have := List.all_eq_true.mp hall a (List.mem_cons_self a as)
      simpa using this
  have hp0ne : Nibs.nth p 0 ≠ Nibs.nth pre 0 :=
    commonPre_zero_head p pre (termSfx_ne_nil htp) hpne hm0
  have hEP : extPushB pre c = (emptyChildren.set (Nibs.nth pre 0)
      (if pre.length = 1 then c else Node.fromExt (Nibs.offset pre 1) c),
      none) := by
    rw [extPushB]
    exact branchInsert_ne16 _ _ _ _ (by omega)
  have hextnone : ∀ r2, Nibs.nth r2 0 ≠ Nibs.nth pre 0 →
      lookP (.ext pre c) r2 = none := by
    intro r2 hne2
    have hz : Nibs.commonPre r2 pre = 0 := head_ne_commonPre_zero _ _ hne2
    rw [show lookP (.ext pre c) r2 =
      (if Nibs.commonPre r2 pre = pre.length then lookP c (r2.drop pre.length)
       else none) from rfl, if_neg (by
        rw [hz]
        intro hc
        have : pre = [] := List.length_eq_zero.mp hc.symm
        exact hpne this)]
  by_cases hp16 : Nibs.nth p 0 = 16
  · -- the inserted key is the terminator: value slot
    have hp : p = [16] := (termSfx_singleton_iff htp).mp hp16
    rw [extIns, if_pos hp16, hEP]
    have hstep : lookP (.branch (emptyChildren.set (Nibs.nth pre 0)
        (if pre.length = 1 then c else Node.fromExt (Nibs.offset pre 1) c))
        (some value)) r =
      (if Nibs.nth r 0 = 16 then some value
       else lookL (emptyChildren.set (Nibs.nth pre 0)
         (if pre.length = 1 then c else Node.fromExt (Nibs.offset pre 1) c))
         (Nibs.nth r 0) (r.drop 1)) := rfl
    rw [hstep]
    by_cases hr0 : Nibs.nth r 0 = 16
    · rw [if_pos hr0, if_pos (by rw [(termSfx_singleton_iff htr).mp hr0, hp])]
    · rw [if_neg hr0, lookL_get,
        if_neg (c := r = p) (by intro hc; rw [hc, hp] at hr0; exact hr0 rfl)]
      by_cases hrpre : Nibs.nth r 0 = Nibs.nth pre 0
      · rw [hrpre, get_set_self _ _ _ (by rw [emptyChildren_length]; exact hpre0),
          lookP_extSlot pre c hpne (r.drop 1), ← hrpre, ← cons_head_tail
            (termSfx_ne_nil htr)]
      · rw [get_set_ne _ _ _ _ (fun hc => hrpre hc.symm), emptyChildren_get,
          show lookP Node.empty (r.drop 1) = none from rfl,
          (hextnone r hrpre).symm]
  · -- the inserted key gets its own slot
    have hp0lt : Nibs.nth p 0 < 16 :=
      termSfx_nth_lt htp (List.length_pos.mpr (termSfx_ne_nil htp)) hp16
    rw [extIns, if_neg hp16, hEP]
    dsimp only
    have hstep : lookP (.branch ((emptyChildren.set (Nibs.nth pre 0)
        (if pre.length = 1 then c else Node.fromExt (Nibs.offset pre 1) c)).set
        (Nibs.nth p 0) (Node.fromLeaf (p.drop 1) value)) none) r =
      (if Nibs.nth r 0 = 16 then none
       else lookL ((emptyChildren.set (Nibs.nth pre 0)
         (if pre.length = 1 then c else Node.fromExt (Nibs.offset pre 1) c)).set
         (Nibs.nth p 0) (Node.fromLeaf (p.drop 1) value))
         (Nibs.nth r 0) (r.drop 1)) := rfl
    rw [hstep]
    by_cases hr0 : Nibs.nth r 0 = 16
    · have hr : r = [16] := (termSfx_singleton_iff htr).mp hr0
      rw [if_pos hr0, if_neg (by rw [hr]; intro hc; rw [← hc] at hp16; exact hp16 rfl),
        (hextnone r (by rw [hr0]; omega)).symm]
    · rw [if_neg hr0, lookL_get]
      by_cases hrp : Nibs.nth r 0 = Nibs.nth p 0
      · rw [hrp, get_set_self _ _ _
          (by rw [set_length, emptyChildren_length]; exact hp0lt)]
        have hstep2 : lookP (Node.fromLeaf (p.drop 1) value) (r.drop 1) =
            (if p.drop 1 = r.drop 1 then some value else none) := rfl
        rw [hstep2]
        by_cases hreq : r = p
        · rw [if_pos (by rw [hreq]), if_pos hreq]
        · rw [if_neg ?_, if_neg hreq, (hextnone r (by rw [hrp]; exact hp0ne)).symm]
          intro hc
          refine hreq ?_
          rw [cons_head_tail (termSfx_ne_nil htr), hrp, ← hc,
            ← cons_head_tail (termSfx_ne_nil htp)]
      · rw [get_set_ne _ _ _ _ (fun hc => hrp hc.symm),
          if_neg (c := r = p) (by intro hc; rw [hc] at hrp; exact hrp rfl)]
        by_cases hrpre : Nibs.nth r 0 = Nibs.nth pre 0
        · rw [hrpre, get_set_self _ _ _ (by rw [emptyChildren_length]; exact hpre0),
            lookP_extSlot pre c hpne (r.drop 1), ← hrpre,
            ← cons_head_tail (termSfx_ne_nil htr)]
        · rw [get_set_ne _ _ _ _ (fun hc => hrpre hc.symm), emptyChildren_get,
            show lookP Node.empty (r.drop 1) = none from rfl,
            (hextnone r hrpre).symm]

mutual

/-- Structural size of a node, for bounded induction. -/
def nodeSize : Node → Nat
  | .empty => 1
  | .hash _ => 1
  | .leaf _ _ => 1
  | .branch ch _ => listSize ch + 1
  | .ext _ c => nodeSize c + 1

def listSize : NodeList → Nat
  | .nil => 1
  | .cons hd tl => nodeSize hd + listSize tl

end

theorem nodeSize_pos : ∀ n : Node, 1 ≤ nodeSize n
  | .empty => le_refl _
  | .hash _ => le_refl _
  | .leaf _ _ => le_refl _
  | .branch ch v => by
    rw [show nodeSize (Node.branch ch v) = listSize ch + 1 from rfl]
    omega
  | .ext pre c => by
    rw [show nodeSize (Node.ext pre c) = nodeSize c + 1 from rfl]
    omega

theorem listSize_pos : ∀ ch : NodeList, 1 ≤ listSize ch
  | .nil => le_refl _
  | .cons hd tl => by
    rw [show listSize (.cons hd tl) = nodeSize hd + listSize tl from rfl]
    have := listSize_pos tl
    omega

theorem get_nodeSize_le : ∀ (ch : NodeList) (s : Nat),
    nodeSize (NodeList.get ch s) ≤ listSize ch
  | .nil, s => by
    rw [show NodeList.get .nil s = Node.empty from rfl]
    exact le_refl _
  | .cons hd tl, 0 => by
    rw [show NodeList.get (.cons hd tl) 0 = hd from rfl,
      show listSize (.cons hd tl) = nodeSize hd + listSize tl from rfl]
    have := listSize_pos tl
    omega
  | .cons hd tl, s + 1 => by
    rw [show NodeList.get (.cons hd tl) (s + 1) = NodeList.get tl s from rfl,
      show listSize (.cons hd tl) = nodeSize hd + listSize tl from rfl]
    have h1 := get_nodeSize_le tl s
    have h2 := nodeSize_pos hd
    omega

/-- Lookup after a pure structural insert: the inserted key answers with the
new value and every other terminated key is unchanged. -/
theorem lookP_insP_sz : ∀ (sz : Nat) (n : Node) (p : Nibs) (value : Bytes),
    nodeSize n ≤ sz → okN n = true → termSfx p = true →
    ∀ q, termSfx q = true →
      lookP (insP n p value) q = (if q = p then some value else lookP n q)
  | 0, n, p, value => by
    intro hsz _ _
    have := nodeSize_pos n
    omega
  | sz + 1, n, p, value => by
    intro hsz hok htp q htq
    cases n with
    | empty =>
      have hstep : insP Node.empty p value = Node.fromLeaf p value := rfl
      have hstepL : lookP (Node.fromLeaf p value) q =
          (if p = q then some value else none) := rfl
      rw [hstep, hstepL]
      by_cases hq : q = p
      · rw [if_pos hq.symm, if_pos hq]
      · rw [if_neg (fun hc => hq hc.symm), if_neg hq]
        rfl
    | hash hh => exact Bool.noConfusion hok
    | leaf lk lv =>
      have hlk : termSfx lk = true := hok
      have hstep : insP (Node.leaf lk lv) p value =
          (if Nibs.commonPre p lk = lk.length then Node.fromLeaf lk value
           else if Nibs.commonPre p lk = 0 then
             .branch (leafSplitB lk lv p value).1 (leafSplitB lk lv p value).2
           else
             Node.fromExt (Nibs.slice p 0 (Nibs.commonPre p lk))
               (.branch (leafSplitB lk lv p value).1
                 (leafSplitB lk lv p value).2)) := rfl
      have hL2 : lookP (Node.leaf lk lv) q = (if lk = q then some lv else none) := rfl
      by_cases hfull : Nibs.commonPre p lk = lk.length
      · have hpeq : p = lk := termSfx_prefix_eq htp hlk (commonPre_full p lk hfull)
        rw [hstep, if_pos hfull]
        have hL : lookP (Node.fromLeaf lk value) q =
            (if lk = q then some value else none) := rfl
        rw [hL, hL2]
        by_cases hq : q = lk
        · rw [if_pos hq.symm, if_pos (by rw [hpeq]; exact hq)]
        · rw [if_neg (fun hc => hq hc.symm), if_neg (by rw [hpeq]; exact hq),
            if_neg (fun hc => hq hc.symm)]
      · by_cases hm0 : Nibs.commonPre p lk = 0
        · rw [hstep, if_neg hfull, if_pos hm0,
            lookP_splitB lk lv p value hlk htp hfull q htq, hm0]
          simp only [List.drop_zero]
          by_cases hq : q = p
          · rw [if_pos hq, if_pos hq]
          · rw [if_neg hq, if_neg hq, hL2]
            by_cases hq2 : q = lk
            · rw [if_pos hq2, if_pos hq2.symm]
            · rw [if_neg hq2, if_neg (fun hc => hq2 hc.symm)]
        · have hMlk : Nibs.commonPre p lk < lk.length :=
            Nat.lt_of_le_of_ne (commonPre_le_right p lk) hfull
          have hMp : Nibs.commonPre p lk < p.length := by
            refine termSfx_take_lt_len htp ?_
            intro x hx
            rw [commonPre_take p lk] at hx
            exact termSfx_first_lt hlk hMlk x hx
          rw [hstep, if_neg hfull, if_neg hm0]
          have hsl : Nibs.slice p 0 (Nibs.commonPre p lk) =
              p.take (Nibs.commonPre p lk) := rfl
          rw [hsl]
          have hlen : (p.take (Nibs.commonPre p lk)).length = Nibs.commonPre p lk := by
            rw [List.length_take]
            exact Nat.min_eq_left (commonPre_le_left p lk)
          have hstepE : lookP (Node.fromExt (p.take (Nibs.commonPre p lk))
              (.branch (leafSplitB lk lv p value).1 (leafSplitB lk lv p value).2)) q =
              (if Nibs.commonPre q (p.take (Nibs.commonPre p lk)) =
                  (p.take (Nibs.commonPre p lk)).length then
                lookP (.branch (leafSplitB lk lv p value).1
                  (leafSplitB lk lv p value).2)
                  (q.drop (p.take (Nibs.commonPre p lk)).length)
              else none) := rfl
          rw [hstepE, hlen]
          by_cases hqf : Nibs.commonPre q (p.take (Nibs.commonPre p lk)) =
              Nibs.commonPre p lk
          · have hqtake : q.take (Nibs.commonPre p lk) =
                p.take (Nibs.commonPre p lk) := by
              have := commonPre_full q (p.take (Nibs.commonPre p lk))
                (by rw [hlen]; exact hqf)
              rwa [hlen] at this
            have hMq : Nibs.commonPre p lk < q.length := by
              refine termSfx_take_lt_len htq ?_
              intro x hx
              rw [hqtake, commonPre_take p lk] at hx
              exact termSfx_first_lt hlk hMlk x hx
            have htqd : termSfx (q.drop (Nibs.commonPre p lk)) = true :=
              termSfx_drop_all htq hMq
            rw [if_pos hqf, lookP_splitB lk lv p value hlk htp hfull _ htqd]
            by_cases hq : q = p
            · rw [if_pos (by rw [hq]), if_pos hq]
            · rw [if_neg (fun hc => hq ((eq_iff_drop_eq hqtake).mpr hc)), if_neg hq]
              have hqlk : q.take (Nibs.commonPre p lk) =
                  lk.take (Nibs.commonPre p lk) := by
                rw [hqtake, commonPre_take p lk]
              rw [hL2]
              by_cases hq2 : q = lk
              · rw [if_pos ((eq_iff_drop_eq hqlk).mp hq2), if_pos hq2.symm]
              · rw [if_neg (fun hc => hq2 ((eq_iff_drop_eq hqlk).mpr hc)),
                  if_neg (fun hc => hq2 hc.symm)]
          · rw [if_neg hqf]
            have hq : q ≠ p := by
              intro hc
              rw [hc] at hqf
              exact hqf (commonPre_take_self p _ (Nat.le_of_lt hMp))
            have hlkq : lk ≠ q := by
              intro hc
              refine hqf ?_
              rw [← hc, commonPre_take p lk]
              exact commonPre_take_self lk _ (Nat.le_of_lt hMlk)
            rw [if_neg hq, hL2, if_neg hlkq]
    | branch ch v =>
      rw [show okN (.branch ch v) = (okL ch && (NodeList.length ch == 16)) from rfl,
        Bool.and_eq_true] at hok
      obtain ⟨hokl, hlenB⟩ := hok
      have hlen16 : NodeList.length ch = 16 := by simpa using hlenB
      have hstep : insP (Node.branch ch v) p value =
          (if Nibs.nth p 0 = 16 then Node.branch ch (some value)
           else Node.branch (insL ch (Nibs.nth p 0) (p.drop 1) value) v) := rfl
      have hstepR : lookP (Node.branch ch v) q =
          (if Nibs.nth q 0 = 16 then v
           else lookL ch (Nibs.nth q 0) (q.drop 1)) := rfl
      by_cases hp16 : Nibs.nth p 0 = 16
      · have hp : p = [16] := (termSfx_singleton_iff htp).mp hp16
        rw [hstep, if_pos hp16]
        have hstepL : lookP (Node.branch ch (some value)) q =
            (if Nibs.nth q 0 = 16 then some value
             else lookL ch (Nibs.nth q 0) (q.drop 1)) := rfl
        rw [hstepL, hstepR]
        by_cases hq16 : Nibs.nth q 0 = 16
        · rw [if_pos hq16, if_pos (by rw [(termSfx_singleton_iff htq).mp hq16, hp])]
        · rw [if_neg hq16,
            if_neg (c := q = p) (by intro hc; rw [hc, hp] at hq16; exact hq16 rfl),
            if_neg hq16]
      · have hplen : 0 < p.length := List.length_pos.mpr (termSfx_ne_nil htp)
        have hs16 : Nibs.nth p 0 < 16 := termSfx_nth_lt htp hplen hp16
        have hp1 : 1 < p.length := by
          rcases Nat.lt_or_ge 1 p.length with h | h
          · exact h
          · exfalso
            have h1 : p.length = 1 := by omega
            have hl := termSfx_last htp
            rw [h1] at hl
            exact hp16 hl
        have hpd : termSfx (p.drop 1) = true := termSfx_drop_all htp hp1
        rw [hstep, if_neg hp16, insL_set_get]
        have hstepL : lookP (Node.branch (ch.set (Nibs.nth p 0)
            (insP (ch.get (Nibs.nth p 0)) (p.drop 1) value)) v) q =
            (if Nibs.nth q 0 = 16 then v
             else lookL (ch.set (Nibs.nth p 0)
               (insP (ch.get (Nibs.nth p 0)) (p.drop 1) value))
               (Nibs.nth q 0) (q.drop 1)) := rfl
        rw [hstepL, hstepR]
        by_cases hq16 : Nibs.nth q 0 = 16
        · rw [if_pos hq16,
            if_neg (c := q = p) (by intro hc; rw [hc] at hq16; exact hp16 hq16),
            if_pos hq16]
        · have hqlen : 0 < q.length := List.length_pos.mpr (termSfx_ne_nil htq)
          have hq1 : 1 < q.length := by
            rcases Nat.lt_or_ge 1 q.length with h | h
            · exact h
            · exfalso
              have h1 : q.length = 1 := by omega
              have hl := termSfx_last htq
              rw [h1] at hl
              exact hq16 hl
          have hqd : termSfx (q.drop 1) = true := termSfx_drop_all htq hq1
          rw [if_neg hq16, if_neg hq16, lookL_get, lookL_get]
          have hszb : nodeSize (Node.branch ch v) = listSize ch + 1 := rfl
          by_cases hslot : Nibs.nth q 0 = Nibs.nth p 0
          · rw [hslot, get_set_self _ _ _ (by rw [hlen16]; exact hs16)]
            have hsz' : nodeSize (ch.get (Nibs.nth p 0)) ≤ sz := by
              have := get_nodeSize_le ch (Nibs.nth p 0)
              rw [hszb] at hsz
              omega
            rw [lookP_insP_sz sz (ch.get (Nibs.nth p 0)) (p.drop 1) value hsz'
              (okL_get hokl _) hpd (q.drop 1) hqd]
            by_cases hq : q = p
            · rw [if_pos (by rw [hq]), if_pos hq]
            · have hne : q.drop 1 ≠ p.drop 1 := by
                intro hc
                refine hq ?_
                rw [cons_head_tail (termSfx_ne_nil htq), hslot, hc,
                  ← cons_head_tail (termSfx_ne_nil htp)]
              rw [if_neg hne, if_neg hq]
          · rw [get_set_ne _ _ _ _ (fun hc => hslot hc.symm),
              if_neg (c := q = p) (by intro hc; rw [hc] at hslot; exact hslot rfl)]
    | ext pre c =>
      rw [show okN (Node.ext pre c) =
        (!pre.isEmpty && pre.all (fun x => x < 16) && okN c) from rfl,
        Bool.and_eq_true, Bool.and_eq_true] at hok
      obtain ⟨⟨hpneB, hall⟩, hokc⟩ := hok
      have hpne : pre ≠ [] := by
        intro hc
        rw [hc] at hpneB
        exact Bool.noConfusion hpneB
      have hallP : ∀ x ∈ pre, x < 16 := fun x hx => by
        simpa using List.all_eq_true.mp hall x hx
      have hstep : insP (Node.ext pre c) p value =
          (if Nibs.commonPre p pre = 0 then extIns pre c p value
           else if Nibs.commonPre p pre = pre.length then
             Node.fromExt pre (insP c (p.drop pre.length) value)
           else
             .ext (Nibs.slice pre 0 (Nibs.commonPre p pre))
               (extIns (Nibs.offset pre (Nibs.commonPre p pre)) c
                 (p.drop (Nibs.commonPre p pre)) value)) := rfl
      have hstepR : lookP (Node.ext pre c) q =
          (if Nibs.commonPre q pre = pre.length then
            lookP c (q.drop pre.length) else none) := rfl
      have hszx : nodeSize (Node.ext pre c) = nodeSize c + 1 := rfl
      have hsz' : nodeSize c ≤ sz := by
        rw [hszx] at hsz
        omega
      by_cases hm0 : Nibs.commonPre p pre = 0
      · rw [hstep, if_pos hm0, lookP_extIns pre c p value hpne hall hm0 htp q htq]
      · by_cases hfull : Nibs.commonPre p pre = pre.length
        · have hppre : p.take pre.length = pre := commonPre_full p pre hfull
          rw [hstep, if_neg hm0, if_pos hfull]
          have hstepL : lookP (Node.fromExt pre (insP c (p.drop pre.length) value)) q =
              (if Nibs.commonPre q pre = pre.length then
                lookP (insP c (p.drop pre.length) value) (q.drop pre.length)
              else none) := rfl
          rw [hstepL, hstepR]
          have hLp : pre.length < p.length := by
            refine termSfx_take_lt_len htp ?_
            intro x hx
            rw [hppre] at hx
            exact hallP x hx
          have hpd : termSfx (p.drop pre.length) = true := termSfx_drop_all htp hLp
          by_cases hqf : Nibs.commonPre q pre = pre.length
          · rw [if_pos hqf, if_pos hqf]
            have hqpre : q.take pre.length = pre := commonPre_full q pre hqf
            have hLq : pre.length < q.length := by
              refine termSfx_take_lt_len htq ?_
              intro x hx
              rw [hqpre] at hx
              exact hallP x hx
            have hqd : termSfx (q.drop pre.length) = true := termSfx_drop_all htq hLq
            rw [lookP_insP_sz sz c (p.drop pre.length) value hsz' hokc hpd _ hqd]
            have hqp : q.take pre.length = p.take pre.length := by
              rw [hqpre, hppre]
            by_cases hq : q = p
            · rw [if_pos ((eq_iff_drop_eq hqp).mp hq), if_pos hq]
            · rw [if_neg (fun hc => hq ((eq_iff_drop_eq hqp).mpr hc)), if_neg hq]
          · rw [if_neg hqf,
              if_neg (c := q = p) (by intro hc; rw [hc] at hqf; exact hqf hfull),
              if_neg hqf]
        · have hMpre : Nibs.commonPre p pre < pre.length :=
            Nat.lt_of_le_of_ne (commonPre_le_right p pre) hfull
          have hMp : Nibs.commonPre p pre < p.length := by
            refine termSfx_take_lt_len htp ?_
            intro x hx
            rw [commonPre_take p pre] at hx
            exact hallP x (List.mem_of_mem_take hx)
          rw [hstep, if_neg hm0, if_neg hfull]
          have hsl : Nibs.slice pre 0 (Nibs.commonPre p pre) =
              pre.take (Nibs.commonPre p pre) := rfl
          have hof : Nibs.offset pre (Nibs.commonPre p pre) =
              pre.drop (Nibs.commonPre p pre) := rfl
          rw [hsl, hof]
          have hlenT : (pre.take (Nibs.commonPre p pre)).length =
              Nibs.commonPre p pre := by
            rw [List.length_take]
            exact Nat.min_eq_left (Nat.le_of_lt hMpre)
          have hpne2 : pre.drop (Nibs.commonPre p pre) ≠ [] := by
            intro hc
            have := congrArg List.length hc
            simp only [List.length_drop, List.length_nil] at this
            omega
          have hall2 : (pre.drop (Nibs.commonPre p pre)).all
              (fun x => x < 16) = true :=
            List.all_eq_true.mpr fun x hx =>
              List.all_eq_true.mp hall x (List.mem_of_mem_drop hx)
          have hm0x : Nibs.commonPre (p.drop (Nibs.commonPre p pre))
              (pre.drop (Nibs.commonPre p pre)) = 0 := by
            have hdec := commonPre_decompose (Nibs.commonPre p pre) p pre
              (commonPre_take p pre) (Nat.le_of_lt hMp) (Nat.le_of_lt hMpre)
            omega
          have htpd : termSfx (p.drop (Nibs.commonPre p pre)) = true :=
            termSfx_drop_all htp hMp
          have hstepL : lookP (Node.ext (pre.take (Nibs.commonPre p pre))
              (extIns (pre.drop (Nibs.commonPre p pre)) c
                (p.drop (Nibs.commonPre p pre)) value)) q =
              (if Nibs.commonPre q (pre.take (Nibs.commonPre p pre)) =
                  (pre.take (Nibs.commonPre p pre)).length then
                lookP (extIns (pre.drop (Nibs.commonPre p pre)) c
                  (p.drop (Nibs.commonPre p pre)) value)
                  (q.drop (pre.take (Nibs.commonPre p pre)).length)
              else none) := rfl
          rw [hstepL, hlenT]
          by_cases hqf : Nibs.commonPre q (pre.take (Nibs.commonPre p pre)) =
              Nibs.commonPre p pre
          · have hqtake : q.take (Nibs.commonPre p pre) =
                pre.take (Nibs.commonPre p pre) := by
              have := commonPre_full q (pre.take (Nibs.commonPre p pre))
                (by rw [hlenT]; exact hqf)
              rwa [hlenT] at this
            have hMq : Nibs.commonPre p pre < q.length := by
              refine termSfx_take_lt_len htq ?_
              intro x hx
              rw [hqtake] at hx
              exact hallP x (List.mem_of_mem_take hx)
            have hqd : termSfx (q.drop (Nibs.commonPre p pre)) = true :=
              termSfx_drop_all htq hMq
            rw [if_pos hqf, lookP_extIns (pre.drop (Nibs.commonPre p pre)) c
              (p.drop (Nibs.commonPre p pre)) value hpne2 hall2 hm0x htpd _ hqd]
            have hqp : q.take (Nibs.commonPre p pre) =
                p.take (Nibs.commonPre p pre) := by
              rw [hqtake, commonPre_take p pre]
            by_cases hq : q = p
            · rw [if_pos ((eq_iff_drop_eq hqp).mp hq), if_pos hq]
            · rw [if_neg (fun hc => hq ((eq_iff_drop_eq hqp).mpr hc)), if_neg hq]
              have hstep2 : lookP (Node.ext (pre.drop (Nibs.commonPre p pre)) c)
                  (q.drop (Nibs.commonPre p pre)) =
                  (if Nibs.commonPre (q.drop (Nibs.commonPre p pre))
                      (pre.drop (Nibs.commonPre p pre)) =
                      (pre.drop (Nibs.commonPre p pre)).length then
                    lookP c ((q.drop (Nibs.commonPre p pre)).drop
                      (pre.drop (Nibs.commonPre p pre)).length)
                  else none) := rfl
              have hdec : Nibs.commonPre q pre = Nibs.commonPre p pre +
                  Nibs.commonPre (q.drop (Nibs.commonPre p pre))
                    (pre.drop (Nibs.commonPre p pre)) :=
                commonPre_decompose (Nibs.commonPre p pre) q pre
                  (by rw [hqtake]) (Nat.le_of_lt hMq) (Nat.le_of_lt hMpre)
              rw [hstep2, hstepR, List.length_drop]
              by_cases hin : Nibs.commonPre (q.drop (Nibs.commonPre p pre))
                  (pre.drop (Nibs.commonPre p pre)) =
                  pre.length - Nibs.commonPre p pre
              · have hidx : (q.drop (Nibs.commonPre p pre)).drop
                    (pre.length - Nibs.commonPre p pre) = q.drop pre.length := by
                  rw [List.drop_drop]
                  congr 1
                  omega
                rw [if_pos hin, hidx, if_pos (by omega)]
              · rw [if_neg hin, if_neg (by omega)]
          · rw [if_neg hqf]
            have hq : q ≠ p := by
              intro hc
              refine hqf ?_
              rw [hc, ← commonPre_take p pre]
              exact commonPre_take_self p _ (Nat.le_of_lt hMp)
            have hne2 : Nibs.commonPre q pre ≠ pre.length := by
              intro hc
              refine hqf ?_
              have hqpre : q.take pre.length = pre := commonPre_full q pre hc
              have hMq : Nibs.commonPre p pre ≤ q.length := by
                have := commonPre_le_left q pre
                omega
              have h1 : (q.take pre.length).take (Nibs.commonPre p pre) =
                  q.take (Nibs.commonPre p pre) := by
                rw [List.take_take, Nat.min_eq_left (Nat.le_of_lt hMpre)]
              have htake : pre.take (Nibs.commonPre p pre) =
                  q.take (Nibs.commonPre p pre) := by
                rw [← h1, hqpre]
              rw [htake]
              exact commonPre_take_self q _ hMq
            rw [if_neg hq, hstepR, if_neg hne2]

def isEmptyN : Node → Bool
  | .empty => true
  | _ => false

def isBranch : Node → Bool
  | .branch _ _ => true
  | _ => false

/-- Number of occupied slots of a children array. -/
def usedL : NodeList → Nat
  | .nil => 0
  | .cons hd tl => (if isEmptyN hd then 0 else 1) + usedL tl

mutual

/-- Canonical trie shape: the invariant maintained by structural insertion
into an initially empty trie. Every leaf path is terminated, every branch has
sixteen slots and at least two occupants (children or value), and every
extension is a nonempty plain-nibble run over a branch. -/
def canonN : Node → Bool
  | .empty => false
  | .hash _ => false
  | .leaf k _ => termSfx k
  | .branch ch v =>
    canonL ch && (NodeList.length ch == 16) &&
      decide (2 ≤ usedL ch + (if v.isSome then 1 else 0))
  | .ext pre c =>
    !pre.isEmpty && pre.all (fun x => x < 16) && isBranch c && canonN c

def canonL : NodeList → Bool
  | .nil => true
  | .cons hd tl => (isEmptyN hd || canonN hd) && canonL tl

end

theorem canonN_ne_empty {n : Node} (h : canonN n = true) : isEmptyN n = false := by
  cases n with
  | empty => exact Bool.noConfusion h
  | hash hh => rfl
  | leaf k v => rfl
  | branch ch v => rfl
  | ext pre c => rfl

mutual

theorem canon_okN : ∀ n, canonN n = true → okN n = true
  | .empty => fun h => Bool.noConfusion h
  | .hash _ => fun h => Bool.noConfusion h
  | .leaf k v => fun h => h
  | .branch ch v => by
    intro h
    rw [show canonN (.branch ch v) = (canonL ch && (NodeList.length ch == 16) &&
      decide (2 ≤ usedL ch + (if v.isSome then 1 else 0))) from rfl,
      Bool.and_eq_true, Bool.and_eq_true] at h
    obtain ⟨⟨hcl, hlen⟩, _⟩ := h
    rw [show okN (.branch ch v) = (okL ch && (NodeList.length ch == 16)) from rfl,
      Bool.and_eq_true]
    exact ⟨canonL_okL ch hcl, hlen⟩
  | .ext pre c => by
    intro h
    rw [show canonN (.ext pre c) = (!pre.isEmpty && pre.all (fun x => x < 16) &&
      isBranch c && canonN c) from rfl,
      Bool.and_eq_true, Bool.and_eq_true, Bool.and_eq_true] at h
    obtain ⟨⟨⟨hne, hall⟩, _⟩, hc⟩ := h
    rw [show okN (.ext pre c) = (!pre.isEmpty && pre.all (fun x => x < 16) &&
      okN c) from rfl, Bool.and_eq_true, Bool.and_eq_true]
    exact ⟨⟨hne, hall⟩, canon_okN c hc⟩

theorem canonL_okL : ∀ ch, canonL ch = true → okL ch = true
  | .nil => fun _ => rfl
  | .cons hd tl => by
    intro h
    rw [show canonL (.cons hd tl) = ((isEmptyN hd || canonN hd) && canonL tl) from rfl,
      Bool.and_eq_true, Bool.or_eq_true] at h
    obtain ⟨hhd, htl⟩ := h
    rw [show okL (.cons hd tl) = (okN hd && okL tl) from rfl, Bool.and_eq_true]
    refine ⟨?_, canonL_okL tl htl⟩
    rcases hhd with hhd | hhd
    · cases hd with
      | empty => rfl
      | hash hh => exact Bool.noConfusion hhd
      | leaf k v => exact Bool.noConfusion hhd
      | branch ch2 v2 => exact Bool.noConfusion hhd
      | ext pre2 c2 => exact Bool.noConfusion hhd
    · exact canon_okN hd hhd

end

theorem canonL_get : ∀ ch, canonL ch = true → ∀ s,
    isEmptyN (NodeList.get ch s) = true ∨ canonN (NodeList.get ch s) = true
  | .nil, _, s => by
    rw [show NodeList.get .nil s = Node.empty from rfl]
    exact Or.inl rfl
  | .cons hd tl, h, 0 => by
    rw [show canonL (.cons hd tl) = ((isEmptyN hd || canonN hd) && canonL tl) from rfl,
      Bool.and_eq_true, Bool.or_eq_true] at h
    exact h.1
  | .cons hd tl, h, s + 1 => by
    rw [show canonL (.cons hd tl) = ((isEmptyN hd || canonN hd) && canonL tl) from rfl,
      Bool.and_eq_true] at h
    exact canonL_get tl h.2 s

theorem canonL_set : ∀ ch, canonL ch = true → ∀ s x, canonN x = true →
    canonL (ch.set s x) = true
  | .nil, h, _, _, _ => h
  | .cons hd tl, h, 0, x, hx => by
    rw [show canonL (.cons hd tl) = ((isEmptyN hd || canonN hd) && canonL tl) from rfl,
      Bool.and_eq_true] at h
    rw [show NodeList.set (.cons hd tl) 0 x = .cons x tl from rfl,
      show canonL (.cons x tl) = ((isEmptyN x || canonN x) && canonL tl) from rfl,
      Bool.and_eq_true, Bool.or_eq_true]
    exact ⟨Or.inr hx, h.2⟩
  | .cons hd tl, h, s + 1, x, hx => by
    rw [show canonL (.cons hd tl) = ((isEmptyN hd || canonN hd) && canonL tl) from rfl,
      Bool.and_eq_true] at h
    rw [show NodeList.set (.cons hd tl) (s + 1) x = .cons hd (tl.set s x) from rfl,
      show canonL (.cons hd (tl.set s x)) =
        ((isEmptyN hd || canonN hd) && canonL (tl.set s x)) from rfl,
      Bool.and_eq_true, Bool.or_eq_true]
    refine ⟨?_, canonL_set tl h.2 s x hx⟩
    rw [← Bool.or_eq_true]
    exact h.1

theorem usedL_set_ge : ∀ ch s x, isEmptyN x = false →
    usedL ch ≤ usedL (ch.set s x)
  | .nil, _, _, _ => le_refl _
  | .cons hd tl, 0, x, hx => by
    rw [show NodeList.set (.cons hd tl) 0 x = .cons x tl from rfl,
      show usedL (.cons hd tl) = ((if isEmptyN hd then 0 else 1) + usedL tl) from rfl,
      show usedL (.cons x tl) = ((if isEmptyN x then 0 else 1) + usedL tl) from rfl,
      hx]
    by_cases hh : isEmptyN hd = true
    · rw [hh]
      simp
    · rw [Bool.not_eq_true] at hh
      rw [hh]
  | .cons hd tl, s + 1, x, hx => by
    rw [show NodeList.set (.cons hd tl) (s + 1) x = .cons hd (tl.set s x) from rfl,
      show usedL (.cons hd tl) = ((if isEmptyN hd then 0 else 1) + usedL tl) from rfl,
      show usedL (.cons hd (tl.set s x)) =
        ((if isEmptyN hd then 0 else 1) + usedL (tl.set s x)) from rfl]
    have := usedL_set_ge tl s x hx
    omega

theorem usedL_set_of_empty : ∀ ch s x, s < NodeList.length ch →
    isEmptyN (NodeList.get ch s) = true → isEmptyN x = false →
    usedL (ch.set s x) = usedL ch + 1
  | .nil, s, _, hs, _, _ => by
    rw [show NodeList.length .nil = 0 from rfl] at hs
    omega
  | .cons hd tl, 0, x, _, hget, hx => by
    rw [show NodeList.get (.cons hd tl) 0 = hd from rfl] at hget
    rw [show NodeList.set (.cons hd tl) 0 x = .cons x tl from rfl,
      show usedL (.cons x tl) = ((if isEmptyN x then 0 else 1) + usedL tl) from rfl,
      show usedL (.cons hd tl) = ((if isEmptyN hd then 0 else 1) + usedL tl) from rfl,
      hx, hget, show (if (false : Bool) = true then (0 : Nat) else 1) = 1 from rfl,
      show (if (true : Bool) = true then (0 : Nat) else 1) = 0 from rfl]
    omega
  | .cons hd tl, s + 1, x, hs, hget, hx => by
    rw [show NodeList.length (.cons hd tl) = NodeList.length tl + 1 from rfl] at hs
    rw [show NodeList.get (.cons hd tl) (s + 1) = NodeList.get tl s from rfl] at hget
    rw [show NodeList.set (.cons hd tl) (s + 1) x = .cons hd (tl.set s x) from rfl,
      show usedL (.cons hd (tl.set s x)) =
        ((if isEmptyN hd then 0 else 1) + usedL (tl.set s x)) from rfl,
      show usedL (.cons hd tl) = ((if isEmptyN hd then 0 else 1) + usedL tl) from rfl,
      usedL_set_of_empty tl s x (by omega) hget hx]
    omega

theorem usedL_set_nonempty : ∀ ch s x, isEmptyN (NodeList.get ch s) = false →
    isEmptyN x = false → usedL (ch.set s x) = usedL ch
  | .nil, s, _, hget, _ => by
    rw [show NodeList.get .nil s = Node.empty from rfl] at hget
    exact Bool.noConfusion hget
  | .cons hd tl, 0, x, hget, hx => by
    rw [show NodeList.get (.cons hd tl) 0 = hd from rfl] at hget
    rw [show NodeList.set (.cons hd tl) 0 x = .cons x tl from rfl,
      show usedL (.cons x tl) = ((if isEmptyN x then 0 else 1) + usedL tl) from rfl,
      show usedL (.cons hd tl) = ((if isEmptyN hd then 0 else 1) + usedL tl) from rfl,
      hx, hget]
  | .cons hd tl, s + 1, x, hget, hx => by
    rw [show NodeList.get (.cons hd tl) (s + 1) = NodeList.get tl s from rfl] at hget
    rw [show NodeList.set (.cons hd tl) (s + 1) x = .cons hd (tl.set s x) from rfl,
      show usedL (.cons hd (tl.set s x)) =
        ((if isEmptyN hd then 0 else 1) + usedL (tl.set s x)) from rfl,
      show usedL (.cons hd tl) = ((if isEmptyN hd then 0 else 1) + usedL tl) from rfl,
      usedL_set_nonempty tl s x hget hx]

theorem usedL_emptyChildren : usedL emptyChildren = 0 := by decide

theorem canonL_emptyChildren : canonL emptyChildren = true := by decide

theorem listExt : ∀ a b : NodeList, NodeList.length a = NodeList.length b →
    (∀ s, NodeList.get a s = NodeList.get b s) → a = b
  | .nil, .nil, _, _ => rfl
  | .nil, .cons hd tl, hlen, _ => by
    rw [show NodeList.length .nil = 0 from rfl,
      show NodeList.length (.cons hd tl) = NodeList.length tl + 1 from rfl] at hlen
    omega
  | .cons hd tl, .nil, hlen, _ => by
    rw [show NodeList.length .nil = 0 from rfl,
      show NodeList.length (.cons hd tl) = NodeList.length tl + 1 from rfl] at hlen
    omega
  | .cons hd tl, .cons hd2 tl2, hlen, hget => by
    rw [show NodeList.length (.cons hd tl) = NodeList.length tl + 1 from rfl,
      show NodeList.length (.cons hd2 tl2) = NodeList.length tl2 + 1 from rfl] at hlen
    have h0 := hget 0
    rw [show NodeList.get (.cons hd tl) 0 = hd from rfl,
      show NodeList.get (.cons hd2 tl2) 0 = hd2 from rfl] at h0
    have htl : tl = tl2 := listExt tl tl2 (by omega) fun s => hget (s + 1)
    rw [h0, htl]

theorem termSfx_cons {s : Nat} {r : Nibs} (hs : s < 16) (hr : termSfx r = true) :
    termSfx (s :: r) = true := by
  obtain ⟨hsplit, hcore⟩ := termSfx_parts hr
  have hshape : s :: r = (s :: r.dropLast) ++ [16] := by
    rw [List.cons_append, hsplit]
  rw [hshape, termSfx_iff]
  constructor
  · rw [List.getLast?_concat]
  · rw [List.dropLast_concat]
    intro x hx
    rcases List.mem_cons.mp hx with hx | hx
    · omega
    · exact hcore x hx

theorem termSfx_append : ∀ {pre : Nibs} {r : Nibs}, (∀ x ∈ pre, x < 16) →
    termSfx r = true → termSfx (pre ++ r) = true := by
  intro pre
  induction pre with
  | nil => intro r _ hr; exact hr
  | cons a as ih =>
    intro r hall hr
    rw [List.cons_append]
    exact termSfx_cons (hall a (List.mem_cons_self a as))
      (ih (fun x hx => hall x (List.mem_cons_of_mem a hx)) hr)

theorem commonPre_append_self : ∀ pre r : Nibs,
    Nibs.commonPre (pre ++ r) pre = pre.length
  | [], r => by cases r <;> rfl
  | a :: as, r => by
    rw [List.cons_append,
      show Nibs.commonPre (a :: (as ++ r)) (a :: as) =
        (if a = a then Nibs.commonPre (as ++ r) as + 1 else 0) from rfl,
      if_pos rfl, commonPre_append_self as r, List.length_cons]

/-- A key with the extension's full prefix looks up through the child. -/
theorem lookP_ext_append (pre : Nibs) (c : Node) (r : Nibs) :
    lookP (.ext pre c) (pre ++ r) = lookP c r := by
  rw [show lookP (.ext pre c) (pre ++ r) =
    (if Nibs.commonPre (pre ++ r) pre = pre.length then
      lookP c ((pre ++ r).drop pre.length) else none) from rfl,
    if_pos (commonPre_append_self pre r), List.drop_left]

theorem lookP_branch_cons (ch : NodeList) (v : Option Bytes) (s : Nat)
    (r : Nibs) (hs : s ≠ 16) :
    lookP (.branch ch v) (s :: r) = lookP (NodeList.get ch s) r := by
  rw [show lookP (.branch ch v) (s :: r) =
    (if Nibs.nth (s :: r) 0 = 16 then v
     else lookL ch (Nibs.nth (s :: r) 0) ((s :: r).drop 1)) from rfl,
    if_neg (show ¬Nibs.nth (s :: r) 0 = 16 from hs), lookL_get]
  rfl

theorem lookP_branch_term (ch : NodeList) (v : Option Bytes) :
    lookP (.branch ch v) [16] = v := by
  rw [show lookP (.branch ch v) [16] =
    (if Nibs.nth [16] 0 = 16 then v
     else lookL ch (Nibs.nth [16] 0) ([16].drop 1)) from rfl,
    if_pos (show Nibs.nth [16] 0 = 16 from rfl)]

/-- Keys served by an extension start with its whole prefix. -/
theorem ext_key_take {pre : Nibs} {c : Node} {q : Nibs}
    (h : (lookP (.ext pre c) q).isSome = true) : q.take pre.length = pre := by
  rw [show lookP (.ext pre c) q =
    (if Nibs.commonPre q pre = pre.length then
      lookP c (q.drop pre.length) else none) from rfl] at h
  by_cases hc : Nibs.commonPre q pre = pre.length
  · exact commonPre_full q pre hc
  · rw [if_neg hc] at h
    exact Bool.noConfusion h

theorem usedL_pos_ex : ∀ ch, 1 ≤ usedL ch →
    ∃ s, s < NodeList.length ch ∧ isEmptyN (NodeList.get ch s) = false
  | .nil, h => by
    rw [show usedL .nil = 0 from rfl] at h
    omega
  | .cons hd tl, h => by
    rw [show usedL (.cons hd tl) =
      ((if isEmptyN hd then 0 else 1) + usedL tl) from rfl] at h
    by_cases hh : isEmptyN hd = true
    · rw [if_pos hh] at h
      obtain ⟨s, hs, hne⟩ := usedL_pos_ex tl (by omega)
      exact ⟨s + 1,
        by rw [show NodeList.length (.cons hd tl) = NodeList.length tl + 1 from rfl]; omega,
        by rw [show NodeList.get (.cons hd tl) (s + 1) = NodeList.get tl s from rfl]; exact hne⟩
    · exact ⟨0,
        by rw [show NodeList.length (.cons hd tl) = NodeList.length tl + 1 from rfl]; omega,
        by rw [show NodeList.get (.cons hd tl) 0 = hd from rfl]; simpa using hh⟩

theorem usedL_two_ex : ∀ ch, 2 ≤ usedL ch →
    ∃ s1 s2, s1 < NodeList.length ch ∧ s2 < NodeList.length ch ∧ s1 ≠ s2 ∧
      isEmptyN (NodeList.get ch s1) = false ∧ isEmptyN (NodeList.get ch s2) = false
  | .nil, h => by
    rw [show usedL .nil = 0 from rfl] at h
    omega
  | .cons hd tl, h => by
    rw [show usedL (.cons hd tl) =
      ((if isEmptyN hd then 0 else 1) + usedL tl) from rfl] at h
    by_cases hh : isEmptyN hd = true
    · rw [if_pos hh] at h
      obtain ⟨s1, s2, h1, h2, hne, he1, he2⟩ := usedL_two_ex tl (by omega)
      exact ⟨s1 + 1, s2 + 1,
        by rw [show NodeList.length (.cons hd tl) = NodeList.length tl + 1 from rfl]; omega,
        by rw [show NodeList.length (.cons hd tl) = NodeList.length tl + 1 from rfl]; omega,
        by omega,
        by rw [show NodeList.get (.cons hd tl) (s1 + 1) = NodeList.get tl s1 from rfl]; exact he1,
        by rw [show NodeList.get (.cons hd tl) (s2 + 1) = NodeList.get tl s2 from rfl]; exact he2⟩
    · rw [if_neg hh] at h
      obtain ⟨s, hs, hne⟩ := usedL_pos_ex tl (by omega)
      exact ⟨0, s + 1,
        by rw [show NodeList.length (.cons hd tl) = NodeList.length tl + 1 from rfl]; omega,
        by rw [show NodeList.length (.cons hd tl) = NodeList.length tl + 1 from rfl]; omega,
        by omega,
        by rw [show NodeList.get (.cons hd tl) 0 = hd from rfl]; simpa using hh,
        by rw [show NodeList.get (.cons hd tl) (s + 1) = NodeList.get tl s from rfl]; exact hne⟩

theorem canon_key_sz : ∀ sz n, nodeSize n ≤ sz → canonN n = true →
    ∃ q, termSfx q = true ∧ (lookP n q).isSome = true
  | 0, n => by
    intro hsz _
    have := nodeSize_pos n
    omega
  | sz + 1, n => by
    intro hsz hc
    cases n with
    | empty => exact Bool.noConfusion hc
    | hash hh => exact Bool.noConfusion hc
    | leaf k v =>
      refine ⟨k, hc, ?_⟩
      rw [show lookP (.leaf k v) k = (if k = k then some v else none) from rfl,
        if_pos rfl]
      rfl
    | branch ch v =>
      rw [show canonN (.branch ch v) = (canonL ch && (NodeList.length ch == 16) &&
        decide (2 ≤ usedL ch + (if v.isSome then 1 else 0))) from rfl,
        Bool.and_eq_true, Bool.and_eq_true] at hc
      obtain ⟨⟨hcl, hlen⟩, hcnt⟩ := hc
      have hlen16 : NodeList.length ch = 16 := by simpa using hlen
      have hcnt' : 2 ≤ usedL ch + (if v.isSome then 1 else 0) :=
        of_decide_eq_true hcnt
      by_cases hv : v.isSome = true
      · obtain ⟨vv, hvv⟩ := Option.isSome_iff_exists.mp hv
        refine ⟨[16], by decide, ?_⟩
        rw [lookP_branch_term, hvv]
        rfl
      · have h1 : 1 ≤ usedL ch := by
          rw [if_neg hv] at hcnt'
          omega
        obtain ⟨s, hs, hne⟩ := usedL_pos_ex ch h1
        have hs16 : s < 16 := by
          rw [hlen16] at hs
          exact hs
        have hcs : canonN (NodeList.get ch s) = true := by
          rcases canonL_get ch hcl s with h | h
          · rw [h] at hne
            exact Bool.noConfusion hne
          · exact h
        have hsz2 : nodeSize (NodeList.get ch s) ≤ sz := by
          have := get_nodeSize_le ch s
          rw [show nodeSize (Node.branch ch v) = listSize ch + 1 from rfl] at hsz
          omega
        obtain ⟨r, htr, hlr⟩ := canon_key_sz sz (NodeList.get ch s) hsz2 hcs
        refine ⟨s :: r, termSfx_cons hs16 htr, ?_⟩
        rw [lookP_branch_cons ch v s r (by omega)]
        exact hlr
    | ext pre c =>
      rw [show canonN (.ext pre c) = (!pre.isEmpty && pre.all (fun x => x < 16) &&
        isBranch c && canonN c) from rfl,
        Bool.and_eq_true, Bool.and_eq_true, Bool.and_eq_true] at hc
      obtain ⟨⟨⟨hne, hall⟩, _⟩, hcc⟩ := hc
      have hallP : ∀ x ∈ pre, x < 16 := fun x hx => by
        simpa using List.all_eq_true.mp hall x hx
      have hsz2 : nodeSize c ≤ sz := by
        rw [show nodeSize (Node.ext pre c) = nodeSize c + 1 from rfl] at hsz
        omega
      obtain ⟨r, htr, hlr⟩ := canon_key_sz sz c hsz2 hcc
      refine ⟨pre ++ r, termSfx_append hallP htr, ?_⟩
      rw [lookP_ext_append]
      exact hlr

theorem canon_key (n : Node) (hc : canonN n = true) :
    ∃ q, termSfx q = true ∧ (lookP n q).isSome = true :=
  canon_key_sz (nodeSize n) n (le_refl _) hc

/-- A canonical branch serves two keys that disagree already on their first
nibble. -/
theorem branch_two_keys {ch : NodeList} {v : Option Bytes}
    (hc : canonN (.branch ch v) = true) :
    ∃ q1 q2, termSfx q1 = true ∧ termSfx q2 = true ∧
      (lookP (.branch ch v) q1).isSome = true ∧
      (lookP (.branch ch v) q2).isSome = true ∧
      Nibs.nth q1 0 ≠ Nibs.nth q2 0 := by
  rw [show canonN (.branch ch v) = (canonL ch && (NodeList.length ch == 16) &&
    decide (2 ≤ usedL ch + (if v.isSome then 1 else 0))) from rfl,
    Bool.and_eq_true, Bool.and_eq_true] at hc
  obtain ⟨⟨hcl, hlen⟩, hcnt⟩ := hc
  have hlen16 : NodeList.length ch = 16 := by simpa using hlen
  have hcnt' : 2 ≤ usedL ch + (if v.isSome then 1 else 0) := of_decide_eq_true hcnt
  have hkey : ∀ s, isEmptyN (NodeList.get ch s) = false →
      ∃ r, termSfx r = true ∧ (lookP (NodeList.get ch s) r).isSome = true := by
    intro s hne
    rcases canonL_get ch hcl s with h | h
    · rw [h] at hne
      exact Bool.noConfusion hne
    · exact canon_key _ h
  by_cases hv : v.isSome = true
  · obtain ⟨vv, hvv⟩ := Option.isSome_iff_exists.mp hv
    have h1 : 1 ≤ usedL ch := by
      rw [if_pos hv] at hcnt'
      omega
    obtain ⟨s, hs, hne⟩ := usedL_pos_ex ch h1
    have hs16 : s < 16 := by
      rw [hlen16] at hs
      exact hs
    obtain ⟨r, htr, hlr⟩ := hkey s hne
    refine ⟨[16], s :: r, by decide, termSfx_cons hs16 htr, ?_, ?_, ?_⟩
    · rw [lookP_branch_term, hvv]
      rfl
    · rw [lookP_branch_cons ch v s r (by omega)]
      exact hlr
    · rw [show Nibs.nth [16] 0 = 16 from rfl, show Nibs.nth (s :: r) 0 = s from rfl]
      omega
  · have h2 : 2 ≤ usedL ch := by
      rw [if_neg hv] at hcnt'
      omega
    obtain ⟨s1, s2, h1, h2x, hne12, he1, he2⟩ := usedL_two_ex ch h2
    have hs1 : s1 < 16 := by
      rw [hlen16] at h1
      exact h1
    have hs2 : s2 < 16 := by
      rw [hlen16] at h2x
      exact h2x
    obtain ⟨r1, htr1, hlr1⟩ := hkey s1 he1
    obtain ⟨r2, htr2, hlr2⟩ := hkey s2 he2
    refine ⟨s1 :: r1, s2 :: r2, termSfx_cons hs1 htr1, termSfx_cons hs2 htr2,
      ?_, ?_, ?_⟩
    · rw [lookP_branch_cons ch v s1 r1 (by omega)]
      exact hlr1
    · rw [lookP_branch_cons ch v s2 r2 (by omega)]
      exact hlr2
    · rw [show Nibs.nth (s1 :: r1) 0 = s1 from rfl,
        show Nibs.nth (s2 :: r2) 0 = s2 from rfl]
      exact hne12

/-- A canonical extension serves two distinct keys. -/
theorem ext_two_keys {pre : Nibs} {c : Node}
    (hc : canonN (.ext pre c) = true) :
    ∃ q1 q2, termSfx q1 = true ∧ termSfx q2 = true ∧
      (lookP (.ext pre c) q1).isSome = true ∧
      (lookP (.ext pre c) q2).isSome = true ∧ q1 ≠ q2 := by
  rw [show canonN (.ext pre c) = (!pre.isEmpty && pre.all (fun x => x < 16) &&
    isBranch c && canonN c) from rfl,
    Bool.and_eq_true, Bool.and_eq_true, Bool.and_eq_true] at hc
  obtain ⟨⟨⟨hne, hall⟩, hbr⟩, hcc⟩ := hc
  have hallP : ∀ x ∈ pre, x < 16 := fun x hx => by
    simpa using List.all_eq_true.mp hall x hx
  match c, hbr with
  | .branch ch v, _ =>
    obtain ⟨q1, q2, ht1, ht2, hl1, hl2, hq12⟩ := branch_two_keys hcc
    refine ⟨pre ++ q1, pre ++ q2, termSfx_append hallP ht1,
      termSfx_append hallP ht2, ?_, ?_, ?_⟩
    · rw [lookP_ext_append]
      exact hl1
    · rw [lookP_ext_append]
      exact hl2
    · intro hc2
      exact hq12 (by rw [List.append_cancel_left hc2])

theorem leaf_key_eq {k : Nibs} {v : Bytes} {q : Nibs}
    (h : (lookP (.leaf k v) q).isSome = true) : q = k := by
  rw [show lookP (.leaf k v) q = (if k = q then some v else none) from rfl] at h
  by_cases hc : k = q
  · exact hc.symm
  · rw [if_neg hc] at h
    exact Bool.noConfusion h

theorem isEmptyN_eq : ∀ {n : Node}, isEmptyN n = true → n = .empty
  | .empty, _ => rfl
  | .hash _, h => Bool.noConfusion h
  | .leaf _ _, h => Bool.noConfusion h
  | .branch _ _, h => Bool.noConfusion h
  | .ext _ _, h => Bool.noConfusion h

theorem get_ge_len : ∀ (ch : NodeList) (s : Nat), NodeList.length ch ≤ s →
    NodeList.get ch s = .empty
  | .nil, s, _ => rfl
  | .cons hd tl, 0, h => by
    rw [show NodeList.length (.cons hd tl) = NodeList.length tl + 1 from rfl] at h
    omega
  | .cons hd tl, s + 1, h => by
    rw [show NodeList.length (.cons hd tl) = NodeList.length tl + 1 from rfl] at h
    rw [show NodeList.get (.cons hd tl) (s + 1) = NodeList.get tl s from rfl]
    exact get_ge_len tl s (by omega)

theorem nth_append_right (a b : Nibs) (k : Nat) :
    Nibs.nth (a ++ b) (a.length + k) = Nibs.nth b k := by
  rw [Nibs.nth, Nibs.nth, List.getD_eq_getElem?_getD, List.getD_eq_getElem?_getD,
    List.getElem?_append_right (by omega)]
  have hidx : a.length + k - a.length = k := by omega
  rw [hidx]

/-- A canonical tree is determined by the map it serves on terminated keys. -/
theorem canon_unique : ∀ sz n m, nodeSize n ≤ sz → canonN n = true →
    canonN m = true → (∀ q, termSfx q = true → lookP n q = lookP m q) → n = m
  | 0, n, m => by
    intro hsz _ _ _
    have := nodeSize_pos n
    omega
  | sz + 1, n, m => by
    intro hsz hcn hcm heq
    cases n with
    | empty => exact Bool.noConfusion hcn
    | hash hh => exact Bool.noConfusion hcn
    | leaf k v =>
      have htk : termSfx k = true := hcn
      have hone : ∀ q1 q2, termSfx q1 = true → termSfx q2 = true →
          (lookP m q1).isSome = true → (lookP m q2).isSome = true →
          q1 = q2 := by
        intro q1 q2 ht1 ht2 h1 h2
        rw [← heq q1 ht1] at h1
        rw [← heq q2 ht2] at h2
        rw [leaf_key_eq h1, leaf_key_eq h2]
      cases m with
      | empty => exact Bool.noConfusion hcm
      | hash hh2 => exact Bool.noConfusion hcm
      | leaf k2 v2 =>
        have h1 := heq k htk
        rw [show lookP (.leaf k v) k = (if k = k then some v else none) from rfl,
          if_pos rfl,
          show lookP (.leaf k2 v2) k = (if k2 = k then some v2 else none) from rfl]
          at h1
        by_cases hk : k2 = k
        · rw [if_pos hk] at h1
          rw [Option.some.injEq] at h1
          rw [← hk, h1]
        · rw [if_neg hk] at h1
          exact Option.noConfusion h1
      | branch ch2 v2 =>
        exfalso
        obtain ⟨q1, q2, ht1, ht2, h1, h2, hne⟩ := branch_two_keys hcm
        exact hne (by rw [hone q1 q2 ht1 ht2 h1 h2])
      | ext pre2 c2 =>
        exfalso
        obtain ⟨q1, q2, ht1, ht2, h1, h2, hne⟩ := ext_two_keys hcm
        exact hne (hone q1 q2 ht1 ht2 h1 h2)
    | branch ch v =>
      obtain ⟨q1, q2, ht1, ht2, h1, h2, hne0⟩ := branch_two_keys hcn
      have h1m : (lookP m q1).isSome = true := by
        rw [← heq q1 ht1]
        exact h1
      have h2m : (lookP m q2).isSome = true := by
        rw [← heq q2 ht2]
        exact h2
      cases m with
      | empty => exact Bool.noConfusion hcm
      | hash hh2 => exact Bool.noConfusion hcm
      | leaf k2 v2 =>
        exfalso
        exact hne0 (by rw [leaf_key_eq h1m, leaf_key_eq h2m])
      | ext pre2 c2 =>
        exfalso
        have hpne2 : pre2 ≠ [] := by
          rw [show canonN (.ext pre2 c2) = (!pre2.isEmpty &&
            pre2.all (fun x => x < 16) && isBranch c2 && canonN c2) from rfl,
            Bool.and_eq_true, Bool.and_eq_true, Bool.and_eq_true] at hcm
          intro hc
          rw [hc] at hcm
          exact Bool.noConfusion hcm.1.1.1
        have hn1 : Nibs.nth q1 0 = Nibs.nth pre2 0 := by
          have htake := ext_key_take h1m
          have h0 : 0 < pre2.length := List.length_pos.mpr hpne2
          rw [← htake, nth_take h0]
        have hn2 : Nibs.nth q2 0 = Nibs.nth pre2 0 := by
          have htake := ext_key_take h2m
          have h0 : 0 < pre2.length := List.length_pos.mpr hpne2
          rw [← htake, nth_take h0]
        exact hne0 (by rw [hn1, hn2])
      | branch ch2 v2 =>
        rw [show canonN (.branch ch v) = (canonL ch && (NodeList.length ch == 16) &&
          decide (2 ≤ usedL ch + (if v.isSome then 1 else 0))) from rfl,
          Bool.and_eq_true, Bool.and_eq_true] at hcn
        obtain ⟨⟨hcl, hlen⟩, _⟩ := hcn
        have hlen16 : NodeList.length ch = 16 := by simpa using hlen
        rw [show canonN (.branch ch2 v2) = (canonL ch2 && (NodeList.length ch2 == 16) &&
          decide (2 ≤ usedL ch2 + (if v2.isSome then 1 else 0))) from rfl,
          Bool.and_eq_true, Bool.and_eq_true] at hcm
        obtain ⟨⟨hcl2, hlen2⟩, _⟩ := hcm
        have hlen16b : NodeList.length ch2 = 16 := by simpa using hlen2
        have hveq : v = v2 := by
          have := heq [16] (by decide)
          rwa [lookP_branch_term, lookP_branch_term] at this
        have hget : ∀ s, NodeList.get ch s = NodeList.get ch2 s := by
          intro s
          by_cases hs : s < 16
          · have hlooks : ∀ r, termSfx r = true →
                lookP (NodeList.get ch s) r = lookP (NodeList.get ch2 s) r := by
              intro r htr
              have := heq (s :: r) (termSfx_cons hs htr)
              rwa [lookP_branch_cons ch v s r (by omega),
                lookP_branch_cons ch2 v2 s r (by omega)] at this
            rcases canonL_get ch hcl s with he | hcs
            · rcases canonL_get ch2 hcl2 s with he2 | hcs2
              · rw [isEmptyN_eq he, isEmptyN_eq he2]
              · exfalso
                obtain ⟨r, htr, hlr⟩ := canon_key _ hcs2
                rw [← hlooks r htr, isEmptyN_eq he,
                  show lookP Node.empty r = none from rfl] at hlr
                exact Bool.noConfusion hlr
            · rcases canonL_get ch2 hcl2 s with he2 | hcs2
              · exfalso
                obtain ⟨r, htr, hlr⟩ := canon_key _ hcs
                rw [hlooks r htr, isEmptyN_eq he2,
                  show lookP Node.empty r = none from rfl] at hlr
                exact Bool.noConfusion hlr
              · have hsz2 : nodeSize (NodeList.get ch s) ≤ sz := by
                  have := get_nodeSize_le ch s
                  rw [show nodeSize (Node.branch ch v) = listSize ch + 1 from rfl]
                    at hsz
                  omega
                exact canon_unique sz _ _ hsz2 hcs hcs2 hlooks
          · rw [get_ge_len ch s (by omega), get_ge_len ch2 s (by omega)]
        rw [hveq, listExt ch ch2 (by omega) hget]
    | ext pre c =>
      rw [show canonN (.ext pre c) = (!pre.isEmpty && pre.all (fun x => x < 16) &&
        isBranch c && canonN c) from rfl,
        Bool.and_eq_true, Bool.and_eq_true, Bool.and_eq_true] at hcn
      obtain ⟨⟨⟨hneB, hall⟩, hbr⟩, hcc⟩ := hcn
      have hpne : pre ≠ [] := by
        intro hc
        rw [hc] at hneB
        exact Bool.noConfusion hneB
      have hallP : ∀ x ∈ pre, x < 16 := fun x hx => by
        simpa using List.all_eq_true.mp hall x hx
      cases m with
      | empty => exact Bool.noConfusion hcm
      | hash hh2 => exact Bool.noConfusion hcm
      | leaf k2 v2 =>
        exfalso
        obtain ⟨q1, q2, ht1, ht2, h1, h2, hne⟩ := ext_two_keys (by
          rw [show canonN (.ext pre c) = (!pre.isEmpty &&
            pre.all (fun x => x < 16) && isBranch c && canonN c) from rfl,
            Bool.and_eq_true, Bool.and_eq_true, Bool.and_eq_true]
          exact ⟨⟨⟨hneB, hall⟩, hbr⟩, hcc⟩)
        rw [heq q1 ht1] at h1
        rw [heq q2 ht2] at h2
        exact hne (by rw [leaf_key_eq h1, leaf_key_eq h2])
      | branch ch2 v2 =>
        exfalso
        obtain ⟨q1, q2, ht1, ht2, h1, h2, hne0⟩ := branch_two_keys hcm
        have h1n : (lookP (.ext pre c) q1).isSome = true := by
          rw [heq q1 ht1]
          exact h1
        have h2n : (lookP (.ext pre c) q2).isSome = true := by
          rw [heq q2 ht2]
          exact h2
        have h0 : 0 < pre.length := List.length_pos.mpr hpne
        have hn1 : Nibs.nth q1 0 = Nibs.nth pre 0 := by
          have htake := ext_key_take h1n
          rw [← htake, nth_take h0]
        have hn2 : Nibs.nth q2 0 = Nibs.nth pre 0 := by
          have htake := ext_key_take h2n
          rw [← htake, nth_take h0]
        exact hne0 (by rw [hn1, hn2])
      | ext pre2 c2 =>
        rw [show canonN (.ext pre2 c2) = (!pre2.isEmpty &&
          pre2.all (fun x => x < 16) && isBranch c2 && canonN c2) from rfl,
          Bool.and_eq_true, Bool.and_eq_true, Bool.and_eq_true] at hcm
        obtain ⟨⟨⟨hneB2, hall2⟩, hbr2⟩, hcc2⟩ := hcm
        have hpne2 : pre2 ≠ [] := by
          intro hc
          rw [hc] at hneB2
          exact Bool.noConfusion hneB2
        have hall2P : ∀ x ∈ pre2, x < 16 := fun x hx => by
          simpa using List.all_eq_true.mp hall2 x hx
        -- two keys of each child branch that split on the first nibble
        have hcb : ∃ r1 r2, termSfx r1 = true ∧ termSfx r2 = true ∧
            (lookP c r1).isSome = true ∧ (lookP c r2).isSome = true ∧
            Nibs.nth r1 0 ≠ Nibs.nth r2 0 := by
          match c, hbr with
          | .branch chx vx, _ => exact branch_two_keys hcc
        have hcb2 : ∃ r1 r2, termSfx r1 = true ∧ termSfx r2 = true ∧
            (lookP c2 r1).isSome = true ∧ (lookP c2 r2).isSome = true ∧
            Nibs.nth r1 0 ≠ Nibs.nth r2 0 := by
          match c2, hbr2 with
          | .branch chx vx, _ => exact branch_two_keys hcc2
        obtain ⟨r1, r2, htr1, htr2, hlr1, hlr2, hrne⟩ := hcb
        obtain ⟨r1b, r2b, htr1b, htr2b, hlr1b, hlr2b, hrneb⟩ := hcb2
        -- keys of n have prefix pre2 through m, and vice versa
        have hkeyn : ∀ r, termSfx r = true → (lookP c r).isSome = true →
            (pre ++ r).take pre2.length = pre2 := by
          intro r htr hlr
          refine @ext_key_take pre2 c2 (pre ++ r) ?_
          rw [← heq (pre ++ r) (termSfx_append hallP htr), lookP_ext_append]
          exact hlr
        have hkeym : ∀ r, termSfx r = true → (lookP c2 r).isSome = true →
            (pre2 ++ r).take pre.length = pre := by
          intro r htr hlr
          refine @ext_key_take pre c (pre2 ++ r) ?_
          rw [heq (pre2 ++ r) (termSfx_append hall2P htr), lookP_ext_append]
          exact hlr
        have hlenE : pre.length = pre2.length := by
          rcases Nat.lt_trichotomy pre.length pre2.length with hlt | heqx | hgt
          · exfalso
            -- keys pre ++ r1, pre ++ r2 of n both carry prefix pre2:
            -- their nibble at position pre.length is forced equal
            have hx1 := hkeyn r1 htr1 hlr1
            have hx2 := hkeyn r2 htr2 hlr2
            have hb1 : Nibs.nth r1 0 = Nibs.nth pre2 pre.length := by
              rw [← hx1, nth_take hlt, ← Nat.add_zero pre.length,
                nth_append_right pre r1 0]
            have hb2 : Nibs.nth r2 0 = Nibs.nth pre2 pre.length := by
              rw [← hx2, nth_take hlt, ← Nat.add_zero pre.length,
                nth_append_right pre r2 0]
            exact hrne (by rw [hb1, hb2])
          · exact heqx
          · exfalso
            have hx1 := hkeym r1b htr1b hlr1b
            have hx2 := hkeym r2b htr2b hlr2b
            have hb1 : Nibs.nth r1b 0 = Nibs.nth pre pre2.length := by
              rw [← hx1, nth_take hgt, ← Nat.add_zero pre2.length,
                nth_append_right pre2 r1b 0]
            have hb2 : Nibs.nth r2b 0 = Nibs.nth pre pre2.length := by
              rw [← hx2, nth_take hgt, ← Nat.add_zero pre2.length,
                nth_append_right pre2 r2b 0]
            exact hrneb (by rw [hb1, hb2])
        have hpree : pre = pre2 := by
          have hx1 := hkeyn r1 htr1 hlr1
          rw [← hx1, ← hlenE, List.take_left]
        subst hpree
        have hlooks : ∀ r, termSfx r = true → lookP c r = lookP c2 r := by
          intro r htr
          have := heq (pre ++ r) (termSfx_append hallP htr)
          rwa [lookP_ext_append, lookP_ext_append] at this
        have hsz2 : nodeSize c ≤ sz := by
          rw [show nodeSize (Node.ext pre c) = nodeSize c + 1 from rfl] at hsz
          omega
        rw [canon_unique sz c c2 hsz2 hcc hcc2 hlooks]

theorem extIns_isBranch (pre : Nibs) (c : Node) (part : Nibs) (value : Bytes) :
    isBranch (extIns pre c part value) = true := by
  rw [extIns]
  by_cases h : Nibs.nth part 0 = 16
  · rw [if_pos h]
    rfl
  · rw [if_neg h]
    rfl

theorem insP_branch_isBranch (ch : NodeList) (v : Option Bytes) (part : Nibs)
    (value : Bytes) : isBranch (insP (.branch ch v) part value) = true := by
  rw [show insP (.branch ch v) part value =
    (if Nibs.nth part 0 = 16 then Node.branch ch (some value)
     else Node.branch (insL ch (Nibs.nth part 0) (part.drop 1) value) v) from rfl]
  by_cases h : Nibs.nth part 0 = 16
  · rw [if_pos h]
    rfl
  · rw [if_neg h]
    rfl

/-- The two-leaf split branch is canonical. -/
theorem canon_leafSplitB (lk : Nibs) (lv : Bytes) (part : Nibs) (value : Bytes)
    (hlk : termSfx lk = true) (hts : termSfx part = true)
    (hm : Nibs.commonPre part lk ≠ lk.length) :
    canonN (.branch (leafSplitB lk lv part value).1
      (leafSplitB lk lv part value).2) = true := by
  have hml : Nibs.commonPre part lk < lk.length :=
    Nat.lt_of_le_of_ne (commonPre_le_right part lk) hm
  have hfl : ∀ x ∈ part.take (Nibs.commonPre part lk), x < 16 := by
    rw [commonPre_take part lk]
    exact termSfx_first_lt hlk hml
  have hmp : Nibs.commonPre part lk < part.length := termSfx_take_lt_len hts hfl
  have hstop : Nibs.nth part (Nibs.commonPre part lk) ≠
      Nibs.nth lk (Nibs.commonPre part lk) := commonPre_stop part lk hmp hml
  by_cases hsl : Nibs.nth lk (Nibs.commonPre part lk) = 16
  · -- displaced leaf key ends here: its value goes to the branch value slot
    have hsp : Nibs.nth part (Nibs.commonPre part lk) ≠ 16 := by
      rw [← hsl]
      exact hstop
    have hsp16 : Nibs.nth part (Nibs.commonPre part lk) < 16 :=
      termSfx_nth_lt hts hmp hsp
    have hmp1 : Nibs.commonPre part lk + 1 < part.length := by
      rcases Nat.lt_or_ge (Nibs.commonPre part lk + 1) part.length with h | h
      · exact h
      · exfalso
        have hx : Nibs.commonPre part lk = part.length - 1 := by omega
        rw [hx, termSfx_last hts] at hsp
        exact hsp rfl
    have hB1 : splitB1 lk lv part = (emptyChildren, some lv) := by
      rw [splitB1, hsl]
      rfl
    have hB2 : leafSplitB lk lv part value =
        (emptyChildren.set (Nibs.nth part (Nibs.commonPre part lk))
          (Node.fromLeaf (Nibs.offset part (Nibs.commonPre part lk + 1)) value),
          some lv) := by
      rw [leafSplitB, hB1]
      exact branchInsert_ne16 _ _ _ _ hsp
    rw [hB2, show canonN (.branch
      (emptyChildren.set (Nibs.nth part (Nibs.commonPre part lk))
        (Node.fromLeaf (Nibs.offset part (Nibs.commonPre part lk + 1)) value))
      (some lv)) = (canonL (emptyChildren.set (Nibs.nth part (Nibs.commonPre part lk))
        (Node.fromLeaf (Nibs.offset part (Nibs.commonPre part lk + 1)) value)) &&
      (NodeList.length (emptyChildren.set (Nibs.nth part (Nibs.commonPre part lk))
        (Node.fromLeaf (Nibs.offset part (Nibs.commonPre part lk + 1)) value)) == 16) &&
      decide (2 ≤ usedL (emptyChildren.set (Nibs.nth part (Nibs.commonPre part lk))
        (Node.fromLeaf (Nibs.offset part (Nibs.commonPre part lk + 1)) value)) +
        (if (some lv).isSome then 1 else 0))) from rfl,
      Bool.and_eq_true, Bool.and_eq_true]
    have hcleaf : canonN (Node.fromLeaf
        (Nibs.offset part (Nibs.commonPre part lk + 1)) value) = true :=
      termSfx_drop_all hts hmp1
    refine ⟨⟨canonL_set _ canonL_emptyChildren _ _ hcleaf, ?_⟩, ?_⟩
    · rw [set_length, emptyChildren_length]
      rfl
    · refine decide_eq_true ?_
      rw [usedL_set_of_empty _ _ _ (by rw [emptyChildren_length]; exact hsp16)
          (by rw [emptyChildren_get]; rfl) (canonN_ne_empty hcleaf),
        usedL_emptyChildren,
        show (if (some lv).isSome = true then (1 : Nat) else 0) = 1 from rfl]
  · have hsl16 : Nibs.nth lk (Nibs.commonPre part lk) < 16 :=
      termSfx_nth_lt hlk hml hsl
    have hml1 : Nibs.commonPre part lk + 1 < lk.length := by
      rcases Nat.lt_or_ge (Nibs.commonPre part lk + 1) lk.length with h | h
      · exact h
      · exfalso
        have hx : Nibs.commonPre part lk = lk.length - 1 := by omega
        rw [hx, termSfx_last hlk] at hsl
        exact hsl rfl
    have hcleafk : canonN (Node.fromLeaf
        (Nibs.offset lk (Nibs.commonPre part lk + 1)) lv) = true :=
      termSfx_drop_all hlk hml1
    have hB1 : splitB1 lk lv part =
        (emptyChildren.set (Nibs.nth lk (Nibs.commonPre part lk))
          (Node.fromLeaf (Nibs.offset lk (Nibs.commonPre part lk + 1)) lv),
          none) := by
      rw [splitB1]
      exact branchInsert_ne16 _ _ _ _ hsl
    have hused1 : usedL (emptyChildren.set (Nibs.nth lk (Nibs.commonPre part lk))
        (Node.fromLeaf (Nibs.offset lk (Nibs.commonPre part lk + 1)) lv)) = 1 := by
      rw [usedL_set_of_empty _ _ _ (by rw [emptyChildren_length]; exact hsl16)
          (by rw [emptyChildren_get]; rfl) (canonN_ne_empty hcleafk),
        usedL_emptyChildren]
    have hcl1 : canonL (emptyChildren.set (Nibs.nth lk (Nibs.commonPre part lk))
        (Node.fromLeaf (Nibs.offset lk (Nibs.commonPre part lk + 1)) lv)) = true :=
      canonL_set _ canonL_emptyChildren _ _ hcleafk
    have hlen1 : NodeList.length (emptyChildren.set
        (Nibs.nth lk (Nibs.commonPre part lk))
        (Node.fromLeaf (Nibs.offset lk (Nibs.commonPre part lk + 1)) lv)) = 16 := by
      rw [set_length, emptyChildren_length]
    by_cases hsp : Nibs.nth part (Nibs.commonPre part lk) = 16
    · have hB2 : leafSplitB lk lv part value =
          (emptyChildren.set (Nibs.nth lk (Nibs.commonPre part lk))
            (Node.fromLeaf (Nibs.offset lk (Nibs.commonPre part lk + 1)) lv),
            some value) := by
        rw [leafSplitB, hB1, hsp]
        rfl
      rw [hB2, show canonN (.branch
        (emptyChildren.set (Nibs.nth lk (Nibs.commonPre part lk))
          (Node.fromLeaf (Nibs.offset lk (Nibs.commonPre part lk + 1)) lv))
        (some value)) = (canonL (emptyChildren.set
          (Nibs.nth lk (Nibs.commonPre part lk))
          (Node.fromLeaf (Nibs.offset lk (Nibs.commonPre part lk + 1)) lv)) &&
        (NodeList.length (emptyChildren.set (Nibs.nth lk (Nibs.commonPre part lk))
          (Node.fromLeaf (Nibs.offset lk (Nibs.commonPre part lk + 1)) lv)) == 16) &&
        decide (2 ≤ usedL (emptyChildren.set (Nibs.nth lk (Nibs.commonPre part lk))
          (Node.fromLeaf (Nibs.offset lk (Nibs.commonPre part lk + 1)) lv)) +
          (if (some value).isSome then 1 else 0))) from rfl,
        Bool.and_eq_true, Bool.and_eq_true]
      refine ⟨⟨hcl1, by rw [hlen1]; rfl⟩, ?_⟩
      refine decide_eq_true ?_
      rw [hused1, show (if (some value).isSome = true then (1 : Nat) else 0) = 1
        from rfl]
    · have hsp16 : Nibs.nth part (Nibs.commonPre part lk) < 16 :=
        termSfx_nth_lt hts hmp hsp
      have hmp1 : Nibs.commonPre part lk + 1 < part.length := by
        rcases Nat.lt_or_ge (Nibs.commonPre part lk + 1) part.length with h | h
        · exact h
        · exfalso
          have hx : Nibs.commonPre part lk = part.length - 1 := by omega
          rw [hx, termSfx_last hts] at hsp
          exact hsp rfl
      have hcleafp : canonN (Node.fromLeaf
          (Nibs.offset part (Nibs.commonPre part lk + 1)) value) = true :=
        termSfx_drop_all hts hmp1
      have hB2 : leafSplitB lk lv part value =
          ((emptyChildren.set (Nibs.nth lk (Nibs.commonPre part lk))
            (Node.fromLeaf (Nibs.offset lk (Nibs.commonPre part lk + 1)) lv)).set
            (Nibs.nth part (Nibs.commonPre part lk))
            (Node.fromLeaf (Nibs.offset part (Nibs.commonPre part lk + 1)) value),
            none) := by
        rw [leafSplitB, hB1]
        exact branchInsert_ne16 _ _ _ _ hsp
      have hgetp : isEmptyN (NodeList.get (emptyChildren.set
          (Nibs.nth lk (Nibs.commonPre part lk))
          (Node.fromLeaf (Nibs.offset lk (Nibs.commonPre part lk + 1)) lv))
          (Nibs.nth part (Nibs.commonPre part lk))) = true := by
        rw [get_set_ne _ _ _ _ (fun hc => hstop hc.symm), emptyChildren_get]
        rfl
      rw [hB2, show canonN (.branch
        ((emptyChildren.set (Nibs.nth lk (Nibs.commonPre part lk))
          (Node.fromLeaf (Nibs.offset lk (Nibs.commonPre part lk + 1)) lv)).set
          (Nibs.nth part (Nibs.commonPre part lk))
          (Node.fromLeaf (Nibs.offset part (Nibs.commonPre part lk + 1)) value))
        none) = (canonL ((emptyChildren.set (Nibs.nth lk (Nibs.commonPre part lk))
          (Node.fromLeaf (Nibs.offset lk (Nibs.commonPre part lk + 1)) lv)).set
          (Nibs.nth part (Nibs.commonPre part lk))
          (Node.fromLeaf (Nibs.offset part (Nibs.commonPre part lk + 1)) value)) &&
        (NodeList.length ((emptyChildren.set (Nibs.nth lk (Nibs.commonPre part lk))
          (Node.fromLeaf (Nibs.offset lk (Nibs.commonPre part lk + 1)) lv)).set
          (Nibs.nth part (Nibs.commonPre part lk))
          (Node.fromLeaf (Nibs.offset part (Nibs.commonPre part lk + 1)) value))
          == 16) &&
        decide (2 ≤ usedL ((emptyChildren.set (Nibs.nth lk (Nibs.commonPre part lk))
          (Node.fromLeaf (Nibs.offset lk (Nibs.commonPre part lk + 1)) lv)).set
          (Nibs.nth part (Nibs.commonPre part lk))
          (Node.fromLeaf (Nibs.offset part (Nibs.commonPre part lk + 1)) value)) +
          (if (none : Option Bytes).isSome then 1 else 0))) from rfl,
        Bool.and_eq_true, Bool.and_eq_true]
      refine ⟨⟨canonL_set _ hcl1 _ _ hcleafp, ?_⟩, ?_⟩
      · rw [set_length, hlen1]
        rfl
      · refine decide_eq_true ?_
        rw [usedL_set_of_empty _ _ _ (by rw [hlen1]; exact hsp16)
            hgetp (canonN_ne_empty hcleafp), hused1,
          show (if (none : Option Bytes).isSome = true then (1 : Nat) else 0) = 0
            from rfl]

/-- The branch built by splitting an extension at offset zero is canonical. -/
theorem canon_extIns (pre : Nibs) (c : Node) (part : Nibs) (value : Bytes)
    (hpne : pre ≠ []) (hall : pre.all (fun x => x < 16) = true)
    (hbr : isBranch c = true) (hcc : canonN c = true)
    (hm0 : Nibs.commonPre part pre = 0) (hts : termSfx part = true) :
    canonN (extIns pre c part value) = true := by
  have hpre0 : Nibs.nth pre 0 < 16 := by
    match pre, hpne with
    | a :: as, _ =>
      have := List.all_eq_true.mp hall a (List.mem_cons_self a as)
      simpa using this
  have hp0ne : Nibs.nth part 0 ≠ Nibs.nth pre 0 :=
    commonPre_zero_head part pre (termSfx_ne_nil hts) hpne hm0
  have hEP : extPushB pre c = (emptyChildren.set (Nibs.nth pre 0)
      (if pre.length = 1 then c else Node.fromExt (Nibs.offset pre 1) c),
      none) := by
    rw [extPushB]
    exact branchInsert_ne16 _ _ _ _ (by omega)
  have hcX : canonN (if pre.length = 1 then c
      else Node.fromExt (Nibs.offset pre 1) c) = true := by
    by_cases h1 : pre.length = 1
    · rw [if_pos h1]
      exact hcc
    · rw [if_neg h1,
        show canonN (Node.fromExt (Nibs.offset pre 1) c) =
          (!(Nibs.offset pre 1).isEmpty &&
            (Nibs.offset pre 1).all (fun x => x < 16) && isBranch c &&
            canonN c) from rfl,
        Bool.and_eq_true, Bool.and_eq_true, Bool.and_eq_true]
      have hlp : 0 < pre.length := List.length_pos.mpr hpne
      refine ⟨⟨⟨?_, ?_⟩, hbr⟩, hcc⟩
      · rw [show Nibs.offset pre 1 = pre.drop 1 from rfl]
        rw [drop_not_isEmpty (by omega)]
      · exact List.all_eq_true.mpr fun x hx =>
          List.all_eq_true.mp hall x (List.mem_of_mem_drop hx)
  have hcl1 : canonL (emptyChildren.set (Nibs.nth pre 0)
      (if pre.length = 1 then c else Node.fromExt (Nibs.offset pre 1) c)) = true :=
    canonL_set _ canonL_emptyChildren _ _ hcX
  have hused1 : usedL (emptyChildren.set (Nibs.nth pre 0)
      (if pre.length = 1 then c else Node.fromExt (Nibs.offset pre 1) c)) = 1 := by
    rw [usedL_set_of_empty _ _ _ (by rw [emptyChildren_length]; exact hpre0)
        (by rw [emptyChildren_get]; rfl) (canonN_ne_empty hcX),
      usedL_emptyChildren]
  have hlen1 : NodeList.length (emptyChildren.set (Nibs.nth pre 0)
      (if pre.length = 1 then c else Node.fromExt (Nibs.offset pre 1) c)) = 16 := by
    rw [set_length, emptyChildren_length]
  by_cases h16 : Nibs.nth part 0 = 16
  · rw [extIns, if_pos h16, hEP,
      show canonN (.branch (emptyChildren.set (Nibs.nth pre 0)
        (if pre.length = 1 then c else Node.fromExt (Nibs.offset pre 1) c))
        (some value)) = (canonL (emptyChildren.set (Nibs.nth pre 0)
        (if pre.length = 1 then c else Node.fromExt (Nibs.offset pre 1) c)) &&
      (NodeList.length (emptyChildren.set (Nibs.nth pre 0)
        (if pre.length = 1 then c else Node.fromExt (Nibs.offset pre 1) c)) == 16) &&
      decide (2 ≤ usedL (emptyChildren.set (Nibs.nth pre 0)
        (if pre.length = 1 then c else Node.fromExt (Nibs.offset pre 1) c)) +
        (if (some value).isSome then 1 else 0))) from rfl,
      Bool.and_eq_true, Bool.and_eq_true]
    refine ⟨⟨hcl1, by rw [hlen1]; rfl⟩, ?_⟩
    refine decide_eq_true ?_
    rw [hused1, show (if (some value).isSome = true then (1 : Nat) else 0) = 1
      from rfl]
  · have hp016 : Nibs.nth part 0 < 16 :=
      termSfx_nth_lt hts (List.length_pos.mpr (termSfx_ne_nil hts)) h16
    have hp1 : 1 < part.length := by
      rcases Nat.lt_or_ge 1 part.length with h | h
      · exact h
      · exfalso
        have h1 : part.length = 1 := by
          have := List.length_pos.mpr (termSfx_ne_nil hts)
          omega
        have hl := termSfx_last hts
        rw [h1] at hl
        exact h16 hl
    have hcleaf : canonN (Node.fromLeaf (part.drop 1) value) = true :=
      termSfx_drop_all hts hp1
    rw [extIns, if_neg h16, hEP]
    dsimp only
    rw [show canonN (.branch ((emptyChildren.set (Nibs.nth pre 0)
        (if pre.length = 1 then c else Node.fromExt (Nibs.offset pre 1) c)).set
        (Nibs.nth part 0) (Node.fromLeaf (part.drop 1) value)) none) =
      (canonL ((emptyChildren.set (Nibs.nth pre 0)
        (if pre.length = 1 then c else Node.fromExt (Nibs.offset pre 1) c)).set
        (Nibs.nth part 0) (Node.fromLeaf (part.drop 1) value)) &&
      (NodeList.length ((emptyChildren.set (Nibs.nth pre 0)
        (if pre.length = 1 then c else Node.fromExt (Nibs.offset pre 1) c)).set
        (Nibs.nth part 0) (Node.fromLeaf (part.drop 1) value)) == 16) &&
      decide (2 ≤ usedL ((emptyChildren.set (Nibs.nth pre 0)
        (if pre.length = 1 then c else Node.fromExt (Nibs.offset pre 1) c)).set
        (Nibs.nth part 0) (Node.fromLeaf (part.drop 1) value)) +
        (if (none : Option Bytes).isSome then 1 else 0))) from rfl,
      Bool.and_eq_true, Bool.and_eq_true]
    refine ⟨⟨canonL_set _ hcl1 _ _ hcleaf, ?_⟩, ?_⟩
    · rw [set_length, hlen1]
      rfl
    · refine decide_eq_true ?_
      rw [usedL_set_of_empty _ _ _ (by rw [hlen1]; exact hp016)
          (by rw [get_set_ne _ _ _ _ (fun hc => hp0ne hc.symm), emptyChildren_get]
              rfl)
          (canonN_ne_empty hcleaf), hused1,
        show (if (none : Option Bytes).isSome = true then (1 : Nat) else 0) = 0
          from rfl]

/-- Structural insertion with a terminated key preserves canonical shape
(starting from the empty root or any canonical tree). -/
theorem canon_insP : ∀ sz n p value, nodeSize n ≤ sz →
    (n = .empty ∨ canonN n = true) → termSfx p = true →
    canonN (insP n p value) = true
  | 0, n, p, value => by
    intro hsz _ _
    have := nodeSize_pos n
    omega
  | sz + 1, n, p, value => by
    intro hsz hc htp
    cases n with
    | empty =>
      rw [show insP Node.empty p value = Node.fromLeaf p value from rfl]
      exact htp
    | hash hh =>
      rcases hc with hc | hc
      · exact Node.noConfusion hc
      · exact Bool.noConfusion hc
    | leaf lk lv =>
      have hclk : canonN (Node.leaf lk lv) = true := by
        rcases hc with hc | hc
        · exact Node.noConfusion hc
        · exact hc
      have hlk : termSfx lk = true := hclk
      have hstep : insP (Node.leaf lk lv) p value =
          (if Nibs.commonPre p lk = lk.length then Node.fromLeaf lk value
           else if Nibs.commonPre p lk = 0 then
             .branch (leafSplitB lk lv p value).1 (leafSplitB lk lv p value).2
           else
             Node.fromExt (Nibs.slice p 0 (Nibs.commonPre p lk))
               (.branch (leafSplitB lk lv p value).1
                 (leafSplitB lk lv p value).2)) := rfl
      by_cases hfull : Nibs.commonPre p lk = lk.length
      · rw [hstep, if_pos hfull]
        exact hlk
      · by_cases hm0 : Nibs.commonPre p lk = 0
        · rw [hstep, if_neg hfull, if_pos hm0]
          exact canon_leafSplitB lk lv p value hlk htp hfull
        · have hMlk : Nibs.commonPre p lk < lk.length :=
            Nat.lt_of_le_of_ne (commonPre_le_right p lk) hfull
          rw [hstep, if_neg hfull, if_neg hm0,
            show canonN (Node.fromExt (Nibs.slice p 0 (Nibs.commonPre p lk))
              (.branch (leafSplitB lk lv p value).1
                (leafSplitB lk lv p value).2)) =
            (!(Nibs.slice p 0 (Nibs.commonPre p lk)).isEmpty &&
              (Nibs.slice p 0 (Nibs.commonPre p lk)).all (fun x => x < 16) &&
              isBranch (.branch (leafSplitB lk lv p value).1
                (leafSplitB lk lv p value).2) &&
              canonN (.branch (leafSplitB lk lv p value).1
                (leafSplitB lk lv p value).2)) from rfl,
            Bool.and_eq_true, Bool.and_eq_true, Bool.and_eq_true]
          refine ⟨⟨⟨?_, ?_⟩, rfl⟩, canon_leafSplitB lk lv p value hlk htp hfull⟩
          · rw [show Nibs.slice p 0 (Nibs.commonPre p lk) =
              p.take (Nibs.commonPre p lk) from rfl]
            exact take_not_isEmpty hm0 (termSfx_ne_nil htp)
          · rw [show Nibs.slice p 0 (Nibs.commonPre p lk) =
              p.take (Nibs.commonPre p lk) from rfl]
            refine List.all_eq_true.mpr fun x hx => decide_eq_true ?_
            rw [commonPre_take p lk] at hx
            exact termSfx_first_lt hlk hMlk x hx
    | branch ch v =>
      have hcb : canonN (Node.branch ch v) = true := by
        rcases hc with hc | hc
        · exact Node.noConfusion hc
        · exact hc
      rw [show canonN (.branch ch v) = (canonL ch && (NodeList.length ch == 16) &&
        decide (2 ≤ usedL ch + (if v.isSome then 1 else 0))) from rfl,
        Bool.and_eq_true, Bool.and_eq_true] at hcb
      obtain ⟨⟨hcl, hlen⟩, hcnt⟩ := hcb
      have hlen16 : NodeList.length ch = 16 := by simpa using hlen
      have hcnt' : 2 ≤ usedL ch + (if v.isSome then 1 else 0) :=
        of_decide_eq_true hcnt
      have hstep : insP (Node.branch ch v) p value =
          (if Nibs.nth p 0 = 16 then Node.branch ch (some value)
           else Node.branch (insL ch (Nibs.nth p 0) (p.drop 1) value) v) := rfl
      by_cases hp16 : Nibs.nth p 0 = 16
      · rw [hstep, if_pos hp16,
          show canonN (.branch ch (some value)) =
            (canonL ch && (NodeList.length ch == 16) &&
            decide (2 ≤ usedL ch + (if (some value).isSome then 1 else 0)))
            from rfl,
          Bool.and_eq_true, Bool.and_eq_true]
        refine ⟨⟨hcl, hlen⟩, decide_eq_true ?_⟩
        rw [show (if (some value).isSome = true then (1 : Nat) else 0) = 1
          from rfl]
        by_cases hv : v.isSome = true
        · rw [if_pos hv] at hcnt'
          omega
        · rw [if_neg hv] at hcnt'
          omega
      · have hplen : 0 < p.length := List.length_pos.mpr (termSfx_ne_nil htp)
        have hs16 : Nibs.nth p 0 < 16 := termSfx_nth_lt htp hplen hp16
        have hp1 : 1 < p.length := by
          rcases Nat.lt_or_ge 1 p.length with h | h
          · exact h
          · exfalso
            have h1 : p.length = 1 := by omega
            have hl := termSfx_last htp
            rw [h1] at hl
            exact hp16 hl
        have hpd : termSfx (p.drop 1) = true := termSfx_drop_all htp hp1
        have hsz2 : nodeSize (NodeList.get ch (Nibs.nth p 0)) ≤ sz := by
          have := get_nodeSize_le ch (Nibs.nth p 0)
          rw [show nodeSize (Node.branch ch v) = listSize ch + 1 from rfl] at hsz
          omega
        have hcchild : canonN (insP (NodeList.get ch (Nibs.nth p 0))
            (p.drop 1) value) = true := by
          refine canon_insP sz _ _ _ hsz2 ?_ hpd
          rcases canonL_get ch hcl (Nibs.nth p 0) with h | h
          · exact Or.inl (isEmptyN_eq h)
          · exact Or.inr h
        rw [hstep, if_neg hp16, insL_set_get,
          show canonN (.branch (ch.set (Nibs.nth p 0)
            (insP (NodeList.get ch (Nibs.nth p 0)) (p.drop 1) value)) v) =
          (canonL (ch.set (Nibs.nth p 0)
            (insP (NodeList.get ch (Nibs.nth p 0)) (p.drop 1) value)) &&
          (NodeList.length (ch.set (Nibs.nth p 0)
            (insP (NodeList.get ch (Nibs.nth p 0)) (p.drop 1) value)) == 16) &&
          decide (2 ≤ usedL (ch.set (Nibs.nth p 0)
            (insP (NodeList.get ch (Nibs.nth p 0)) (p.drop 1) value)) +
            (if v.isSome then 1 else 0))) from rfl,
          Bool.and_eq_true, Bool.and_eq_true]
        refine ⟨⟨canonL_set _ hcl _ _ hcchild, ?_⟩, decide_eq_true ?_⟩
        · rw [set_length, hlen16]
          rfl
        · have := usedL_set_ge ch (Nibs.nth p 0) _ (canonN_ne_empty hcchild)
          omega
    | ext pre c =>
      have hce : canonN (Node.ext pre c) = true := by
        rcases hc with hc | hc
        · exact Node.noConfusion hc
        · exact hc
      rw [show canonN (.ext pre c) = (!pre.isEmpty && pre.all (fun x => x < 16) &&
        isBranch c && canonN c) from rfl,
        Bool.and_eq_true, Bool.and_eq_true, Bool.and_eq_true] at hce
      obtain ⟨⟨⟨hneB, hall⟩, hbr⟩, hcc⟩ := hce
      have hpne : pre ≠ [] := by
        intro hcx
        rw [hcx] at hneB
        exact Bool.noConfusion hneB
      have hstep : insP (Node.ext pre c) p value =
          (if Nibs.commonPre p pre = 0 then extIns pre c p value
           else if Nibs.commonPre p pre = pre.length then
             Node.fromExt pre (insP c (p.drop pre.length) value)
           else
             .ext (Nibs.slice pre 0 (Nibs.commonPre p pre))
               (extIns (Nibs.offset pre (Nibs.commonPre p pre)) c
                 (p.drop (Nibs.commonPre p pre)) value)) := rfl
      have hsz2 : nodeSize c ≤ sz := by
        rw [show nodeSize (Node.ext pre c) = nodeSize c + 1 from rfl] at hsz
        omega
      have hallP : ∀ x ∈ pre, x < 16 := fun x hx => by
        simpa using List.all_eq_true.mp hall x hx
      by_cases hm0 : Nibs.commonPre p pre = 0
      · rw [hstep, if_pos hm0]
        exact canon_extIns pre c p value hpne hall hbr hcc hm0 htp
      · by_cases hfull : Nibs.commonPre p pre = pre.length
        · have hppre : p.take pre.length = pre := commonPre_full p pre hfull
          have hLp : pre.length < p.length := by
            refine termSfx_take_lt_len htp ?_
            intro x hx
            rw [hppre] at hx
            exact hallP x hx
          have hpd : termSfx (p.drop pre.length) = true := termSfx_drop_all htp hLp
          have hcchild : canonN (insP c (p.drop pre.length) value) = true :=
            canon_insP sz c _ _ hsz2 (Or.inr hcc) hpd
          have hbrc : isBranch (insP c (p.drop pre.length) value) = true := by
            match c, hbr with
            | .branch chx vx, _ => exact insP_branch_isBranch chx vx _ _
          rw [hstep, if_neg hm0, if_pos hfull,
            show canonN (Node.fromExt pre (insP c (p.drop pre.length) value)) =
            (!pre.isEmpty && pre.all (fun x => x < 16) &&
              isBranch (insP c (p.drop pre.length) value) &&
              canonN (insP c (p.drop pre.length) value)) from rfl,
            Bool.and_eq_true, Bool.and_eq_true, Bool.and_eq_true]
          exact ⟨⟨⟨hneB, hall⟩, hbrc⟩, hcchild⟩
        · have hMpre : Nibs.commonPre p pre < pre.length :=
            Nat.lt_of_le_of_ne (commonPre_le_right p pre) hfull
          have hMp : Nibs.commonPre p pre < p.length := by
            refine termSfx_take_lt_len htp ?_
            intro x hx
            rw [commonPre_take p pre] at hx
            exact hallP x (List.mem_of_mem_take hx)
          have hpne2 : pre.drop (Nibs.commonPre p pre) ≠ [] := by
            intro hcx
            have := congrArg List.length hcx
            simp only [List.length_drop, List.length_nil] at this
            omega
          have hall2 : (pre.drop (Nibs.commonPre p pre)).all
              (fun x => x < 16) = true :=
            List.all_eq_true.mpr fun x hx =>
              List.all_eq_true.mp hall x (List.mem_of_mem_drop hx)
          have hm0x : Nibs.commonPre (p.drop (Nibs.commonPre p pre))
              (pre.drop (Nibs.commonPre p pre)) = 0 := by
            have hdec := commonPre_decompose (Nibs.commonPre p pre) p pre
              (commonPre_take p pre) (Nat.le_of_lt hMp) (Nat.le_of_lt hMpre)
            omega
          have htpd : termSfx (p.drop (Nibs.commonPre p pre)) = true :=
            termSfx_drop_all htp hMp
          rw [hstep, if_neg hm0, if_neg hfull,
            show Nibs.slice pre 0 (Nibs.commonPre p pre) =
              pre.take (Nibs.commonPre p pre) from rfl,
            show Nibs.offset pre (Nibs.commonPre p pre) =
              pre.drop (Nibs.commonPre p pre) from rfl,
            show canonN (Node.ext (pre.take (Nibs.commonPre p pre))
              (extIns (pre.drop (Nibs.commonPre p pre)) c
                (p.drop (Nibs.commonPre p pre)) value)) =
            (!(pre.take (Nibs.commonPre p pre)).isEmpty &&
              (pre.take (Nibs.commonPre p pre)).all (fun x => x < 16) &&
              isBranch (extIns (pre.drop (Nibs.commonPre p pre)) c
                (p.drop (Nibs.commonPre p pre)) value) &&
              canonN (extIns (pre.drop (Nibs.commonPre p pre)) c
                (p.drop (Nibs.commonPre p pre)) value)) from rfl,
            Bool.and_eq_true, Bool.and_eq_true, Bool.and_eq_true]
          refine ⟨⟨⟨take_not_isEmpty hm0 hpne, ?_⟩, extIns_isBranch _ _ _ _⟩,
            canon_extIns _ c _ value hpne2 hall2 hbr hcc hm0x htpd⟩
          exact List.all_eq_true.mpr fun x hx =>
            List.all_eq_true.mp hall x (List.mem_of_mem_take hx)

/-- On a clean (cache-consistent, no passing keys) trie with a hash-free well
formed root, `root_hash()` succeeds and returns the hash of the root's pure
encoding — a function of the root alone. -/
theorem rootHash_value (kec : Kec) (hk32 : ∀ x, (kec x).length = 32)
    (hinj : Function.Injective kec) (t : EthTrie)
    (hgood : goodN kec t.root = true) (hnh : ∀ h, t.root ≠ Node.hash h)
    (hcc : ∀ p ∈ t.cache, p.1 = kec p.2) (hpassI : t.passingKeys = []) :
    ∃ t4, rootHashOp kec t = some (.ok (t4, kec (pureEnc kec t.root))) := by
  obtain ⟨t1, heq, hdb, hpass, hmem, hcc1, hbig⟩ :=
    encodeRaw_main kec hinj t.root t hgood hnh hcc
  have hccC : ∀ p ∈ mapInsert t1.cache (kec (pureEnc kec t.root))
      (pureEnc kec t.root), p.1 = kec p.2 :=
    mapInsert_consistent kec t1.cache (pureEnc kec t.root) hcc1
  have hget : Db.get (Db.insertBatch t1.db (mapInsert t1.cache
      (kec (pureEnc kec t.root)) (pureEnc kec t.root))) (kec (pureEnc kec t.root)) =
      some (pureEnc kec t.root) :=
    dbGet_insertBatch_cache kec hinj t1.db _ hccC _ (mapInsert_self_mem _ _ _)
  have hdec : decodeNode (2 * (pureEnc kec t.root).length + 2) (pureEnc kec t.root) =
      some (.ok (storeView kec t.root)) :=
    (decode_pureEnc_main kec hk32 (2 * (pureEnc kec t.root).length + 2)).1 t.root
      hgood hnh (by have := needFuel_le_pureEnc kec t.root hnh; omega)
  by_cases h32 : (pureEnc kec t.root).length < 32
  · have hwn : writeNode kec t t.root = some (t1, .inline (pureEnc kec t.root)) := by
      rw [writeNode_nonhash kec t t.root hnh, heq]
      dsimp only
      rw [if_pos h32]
    rw [rootHashOp, commit, hwn]
    dsimp only
    rw [hpass, hpassI]
    dsimp only [List.filter_nil]
    rw [removeBatch_nil, recoverFromDb]
    dsimp only
    rw [hget]
    dsimp only
    rw [hdec]
    dsimp only
    exact ⟨_, rfl⟩
  · have hwn : writeNode kec t t.root =
        some ({ t1 with cache := mapInsert t1.cache (kec (pureEnc kec t.root)) (pureEnc kec t.root), genKeys := keyInsert t1.genKeys (kec (pureEnc kec t.root)) },
          .hashE (kec (pureEnc kec t.root))) := by
      rw [writeNode_nonhash kec t t.root hnh, heq]
      dsimp only
      rw [if_neg h32,
        show cachePut kec t1 (pureEnc kec t.root) =
          ({ t1 with cache := mapInsert t1.cache (kec (pureEnc kec t.root)) (pureEnc kec t.root), genKeys := keyInsert t1.genKeys (kec (pureEnc kec t.root)) },
           kec (pureEnc kec t.root)) from rfl]
    rw [rootHashOp, commit, hwn]
    dsimp only
    rw [hpass, hpassI]
    dsimp only [List.filter_nil]
    rw [removeBatch_nil, recoverFromDb]
    dsimp only
    rw [hget]
    dsimp only
    rw [hdec]
    dsimp only
    exact ⟨_, rfl⟩

/-- The tree built by pure structural insertion of a pair list, in order. -/
def foldTree (kvs : List (Bytes × Bytes)) : Node :=
  kvs.foldl (fun n kv => insP n (Nibs.fromRaw kv.1 true) kv.2) .empty

/-- The map a pair list denotes on nibble paths: the last binding wins. -/
def lookKvs : List (Bytes × Bytes) → Nibs → Option Bytes
  | [], _ => none
  | kv :: rest, q =>
    (lookKvs rest q).orElse
      (fun _ => if q = Nibs.fromRaw kv.1 true then some kv.2 else none)

theorem lookP_foldl : ∀ (kvs : List (Bytes × Bytes)) (n : Node),
    okN n = true → (n = .empty ∨ canonN n = true) →
    (∀ kv ∈ kvs, ∀ b ∈ kv.1, b < 256) → ∀ q, termSfx q = true →
    lookP (kvs.foldl (fun nn kv => insP nn (Nibs.fromRaw kv.1 true) kv.2) n) q =
      (lookKvs kvs q).orElse (fun _ => lookP n q)
  | [], n => by
    intro _ _ _ q _
    rw [List.foldl_nil, show lookKvs [] q = none from rfl]
    rfl
  | kv :: rest, n => by
    intro hok hcan hbytes q htq
    have hts : termSfx (Nibs.fromRaw kv.1 true) = true :=
      fromRaw_termSfx (hbytes kv (List.mem_cons_self kv rest))
    have hcan2 : canonN (insP n (Nibs.fromRaw kv.1 true) kv.2) = true :=
      canon_insP (nodeSize n) n _ _ (le_refl _) hcan hts
    rw [List.foldl_cons,
      lookP_foldl rest (insP n (Nibs.fromRaw kv.1 true) kv.2)
        (canon_okN _ hcan2) (Or.inr hcan2)
        (fun kv2 h2 => hbytes kv2 (List.mem_cons_of_mem kv h2)) q htq,
      show lookKvs (kv :: rest) q =
        ((lookKvs rest q).orElse
          (fun _ => if q = Nibs.fromRaw kv.1 true then some kv.2 else none))
        from rfl]
    cases lookKvs rest q with
    | some v => rfl
    | none =>
      rw [show (Option.orElse none (fun _ =>
          if q = Nibs.fromRaw kv.1 true then some kv.2 else none) : Option Bytes) =
        (if q = Nibs.fromRaw kv.1 true then some kv.2 else none) from rfl,
        show (Option.orElse none
          (fun _ => lookP (insP n (Nibs.fromRaw kv.1 true) kv.2) q) : Option Bytes) =
          lookP (insP n (Nibs.fromRaw kv.1 true) kv.2) q from rfl,
        lookP_insP_sz (nodeSize n) n (Nibs.fromRaw kv.1 true) kv.2 (le_refl _)
        hok hts q htq]
      by_cases hq : q = Nibs.fromRaw kv.1 true
      · rw [if_pos hq, if_pos hq]
        rfl
      · rw [if_neg hq, if_neg hq]
        rfl
  termination_by kvs => kvs.length

theorem foldl_canon : ∀ (kvs : List (Bytes × Bytes)) (n : Node),
    (n = .empty ∨ canonN n = true) →
    (∀ kv ∈ kvs, ∀ b ∈ kv.1, b < 256) → kvs ≠ [] →
    canonN (kvs.foldl (fun nn kv => insP nn (Nibs.fromRaw kv.1 true) kv.2) n) = true
  | [], n => by
    intro _ _ hne
    exact absurd rfl hne
  | kv :: rest, n => by
    intro hcan hbytes _
    have hts : termSfx (Nibs.fromRaw kv.1 true) = true :=
      fromRaw_termSfx (hbytes kv (List.mem_cons_self kv rest))
    have hcan2 : canonN (insP n (Nibs.fromRaw kv.1 true) kv.2) = true :=
      canon_insP (nodeSize n) n _ _ (le_refl _) hcan hts
    rw [List.foldl_cons]
    cases rest with
    | nil =>
      rw [List.foldl_nil]
      exact hcan2
    | cons kv2 rest2 =>
      exact foldl_canon (kv2 :: rest2) _ (Or.inr hcan2)
        (fun kv3 h3 => hbytes kv3 (List.mem_cons_of_mem kv h3))
        (by intro hc; exact List.noConfusion hc)

/-- A successful `insert` chain computes the pure structural fold on the root
and leaves every other component of the trie state untouched. -/
theorem insertList_foldP : ∀ (kvs : List (Bytes × Bytes)) (t : EthTrie) (f : Nat)
    (t' : EthTrie), okN t.root = true → (t.root = .empty ∨ canonN t.root = true) →
    (∀ kv ∈ kvs, (∀ b ∈ kv.1, b < 256) ∧ kv.2 ≠ []) →
    insertList t kvs f = some t' →
    t' = { t with
      root := kvs.foldl (fun n kv => insP n (Nibs.fromRaw kv.1 true) kv.2) t.root }
  | [], t, f, t' => by
    intro _ _ _ hins
    have ht : t = t' := Option.some.inj hins
    rw [← ht, List.foldl_nil]
  | (k, v) :: rest, t, f, t' => by
    intro hok hcan hgoodkv hins
    obtain ⟨hb, hv⟩ := hgoodkv (k, v) (List.mem_cons_self _ rest)
    have hts : termSfx (Nibs.fromRaw k true) = true := fromRaw_termSfx hb
    rw [show insertList t ((k, v) :: rest) f =
      (match insertOp t k v f with
       | some (t1, .ok _) => insertList t1 rest f
       | _ => none) from rfl] at hins
    rw [insertOp, if_neg hv] at hins
    cases hrec : insertAt f t t.root (Nibs.fromRaw k true) 0 v with
    | none =>
      rw [hrec] at hins
      exact Option.noConfusion hins
    | some pr =>
      obtain ⟨ta, res⟩ := pr
      cases res with
      | error e =>
        rw [hrec] at hins
        exact Option.noConfusion hins
      | ok nroot =>
        rw [hrec] at hins
        dsimp only at hins
        obtain ⟨hta, hoknroot, _⟩ := insertAt_walk (fun _ => ([] : Bytes)) t.db f t t.root
          (Nibs.fromRaw k true) 0 v ta nroot hok hts hrec
        have hnroot : nroot = insP t.root (Nibs.fromRaw k true) v :=
          insertAt_insP f t t.root (Nibs.fromRaw k true) 0 v ta nroot hok hts hrec
        subst hta
        have hcan2 : canonN (insP ta.root (Nibs.fromRaw k true) v) = true :=
          canon_insP (nodeSize ta.root) ta.root _ _ (le_refl _) hcan hts
        have hr := insertList_foldP rest { ta with root := nroot } f t'
          (by rw [show ({ ta with root := nroot } : EthTrie).root = nroot from rfl,
            hnroot]; exact canon_okN _ hcan2)
          (by rw [show ({ ta with root := nroot } : EthTrie).root = nroot from rfl,
            hnroot]; exact Or.inr hcan2)
          (fun kv2 h2 => hgoodkv kv2 (List.mem_cons_of_mem _ h2)) hins
        rw [hr, List.foldl_cons,
          show ({ ta with root := nroot } : EthTrie).root = nroot from rfl, hnroot]

/-- With pairwise-distinct byte keys, the last-write map of a pair list is
order independent. -/
theorem lookKvs_perm : ∀ {kvs1 kvs2 : List (Bytes × Bytes)},
    List.Perm kvs1 kvs2 → (kvs1.map Prod.fst).Nodup →
    (∀ kv ∈ kvs1, ∀ b ∈ kv.1, b < 256) →
    ∀ q, lookKvs kvs1 q = lookKvs kvs2 q := by
  intro kvs1 kvs2 hperm
  induction hperm with
  | nil =>
    intro _ _ q
    rfl
  | cons x hp ih =>
    intro hnd hb q
    rw [List.map_cons, List.nodup_cons] at hnd
    rw [show lookKvs (x :: _) q = ((lookKvs _ q).orElse
        (fun _ => if q = Nibs.fromRaw x.1 true then some x.2 else none)) from rfl,
      show lookKvs (x :: _) q = ((lookKvs _ q).orElse
        (fun _ => if q = Nibs.fromRaw x.1 true then some x.2 else none)) from rfl,
      ih hnd.2 (fun kv h => hb kv (List.mem_cons_of_mem x h)) q]
  | swap x y l =>
    intro hnd hb q
    rw [List.map_cons, List.map_cons, List.nodup_cons] at hnd
    have hxy : y.1 ≠ x.1 := by
      intro hc
      exact hnd.1 (by rw [hc]; exact List.mem_cons_self _ _)
    have hbx : ∀ b ∈ x.1, b < 256 :=
      hb x (List.mem_cons_of_mem y (List.mem_cons_self x l))
    have hby : ∀ b ∈ y.1, b < 256 := hb y (List.mem_cons_self y (x :: l))
    rw [show lookKvs (y :: x :: l) q = (((lookKvs l q).orElse
        (fun _ => if q = Nibs.fromRaw x.1 true then some x.2 else none)).orElse
        (fun _ => if q = Nibs.fromRaw y.1 true then some y.2 else none)) from rfl,
      show lookKvs (x :: y :: l) q = (((lookKvs l q).orElse
        (fun _ => if q = Nibs.fromRaw y.1 true then some y.2 else none)).orElse
        (fun _ => if q = Nibs.fromRaw x.1 true then some x.2 else none)) from rfl]
    cases lookKvs l q with
    | some v => rfl
    | none =>
      rw [show (Option.orElse none (fun _ =>
          if q = Nibs.fromRaw x.1 true then some x.2 else none) : Option Bytes) =
        (if q = Nibs.fromRaw x.1 true then some x.2 else none) from rfl,
        show (Option.orElse none (fun _ =>
          if q = Nibs.fromRaw y.1 true then some y.2 else none) : Option Bytes) =
        (if q = Nibs.fromRaw y.1 true then some y.2 else none) from rfl]
      by_cases hqx : q = Nibs.fromRaw x.1 true
      · by_cases hqy : q = Nibs.fromRaw y.1 true
        · exfalso
          refine hxy (fromRaw_inj y.1 x.1 hby hbx ?_)
          rw [← hqx, hqy]
        · rw [if_pos hqx, if_neg hqy]
          rfl
      · by_cases hqy : q = Nibs.fromRaw y.1 true
        · rw [if_pos hqy, if_neg hqx]
          rfl
        · rw [if_neg hqx, if_neg hqy]
  | trans hp1 hp2 ih1 ih2 =>
    intro hnd hb q
    rw [ih1 hnd hb q,
      ih2 ((hp1.map Prod.fst).nodup_iff.mp hnd)
        (fun kv h => hb kv (hp1.mem_iff.mpr h)) q]

/-- C1 (amended): for a finite collection of pairs with PAIRWISE-DISTINCT
byte keys and nonempty values, two tries built over the same backing store by
a successful `insert` of exactly those pairs in any two orders are identical
trie states, so `root_hash()` computes identical results on them — in
particular the same root hash.  No storage-normality is assumed: the
identity holds for every nonempty value, including lone bytes ≥ 0x80.
(The unamended claim — for arbitrary pair multisets — is refuted by
`claim_C1_counterexample`: duplicate keys make the result order dependent.
An empty value routes `insert` to `remove`, a different operation, hence the
nonempty-value proviso.) -/
theorem claim_C1_insert_order_independent (kec : Kec)
    (kvs1 kvs2 : List (Bytes × Bytes)) (hperm : List.Perm kvs1 kvs2)
    (hkeys : (kvs1.map Prod.fst).Nodup)
    (hbytes : ∀ kv ∈ kvs1, ∀ b ∈ kv.1, b < 256)
    (hvals : ∀ kv ∈ kvs1, kv.2 ≠ [])
    (db : Db) (f1 f2 : Nat) (t1 t2 : EthTrie)
    (h1 : insertList (newTrie kec db) kvs1 f1 = some t1)
    (h2 : insertList (newTrie kec db) kvs2 f2 = some t2) :
    t1 = t2 ∧ rootHashOp kec t1 = rootHashOp kec t2 := by
  have hbytes2 : ∀ kv ∈ kvs2, ∀ b ∈ kv.1, b < 256 :=
    fun kv h => hbytes kv (hperm.mem_iff.mpr h)
  have hkv1 : ∀ kv ∈ kvs1, (∀ b ∈ kv.1, b < 256) ∧ kv.2 ≠ [] :=
    fun kv h => ⟨hbytes kv h, hvals kv h⟩
  have hkv2 : ∀ kv ∈ kvs2, (∀ b ∈ kv.1, b < 256) ∧ kv.2 ≠ [] :=
    fun kv h => ⟨hbytes2 kv h, hvals kv (hperm.mem_iff.mpr h)⟩
  have ht1 : t1 = { newTrie kec db with root := foldTree kvs1 } :=
    insertList_foldP kvs1 (newTrie kec db) f1 t1 rfl (Or.inl rfl) hkv1 h1
  have ht2 : t2 = { newTrie kec db with root := foldTree kvs2 } :=
    insertList_foldP kvs2 (newTrie kec db) f2 t2 rfl (Or.inl rfl) hkv2 h2
  have hroots : foldTree kvs1 = foldTree kvs2 := by
    by_cases hnil : kvs1 = []
    · have hnil2 : kvs2 = [] := List.perm_nil.mp (by rw [← hnil]; exact hperm.symm)
      rw [hnil, hnil2]
    · have hnil2 : kvs2 ≠ [] := by
        intro hc
        rw [hc] at hperm
        exact hnil (List.perm_nil.mp hperm)
      have hcan1 : canonN (foldTree kvs1) = true :=
        foldl_canon kvs1 .empty (Or.inl rfl) hbytes hnil
      have hcan2 : canonN (foldTree kvs2) = true :=
        foldl_canon kvs2 .empty (Or.inl rfl) hbytes2 hnil2
      have hlooks : ∀ q, termSfx q = true →
          lookP (foldTree kvs1) q = lookP (foldTree kvs2) q := by
        intro q htq
        rw [show foldTree kvs1 = kvs1.foldl
            (fun nn kv => insP nn (Nibs.fromRaw kv.1 true) kv.2) .empty from rfl,
          show foldTree kvs2 = kvs2.foldl
            (fun nn kv => insP nn (Nibs.fromRaw kv.1 true) kv.2) .empty from rfl,
          lookP_foldl kvs1 .empty rfl (Or.inl rfl) hbytes q htq,
          lookP_foldl kvs2 .empty rfl (Or.inl rfl) hbytes2 q htq,
          lookKvs_perm hperm hkeys hbytes q]
      exact canon_unique (nodeSize (foldTree kvs1)) (foldTree kvs1)
        (foldTree kvs2) (le_refl _) hcan1 hcan2 hlooks
  have heq : t1 = t2 := by
    rw [ht1, ht2, hroots]
  exact ⟨heq, by rw [heq]⟩

def c1W : EthTrie :=
  { root := foldTree [([97], [5]), ([98], [6])], rootHash := specKec [0x80],
    db := [], cache := [], passingKeys := [], genKeys := [] }

theorem claim_C1_insert_order_independent_witness :
    c1W = c1W ∧ rootHashOp specKec c1W = rootHashOp specKec c1W :=
  claim_C1_insert_order_independent specKec
    [([97], [5]), ([98], [6])] [([98], [6]), ([97], [5])] (by decide) (by decide)
    (by decide) (by decide) [] 5 5 c1W c1W rfl rfl

end EthTrieM
